import Mathlib

/-!
UnorderedMap over an intrusive list: model and verification.

Shallow embedding of `src/UnorderedMap/list_for_map.h` (class `List`) and
`src/UnorderedMap/unordered_map.h` (class `UnorderedMap`).

Representation.

* A heap node is a record `Node` carrying its address `addr` (its identity), the
  payload `(key, value)` and the cached `hash`.
* The circular chain of a `List` object is the sequence of its nodes read from
  `_ptr` forward to the sentinel `_fake_node`; the sentinel itself is not stored.
  All primitives of `List` used by the table keep `_ptr == _fake_node.next`, so
  `begin()` is the head of the sequence.
* A cursor (`iterator`) is `some addr` for a heap node and `none` for `end()`.
  A bucket entry (`ListNode*`) is `some addr` or `none` for `nullptr`.
* `size_t` values (sizes, bucket counts, hash codes) are natural numbers; every
  such value is bounded by the number of live nodes or the length of the bucket
  array, so no wrap-around is modelled.
* `_max_load_factor` (a `float`) is an exact non-negative rational `num / den`;
  comparisons with it are cross-multiplied.
* The address of a freshly allocated node is an argument of `emplace`: it is what
  the allocator returned.
* The operations of `List` are also modelled on the links themselves (`Ptr`, `Mem`,
  `ListObj`): a memory of `next` and `prev` pointers with the sentinels in it. The
  properties of `emplace`, `erase`, `splice`, move and copy assignment are proved there.
-/

namespace UMap

/-- Heap node `List::Node`: address, payload pair and cached hash code. -/
structure Node (K V : Type) where
  addr : Nat
  key : K
  value : V
  hash : Nat
deriving DecidableEq

/-- Iterator of the list: `some a` is the node at address `a`, `none` is `end()`. -/
abbrev Cursor := Option Nat

/-- The nodes met from cursor `pos` (inclusive) up to the sentinel. -/
def chainFrom {K V : Type} (pos : Cursor) (xs : List (Node K V)) : List (Node K V) :=
  match pos with
  | none => []
  | some p => xs.dropWhile (fun n => n.addr != p)

/-- The nodes strictly before cursor `pos`, from the head of the chain. -/
def chainBefore {K V : Type} (pos : Cursor) (xs : List (Node K V)) : List (Node K V) :=
  match pos with
  | none => xs
  | some p => xs.takeWhile (fun n => n.addr != p)

/-- Link `pos->prev` read as a cursor (`none` when the predecessor is the sentinel). -/
def prevOf {K V : Type} (pos : Cursor) (xs : List (Node K V)) : Cursor :=
  (chainBefore pos xs).getLast?.map Node.addr

/-- Link `p->next` read as a node (`none` when the successor is the sentinel). -/
def nextOf {K V : Type} (p : Nat) (xs : List (Node K V)) : Option (Node K V) :=
  (chainFrom (some p) xs).tail.head?

/-- Class `List<T, Allocator>` of `list_for_map.h`: the chain and the `_size` field. -/
structure LinkedList (K V : Type) where
  nodes : List (Node K V)
  _size : Nat

namespace LinkedList

variable {K V : Type}

/-- Default-constructed list. -/
def empty : LinkedList K V := ⟨[], 0⟩

/-- Member `begin()` (the node `_ptr`). -/
def begin (l : LinkedList K V) : Cursor := l.nodes.head?.map Node.addr

/-- Member `emplace(it, hash, args...)`: the new node at address `a` is linked before `it`. -/
def emplace (l : LinkedList K V) (it : Cursor) (a : Nat) (hash : Nat) (key : K) (value : V) :
    LinkedList K V × Cursor :=
  (⟨chainBefore it l.nodes ++ ⟨a, key, value, hash⟩ :: chainFrom it l.nodes, l._size + 1⟩, some a)

/-- Member `emplace_front(hash, args...)`. -/
def emplace_front (l : LinkedList K V) (a : Nat) (hash : Nat) (key : K) (value : V) :
    LinkedList K V :=
  (l.emplace l.begin a hash key value).1

/-- Assignment `node->hash = hash` on the node at address `a`. -/
def setHash (l : LinkedList K V) (a : Nat) (hash : Nat) : LinkedList K V :=
  ⟨l.nodes.map (fun n => if n.addr = a then ⟨n.addr, n.key, n.value, hash⟩ else n), l._size⟩

/-- Member `erase(it)`: unlinks and frees the node at `it`, returns its successor. -/
def erase (l : LinkedList K V) (it : Nat) : LinkedList K V × Cursor :=
  (⟨l.nodes.eraseP (fun n => n.addr == it), l._size - 1⟩, (nextOf it l.nodes).map Node.addr)

/-- Member `splice(pos, other)`: the result is `(this, other)`. -/
def splice (l : LinkedList K V) (pos : Cursor) (other : LinkedList K V) :
    LinkedList K V × LinkedList K V :=
  if other._size = 0 then (l, other)
  else (⟨chainBefore pos l.nodes ++ other.nodes ++ chainFrom pos l.nodes, l._size + other._size⟩,
        ⟨[], 0⟩)

/-- Member `splice(pos, other, it)`: the result is `(this, other)`. The cursor `it` has to
reference a node of `other`. -/
def spliceNode (l : LinkedList K V) (pos : Cursor) (other : LinkedList K V) (it : Nat) :
    LinkedList K V × LinkedList K V :=
  if other._size = 0 then (l, other)
  else
    match other.nodes.find? (fun n => n.addr == it) with
    | none => (l, other)
    | some grabbed =>
      (⟨chainBefore pos l.nodes ++ grabbed :: chainFrom pos l.nodes, l._size + 1⟩,
       ⟨other.nodes.eraseP (fun n => n.addr == it), other._size - 1⟩)

end LinkedList

/-- The `float` field `_max_load_factor` as the exact rational `num / den`. -/
structure LoadFactor where
  num : Nat
  den : Nat
deriving DecidableEq

/-- Class `UnorderedMap`: `_list`, `_array` (bucket entries), `_size`, `_max_load_factor`. -/
structure UnorderedMap (K V : Type) where
  _list : LinkedList K V
  _array : List (Option Nat)
  _size : Nat
  _max_load_factor : LoadFactor

/-- Outcome of the run walk of `emplace`. -/
inductive Walk where
  | found (it : Nat)
  | before (it : Nat)
  | atEnd
deriving DecidableEq

/-- Working state of the loop of `rehash`: what is left of `_list`, `new_list`, `new_array`. -/
structure RehashState (K V : Type) where
  old_list : LinkedList K V
  new_list : LinkedList K V
  new_array : List (Option Nat)

/-- Copy constructor `List(const List& other)`: the i-th node is copied (payload and cached
hash) into a new node at address `addrs[i]`, in the same order. -/
def LinkedList.copy {K V : Type} (other : LinkedList K V) (addrs : List Nat) :
    LinkedList K V :=
  ⟨List.zipWith (fun n a => (⟨a, n.key, n.value, n.hash⟩ : Node K V)) other.nodes addrs,
    other._size⟩

/-- Working state of the loop of the copy constructor: `_array`, `prev_hash_index` and
whether the iterator is still at `begin()`. -/
structure CopyState where
  array : List (Option Nat)
  prev_hash_index : Nat
  first : Bool

namespace UnorderedMap

variable {K V : Type}

/-- Default constructor: empty list, one empty bucket, max load factor `1.0`. -/
def new : UnorderedMap K V := ⟨LinkedList.empty, [none], 0, ⟨1, 1⟩⟩

/-- Member `size()`. -/
def size (t : UnorderedMap K V) : Nat := t._size

/-- Member `bucket_count()`. -/
def bucket_count (t : UnorderedMap K V) : Nat := t._array.length

/-- Member `begin()`. -/
def begin (t : UnorderedMap K V) : Cursor := t._list.begin

/-- Setter `max_load_factor(mlf)`. -/
def set_max_load_factor (t : UnorderedMap K V) (mlf : LoadFactor) : UnorderedMap K V :=
  { t with _max_load_factor := mlf }

/-- Loop of `_find` over the chain that starts at the bucket entry. -/
def findWalk (equal : K → K → Bool) (bc hash_index : Nat) (key : K) :
    List (Node K V) → Cursor
  | [] => none
  | node :: rest =>
    if equal node.key key then some node.addr
    else if node.hash % bc ≠ hash_index then none
    else findWalk equal bc hash_index key rest

/-- Member `_find(key)` (and so `find(key)`). -/
def _find (hash : K → Nat) (equal : K → K → Bool) (t : UnorderedMap K V) (key : K) : Cursor :=
  let hash_index := hash key % t._array.length
  match t._array.getD hash_index none with
  | none => none
  | some p => findWalk equal t._array.length hash_index key (chainFrom (some p) t._list.nodes)

/-- Inner loop of `rehash`: the first node whose reduced hash differs, or `end()`. -/
def rehashWalk (bc idx : Nat) : List (Node K V) → Cursor
  | [] => none
  | node :: rest => if node.hash % bc ≠ idx then some node.addr else rehashWalk bc idx rest

/-- One iteration of the outer loop of `rehash`, for the node `cur` of the old list. -/
def rehashStep (s : RehashState K V) (cur : Node K V) : RehashState K V :=
  let new_hash_index := cur.hash % s.new_array.length
  match s.new_array.getD new_hash_index none with
  | none =>
    let r := s.new_list.spliceNode none s.old_list cur.addr
    ⟨r.2, r.1, s.new_array.set new_hash_index (prevOf none r.1.nodes)⟩
  | some p =>
    match rehashWalk s.new_array.length new_hash_index (chainFrom (some p) s.new_list.nodes) with
    | some it =>
      let r := s.new_list.spliceNode (some it) s.old_list cur.addr
      ⟨r.2, r.1, s.new_array.set new_hash_index (prevOf (some it) r.1.nodes)⟩
    | none =>
      let r := s.new_list.spliceNode none s.old_list cur.addr
      ⟨r.2, r.1, s.new_array.set new_hash_index (prevOf none r.1.nodes)⟩

/-- The clamp at the head of `rehash`: `max(bucket_count, ceil(_size / _max_load_factor))`. -/
def rehashCount (t : UnorderedMap K V) (bucket_count : Nat) : Nat :=
  if bucket_count * t._max_load_factor.num < t._size * t._max_load_factor.den then
    (t._size * t._max_load_factor.den + t._max_load_factor.num - 1) / t._max_load_factor.num
  else bucket_count

/-- Member `rehash(bucket_count)`. -/
def rehash (t : UnorderedMap K V) (bucket_count : Nat) : UnorderedMap K V :=
  let s := t._list.nodes.foldl rehashStep
    ⟨t._list, LinkedList.empty, List.replicate (rehashCount t bucket_count) none⟩
  { t with _array := s.new_array, _list := s.new_list }

/-- Loop of `emplace` over the chain that starts at the bucket entry. -/
def emplaceWalk (equal : K → K → Bool) (bc hash_index : Nat) (key : K) :
    List (Node K V) → Walk
  | [] => Walk.atEnd
  | node :: rest =>
    if equal node.key key then Walk.found node.addr
    else if node.hash % bc ≠ hash_index then Walk.before node.addr
    else emplaceWalk equal bc hash_index key rest

/-- The test `_size + 1 > _max_load_factor * _array.size()` of `emplace`. -/
def needsRehash (t : UnorderedMap K V) : Bool :=
  decide (t._max_load_factor.num * t._array.length < (t._size + 1) * t._max_load_factor.den)

/-- Body of `emplace` after the load check (lines 354-388). -/
def emplaceCore (hash : K → Nat) (equal : K → K → Bool) (t : UnorderedMap K V)
    (a : Nat) (key : K) (value : V) : UnorderedMap K V × Cursor × Bool :=
  let temp_list := (LinkedList.empty.emplace_front a 0 key value).setHash a (hash key)
  let hash_index := hash key % t._array.length
  match t._array.getD hash_index none with
  | none =>
    let l := (t._list.splice t._list.begin temp_list).1
    ({ t with _list := l, _array := t._array.set hash_index l.begin, _size := t._size + 1 },
      l.begin, true)
  | some p =>
    match emplaceWalk equal t._array.length hash_index key
        (chainFrom (some p) t._list.nodes) with
    | Walk.found it => (t, some it, false)
    | Walk.before it =>
      let l := (t._list.splice (some it) temp_list).1
      ({ t with _list := l, _size := t._size + 1 }, prevOf (some it) l.nodes, true)
    | Walk.atEnd =>
      let l := (t._list.splice none temp_list).1
      ({ t with _list := l, _size := t._size + 1 }, prevOf none l.nodes, true)

/-- Member `emplace(args...)` (and so `insert`); `a` is the address of the candidate node. -/
def emplace (hash : K → Nat) (equal : K → K → Bool) (t : UnorderedMap K V)
    (a : Nat) (key : K) (value : V) : UnorderedMap K V × Cursor × Bool :=
  emplaceCore hash equal (if needsRehash t then t.rehash (2 * t._array.length) else t)
    a key value

/-- Member `erase(pos)` for a cursor `pos` that references a live node. -/
def erase (t : UnorderedMap K V) (pos : Nat) : UnorderedMap K V × Cursor :=
  match t._list.nodes.find? (fun n => n.addr == pos) with
  | none => (t, none)
  | some x =>
    let hash_index := x.hash % t._array.length
    let next := nextOf pos t._list.nodes
    let r := t._list.erase pos
    let runEnds : Bool :=
      match next with
      | none => true
      | some y => decide (y.hash % t._array.length ≠ hash_index)
    if t._array.getD hash_index none = some pos ∧ runEnds = true then
      ({ t with _array := t._array.set hash_index none, _size := t._size - 1, _list := r.1 }, r.2)
    else if t._array.getD hash_index none = some pos then
      ({ t with _array := t._array.set hash_index (next.map Node.addr), _size := t._size - 1,
                _list := r.1 }, r.2)
    else ({ t with _size := t._size - 1, _list := r.1 }, r.2)

/-- Member `reserve(count)`: `rehash(ceil(count / _max_load_factor))`. -/
def reserve (t : UnorderedMap K V) (count : Nat) : UnorderedMap K V :=
  t.rehash ((count * t._max_load_factor.den + t._max_load_factor.num - 1) /
    t._max_load_factor.num)

/-- Loop of `_elem_by_index` over the chain that starts at the bucket entry: the node whose
value is returned, or `none` when the loop leaves for `emplace`. -/
def elemWalk (equal : K → K → Bool) (bc hash_index : Nat) (key : K) :
    List (Node K V) → Option Nat
  | [] => none
  | node :: rest =>
    if equal node.key key then some node.addr
    else if node.hash % bc ≠ hash_index then none
    else elemWalk equal bc hash_index key rest

/-- Member `_elem_by_index(key)` for a default-constructible `Value` whose default is `dflt`.
The reference it returns is given as the cursor of the node that owns the value; `a` is the
address of the node a call of `emplace` would allocate. -/
def _elem_by_index (hash : K → Nat) (equal : K → K → Bool) (dflt : V) (t : UnorderedMap K V)
    (a : Nat) (key : K) : UnorderedMap K V × Cursor :=
  let hash_index := hash key % t._array.length
  match t._array.getD hash_index none with
  | none =>
    let r := emplace hash equal t a key dflt
    (r.1, r.2.1)
  | some p =>
    match elemWalk equal t._array.length hash_index key (chainFrom (some p) t._list.nodes) with
    | some it => (t, some it)
    | none =>
      let r := emplace hash equal t a key dflt
      (r.1, r.2.1)

/-- Member `operator[](key)`. -/
def index (hash : K → Nat) (equal : K → K → Bool) (dflt : V) (t : UnorderedMap K V)
    (a : Nat) (key : K) : UnorderedMap K V × Cursor :=
  _elem_by_index hash equal dflt t a key

/-- Mutable member `at(key)`: `none` stands for the thrown `std::out_of_range`. -/
def at_key (hash : K → Nat) (equal : K → K → Bool) (dflt : V) (t : UnorderedMap K V)
    (a : Nat) (key : K) : Option (UnorderedMap K V × Cursor) :=
  if _find hash equal t key = none then none
  else some (index hash equal dflt t a key)

/-- Loop of the const `at`: the first node from the bucket entry whose key equals `key`. -/
def constScan (equal : K → K → Bool) (key : K) : List (Node K V) → Option Nat
  | [] => none
  | node :: rest => if equal node.key key then some node.addr else constScan equal key rest

/-- Const member `at(key)`: `none` stands for the thrown `std::out_of_range`, otherwise the
node that owns the returned value (the bucket entry itself on the fall-through return). -/
def at_const (hash : K → Nat) (equal : K → K → Bool) (t : UnorderedMap K V) (key : K) :
    Option Cursor :=
  if _find hash equal t key = none then none
  else
    let hash_index := hash key % t._array.length
    match constScan equal key
        (chainFrom (t._array.getD hash_index none) t._list.nodes) with
    | some it => some (some it)
    | none => some (t._array.getD hash_index none)

/-- One iteration of the loop of the copy constructor over the copied list. -/
def copyStep (s : CopyState) (node : Node K V) : CopyState :=
  let hash_index := node.hash % s.array.length
  ⟨if s.first = true ∨ hash_index ≠ s.prev_hash_index then
      s.array.set hash_index (some node.addr)
    else s.array,
   hash_index, false⟩

/-- Copy constructor `UnorderedMap(const UnorderedMap& other)`; `addrs` are the addresses of
the nodes allocated for the copies, in list order. -/
def copy (other : UnorderedMap K V) (addrs : List Nat) : UnorderedMap K V :=
  let l := other._list.copy addrs
  ⟨l, (l.nodes.foldl copyStep ⟨other._array, 0, true⟩).array, other._size,
    other._max_load_factor⟩

/-- Successive `erase(cursor)` calls on the nodes at the addresses `order`. -/
def eraseAll (t : UnorderedMap K V) (order : List Nat) : UnorderedMap K V :=
  order.foldl (fun s pos => (erase s pos).1) t

/-- Successive `insert` calls; the candidate node of the i-th call sits at address `a + i`.
The result is the final table and the flags the calls reported. -/
def insertMany (hash : K → Nat) (equal : K → K → Bool) (t : UnorderedMap K V) (a : Nat) :
    List (K × V) → UnorderedMap K V × List Bool
  | [] => (t, [])
  | kv :: rest =>
    let r := emplace hash equal t a kv.1 kv.2
    let s := insertMany hash equal r.1 (a + 1) rest
    (s.1, r.2.2 :: s.2)

end UnorderedMap

/-! ## Predicates on table states -/

section Predicates

variable {K V : Type}

/-- The allocator hands out `a` only if no live node of the table sits at that address. -/
def Fresh (t : UnorderedMap K V) (a : Nat) : Prop := ∀ n ∈ t._list.nodes, n.addr ≠ a

/-- The cursor `pos` references a node that is in the list of the table. -/
def Live (t : UnorderedMap K V) (pos : Nat) : Prop := ∃ n ∈ t._list.nodes, n.addr = pos

/-- Well-formed list object: distinct node addresses and `_size` equal to the chain length. -/
structure ListWF (l : LinkedList K V) : Prop where
  nodup : (l.nodes.map Node.addr).Nodup
  lsize : l._size = l.nodes.length

/-- Every non-null entry of the bucket array `arr` references a node of `nodes` whose hash
reduced modulo the length of `arr` is the index of the entry. -/
def EntriesLive (nodes : List (Node K V)) (arr : List (Option Nat)) : Prop :=
  ∀ i p, arr.getD i none = some p → ∃ n ∈ nodes, n.addr = p ∧ n.hash % arr.length = i

/-- Representation invariant of the table: well-formed list, `_size` in step with the list,
at least one bucket, a positive max load factor, and every non-null bucket entry references
a live node whose reduced hash is the index of the entry. -/
structure WF (t : UnorderedMap K V) : Prop where
  list : ListWF t._list
  tsize : t._size = t._list.nodes.length
  bpos : 1 ≤ t._array.length
  mnum : 0 < t._max_load_factor.num
  mden : 0 < t._max_load_factor.den
  entries : EntriesLive t._list.nodes t._array

/-- Size bookkeeping: well-formed list and the table's `_size` equal to the chain length. -/
structure SizeInv (t : UnorderedMap K V) : Prop where
  list : ListWF t._list
  tsize : t._size = t._list.nodes.length

/-- Every node caches the hash code of its own key. -/
def HashCached (hash : K → Nat) (t : UnorderedMap K V) : Prop :=
  ∀ n ∈ t._list.nodes, n.hash = hash n.key

/-- The equality predicate `_equal_to` is an equivalence on keys. -/
structure IsEquivalence (equal : K → K → Bool) : Prop where
  refl : ∀ a, equal a a = true
  symm : ∀ a b, equal a b = true → equal b a = true
  trans : ∀ a b c, equal a b = true → equal b c = true → equal a c = true

/-- The hash function `_hash` gives equal keys equal hash codes. -/
def HashRespects (hash : K → Nat) (equal : K → K → Bool) : Prop :=
  ∀ a b, equal a b = true → hash a = hash b

/-- Bucket-head and contiguity invariant: entry `i` is the address of the first node in list
order whose reduced hash is `i` (null when there is none), and past the block of nodes with
reduced hash `i` that starts there no further node has reduced hash `i`. -/
def BucketInv (t : UnorderedMap K V) : Prop :=
  ∀ i, i < t._array.length →
    t._array.getD i none =
        (t._list.nodes.find? (fun n => n.hash % t._array.length == i)).map Node.addr ∧
    ∀ n ∈ (t._list.nodes.dropWhile (fun n => n.hash % t._array.length != i)).dropWhile
        (fun n => n.hash % t._array.length == i), n.hash % t._array.length ≠ i

/-- Key uniqueness: no two nodes of the list hold keys that compare equal. -/
def KeysUnique (equal : K → K → Bool) (t : UnorderedMap K V) : Prop :=
  t._list.nodes.Pairwise (fun x y => equal x.key y.key = false)

instance (t : UnorderedMap K V) : Decidable (BucketInv t) :=
  inferInstanceAs (Decidable (∀ i, i < t._array.length →
    t._array.getD i none =
        (t._list.nodes.find? (fun n => n.hash % t._array.length == i)).map Node.addr ∧
    ∀ n ∈ (t._list.nodes.dropWhile (fun n => n.hash % t._array.length != i)).dropWhile
        (fun n => n.hash % t._array.length == i), n.hash % t._array.length ≠ i))

instance (equal : K → K → Bool) (t : UnorderedMap K V) : Decidable (KeysUnique equal t) :=
  inferInstanceAs (Decidable (t._list.nodes.Pairwise
    (fun (x y : Node K V) => equal x.key y.key = false)))

instance (t : UnorderedMap K V) (a : Nat) : Decidable (Fresh t a) :=
  inferInstanceAs (Decidable (∀ n ∈ t._list.nodes, n.addr ≠ a))

instance (t : UnorderedMap K V) (pos : Nat) : Decidable (Live t pos) :=
  inferInstanceAs (Decidable (∃ n ∈ t._list.nodes, n.addr = pos))

/-- Invariant of the loop of `rehash` for the node sequence `ns` of the old list. -/
structure RehashInv (ns : List (Node K V)) (bc : Nat) (s : RehashState K V) : Prop where
  perm : (s.new_list.nodes ++ s.old_list.nodes).Perm ns
  osize : s.old_list._size = s.old_list.nodes.length
  nsize : s.new_list._size = s.new_list.nodes.length
  alen : s.new_array.length = bc

/-- Tables reached from a fresh table by `insert`/`emplace`, `erase(cursor)` on a live node
and `rehash(n)` with `n ≥ 1`. -/
inductive Reachable (hash : K → Nat) (equal : K → K → Bool) : UnorderedMap K V → Prop
  | fresh : Reachable hash equal UnorderedMap.new
  | insert (t : UnorderedMap K V) (a : Nat) (key : K) (value : V) :
      Reachable hash equal t → Fresh t a →
      Reachable hash equal (UnorderedMap.emplace hash equal t a key value).1
  | erase (t : UnorderedMap K V) (pos : Nat) :
      Reachable hash equal t → Live t pos → Reachable hash equal (UnorderedMap.erase t pos).1
  | rehash (t : UnorderedMap K V) (n : Nat) :
      Reachable hash equal t → 1 ≤ n → Reachable hash equal (UnorderedMap.rehash t n)

/-- Tables reached from a fresh table by `insert`/`emplace` (on a table with a bucket to
index), `erase(cursor)` on a live node and `rehash(n)` with any `n`. -/
inductive ReachableAny (hash : K → Nat) (equal : K → K → Bool) : UnorderedMap K V → Prop
  | fresh : ReachableAny hash equal UnorderedMap.new
  | insert (t : UnorderedMap K V) (a : Nat) (key : K) (value : V) :
      ReachableAny hash equal t → Fresh t a → 1 ≤ t._array.length →
      ReachableAny hash equal (UnorderedMap.emplace hash equal t a key value).1
  | erase (t : UnorderedMap K V) (pos : Nat) :
      ReachableAny hash equal t → Live t pos →
      ReachableAny hash equal (UnorderedMap.erase t pos).1
  | rehash (t : UnorderedMap K V) (n : Nat) :
      ReachableAny hash equal t → ReachableAny hash equal (UnorderedMap.rehash t n)

/-- Tables reached from a fresh table by `insert`/`emplace` and `erase(cursor)` on a live
node only (the max load factor stays at its default). -/
inductive ReachableByInsertErase (hash : K → Nat) (equal : K → K → Bool) :
    UnorderedMap K V → Prop
  | fresh : ReachableByInsertErase hash equal UnorderedMap.new
  | insert (t : UnorderedMap K V) (a : Nat) (key : K) (value : V) :
      ReachableByInsertErase hash equal t → Fresh t a →
      ReachableByInsertErase hash equal (UnorderedMap.emplace hash equal t a key value).1
  | erase (t : UnorderedMap K V) (pos : Nat) :
      ReachableByInsertErase hash equal t → Live t pos →
      ReachableByInsertErase hash equal (UnorderedMap.erase t pos).1

end Predicates

/-! ## Concrete tables over natural-number keys -/

/-- Identity hash on natural numbers (what `std::hash` does for integers). -/
def idHash : Nat → Nat := fun k => k

/-- Equality of natural numbers (`std::equal_to`). -/
def natEq : Nat → Nat → Bool := fun a b => a == b

/-- Insert `(key, value)` with the candidate node at address `a`, keeping the table only. -/
def ins (t : UnorderedMap Nat Nat) (a key value : Nat) : UnorderedMap Nat Nat :=
  (UnorderedMap.emplace idHash natEq t a key value).1

/-- Fresh table after `insert(0, 10)` and `insert(4, 14)`: list `0, 4`, two buckets. -/
def table04 : UnorderedMap Nat Nat := ins (ins UnorderedMap.new 0 0 10) 1 4 14

/-- The table `table04` after `insert(8, 18)`, which rehashes to four buckets. -/
def table048 : UnorderedMap Nat Nat := ins table04 2 8 18

/-- The table `table04` after a third insert with key `0` again (candidate node at address 2). -/
def table040 : UnorderedMap Nat Nat := ins table04 2 0 99

/-- The table `table048` after `erase` of the nodes of keys `4` and `8` (addresses 1 and 2). -/
def table048e : UnorderedMap Nat Nat :=
  (UnorderedMap.erase (UnorderedMap.erase table048 1).1 2).1

/-- The table `table048e` after `insert(0, 20)` with the candidate node at address 3. -/
def table048e0 : UnorderedMap Nat Nat := ins table048e 3 0 20

/-- Fresh table with `max_load_factor(0.25)` after one insert. -/
def tableQuarter : UnorderedMap Nat Nat :=
  (UnorderedMap.emplace idHash natEq
    (UnorderedMap.set_max_load_factor UnorderedMap.new ⟨1, 4⟩) 0 0 10).1

/-- The max load factor as a rational number. -/
def LoadFactor.toRat (m : LoadFactor) : ℚ := (m.num : ℚ) / (m.den : ℚ)

/-- A hash function that returns the same constant for every key. -/
def constHash : Nat → Nat := fun _ => 0

/-- Scenario: the keys 0..9 inserted in order into a fresh table (key `k` at address `k`,
with value `100 + k`); the final table and the flags reported. -/
def scenario09 : UnorderedMap Nat Nat × List Bool :=
  UnorderedMap.insertMany idHash natEq UnorderedMap.new 0
    ((List.range 10).map (fun k => (k, 100 + k)))

/-- Scenario: the keys 1, 2, 3 inserted into a fresh table under the constant hash. -/
def scenarioConst : UnorderedMap Nat Nat × List Bool :=
  UnorderedMap.insertMany constHash natEq UnorderedMap.new 0 [(1, 10), (2, 20), (3, 30)]

/-- Table reached by `insert` of the keys 4, 1, 8, then `rehash(4)`, `erase` of the node of
key 8 (address 2) and `insert` of key 12: the list is 12, 1, 4 with four buckets. -/
def tableSplit : UnorderedMap Nat Nat :=
  ins (UnorderedMap.erase
    (UnorderedMap.rehash (ins (ins (ins UnorderedMap.new 0 4 14) 1 1 11) 2 8 18) 4) 2).1
    3 12 22

/-! ## Pointer-level model of the list

The class `List` of `list_for_map.h` with its links. A pointer is null, the address of the
sentinel `_fake_node` of a list object, or the address of a heap node. The memory holds the
`next` and `prev` links of every sentinel and node, and for every heap address whether it
is allocated, its payload and its cached hash. A list object is its identity (which names
its sentinel) and the fields `_ptr` and `_size`. Loops that follow links take a fuel
bound and give `none` when it runs out. -/

/-- Pointer to a `BaseNode`: null, the sentinel of list object `l`, or the heap node `a`. -/
inductive Ptr where
  | null
  | fake (l : Nat)
  | node (a : Nat)
deriving DecidableEq

/-- Memory: links of sentinels and nodes, and the contents of the heap nodes. -/
structure Mem (K V : Type) where
  next : Ptr → Ptr
  prev : Ptr → Ptr
  alloc : Nat → Bool
  payload : Nat → Option (K × V)
  hash : Nat → Nat

/-- A `List` object: `id` names its sentinel `Ptr.fake id`; fields `_ptr` and `_size`. -/
structure ListObj where
  id : Nat
  _ptr : Ptr
  _size : Nat
deriving DecidableEq

namespace Mem

variable {K V : Type}

/-- Memory in which nothing is allocated and every link points to its own cell, as the
member initialisers `next = this`, `prev = this` of `BaseNode` leave it. -/
def init : Mem K V := ⟨fun p => p, fun p => p, fun _ => false, fun _ => none, fun _ => 0⟩

/-- Assignment `p->next = q`. -/
def setNext (m : Mem K V) (p q : Ptr) : Mem K V :=
  { m with next := fun r => if r = p then q else m.next r }

/-- Assignment `p->prev = q`. -/
def setPrev (m : Mem K V) (p q : Ptr) : Mem K V :=
  { m with prev := fun r => if r = p then q else m.prev r }

/-- Call `AllocTraits::allocate(_node_alloc, 1)` returning the address `a`. -/
def allocate (m : Mem K V) (a : Nat) : Mem K V :=
  { m with alloc := fun b => if b = a then true else m.alloc b }

/-- Call `AllocTraits::deallocate(_node_alloc, node, 1)`. -/
def deallocate (m : Mem K V) (a : Nat) : Mem K V :=
  { m with alloc := fun b => if b = a then false else m.alloc b }

/-- Successful `AllocTraits::construct` of a `Node` at `a`: the links are initialised to the
node itself, the hash and the payload are stored. -/
def construct (m : Mem K V) (a : Nat) (hash : Nat) (kv : K × V) : Mem K V :=
  { m with
    next := fun r => if r = Ptr.node a then Ptr.node a else m.next r
    prev := fun r => if r = Ptr.node a then Ptr.node a else m.prev r
    payload := fun b => if b = a then some kv else m.payload b
    hash := fun b => if b = a then hash else m.hash b }

/-- Successful `AllocTraits::construct` of a `Node` at `a` as a copy of the node `src`
(copy constructor of `Node`: hash and payload copied, links initialised to itself). -/
def constructCopy (m : Mem K V) (a src : Nat) : Mem K V :=
  { m with
    next := fun r => if r = Ptr.node a then Ptr.node a else m.next r
    prev := fun r => if r = Ptr.node a then Ptr.node a else m.prev r
    payload := fun b => if b = a then m.payload src else m.payload b
    hash := fun b => if b = a then m.hash src else m.hash b }

/-- Call `AllocTraits::destroy` on the node `p` (nothing happens for a non-node pointer). -/
def destroy (m : Mem K V) (p : Ptr) : Mem K V :=
  match p with
  | Ptr.node a => { m with payload := fun b => if b = a then none else m.payload b }
  | _ => m

/-- `destroy` followed by `deallocate` on the node `p`. -/
def release (m : Mem K V) (p : Ptr) : Mem K V :=
  match p with
  | Ptr.node a => (m.destroy p).deallocate a
  | _ => m

end Mem

namespace ListObj

variable {K V : Type}

/-- Member `end()`: the sentinel. -/
def endPtr (l : ListObj) : Ptr := Ptr.fake l.id

/-- Member `begin()`: the pointer `_ptr`. -/
def beginPtr (l : ListObj) : Ptr := l._ptr

/-- Default-constructed list object with identity `i`. -/
def mk0 (i : Nat) : ListObj := ⟨i, Ptr.fake i, 0⟩

/-- Member `emplace(it, hash, args...)` at pointer level; `a` is the address returned by
`allocate`, and `args = none` stands for a payload constructor that throws. The result is
`Except.error` with the state left behind when the exception propagates. -/
def emplaceE (m : Mem K V) (l : ListObj) (it : Ptr) (a : Nat) (hash : Nat)
    (args : Option (K × V)) : Except (Mem K V × ListObj) (Mem K V × ListObj × Ptr) :=
  let m1 := m.allocate a
  match args with
  | none => Except.error (m1.deallocate a, l)
  | some kv =>
    let node := Ptr.node a
    let m2 := m1.construct a hash kv
    let m3 := m2.setNext node it
    let m4 := m3.setPrev node (m3.prev it)
    let m5 := m4.setNext (m4.prev it) node
    let m6 := m5.setPrev it node
    let ptr := if l._size = 0 ∨ it = l._ptr then node else l._ptr
    Except.ok (m6, ⟨l.id, ptr, l._size + 1⟩, node)

/-- Member `emplace(it, hash, args...)` when the payload is constructed from `kv`. -/
def emplace (m : Mem K V) (l : ListObj) (it : Ptr) (a : Nat) (hash : Nat) (kv : K × V) :
    Mem K V × ListObj × Ptr :=
  let node := Ptr.node a
  let m2 := (m.allocate a).construct a hash kv
  let m3 := m2.setNext node it
  let m4 := m3.setPrev node (m3.prev it)
  let m5 := m4.setNext (m4.prev it) node
  let m6 := m5.setPrev it node
  let ptr := if l._size = 0 ∨ it = l._ptr then node else l._ptr
  (m6, ⟨l.id, ptr, l._size + 1⟩, node)

/-- Member `erase(it)` at pointer level (`destroy` does not throw). -/
def erase (m : Mem K V) (l : ListObj) (it : Ptr) : Mem K V × ListObj × Ptr :=
  let equal_to_begin := decide (it = l._ptr)
  let node := it
  let ans := m.next node
  let m1 := m.setNext (m.prev node) (m.next node)
  let m2 := m1.setPrev (m1.next node) (m1.prev node)
  let m3 := m2.release node
  let ptr := if equal_to_begin = true then ans else l._ptr
  (m3, ⟨l.id, ptr, l._size - 1⟩, ans)

/-- Member `splice(pos, other)` at pointer level; the result is `(memory, this, other)`. -/
def splice (m : Mem K V) (l : ListObj) (pos : Ptr) (other : ListObj) :
    Mem K V × ListObj × ListObj :=
  if other._size = 0 then (m, l, other)
  else
    let node := pos
    let prev_node := m.prev node
    let first := other._ptr
    let last := m.prev other.endPtr
    let m1 := m.setNext prev_node first
    let m2 := m1.setPrev first prev_node
    let m3 := m2.setNext last node
    let m4 := m3.setPrev node last
    let ptr := if node = l._ptr then first else l._ptr
    let m5 := (m4.setPrev other.endPtr other.endPtr).setNext other.endPtr other.endPtr
    (m5, ⟨l.id, ptr, l._size + other._size⟩, ⟨other.id, other.endPtr, 0⟩)

/-- Member `splice(pos, other, it)` at pointer level; the result is `(memory, this, other)`. -/
def spliceNode (m : Mem K V) (l : ListObj) (pos : Ptr) (other : ListObj) (it : Ptr) :
    Mem K V × ListObj × ListObj :=
  if other._size = 0 then (m, l, other)
  else
    let node := pos
    let prev_node := m.prev node
    let grabbed := it
    let m1 := m.setNext (m.prev grabbed) (m.next grabbed)
    let m2 := m1.setPrev (m1.next grabbed) (m1.prev grabbed)
    let optr := if grabbed = other._ptr then m2.next grabbed else other._ptr
    let m3 := m2.setNext grabbed node
    let m4 := m3.setPrev node grabbed
    let m5 := m4.setPrev grabbed prev_node
    let m6 := m5.setNext prev_node grabbed
    let ptr := if node = l._ptr then m6.prev l._ptr else l._ptr
    (m6, ⟨l.id, ptr, l._size + 1⟩, ⟨other.id, optr, other._size - 1⟩)

/-- The relinking shared by the move constructor and move assignment: `this` (sentinel
`i`) takes the chain of `other`. The result is `(memory, this, other)`. -/
def takeChain (m : Mem K V) (i : Nat) (other : ListObj) : Mem K V × ListObj × ListObj :=
  if other._size ≠ 0 then
    let ptr := other._ptr
    let m1 := m.setPrev (Ptr.fake i) (m.prev (m.prev ptr))
    let m2 := m1.setNext (Ptr.fake i) ptr
    let m3 := m2.setNext (m2.prev (m2.prev ptr)) (Ptr.fake i)
    let m4 := m3.setPrev ptr (Ptr.fake i)
    let m5 := (m4.setPrev other.endPtr other.endPtr).setNext other.endPtr other.endPtr
    (m5, ⟨i, ptr, other._size⟩, ⟨other.id, other.endPtr, 0⟩)
  else
    let m1 := m.setNext (Ptr.fake i) (Ptr.fake i)
    let m2 := m1.setPrev (Ptr.fake i) (Ptr.fake i)
    (m2, ⟨i, Ptr.fake i, other._size⟩, ⟨other.id, other._ptr, 0⟩)

/-- Move constructor `List(List&& other)` for a new list object with identity `i`. -/
def moveConstruct (m : Mem K V) (i : Nat) (other : ListObj) : Mem K V × ListObj × ListObj :=
  takeChain m i other

/-- The loop `for (it = first; it != finish;) { cur = it++; destroy; deallocate; }`. -/
def destroyLoop (finish : Ptr) : Nat → Mem K V → Ptr → Option (Mem K V)
  | 0, m, it => if it = finish then some m else none
  | fuel + 1, m, it =>
    if it = finish then some m
    else destroyLoop finish fuel (m.release it) (m.next it)

/-- Move assignment `operator=(List&& other)`; the result is `(memory, this, other)`. -/
def moveAssign (fuel : Nat) (m : Mem K V) (l : ListObj) (other : ListObj) :
    Option (Mem K V × ListObj × ListObj) :=
  let old_ptr := l._ptr
  let finish := m.prev old_ptr
  match destroyLoop finish fuel m old_ptr with
  | none => none
  | some m1 => some (takeChain m1 l.id other)

/-- Working state of the copying loop of copy assignment: memory, `cur`, `prev`, `it`. -/
structure CopyLoopState (K V : Type) where
  mem : Mem K V
  cur : Ptr
  prev : Ptr
  it : Ptr

/-- The loop `for (; it != other.end(); ++it, ++i)` of copy assignment; `addrs` are the
addresses returned by the successive `allocate` calls. -/
def copyLoop (stop : Ptr) : Nat → List Nat → CopyLoopState K V → Option (CopyLoopState K V)
  | 0, _, s => if s.it = stop then some s else none
  | fuel + 1, addrs, s =>
    if s.it = stop then some s
    else
      match addrs, s.it with
      | a :: rest, Ptr.node b =>
        let cur := Ptr.node a
        let m1 := (s.mem.allocate a).constructCopy a b
        let m2 := m1.setPrev cur s.prev
        let m3 := m2.setNext s.prev cur
        copyLoop stop fuel rest ⟨m3, cur, cur, m3.next s.it⟩
      | _, _ => none

/-- Copy assignment `operator=(const List& other)` (both allocator branches run the same
steps); `a0` is the address of the first `allocate`, `addrs` those of the later ones. -/
def copyAssign (fuel : Nat) (m : Mem K V) (l : ListObj) (other : ListObj) (a0 : Nat)
    (addrs : List Nat) : Option (Mem K V × ListObj) :=
  if l.id = other.id then some (m, l)
  else
    let old_ptr := l._ptr
    let prev := Ptr.node a0
    let m1 := m.allocate a0
    let it := other._ptr
    let first : Option (Mem K V × Ptr × Ptr) :=
      if it ≠ other.endPtr then
        match it with
        | Ptr.node b =>
          let m2 := m1.constructCopy a0 b
          let m3 := m2.setPrev prev l.endPtr
          some (m3, prev, m3.next it)
        | _ => none
      else some (m1.deallocate a0, l._ptr, it)
    match first with
    | none => none
    | some (m4, ptr, it1) =>
      let cur := if it1 = other.endPtr then prev else Ptr.null
      match copyLoop other.endPtr fuel addrs ⟨m4, cur, prev, it1⟩ with
      | none => none
      | some s =>
        let finish := s.mem.prev old_ptr
        match destroyLoop finish fuel s.mem old_ptr with
        | none => none
        | some m5 =>
          let m6 :=
            if l._size ≠ 0 then
              ((m5.setNext l.endPtr ptr).setPrev l.endPtr s.cur).setNext s.cur l.endPtr
            else m5
          some (m6, ⟨l.id, ptr, other._size⟩)

end ListObj

section RawPredicates

variable {K V : Type}

/-- Neighbours in a chain: `p->next == q` and `q->prev == p`. -/
def Link (m : Mem K V) (p q : Ptr) : Prop := m.next p = q ∧ m.prev q = p

/-- The circular chain of list object `i` with the heap nodes `xs`, read from the sentinel
round to the sentinel again. -/
def ring (i : Nat) (xs : List Nat) : List Ptr :=
  Ptr.fake i :: (xs.map Ptr.node ++ [Ptr.fake i])

/-- Cursor on the first element of the sequence `S`, or `end()` when `S` is empty. -/
def posOf (i : Nat) (S : List Nat) : Ptr :=
  match S with
  | [] => Ptr.fake i
  | s :: _ => Ptr.node s

/-- The part of the chain up to the end of the prefix `P`: sentinel, then the nodes of `P`. -/
def ringLeft (i : Nat) (P : List Nat) : List Ptr := Ptr.fake i :: P.map Ptr.node

/-- The part of the chain from the suffix `S` on: the nodes of `S`, then the sentinel. -/
def ringRight (i : Nat) (S : List Nat) : List Ptr := S.map Ptr.node ++ [Ptr.fake i]

/-- The cell before the position that follows the prefix `P`: the last node of `P`, or the
sentinel when `P` is empty. -/
def lastOf (i : Nat) (P : List Nat) : Ptr :=
  match P.getLast? with
  | none => Ptr.fake i
  | some p => Ptr.node p

/-- Well-formed list object `l` whose element sequence is the nodes `xs`: the chain is
linked both ways from the sentinel through `xs` back to the sentinel, the nodes are distinct
and allocated, `_ptr` is the first node (the sentinel when empty) and `_size` the count. -/
structure ListObj.WF (m : Mem K V) (l : ListObj) (xs : List Nat) : Prop where
  links : List.Chain' (Link m) (ring l.id xs)
  nodup : xs.Nodup
  ptr : l._ptr = posOf l.id xs
  size : l._size = xs.length
  live : ∀ a ∈ xs, m.alloc a = true

/-- Following `next` from `p` for exactly `n` steps. -/
def follow (m : Mem K V) (p : Ptr) (n : Nat) : Ptr := (m.next)^[n] p

end RawPredicates

section RawHelpers

variable {K V : Type}

/-- The memory after `destroy` and `deallocate` of the nodes `X`, one after the other. -/
def releaseAll (m : Mem K V) (X : List Nat) : Mem K V :=
  X.foldl (fun m2 x => m2.release (Ptr.node x)) m

instance (m : Mem K V) (p q : Ptr) : Decidable (Link m p q) :=
  inferInstanceAs (Decidable (m.next p = q ∧ m.prev q = p))

/-- Decision procedure for a chain of links, by recursion on the chain. -/
def decChain (m : Mem K V) : (ps : List Ptr) → Decidable (List.Chain' (Link m) ps)
  | [] => isTrue List.chain'_nil
  | [p] => isTrue (List.chain'_singleton p)
  | p :: q :: rest =>
    match (inferInstance : Decidable (Link m p q)), decChain m (q :: rest) with
    | isTrue h1, isTrue h2 => isTrue (List.chain'_cons.mpr ⟨h1, h2⟩)
    | isFalse h1, _ => isFalse (fun h => h1 (List.chain'_cons.mp h).1)
    | _, isFalse h2 => isFalse (fun h => h2 (List.chain'_cons.mp h).2)

instance (m : Mem K V) (ps : List Ptr) : Decidable (List.Chain' (Link m) ps) := decChain m ps

instance (m : Mem K V) (l : ListObj) (xs : List Nat) : Decidable (l.WF m xs) :=
  decidable_of_iff
    (List.Chain' (Link m) (ring l.id xs) ∧ xs.Nodup ∧ l._ptr = posOf l.id xs ∧
      l._size = xs.length ∧ ∀ a ∈ xs, m.alloc a = true)
    ⟨fun h => ⟨h.1, h.2.1, h.2.2.1, h.2.2.2.1, h.2.2.2.2⟩,
      fun h => ⟨h.links, h.nodup, h.ptr, h.size, h.live⟩⟩

end RawHelpers

section RawScenario

/-- An empty list at pointer level: `size() == 0`, `begin() == end()` and the sentinel linked
to itself both ways. -/
def IsEmptyList {K V : Type} (m : Mem K V) (l : ListObj) : Prop :=
  l._size = 0 ∧ l.beginPtr = l.endPtr ∧ m.next l.endPtr = l.endPtr ∧ m.prev l.endPtr = l.endPtr

/-- The nodes `xs` hold in `m2` the payloads and cached hashes they hold in `m`. -/
def SameContents {K V : Type} (m m2 : Mem K V) (xs : List Nat) : Prop :=
  ∀ x ∈ xs, m2.payload x = m.payload x ∧ m2.hash x = m.hash x

/-- List object 0 after `emplace(end(), 7, (5, 50))` into fresh memory (node at address 10). -/
def rawA1 : Mem Nat Nat × ListObj × Ptr :=
  ListObj.emplace Mem.init (ListObj.mk0 0) (Ptr.fake 0) 10 7 (5, 50)

/-- List object 0 after a second `emplace` at `end()` (node at address 11). -/
def rawA2 : Mem Nat Nat × ListObj × Ptr :=
  ListObj.emplace rawA1.1 rawA1.2.1 (Ptr.fake 0) 11 3 (6, 60)

/-- List object 1 after `emplace(end(), 4, (8, 80))` in the same memory (node at address 20). -/
def rawB1 : Mem Nat Nat × ListObj × Ptr :=
  ListObj.emplace rawA2.1 (ListObj.mk0 1) (Ptr.fake 1) 20 4 (8, 80)

/-- List object 1 after a second `emplace` at `end()` (node at address 21). -/
def rawB2 : Mem Nat Nat × ListObj × Ptr :=
  ListObj.emplace rawB1.1 rawB1.2.1 (Ptr.fake 1) 21 9 (9, 90)

/-- Memory holding the list `rawA` (nodes 10, 11) and the list `rawB` (nodes 20, 21). -/
def rawMem : Mem Nat Nat := rawB2.1

/-- The list object with sentinel 0 and the nodes 10, 11. -/
def rawA : ListObj := rawA2.2.1

/-- The list object with sentinel 1 and the nodes 20, 21. -/
def rawB : ListObj := rawB2.2.1

/-- Copy assignment `a = rawB` for a default-constructed (empty) list `a` with sentinel 2;
the copies are allocated at the addresses 30 and 31. -/
def copyIntoEmpty : Option (Mem Nat Nat × ListObj) :=
  ListObj.copyAssign 4 rawMem (ListObj.mk0 2) rawB 30 [31]

/-- Copy assignment `rawA = b` for a default-constructed (empty) list `b` with sentinel 2;
the one allocation (address 30) is given back at once. -/
def copyFromEmpty : Option (Mem Nat Nat × ListObj) :=
  ListObj.copyAssign 4 rawMem rawA (ListObj.mk0 2) 30 []

end RawScenario

section TableExtras

variable {K V : Type}

open UnorderedMap

/-- Member `emplace(args...)` of the table when the payload constructor may throw:
`args = none` stands for a constructor that throws. The load check and its `rehash` run
first; then `temp_list.emplace_front` throws, the empty `temp_list` is destroyed and the
exception leaves `emplace`. The error value is the table left behind. -/
def UnorderedMap.emplaceE (hash : K → Nat) (equal : K → K → Bool) (t : UnorderedMap K V)
    (a : Nat) (args : Option (K × V)) :
    Except (UnorderedMap K V) (UnorderedMap K V × Cursor × Bool) :=
  let t1 := if needsRehash t then t.rehash (2 * t._array.length) else t
  match args with
  | none => Except.error t1
  | some kv => Except.ok (emplaceCore hash equal t1 a kv.1 kv.2)

/-- Reference lookup written from the description of `find`: `end()` when the bucket entry
is empty; otherwise scan forward from the entry's node for the first node that either has
an equal key or a reduced hash different from the bucket index; the result is that node
when its key is equal, and `end()` when it is not or when the sentinel is reached. -/
def UnorderedMap.findReference (hash : K → Nat) (equal : K → K → Bool) (t : UnorderedMap K V)
    (key : K) : Cursor :=
  let idx := hash key % t.bucket_count
  match t._array.getD idx none with
  | none => none
  | some p =>
    match (chainFrom (some p) t._list.nodes).find?
        (fun n => equal n.key key || decide (n.hash % t.bucket_count ≠ idx)) with
    | none => none
    | some n => if equal n.key key then some n.addr else none

end TableExtras

section TableMove

variable {K V : Type}

/-- Move constructor `UnorderedMap(UnorderedMap&&) noexcept = default`: every member is
move-constructed from the member of `other`. `_list` goes through `List(List&&)`, which
hands over the chain and leaves the list of `other` empty; `_array` goes through the move
constructor of `std::vector`, which leaves the vector of `other` empty; `_size` and
`_max_load_factor` are scalars and are copied. The result is `(new table, other)`. -/
def UnorderedMap.moveConstruct (other : UnorderedMap K V) :
    UnorderedMap K V × UnorderedMap K V :=
  (⟨other._list, other._array, other._size, other._max_load_factor⟩,
   ⟨⟨[], 0⟩, [], other._size, other._max_load_factor⟩)

/-- Move assignment `operator=(UnorderedMap&&)`: `_array` is move-assigned and the emptied
vector of `other` is resized to one null entry, `_list` is move-assigned, `_size` and
`_max_load_factor` are copied and then reset in `other` to `0` and `1.0`. The result is
`(this, other)`. -/
def UnorderedMap.moveAssign (_t other : UnorderedMap K V) :
    UnorderedMap K V × UnorderedMap K V :=
  (⟨other._list, other._array, other._size, other._max_load_factor⟩,
   ⟨⟨[], 0⟩, [none], 0, ⟨1, 1⟩⟩)

end TableMove

section RawRange

variable {K V : Type}

/-- The loop `for (; first != last;) first = erase(first);` of `List::erase(first, last)`;
the state is the memory, the list object and `first`. -/
def ListObj.eraseLoop (last : Ptr) :
    Nat → Mem K V × ListObj × Ptr → Option (Mem K V × ListObj × Ptr)
  | 0, s => if s.2.2 = last then some s else none
  | fuel + 1, s =>
    if s.2.2 = last then some s
    else ListObj.eraseLoop last fuel (s.2.1.erase s.1 s.2.2)

/-- Member `erase(first, last)` of the list; the result is memory, list object and the
returned cursor. -/
def ListObj.eraseRange (fuel : Nat) (m : Mem K V) (l : ListObj) (first last : Ptr) :
    Option (Mem K V × ListObj × Ptr) :=
  if first = last then some (m, l, last)
  else ListObj.eraseLoop last fuel (m, l, first)

/-- Member `insert(it, value, hash)`: `emplace(it, hash, value)`. -/
def ListObj.insert (m : Mem K V) (l : ListObj) (it : Ptr) (a : Nat) (value : K × V)
    (hash : Nat) : Mem K V × ListObj × Ptr :=
  l.emplace m it a hash value

/-- Member `push_back(value, hash)`: `emplace(end(), hash, value)`. -/
def ListObj.push_back (m : Mem K V) (l : ListObj) (a : Nat) (value : K × V) (hash : Nat) :
    Mem K V × ListObj :=
  ((l.emplace m l.endPtr a hash value).1, (l.emplace m l.endPtr a hash value).2.1)

/-- Member `push_front(value, hash)`: `emplace(begin(), hash, value)`. -/
def ListObj.push_front (m : Mem K V) (l : ListObj) (a : Nat) (value : K × V) (hash : Nat) :
    Mem K V × ListObj :=
  ((l.emplace m l.beginPtr a hash value).1, (l.emplace m l.beginPtr a hash value).2.1)

/-- Member `pop_back()`: `it = end(); --it; erase(it)`. -/
def ListObj.pop_back (m : Mem K V) (l : ListObj) : Mem K V × ListObj :=
  ((l.erase m (m.prev l.endPtr)).1, (l.erase m (m.prev l.endPtr)).2.1)

/-- Member `pop_front()`: `erase(begin())`. -/
def ListObj.pop_front (m : Mem K V) (l : ListObj) : Mem K V × ListObj :=
  ((l.erase m l.beginPtr).1, (l.erase m l.beginPtr).2.1)

/-- The heap address a node pointer holds (`0` for the null pointer and for sentinels). -/
def Ptr.addr : Ptr → Nat
  | Ptr.node a => a
  | _ => 0

/-- Well-formedness of a list as a predicate on the links alone: the head reference is the
sentinel's `next`; every cell `n` of the chain, the sentinel included, has
`n.next.prev == n` and `n.prev.next == n`; following `next` from the head reaches the
sentinel after exactly `size()` steps, the cells met before it being allocated heap nodes. -/
def ListWellFormed (m : Mem K V) (l : ListObj) : Prop :=
  l._ptr = m.next l.endPtr ∧
  (∀ k, k ≤ l._size →
    m.prev (m.next (follow m l.endPtr k)) = follow m l.endPtr k ∧
    m.next (m.prev (follow m l.endPtr k)) = follow m l.endPtr k) ∧
  follow m l._ptr l._size = l.endPtr ∧
  (∀ k, k < l._size → ∃ a, follow m l._ptr k = Ptr.node a ∧ m.alloc a = true)

end RawRange

section TableRange

variable {K V : Type}

/-- The loop `for (; first != last;) first = erase(first);` of the table's
`erase(first, last)`; `none` when the fuel runs out or `first` is `end()`. -/
def UnorderedMap.eraseLoop (last : Cursor) :
    Nat → UnorderedMap K V × Cursor → Option (UnorderedMap K V × Cursor)
  | 0, s => if s.2 = last then some s else none
  | fuel + 1, s =>
    if s.2 = last then some s
    else
      match s.2 with
      | none => none
      | some p => UnorderedMap.eraseLoop last fuel (UnorderedMap.erase s.1 p)

/-- Member `erase(first, last)` of the table. -/
def UnorderedMap.eraseRange (fuel : Nat) (t : UnorderedMap K V) (first last : Cursor) :
    Option (UnorderedMap K V × Cursor) :=
  if first = last then some (t, first)
  else UnorderedMap.eraseLoop last fuel (t, first)

end TableRange

section Placement

variable {K V : Type}

/-- Where `rehash` links a node with bucket index `idx` into the new list `L` with the new
bucket array `arr`: `end()` when the entry is null, otherwise the first node with a
different reduced hash found walking from the entry's node, or `end()`. -/
def placePos (L : List (Node K V)) (arr : List (Option Nat)) (idx : Nat) : Cursor :=
  match arr.getD idx none with
  | none => none
  | some p => UnorderedMap.rehashWalk arr.length idx (chainFrom (some p) L)

/-- Reference placement written from the description of `rehash`, with the rule of insert
steps 4/5: empty bucket, the node goes to the global front and becomes the bucket head;
non-empty bucket, the node goes immediately before the first node of a different reduced
hash found walking from the bucket head, or at the global end, and the head is kept. -/
def placeLikeInsert (st : List (Node K V) × List (Option Nat)) (cur : Node K V) :
    List (Node K V) × List (Option Nat) :=
  match st.2.getD (cur.hash % st.2.length) none with
  | none => (cur :: st.1, st.2.set (cur.hash % st.2.length) (some cur.addr))
  | some _ =>
    (chainBefore (placePos st.1 st.2 (cur.hash % st.2.length)) st.1 ++
      cur :: chainFrom (placePos st.1 st.2 (cur.hash % st.2.length)) st.1, st.2)

/-- The reference placement with the node of an empty bucket going to the global end
instead of the global front. -/
def placeAtEnd (st : List (Node K V) × List (Option Nat)) (cur : Node K V) :
    List (Node K V) × List (Option Nat) :=
  match st.2.getD (cur.hash % st.2.length) none with
  | none => (st.1 ++ [cur], st.2.set (cur.hash % st.2.length) (some cur.addr))
  | some _ =>
    (chainBefore (placePos st.1 st.2 (cur.hash % st.2.length)) st.1 ++
      cur :: chainFrom (placePos st.1 st.2 (cur.hash % st.2.length)) st.1, st.2)

/-- The list `L` is the concatenation of the non-empty blocks `bs`, one block per bucket
index that occurs, and the bucket array `arr` has, for each block, an entry on one of its
nodes, and a null entry for every index that does not occur. -/
structure Grouped (bc : Nat) (L : List (Node K V)) (arr : List (Option Nat))
    (bs : List (List (Node K V))) : Prop where
  flat : L = bs.flatten
  nonempty : ∀ b ∈ bs, b ≠ []
  uniform : ∀ b ∈ bs, ∀ x ∈ b, ∀ y ∈ b, x.hash % bc = y.hash % bc
  distinct : bs.Pairwise (fun b c => ∀ x ∈ b, ∀ y ∈ c, x.hash % bc ≠ y.hash % bc)
  entry : ∀ b ∈ bs, ∀ x ∈ b, ∃ e ∈ b, arr.getD (x.hash % bc) none = some e.addr
  empty : ∀ i, (∀ x ∈ L, x.hash % bc ≠ i) → arr.getD i none = none

/-- The table with the keys 1 and 0 in this list order and two buckets. -/
def table10 : UnorderedMap Nat Nat := ins (ins UnorderedMap.new 0 0 10) 1 1 11

end Placement

/-- Fresh table after `rehash(4)`, `insert(0, 10)` and `insert(4, 14)`: list `0, 4`, four
buckets, both nodes in bucket 0. -/
def tableRoomy : UnorderedMap Nat Nat :=
  ins (ins (UnorderedMap.rehash UnorderedMap.new 4) 0 0 10) 1 4 14

section ChainLemmas
variable {K V : Type}

theorem chain_split (pos : Cursor) (xs : List (Node K V)) :
    chainBefore pos xs ++ chainFrom pos xs = xs := by
  cases pos with
  | none => simp [chainBefore, chainFrom]
  | some p => simp [chainBefore, chainFrom]

theorem insert_perm (pos : Cursor) (xs : List (Node K V)) (g : Node K V) :
    (chainBefore pos xs ++ g :: chainFrom pos xs).Perm (g :: xs) := by
  have h := chain_split pos xs
  calc (chainBefore pos xs ++ g :: chainFrom pos xs).Perm
        (g :: (chainBefore pos xs ++ chainFrom pos xs)) := List.perm_middle
    _ = g :: xs := by rw [h]

theorem chainBefore_at (pre post : List (Node K V)) (x : Node K V)
    (h : ∀ n ∈ pre, n.addr ≠ x.addr) :
    chainBefore (some x.addr) (pre ++ x :: post) = pre := by
  unfold chainBefore
  have hp : ∀ n ∈ pre, (fun n : Node K V => n.addr != x.addr) n = true := by
    intro n hn; simpa using h n hn
  simp only []
  rw [List.takeWhile_append_of_pos hp]
  simp

theorem chainFrom_at (pre post : List (Node K V)) (x : Node K V)
    (h : ∀ n ∈ pre, n.addr ≠ x.addr) :
    chainFrom (some x.addr) (pre ++ x :: post) = x :: post := by
  unfold chainFrom
  have hp : ∀ n ∈ pre, (fun n : Node K V => n.addr != x.addr) n = true := by
    intro n hn; simpa using h n hn
  simp only []
  rw [List.dropWhile_append_of_pos hp]
  simp

theorem prevOf_insert (pos : Cursor) (xs : List (Node K V)) (g : Node K V)
    (h : ∀ p, pos = some p → g.addr ≠ p) :
    prevOf pos (chainBefore pos xs ++ g :: chainFrom pos xs) = some g.addr := by
  cases pos with
  | none => simp [prevOf, chainBefore, chainFrom]
  | some p =>
    have hg : g.addr ≠ p := h p rfl
    simp only [prevOf, chainBefore, chainFrom]
    have hpre : ∀ n ∈ xs.takeWhile (fun n => n.addr != p),
        (fun n : Node K V => n.addr != p) n = true := by
      intro n hn
      exact @List.mem_takeWhile_imp (Node K V) (fun n => n.addr != p) xs n hn
    rw [List.takeWhile_append_of_pos hpre]
    have htail : List.takeWhile (fun n : Node K V => n.addr != p)
        (g :: xs.dropWhile (fun n => n.addr != p)) = [g] := by
      rw [List.takeWhile_cons_of_pos (by simpa using hg)]
      cases hd : xs.dropWhile (fun n => n.addr != p) with
      | nil => simp
      | cons y ys =>
        have := List.head_dropWhile_not (fun n : Node K V => n.addr != p) xs (by rw [hd]; simp)
        simp only [hd, List.head_cons] at this
        rw [List.takeWhile_cons_of_neg (by simpa using this)]
    rw [htail]
    simp

theorem addr_inj {xs : List (Node K V)} (hnd : (xs.map Node.addr).Nodup) {x y : Node K V}
    (hx : x ∈ xs) (hy : y ∈ xs) (h : x.addr = y.addr) : x = y :=
  List.inj_on_of_nodup_map hnd hx hy h

theorem split_of_mem {xs : List (Node K V)} (hnd : (xs.map Node.addr).Nodup) {x : Node K V}
    (hx : x ∈ xs) : ∃ pre post, xs = pre ++ x :: post ∧ (∀ n ∈ pre, n.addr ≠ x.addr) ∧
      (∀ n ∈ post, n.addr ≠ x.addr) := by
  obtain ⟨pre, post, rfl⟩ := List.append_of_mem hx
  refine ⟨pre, post, rfl, ?_, ?_⟩
  · intro n hn he
    simp [List.nodup_append] at hnd
    exact hnd.2.2.1 n hn he
  · intro n hn he
    simp [List.nodup_append] at hnd
    exact hnd.2.1.1 n hn he

end ChainLemmas

section RehashLemmas
variable {K V : Type}
open UnorderedMap

theorem getD_set_some {arr : List (Option Nat)} {i j : Nat} {v : Option Nat} {p : Nat}
    (h : (arr.set i v).getD j none = some p) :
    (j = i ∧ v = some p) ∨ (j ≠ i ∧ arr.getD j none = some p) := by
  by_cases hij : i = j
  · subst hij
    left
    simp only [List.getD_eq_getElem?_getD, List.getElem?_set] at h
    by_cases hl : i < arr.length
    · simp [hl] at h; exact ⟨rfl, h⟩
    · have : arr[i]? = none := by simp; omega
      simp [hl, this] at h
  · right
    refine ⟨fun e => hij e.symm, ?_⟩
    simpa [List.getD_eq_getElem?_getD, List.getElem?_set_ne hij] using h

theorem getD_set_self {arr : List (Option Nat)} {i : Nat} (v : Option Nat)
    (h : i < arr.length) : (arr.set i v).getD i none = v := by
  simp [List.getD_eq_getElem?_getD, List.getElem?_set, h]

theorem mem_chainFrom {pos : Cursor} {xs : List (Node K V)} {n : Node K V}
    (h : n ∈ chainFrom pos xs) : n ∈ xs := by
  cases pos with
  | none => simp [chainFrom] at h
  | some p => exact (List.dropWhile_sublist _).subset h

theorem rehashWalk_mem {bc idx : Nat} {L : List (Node K V)} {it : Nat}
    (h : rehashWalk bc idx L = some it) : ∃ n ∈ L, n.addr = it := by
  induction L with
  | nil => simp [rehashWalk] at h
  | cons x xs ih =>
    simp only [rehashWalk] at h
    split at h
    · exact ⟨x, by simp, by simpa using h⟩
    · obtain ⟨n, hn, e⟩ := ih h
      exact ⟨n, by simp [hn], e⟩

/-- The position before which `rehash` links the node `cur`. -/
theorem rehashStep_eq (s : RehashState K V) (cur : Node K V) :
    ∃ pos : Cursor, (∀ p, pos = some p → ∃ n ∈ s.new_list.nodes, n.addr = p) ∧
      rehashStep s cur =
        ⟨(s.new_list.spliceNode pos s.old_list cur.addr).2,
         (s.new_list.spliceNode pos s.old_list cur.addr).1,
         s.new_array.set (cur.hash % s.new_array.length)
           (prevOf pos (s.new_list.spliceNode pos s.old_list cur.addr).1.nodes)⟩ := by
  unfold rehashStep
  simp only []
  split
  · exact ⟨none, by simp, rfl⟩
  · rename_i p hp
    split
    · rename_i it hit
      refine ⟨some it, ?_, rfl⟩
      intro q hq
      obtain ⟨n, hn, e⟩ := rehashWalk_mem hit
      exact ⟨n, mem_chainFrom hn, by simpa [← e] using hq⟩
    · exact ⟨none, by simp, rfl⟩

theorem spliceNode_head (l other : LinkedList K V) (pos : Cursor) (cur : Node K V)
    (R : List (Node K V)) (ho : other.nodes = cur :: R) (hs : other._size = other.nodes.length) :
    l.spliceNode pos other cur.addr =
      (⟨chainBefore pos l.nodes ++ cur :: chainFrom pos l.nodes, l._size + 1⟩,
       ⟨R, R.length⟩) := by
  unfold LinkedList.spliceNode
  have h0 : other._size ≠ 0 := by rw [hs, ho]; simp
  simp [h0, ho, hs]

theorem rehashStep_inv {ns : List (Node K V)} {bc : Nat} {s : RehashState K V}
    {cur : Node K V} {R : List (Node K V)} (hs : RehashInv ns bc s)
    (ho : s.old_list.nodes = cur :: R) :
    RehashInv ns bc (rehashStep s cur) ∧ (rehashStep s cur).old_list.nodes = R := by
  obtain ⟨pos, _, e⟩ := rehashStep_eq s cur
  rw [e, spliceNode_head s.new_list s.old_list pos cur R ho hs.osize]
  refine ⟨⟨?_, rfl, ?_, ?_⟩, rfl⟩
  · simp only []
    have h1 := hs.perm
    rw [ho] at h1
    refine List.Perm.trans ?_ h1
    refine List.Perm.trans (List.Perm.append_right R (insert_perm pos s.new_list.nodes cur)) ?_
    simp
    exact List.perm_middle.symm
  · simp only []
    have := (insert_perm pos s.new_list.nodes cur).length_eq
    simp at this
    simp [hs.nsize]
    omega
  · simp [hs.alen]

theorem rehash_fold_inv {ns : List (Node K V)} {bc : Nat} (R : List (Node K V)) :
    ∀ s : RehashState K V, RehashInv ns bc s → s.old_list.nodes = R →
      RehashInv ns bc (R.foldl rehashStep s) ∧ (R.foldl rehashStep s).old_list.nodes = [] := by
  induction R with
  | nil => intro s hs ho; exact ⟨hs, ho⟩
  | cons cur R ih =>
    intro s hs ho
    obtain ⟨h1, h2⟩ := rehashStep_inv hs ho
    exact ih _ h1 h2

theorem rehashStep_entries {ns : List (Node K V)} {bc : Nat} {s : RehashState K V}
    {cur : Node K V} {R : List (Node K V)} (hs : RehashInv ns bc s)
    (hnd : (ns.map Node.addr).Nodup)
    (ho : s.old_list.nodes = cur :: R) (he : EntriesLive s.new_list.nodes s.new_array) :
    EntriesLive (rehashStep s cur).new_list.nodes (rehashStep s cur).new_array := by
  obtain ⟨pos, hpos, e⟩ := rehashStep_eq s cur
  rw [e, spliceNode_head s.new_list s.old_list pos cur R ho hs.osize]
  simp only []
  have hnd2 : ((s.new_list.nodes ++ cur :: R).map Node.addr).Nodup := by
    have := hs.perm
    rw [ho] at this
    exact (List.Perm.nodup_iff (this.map Node.addr)).mpr hnd
  have hcur : ∀ n ∈ s.new_list.nodes, n.addr ≠ cur.addr := by
    intro n hn he
    simp [List.nodup_append] at hnd2
    exact hnd2.2.2.1 n hn he
  have hprev : prevOf pos (chainBefore pos s.new_list.nodes ++ cur :: chainFrom pos s.new_list.nodes)
      = some cur.addr := by
    apply prevOf_insert
    intro p hp he
    obtain ⟨n, hn, hn2⟩ := hpos p hp
    exact hcur n hn (by rw [hn2, he])
  rw [hprev]
  intro i p hip
  simp only [List.length_set]
  have hmem : ∀ n, n ∈ s.new_list.nodes →
      n ∈ chainBefore pos s.new_list.nodes ++ cur :: chainFrom pos s.new_list.nodes := by
    intro n hn
    exact (insert_perm pos s.new_list.nodes cur).symm.subset (by simp [hn])
  rcases getD_set_some hip with ⟨h1, h2⟩ | ⟨h1, h2⟩
  · refine ⟨cur, ?_, ?_, ?_⟩
    · exact (insert_perm pos s.new_list.nodes cur).symm.subset (by simp)
    · simpa using h2
    · rw [h1]
  · obtain ⟨n, hn, hn1, hn2⟩ := he i p h2
    exact ⟨n, hmem n hn, hn1, hn2⟩

theorem rehash_fold_entries {ns : List (Node K V)} {bc : Nat} (hnd : (ns.map Node.addr).Nodup)
    (R : List (Node K V)) :
    ∀ s : RehashState K V, RehashInv ns bc s → s.old_list.nodes = R →
      EntriesLive s.new_list.nodes s.new_array →
      EntriesLive (R.foldl rehashStep s).new_list.nodes (R.foldl rehashStep s).new_array := by
  induction R with
  | nil => intro s _ _ he; exact he
  | cons cur R ih =>
    intro s hs ho he
    obtain ⟨h1, h2⟩ := rehashStep_inv hs ho
    exact ih _ h1 h2 (rehashStep_entries hs hnd ho he)

end RehashLemmas

section RehashTable
variable {K V : Type}
open UnorderedMap

theorem rehash_init_inv (t : UnorderedMap K V) (bc : Nat)
    (hl : t._list._size = t._list.nodes.length) :
    RehashInv t._list.nodes bc ⟨t._list, LinkedList.empty, List.replicate bc none⟩ :=
  ⟨by simp [LinkedList.empty], hl, by simp [LinkedList.empty], by simp⟩

theorem entriesLive_replicate (nodes : List (Node K V)) (bc : Nat) :
    EntriesLive nodes (List.replicate bc none) := by
  intro i p h
  simp [List.getD_eq_getElem?_getD, List.getElem?_replicate] at h
  split at h <;> simp at h

theorem rehash_frame (t : UnorderedMap K V) (n : Nat) :
    (t.rehash n)._size = t._size ∧ (t.rehash n)._max_load_factor = t._max_load_factor := by
  simp [rehash]

theorem rehash_list (t : UnorderedMap K V) (n : Nat)
    (hl : t._list._size = t._list.nodes.length) :
    (t.rehash n)._list.nodes.Perm t._list.nodes ∧
    (t.rehash n)._list._size = (t.rehash n)._list.nodes.length ∧
    (t.rehash n)._array.length = rehashCount t n := by
  obtain ⟨h1, h2⟩ := rehash_fold_inv t._list.nodes _
    (rehash_init_inv t (rehashCount t n) hl) rfl
  refine ⟨?_, h1.nsize, h1.alen⟩
  have := h1.perm
  rw [h2] at this
  simpa [rehash] using this

theorem rehashCount_ge (t : UnorderedMap K V) (n : Nat)
    (hnum : 0 < t._max_load_factor.num) : n ≤ rehashCount t n := by
  unfold rehashCount
  split
  · rename_i h
    rw [Nat.le_div_iff_mul_le hnum]
    omega
  · exact Nat.le_refl n

theorem rehash_WF (t : UnorderedMap K V) (n : Nat) (h : WF t) (hn : 1 ≤ n) : WF (t.rehash n) := by
  obtain ⟨hp, hs, ha⟩ := rehash_list t n h.list.lsize
  obtain ⟨hf1, hf2⟩ := rehash_frame t n
  refine ⟨⟨?_, hs⟩, ?_, ?_, ?_, ?_, ?_⟩
  · exact (List.Perm.nodup_iff (hp.map Node.addr)).mpr h.list.nodup
  · rw [hf1, h.tsize, hp.length_eq]
  · rw [ha]; exact le_trans hn (rehashCount_ge t n h.mnum)
  · rw [hf2]; exact h.mnum
  · rw [hf2]; exact h.mden
  · exact rehash_fold_entries h.list.nodup t._list.nodes _
      (rehash_init_inv t (rehashCount t n) h.list.lsize) rfl (entriesLive_replicate _ _)

end RehashTable

section EmplaceLemmas
variable {K V : Type}
open UnorderedMap

theorem temp_list_eq (a h : Nat) (key : K) (value : V) :
    (LinkedList.empty.emplace_front a 0 key value).setHash a h =
      (⟨[⟨a, key, value, h⟩], 1⟩ : LinkedList K V) := by
  simp [LinkedList.emplace_front, LinkedList.emplace, LinkedList.empty, LinkedList.begin,
    LinkedList.setHash, chainBefore, chainFrom]

theorem chainBefore_begin (l : LinkedList K V) : chainBefore l.begin l.nodes = [] := by
  cases h : l.nodes with
  | nil => simp [LinkedList.begin, h, chainBefore]
  | cons x xs => simp [LinkedList.begin, h, chainBefore]

theorem chainFrom_begin (l : LinkedList K V) : chainFrom l.begin l.nodes = l.nodes := by
  cases h : l.nodes with
  | nil => simp [LinkedList.begin, h, chainFrom]
  | cons x xs => simp [LinkedList.begin, h, chainFrom]

theorem splice_single (l : LinkedList K V) (pos : Cursor) (g : Node K V) :
    l.splice pos ⟨[g], 1⟩ =
      (⟨chainBefore pos l.nodes ++ g :: chainFrom pos l.nodes, l._size + 1⟩, ⟨[], 0⟩) := by
  simp [LinkedList.splice]

theorem emplaceWalk_before_mem {equal : K → K → Bool} {bc idx : Nat} {key : K}
    {L : List (Node K V)} {it : Nat}
    (h : emplaceWalk equal bc idx key L = Walk.before it) : ∃ n ∈ L, n.addr = it := by
  induction L with
  | nil => simp [emplaceWalk] at h
  | cons x xs ih =>
    simp only [emplaceWalk] at h
    split at h
    · simp at h
    · split at h
      · exact ⟨x, by simp, by simpa using h⟩
      · obtain ⟨n, hn, e⟩ := ih h
        exact ⟨n, by simp [hn], e⟩

theorem emplaceCore_eq (hash : K → Nat) (equal : K → K → Bool) (t : UnorderedMap K V)
    (a : Nat) (key : K) (value : V) (hf : Fresh t a) :
    (∃ it, emplaceCore hash equal t a key value = (t, some it, false)) ∨
    (∃ pos arr, (arr = t._array ∨ arr = t._array.set (hash key % t._array.length) (some a)) ∧
      emplaceCore hash equal t a key value =
        (⟨⟨chainBefore pos t._list.nodes ++ ⟨a, key, value, hash key⟩ :: chainFrom pos t._list.nodes,
            t._list._size + 1⟩, arr, t._size + 1, t._max_load_factor⟩, some a, true)) := by
  unfold emplaceCore
  simp only [temp_list_eq, splice_single]
  split
  · right
    refine ⟨t._list.begin, _, Or.inr rfl, ?_⟩
    simp only [chainBefore_begin, chainFrom_begin]
    simp [LinkedList.begin]
  · rename_i p hp
    split
    · rename_i it hit
      left
      exact ⟨it, rfl⟩
    · rename_i it hit
      right
      refine ⟨some it, _, Or.inl rfl, ?_⟩
      rw [prevOf_insert]
      intro q hq
      obtain ⟨n, hn, e⟩ := emplaceWalk_before_mem hit
      have := hf n (mem_chainFrom hn)
      simp at hq
      simp only []
      omega
    · right
      refine ⟨none, _, Or.inl rfl, ?_⟩
      rw [prevOf_insert]
      simp

theorem emplaceCore_WF (hash : K → Nat) (equal : K → K → Bool) (t : UnorderedMap K V)
    (a : Nat) (key : K) (value : V) (h : WF t) (hf : Fresh t a) :
    WF (emplaceCore hash equal t a key value).1 := by
  rcases emplaceCore_eq hash equal t a key value hf with ⟨it, e⟩ | ⟨pos, arr, harr, e⟩
  · rw [e]; exact h
  · rw [e]
    have hperm := insert_perm pos t._list.nodes ⟨a, key, value, hash key⟩
    have hlen : arr.length = t._array.length := by
      rcases harr with e | e <;> simp [e]
    refine ⟨⟨?_, ?_⟩, ?_, ?_, h.mnum, h.mden, ?_⟩
    · refine (List.Perm.nodup_iff (hperm.map Node.addr)).mpr ?_
      simp only [List.map_cons, List.nodup_cons]
      refine ⟨?_, h.list.nodup⟩
      intro hm
      obtain ⟨n, hn, e⟩ := List.mem_map.mp hm
      exact hf n hn e
    · simp only []
      rw [hperm.length_eq, h.list.lsize]; simp
    · simp only []
      rw [hperm.length_eq, h.tsize]; simp
    · simp only []; rw [hlen]; exact h.bpos
    · intro i p hip
      simp only [] at hip ⊢
      rw [hlen]
      have hmem : ∀ n, n ∈ t._list.nodes →
          n ∈ chainBefore pos t._list.nodes ++ ⟨a, key, value, hash key⟩ :: chainFrom pos t._list.nodes :=
        fun n hn => hperm.symm.subset (by simp [hn])
      rcases harr with e | e
      · rw [e] at hip
        obtain ⟨n, hn, h1, h2⟩ := h.entries i p hip
        exact ⟨n, hmem n hn, h1, h2⟩
      · rw [e] at hip
        rcases getD_set_some hip with ⟨h1, h2⟩ | ⟨h1, h2⟩
        · refine ⟨⟨a, key, value, hash key⟩, hperm.symm.subset (by simp), ?_, ?_⟩
          · simpa using h2
          · rw [h1]
        · obtain ⟨n, hn, h3, h4⟩ := h.entries i p h2
          exact ⟨n, hmem n hn, h3, h4⟩

theorem rehash_fresh (t : UnorderedMap K V) (n a : Nat)
    (hl : t._list._size = t._list.nodes.length) (hf : Fresh t a) : Fresh (t.rehash n) a := by
  intro x hx
  exact hf x ((rehash_list t n hl).1.subset hx)

theorem emplace_WF (hash : K → Nat) (equal : K → K → Bool) (t : UnorderedMap K V)
    (a : Nat) (key : K) (value : V) (h : WF t) (hf : Fresh t a) :
    WF (emplace hash equal t a key value).1 := by
  unfold emplace
  split
  · apply emplaceCore_WF
    · exact rehash_WF t _ h (by have := h.bpos; omega)
    · exact rehash_fresh t _ a h.list.lsize hf
  · exact emplaceCore_WF hash equal t a key value h hf

end EmplaceLemmas

section EraseLemmas
variable {K V : Type}
open UnorderedMap

theorem find_at (pre post : List (Node K V)) (x : Node K V)
    (h : ∀ n ∈ pre, n.addr ≠ x.addr) :
    (pre ++ x :: post).find? (fun n => n.addr == x.addr) = some x := by
  have h1 : pre.find? (fun n => n.addr == x.addr) = none := by
    rw [List.find?_eq_none]
    intro n hn; simpa using h n hn
  simp [List.find?_append, h1]

theorem eraseP_at (pre post : List (Node K V)) (x : Node K V)
    (h : ∀ n ∈ pre, n.addr ≠ x.addr) :
    (pre ++ x :: post).eraseP (fun n => n.addr == x.addr) = pre ++ post := by
  rw [List.eraseP_append_right]
  · simp
  · intro n hn; simpa using h n hn

theorem nextOf_at (pre post : List (Node K V)) (x : Node K V)
    (h : ∀ n ∈ pre, n.addr ≠ x.addr) :
    nextOf x.addr (pre ++ x :: post) = post.head? := by
  unfold nextOf
  rw [chainFrom_at pre post x h]
  simp

/-- Shape of the result of `erase` on a live node `x` of a list with distinct addresses. -/
theorem erase_eq (t : UnorderedMap K V) (pre post : List (Node K V)) (x : Node K V)
    (hn : t._list.nodes = pre ++ x :: post) (h : ∀ n ∈ pre, n.addr ≠ x.addr) :
    ∃ arr,
      erase t x.addr =
        (⟨⟨pre ++ post, t._list._size - 1⟩, arr, t._size - 1, t._max_load_factor⟩,
          post.head?.map Node.addr) ∧
      ((t._array.getD (x.hash % t._array.length) none = some x.addr ∧
          arr = t._array.set (x.hash % t._array.length) none) ∨
       (t._array.getD (x.hash % t._array.length) none = some x.addr ∧
          ∃ y ys, post = y :: ys ∧ y.hash % t._array.length = x.hash % t._array.length ∧
            arr = t._array.set (x.hash % t._array.length) (some y.addr)) ∨
       (t._array.getD (x.hash % t._array.length) none ≠ some x.addr ∧ arr = t._array)) := by
  obtain ⟨⟨nodes, lsz⟩, arr0, sz, mlf⟩ := t
  simp only [] at hn
  subst hn
  simp only [erase, find_at pre post x h, LinkedList.erase, nextOf_at pre post x h,
    eraseP_at pre post x h]
  by_cases he : arr0.getD (x.hash % arr0.length) none = some x.addr
  · cases post with
    | nil =>
      refine ⟨_, ?_, Or.inl ⟨he, rfl⟩⟩
      rw [if_pos ⟨he, rfl⟩]
    | cons y ys =>
      by_cases hy : y.hash % arr0.length = x.hash % arr0.length
      · refine ⟨_, ?_, Or.inr (Or.inl ⟨he, y, ys, rfl, hy, rfl⟩)⟩
        rw [if_neg (by simp [hy]), if_pos he]
        simp
      · refine ⟨_, ?_, Or.inl ⟨he, rfl⟩⟩
        rw [if_pos ⟨he, by simp [hy]⟩]
  · refine ⟨_, ?_, Or.inr (Or.inr ⟨he, rfl⟩)⟩
    rw [if_neg (fun hc => he hc.1), if_neg he]

theorem erase_WF (t : UnorderedMap K V) (pos : Nat) (h : WF t) (hl : Live t pos) :
    WF (erase t pos).1 := by
  obtain ⟨x, hx, rfl⟩ := hl
  obtain ⟨pre, post, hn, hpre, hpost⟩ := split_of_mem h.list.nodup hx
  obtain ⟨arr, e, harr⟩ := erase_eq t pre post x hn hpre
  rw [e]
  have hlen : arr.length = t._array.length := by
    rcases harr with ⟨_, e⟩ | ⟨_, _, _, _, _, e⟩ | ⟨_, e⟩ <;> simp [e]
  have hnd := h.list.nodup
  have hsz := h.list.lsize
  have hts := h.tsize
  have hent := h.entries
  rw [hn] at hnd hsz hts hent
  have hkeep : ∀ i p, t._array.getD i none = some p → i ≠ x.hash % t._array.length →
      ∃ n ∈ pre ++ post, n.addr = p ∧ n.hash % t._array.length = i := by
    intro i p hip hne
    obtain ⟨n, hn1, hn2, hn3⟩ := hent i p hip
    refine ⟨n, ?_, hn2, hn3⟩
    simp only [List.mem_append, List.mem_cons] at hn1 ⊢
    rcases hn1 with h1 | h1 | h1
    · exact Or.inl h1
    · subst h1; exact absurd hn3.symm hne
    · exact Or.inr h1
  refine ⟨⟨?_, ?_⟩, ?_, ?_, h.mnum, h.mden, ?_⟩
  · simp only []
    have hsub : (pre ++ post).Sublist (pre ++ x :: post) :=
      List.Sublist.append_left (List.sublist_cons_self x post) pre
    exact (hsub.map Node.addr).nodup hnd
  · simp only []; rw [hsz]; simp
  · simp only []; rw [hts]; simp
  · simp only []; rw [hlen]; exact h.bpos
  · intro i p hip
    simp only [] at hip ⊢
    rw [hlen]
    rcases harr with ⟨he, e⟩ | ⟨he, y, ys, hp, hy, e⟩ | ⟨he, e⟩
    · rw [e] at hip
      rcases getD_set_some hip with ⟨h1, h2⟩ | ⟨h1, h2⟩
      · simp at h2
      · exact hkeep i p h2 h1
    · rw [e] at hip
      rcases getD_set_some hip with ⟨h1, h2⟩ | ⟨h1, h2⟩
      · refine ⟨y, by simp [hp], by simpa using h2, ?_⟩
        rw [h1]; exact hy
      · exact hkeep i p h2 h1
    · rw [e] at hip
      by_cases hi : i = x.hash % t._array.length
      · obtain ⟨n, hn1, hn2, hn3⟩ := hent i p hip
        simp only [List.mem_append, List.mem_cons] at hn1
        have hnx : n.addr ≠ x.addr := by
          intro hc
          apply he
          rw [← hi, hip, ← hc, hn2]
        refine ⟨n, ?_, hn2, hn3⟩
        simp only [List.mem_append]
        rcases hn1 with h1 | h1 | h1
        · exact Or.inl h1
        · subst h1; exact absurd rfl hnx
        · exact Or.inr h1
      · exact hkeep i p hip hi

theorem new_WF : WF (UnorderedMap.new : UnorderedMap K V) := by
  refine ⟨⟨by simp [UnorderedMap.new, LinkedList.empty], rfl⟩, rfl, by simp [UnorderedMap.new],
    by simp [UnorderedMap.new], by simp [UnorderedMap.new], ?_⟩
  intro i p h
  simp [UnorderedMap.new, List.getD_eq_getElem?_getD] at h

theorem reachable_WF {hash : K → Nat} {equal : K → K → Bool} {t : UnorderedMap K V}
    (h : Reachable hash equal t) : WF t := by
  induction h with
  | fresh => exact new_WF
  | insert t a key value _ hf ih => exact emplace_WF hash equal t a key value ih hf
  | erase t pos _ hl ih => exact erase_WF t pos ih hl
  | rehash t n _ hn ih => exact rehash_WF t n ih hn

end EraseLemmas

section FindAfterInsert
variable {K V : Type}
open UnorderedMap

theorem emplaceWalk_spec (equal : K → K → Bool) (bc idx : Nat) (key : K)
    (L : List (Node K V)) (hk : ∀ m ∈ L, equal m.key key = false) :
    ∃ run rest, L = run ++ rest ∧ (∀ m ∈ run, m.hash % bc = idx) ∧
      (∀ y ∈ rest.head?, y.hash % bc ≠ idx) ∧
      emplaceWalk equal bc idx key L =
        (match rest.head? with
          | none => Walk.atEnd
          | some y => Walk.before y.addr) := by
  induction L with
  | nil => exact ⟨[], [], rfl, by simp, by simp, rfl⟩
  | cons x xs ih =>
    have hx : equal x.key key = false := hk x (by simp)
    by_cases hm : x.hash % bc = idx
    · obtain ⟨run, rest, e, h1, h2, h3⟩ := ih (fun m hm => hk m (by simp [hm]))
      refine ⟨x :: run, rest, by simp [e], ?_, h2, ?_⟩
      · intro m hmem
        rcases List.mem_cons.mp hmem with h | h
        · rw [h]; exact hm
        · exact h1 m h
      · simp only [emplaceWalk, hx, hm]
        simpa using h3
    · refine ⟨[], x :: xs, rfl, by simp, by simpa using hm, ?_⟩
      simp [emplaceWalk, hx, hm]

theorem findWalk_found (equal : K → K → Bool) (bc idx : Nat) (key : K)
    (pre post : List (Node K V)) (x : Node K V)
    (hpre : ∀ m ∈ pre, equal m.key key = false ∧ m.hash % bc = idx)
    (hx : equal x.key key = true) :
    findWalk equal bc idx key (pre ++ x :: post) = some x.addr := by
  induction pre with
  | nil => simp [findWalk, hx]
  | cons y ys ih =>
    have hy := hpre y (by simp)
    simp only [List.cons_append, findWalk, hy.1, hy.2]
    simpa using ih (fun m hm => hpre m (by simp [hm]))

theorem findWalk_none (equal : K → K → Bool) (bc idx : Nat) (key : K)
    (L : List (Node K V)) (h : ∀ m ∈ L, equal m.key key = false) :
    findWalk equal bc idx key L = none := by
  induction L with
  | nil => rfl
  | cons y ys ih =>
    simp only [findWalk, h y (by simp)]
    by_cases hm : y.hash % bc = idx
    · simpa [hm] using ih (fun m hm => h m (by simp [hm]))
    · simp [hm]

/-- Where `emplace` (past its load check) links a node whose key is not in the table. -/
theorem emplaceCore_placed (hash : K → Nat) (equal : K → K → Bool) (t : UnorderedMap K V)
    (h : WF t) (a : Nat) (key : K) (value : V) (hf : Fresh t a)
    (hk : ∀ n ∈ t._list.nodes, equal n.key key = false) :
    (t._array.getD (hash key % t._array.length) none = none ∧
      emplaceCore hash equal t a key value =
        (⟨⟨⟨a, key, value, hash key⟩ :: t._list.nodes, t._list._size + 1⟩,
          t._array.set (hash key % t._array.length) (some a), t._size + 1,
          t._max_load_factor⟩, some a, true)) ∨
    (∃ pre x run rest, t._array.getD (hash key % t._array.length) none = some x.addr ∧
      t._list.nodes = pre ++ x :: run ++ rest ∧ (∀ m ∈ pre, m.addr ≠ x.addr) ∧
      (∀ m ∈ x :: run, m.hash % t._array.length = hash key % t._array.length) ∧
      (∀ y ∈ rest.head?, y.hash % t._array.length ≠ hash key % t._array.length) ∧
      emplaceCore hash equal t a key value =
        (⟨⟨pre ++ x :: run ++ ⟨a, key, value, hash key⟩ :: rest, t._list._size + 1⟩,
          t._array, t._size + 1, t._max_load_factor⟩, some a, true)) := by
  cases he : t._array.getD (hash key % t._array.length) none with
  | none =>
    left
    refine ⟨rfl, ?_⟩
    unfold emplaceCore
    simp only [temp_list_eq, splice_single, he, chainBefore_begin, chainFrom_begin]
    simp [LinkedList.begin]
  | some p =>
    right
    obtain ⟨x, hx, hxa, hxh⟩ := h.entries _ p he
    obtain ⟨pre, post, hn, hpre, hpost⟩ := split_of_mem h.list.nodup hx
    have hkL : ∀ m ∈ x :: post, equal m.key key = false := by
      intro m hm
      apply hk; rw [hn]; simp only [List.mem_append]; exact Or.inr hm
    obtain ⟨run0, rest, e, h1, h2, h3⟩ :=
      emplaceWalk_spec equal t._array.length (hash key % t._array.length) key (x :: post) hkL
    -- the run starts with `x`
    obtain ⟨run, hrun⟩ : ∃ run, run0 = x :: run := by
      cases run0 with
      | nil =>
        simp only [List.nil_append] at e
        rw [← e] at h2
        exact absurd hxh (h2 x (by simp))
      | cons y ys =>
        simp only [List.cons_append, List.cons.injEq] at e
        exact ⟨ys, by rw [e.1]⟩
    subst hrun
    have hpost' : post = run ++ rest := by simpa using e
    have hnodes : t._list.nodes = pre ++ x :: run ++ rest := by rw [hn, hpost']; simp
    have hnd := h.list.nodup
    rw [hnodes] at hnd
    refine ⟨pre, x, run, rest, by rw [hxa], hnodes, hpre, h1, h2, ?_⟩
    have hchain : chainFrom (some p) t._list.nodes = x :: post := by
      rw [hn, ← hxa]; exact chainFrom_at pre post x hpre
    unfold emplaceCore
    simp only [temp_list_eq, splice_single, he, hchain, h3]
    cases rest with
    | nil =>
      simp only [List.head?_nil]
      rw [prevOf_insert _ _ _ (by simp)]
      simp [chainBefore, chainFrom, hnodes]
    | cons y ys =>
      simp only [List.head?_cons]
      have hya : ∀ m ∈ pre ++ x :: run, m.addr ≠ y.addr := by
        intro m hm hc
        have : (pre ++ x :: run ++ y :: ys) = (pre ++ x :: run) ++ y :: ys := by simp
        rw [this, List.map_append, List.nodup_append] at hnd
        exact hnd.2.2 (List.mem_map_of_mem _ hm) (by simp [hc])
      have hay : (⟨a, key, value, hash key⟩ : Node K V).addr ≠ y.addr := by
        intro hc
        exact hf y (by rw [hnodes]; simp) hc.symm
      rw [prevOf_insert _ _ _ (fun q hq => by cases hq; exact hay)]
      have hsplit : t._list.nodes = (pre ++ x :: run) ++ y :: ys := by
        rw [hnodes, List.append_assoc, List.cons_append]
      rw [hsplit, chainBefore_at _ _ _ hya, chainFrom_at _ _ _ hya]

end FindAfterInsert

section FindAfterInsert2
variable {K V : Type}
open UnorderedMap

theorem emplaceCore_find (hash : K → Nat) (equal : K → K → Bool)
    (hrefl : ∀ k, equal k k = true) (t : UnorderedMap K V)
    (h : WF t) (a : Nat) (key : K) (value : V) (hf : Fresh t a)
    (hk : ∀ n ∈ t._list.nodes, equal n.key key = false) :
    (emplaceCore hash equal t a key value).2.2 = true ∧
    (emplaceCore hash equal t a key value).2.1 = some a ∧
    (⟨a, key, value, hash key⟩ : Node K V) ∈ (emplaceCore hash equal t a key value).1._list.nodes ∧
    _find hash equal (emplaceCore hash equal t a key value).1 key = some a := by
  have hidx : hash key % t._array.length < t._array.length := Nat.mod_lt _ h.bpos
  rcases emplaceCore_placed hash equal t h a key value hf hk with
    ⟨he, e⟩ | ⟨pre, x, run, rest, he, hn, hpre, hrun, hrest, e⟩
  · rw [e]
    refine ⟨rfl, rfl, by simp, ?_⟩
    simp only [_find, List.length_set, getD_set_self _ hidx]
    simp [chainFrom, findWalk, hrefl]
  · rw [e]
    refine ⟨rfl, rfl, by simp, ?_⟩
    simp only [_find, he]
    have hshape : pre ++ x :: run ++ (⟨a, key, value, hash key⟩ : Node K V) :: rest =
        pre ++ x :: (run ++ ⟨a, key, value, hash key⟩ :: rest) := by simp
    rw [hshape, chainFrom_at _ _ _ hpre]
    have := findWalk_found equal t._array.length (hash key % t._array.length) key
      (x :: run) rest ⟨a, key, value, hash key⟩
      (fun m hm => ⟨hk m (by rw [hn]; simp only [List.mem_append]; exact Or.inl (Or.inr hm)),
        hrun m hm⟩) (hrefl key)
    simpa using this

theorem emplace_find (hash : K → Nat) (equal : K → K → Bool)
    (hrefl : ∀ k, equal k k = true) (t : UnorderedMap K V)
    (h : WF t) (a : Nat) (key : K) (value : V) (hf : Fresh t a)
    (hk : ∀ n ∈ t._list.nodes, equal n.key key = false) :
    (emplace hash equal t a key value).2.2 = true ∧
    (emplace hash equal t a key value).2.1 = some a ∧
    (⟨a, key, value, hash key⟩ : Node K V) ∈ (emplace hash equal t a key value).1._list.nodes ∧
    _find hash equal (emplace hash equal t a key value).1 key = some a := by
  unfold emplace
  split
  · apply emplaceCore_find hash equal hrefl
    · exact rehash_WF t _ h (by have := h.bpos; omega)
    · exact rehash_fresh t _ a h.list.lsize hf
    · intro n hn
      exact hk n ((rehash_list t _ h.list.lsize).1.subset hn)
  · exact emplaceCore_find hash equal hrefl t h a key value hf hk

end FindAfterInsert2

section FindCorrect
variable {K V : Type}
open UnorderedMap

theorem find_none_of_absent (hash : K → Nat) (equal : K → K → Bool) (t : UnorderedMap K V)
    (key : K) (h : ∀ n ∈ t._list.nodes, equal n.key key = false) :
    _find hash equal t key = none := by
  unfold _find
  simp only []
  split
  · rfl
  · exact findWalk_none equal _ _ key _ (fun m hm => h m (mem_chainFrom hm))

theorem find_of_present (hash : K → Nat) (equal : K → K → Bool) (heq : IsEquivalence equal)
    (hh : HashRespects hash equal) (t : UnorderedMap K V)
    (hnd : (t._list.nodes.map Node.addr).Nodup) (hc : HashCached hash t)
    (hpos : 1 ≤ t._array.length) (hb : BucketInv t) (hu : KeysUnique equal t)
    (key : K) (n : Node K V) (hn : n ∈ t._list.nodes) (hnk : equal n.key key = true) :
    _find hash equal t key = some n.addr := by
  have hidx : hash key % t._array.length < t._array.length := Nat.mod_lt _ hpos
  obtain ⟨hhead, hcontig⟩ := hb _ hidx
  have hPn : n.hash % t._array.length = hash key % t._array.length := by
    rw [hc n hn, hh _ _ hnk]
  -- the first node of the bucket
  cases hf : t._list.nodes.find? (fun m => m.hash % t._array.length == hash key % t._array.length) with
  | none =>
    rw [List.find?_eq_none] at hf
    exact absurd (by simpa using hPn) (hf n hn)
  | some f =>
    obtain ⟨hPf, as, bs, hsplit, has⟩ := List.find?_eq_some.mp hf
    rw [hf] at hhead
    have hnd' := hnd
    rw [hsplit] at hnd'
    have hasaddr : ∀ m ∈ as, m.addr ≠ f.addr := by
      intro m hm hc'
      rw [List.map_append, List.nodup_append] at hnd'
      exact hnd'.2.2 (List.mem_map_of_mem _ hm) (by simp [hc'])
    have hasP : ∀ m ∈ as,
        (fun m : Node K V => m.hash % t._array.length != hash key % t._array.length) m = true := by
      intro m hm
      have := has m hm
      simpa [bne] using this
    rw [hsplit, List.dropWhile_append_of_pos hasP,
      List.dropWhile_cons_of_neg (by simpa using hPf)] at hcontig
    -- `n` lies in the block that starts at `f`
    have hnD : n ∈ f :: bs := by
      rw [hsplit] at hn
      rcases List.mem_append.mp hn with h1 | h1
      · have := hasP n h1
        simp [hPn] at this
      · exact h1
    have hD := List.takeWhile_append_dropWhile
      (fun m : Node K V => m.hash % t._array.length == hash key % t._array.length) (f :: bs)
    have hrunP : ∀ m ∈ (f :: bs).takeWhile
        (fun m => m.hash % t._array.length == hash key % t._array.length),
        m.hash % t._array.length = hash key % t._array.length := by
      intro m hm
      simpa using List.mem_takeWhile_imp hm
    generalize (f :: bs).dropWhile
      (fun m => m.hash % t._array.length == hash key % t._array.length) = rest at hcontig hD
    generalize (f :: bs).takeWhile
      (fun m => m.hash % t._array.length == hash key % t._array.length) = run at hrunP hD
    have hnrun : n ∈ run := by
      rw [← hD] at hnD
      rcases List.mem_append.mp hnD with h1 | h1
      · exact h1
      · exact absurd hPn (hcontig n h1)
    obtain ⟨pre, post, hrun⟩ := List.append_of_mem hnrun
    subst hrun
    have hnodes : t._list.nodes = (as ++ pre) ++ n :: (post ++ rest) := by
      rw [hsplit, ← hD]; simp
    have hpreK : ∀ m ∈ pre, equal m.key key = false := by
      intro m hm
      have hu' : List.Pairwise (fun x y : Node K V => equal x.key y.key = false) t._list.nodes := hu
      rw [hnodes, List.pairwise_append] at hu'
      have hmn : equal m.key n.key = false := hu'.2.2 m (by simp [hm]) n (by simp)
      cases hmk : equal m.key key with
      | false => rfl
      | true =>
        have := heq.trans _ _ _ hmk (heq.symm _ _ hnk)
        rw [hmn] at this
        exact absurd this (by simp)
    unfold _find
    simp only [hhead, Option.map_some']
    rw [hsplit, chainFrom_at as bs f hasaddr, ← hD]
    simp only [List.append_assoc, List.cons_append]
    exact findWalk_found equal _ _ key pre _ n
      (fun m hm => ⟨hpreK m hm, hrunP m (by simp [hm])⟩) hnk

theorem unique_of_keysUnique (equal : K → K → Bool) (heq : IsEquivalence equal)
    (t : UnorderedMap K V) (hu : KeysUnique equal t) (key : K) (n m : Node K V)
    (hn : n ∈ t._list.nodes) (hm : m ∈ t._list.nodes)
    (hnk : equal n.key key = true) (hmk : equal m.key key = true) : n = m := by
  by_contra hne
  have hsym : Symmetric (fun x y : Node K V => equal x.key y.key = false) := by
    intro x y hxy
    cases hyx : equal y.key x.key with
    | false => rfl
    | true =>
      have := heq.symm _ _ hyx
      have hxy' : equal x.key y.key = false := hxy
      rw [hxy'] at this
      exact absurd this (by simp)
  have h1 : equal n.key m.key = false := List.Pairwise.forall hsym hu hn hm hne
  have h2 := heq.trans _ _ _ hnk (heq.symm _ _ hmk)
  rw [h1] at h2
  exact absurd h2 (by simp)

end FindCorrect

section SizeLemmas
variable {K V : Type}
open UnorderedMap

theorem WF.sizeInv {t : UnorderedMap K V} (h : WF t) : SizeInv t := ⟨h.list, h.tsize⟩

theorem new_SizeInv : SizeInv (UnorderedMap.new : UnorderedMap K V) := new_WF.sizeInv

theorem rehash_SizeInv (t : UnorderedMap K V) (n : Nat) (h : SizeInv t) :
    SizeInv (t.rehash n) := by
  obtain ⟨hp, hs, _⟩ := rehash_list t n h.list.lsize
  refine ⟨⟨(List.Perm.nodup_iff (hp.map Node.addr)).mpr h.list.nodup, hs⟩, ?_⟩
  rw [(rehash_frame t n).1, h.tsize, hp.length_eq]

theorem emplaceCore_SizeInv (hash : K → Nat) (equal : K → K → Bool) (t : UnorderedMap K V)
    (a : Nat) (key : K) (value : V) (h : SizeInv t) (hf : Fresh t a) :
    SizeInv (emplaceCore hash equal t a key value).1 := by
  rcases emplaceCore_eq hash equal t a key value hf with ⟨it, e⟩ | ⟨pos, arr, _, e⟩
  · rw [e]; exact h
  · rw [e]
    have hperm := insert_perm pos t._list.nodes ⟨a, key, value, hash key⟩
    refine ⟨⟨?_, ?_⟩, ?_⟩
    · refine (List.Perm.nodup_iff (hperm.map Node.addr)).mpr ?_
      simp only [List.map_cons, List.nodup_cons]
      refine ⟨?_, h.list.nodup⟩
      intro hm
      obtain ⟨n, hn, e⟩ := List.mem_map.mp hm
      exact hf n hn e
    · simp only []
      rw [hperm.length_eq, h.list.lsize]; simp
    · simp only []
      rw [hperm.length_eq, h.tsize]; simp

theorem emplace_SizeInv (hash : K → Nat) (equal : K → K → Bool) (t : UnorderedMap K V)
    (a : Nat) (key : K) (value : V) (h : SizeInv t) (hf : Fresh t a) :
    SizeInv (emplace hash equal t a key value).1 := by
  unfold emplace
  split
  · exact emplaceCore_SizeInv hash equal _ a key value (rehash_SizeInv t _ h)
      (rehash_fresh t _ a h.list.lsize hf)
  · exact emplaceCore_SizeInv hash equal t a key value h hf

theorem erase_SizeInv (t : UnorderedMap K V) (pos : Nat) (h : SizeInv t) (hl : Live t pos) :
    SizeInv (erase t pos).1 := by
  obtain ⟨x, hx, rfl⟩ := hl
  obtain ⟨pre, post, hn, hpre, _⟩ := split_of_mem h.list.nodup hx
  obtain ⟨arr, e, _⟩ := erase_eq t pre post x hn hpre
  rw [e]
  have hnd := h.list.nodup
  have hsz := h.list.lsize
  have hts := h.tsize
  rw [hn] at hnd hsz hts
  refine ⟨⟨?_, ?_⟩, ?_⟩
  · simp only []
    have hsub : (pre ++ post).Sublist (pre ++ x :: post) :=
      List.Sublist.append_left (List.sublist_cons_self x post) pre
    exact (hsub.map Node.addr).nodup hnd
  · simp only []; rw [hsz]; simp
  · simp only []; rw [hts]; simp

theorem reachableAny_SizeInv {hash : K → Nat} {equal : K → K → Bool} {t : UnorderedMap K V}
    (h : ReachableAny hash equal t) : SizeInv t := by
  induction h with
  | fresh => exact new_SizeInv
  | insert t a key value _ hf _ ih => exact emplace_SizeInv hash equal t a key value ih hf
  | erase t pos _ hl ih => exact erase_SizeInv t pos ih hl
  | rehash t n _ ih => exact rehash_SizeInv t n ih

end SizeLemmas
open UnorderedMap

/-! ## Scenario tables are reachable -/

theorem natEq_equivalence : IsEquivalence natEq :=
  ⟨by intro a; simp [natEq], by intro a b h; simp [natEq] at h ⊢; exact h.symm,
   by intro a b c h1 h2; simp [natEq] at h1 h2 ⊢; exact h1.trans h2⟩

theorem idHash_respects : HashRespects idHash natEq := by
  intro a b h
  simp [natEq] at h
  simp [idHash, h]

theorem table04_reachable : Reachable idHash natEq table04 :=
  Reachable.insert _ 1 4 14
    (Reachable.insert _ 0 0 10 Reachable.fresh (by decide)) (by decide)

theorem table048_reachable : Reachable idHash natEq table048 :=
  Reachable.insert _ 2 8 18 table04_reachable (by decide)

theorem table040_reachable : Reachable idHash natEq table040 :=
  Reachable.insert _ 2 0 99 table04_reachable (by decide)

theorem table048e0_reachable : Reachable idHash natEq table048e0 :=
  Reachable.insert _ 3 0 20
    (Reachable.erase _ 2 (Reachable.erase _ 1 table048_reachable (by decide)) (by decide))
    (by decide)

theorem reachable_any {K V : Type} {hash : K → Nat} {equal : K → K → Bool}
    {t : UnorderedMap K V} (h : Reachable hash equal t) : ReachableAny hash equal t := by
  induction h with
  | fresh => exact ReachableAny.fresh
  | insert t a key value ht hf ih => exact ReachableAny.insert t a key value ih hf (reachable_WF ht).bpos
  | erase t pos _ hl ih => exact ReachableAny.erase t pos ih hl
  | rehash t n _ _ ih => exact ReachableAny.rehash t n ih

/-! ## The claims -/

/-- C1 (defect of `rehash`): the table reached from a fresh table by inserting the keys 0, 4, 8
(identity hash) has the list 0, 4, 8 and four buckets, but its bucket entry 0 references the
node of key 4 (address 1) and not the first node of the run, so the bucket-head/contiguity
invariant does not hold on this reachable table. -/
theorem bucketInv_fails_after_insert_rehash :
    Reachable idHash natEq table048 ∧
    table048._list.nodes.map (fun n => (n.addr, n.key)) = [(0, 0), (1, 4), (2, 8)] ∧
    table048._array = [some 1, none, none, none] ∧
    ¬ BucketInv table048 :=
  ⟨table048_reachable, by decide, by decide, by decide⟩

/-- C2: in a table state with distinct node addresses, cached hash codes, at least one bucket,
the bucket-head/contiguity invariant and key uniqueness, and for an equality predicate that
is an equivalence respected by the hash function, `find(key)` returns the cursor of the node
whose key equals `key` when there is one (and that node is the only one), and `end()` when no
node holds `key`. -/
theorem find_correct {K V : Type} (hash : K → Nat) (equal : K → K → Bool)
    (heq : IsEquivalence equal) (hh : HashRespects hash equal) (t : UnorderedMap K V)
    (hnd : (t._list.nodes.map Node.addr).Nodup) (hc : HashCached hash t)
    (hpos : 1 ≤ t.bucket_count) (hb : BucketInv t) (hu : KeysUnique equal t) (key : K) :
    (∀ n ∈ t._list.nodes, equal n.key key = true →
      _find hash equal t key = some n.addr ∧
      ∀ m ∈ t._list.nodes, equal m.key key = true → m = n) ∧
    ((∀ n ∈ t._list.nodes, equal n.key key = false) → _find hash equal t key = none) :=
  ⟨fun n hn hnk =>
    ⟨find_of_present hash equal heq hh t hnd hc hpos hb hu key n hn hnk,
     fun m hm hmk => unique_of_keysUnique equal heq t hu key m n hm hn hmk hnk⟩,
   find_none_of_absent hash equal t key⟩

/-- Witness of C2 on the table holding the keys 0 and 4, looked up at key 4. -/
theorem find_correct_witness :
    ((table04._list.nodes.map Node.addr).Nodup ∧ HashCached idHash table04 ∧
      1 ≤ table04.bucket_count ∧ BucketInv table04 ∧ KeysUnique natEq table04) ∧
    ((∀ n ∈ table04._list.nodes, natEq n.key 4 = true →
      _find idHash natEq table04 4 = some n.addr ∧
      ∀ m ∈ table04._list.nodes, natEq m.key 4 = true → m = n) ∧
    ((∀ n ∈ table04._list.nodes, natEq n.key 4 = false) →
      _find idHash natEq table04 4 = none)) :=
  ⟨⟨by decide, by unfold HashCached; decide, by decide, by decide, by decide⟩,
   find_correct idHash natEq natEq_equivalence idHash_respects table04 (by decide)
    (by unfold HashCached; decide) (by decide) (by decide) (by decide) 4⟩

/-- C3: on every table reached from a fresh table by insert, erase and `rehash(n ≥ 1)`, the
insert of a key that no node holds (candidate node at a fresh address `a`, reflexive equality
predicate) reports success with a cursor to the new node, which holds `(key, value)`, and an
immediately following `find(key)` returns that same cursor, with or without a rehash. -/
theorem find_after_insert {K V : Type} (hash : K → Nat) (equal : K → K → Bool)
    (hrefl : ∀ k, equal k k = true) (t : UnorderedMap K V) (ht : Reachable hash equal t)
    (a : Nat) (key : K) (value : V) (hf : Fresh t a)
    (hk : ∀ n ∈ t._list.nodes, equal n.key key = false) :
    (emplace hash equal t a key value).2.2 = true ∧
    (∃ n ∈ (emplace hash equal t a key value).1._list.nodes,
      (emplace hash equal t a key value).2.1 = some n.addr ∧ n.key = key ∧ n.value = value) ∧
    _find hash equal (emplace hash equal t a key value).1 key =
      (emplace hash equal t a key value).2.1 := by
  obtain ⟨h1, h2, h3, h4⟩ := emplace_find hash equal hrefl t (reachable_WF ht) a key value hf hk
  exact ⟨h1, ⟨_, h3, h2, rfl, rfl⟩, by rw [h4, h2]⟩

/-- Witness of C3: inserting key 8 into the table holding 0 and 4, which triggers a rehash. -/
theorem find_after_insert_witness :
    (Fresh table04 2 ∧ ∀ n ∈ table04._list.nodes, natEq n.key 8 = false) ∧
    ((emplace idHash natEq table04 2 8 18).2.2 = true ∧
    (∃ n ∈ (emplace idHash natEq table04 2 8 18).1._list.nodes,
      (emplace idHash natEq table04 2 8 18).2.1 = some n.addr ∧ n.key = 8 ∧ n.value = 18) ∧
    _find idHash natEq (emplace idHash natEq table04 2 8 18).1 8 =
      (emplace idHash natEq table04 2 8 18).2.1) :=
  ⟨⟨by decide, by decide⟩,
   find_after_insert idHash natEq natEq_equivalence.refl table04 table04_reachable 2 8 18
    (by decide) (by decide)⟩

/-- C4 (defect of `rehash`): on the reachable table holding the keys 0 and 4, `find(0)` is not
`end()`, yet `insert((0, 99))` rehashes, reports success with a cursor to the candidate node
and leaves three nodes with keys 0, 4, 0 and `size() = 3`: the duplicate is not rejected. -/
theorem duplicate_insert_not_rejected :
    Reachable idHash natEq table04 ∧
    _find idHash natEq table04 0 = some 0 ∧
    (emplace idHash natEq table04 2 0 99).2 = (some 2, true) ∧
    (emplace idHash natEq table04 2 0 99).1.size = 3 ∧
    (emplace idHash natEq table04 2 0 99).1._list.nodes.map (fun n => (n.addr, n.key, n.value)) =
      [(0, 0, 10), (1, 4, 14), (2, 0, 99)] :=
  ⟨table04_reachable, by decide, by decide, by decide, by decide⟩

/-- C5 (defect of `rehash`): on the table reached by inserting 0, 4, 8, erasing the nodes of
4 and 8 and inserting 0 again, `find(0)` returns the node at address 3, and after
`erase(find(0))` a following `find(0)` still returns a node (address 0), not `end()`. -/
theorem find_after_erase_still_found :
    Reachable idHash natEq table048e0 ∧
    _find idHash natEq table048e0 0 = some 3 ∧
    _find idHash natEq (erase table048e0 3).1 0 = some 0 :=
  ⟨table048e0_reachable, by decide, by decide⟩

/-- C6 (defect of `rehash`): the table reached from a fresh table by the inserts of the keys
0, 4 and 0 again holds two nodes with key 0, so key uniqueness fails on a reachable table. -/
theorem keys_not_unique_after_insert_rehash :
    Reachable idHash natEq table040 ∧
    table040._list.nodes.map (fun n => (n.addr, n.key)) = [(0, 0), (1, 4), (2, 0)] ∧
    ¬ KeysUnique natEq table040 :=
  ⟨table040_reachable, by decide, by decide⟩

/-- C7 (defect of `rehash`): the table holding the keys 0 and 4 in two buckets satisfies the
representation invariant, the bucket-head/contiguity invariant and key uniqueness, `find(0)`
returns the node at address 0, and after `rehash(2)` the same lookup returns `end()`. -/
theorem rehash_loses_lookup :
    WF table04 ∧ BucketInv table04 ∧ KeysUnique natEq table04 ∧
    _find idHash natEq table04 0 = some 0 ∧
    _find idHash natEq (rehash table04 2) 0 = none ∧
    (rehash table04 2)._array = [some 1, none] :=
  ⟨reachable_WF table04_reachable, by decide, by decide, by decide, by decide, by decide⟩

/-- C8: for every table whose list is well formed (`_size` equal to the chain length) and every
`n`, after `rehash(n)` the list holds exactly the nodes it held before (a permutation of the
same records: same address, key, value and cached hash), `size()` and the list's own count are
unchanged, and if the addresses were distinct they still are, so that iterating from
`begin()` to `end()` visits every node exactly once. -/
theorem rehash_preserves_nodes {K V : Type} (t : UnorderedMap K V) (n : Nat)
    (hl : t._list._size = t._list.nodes.length) :
    (t.rehash n)._list.nodes.Perm t._list.nodes ∧
    (t.rehash n).size = t.size ∧
    (t.rehash n)._list._size = t._list._size ∧
    ((t._list.nodes.map Node.addr).Nodup → ((t.rehash n)._list.nodes.map Node.addr).Nodup) := by
  obtain ⟨hp, hs, _⟩ := rehash_list t n hl
  refine ⟨hp, (rehash_frame t n).1, ?_, fun h => (List.Perm.nodup_iff (hp.map Node.addr)).mpr h⟩
  rw [hs, hl, hp.length_eq]

/-- Witness of C8: `rehash(2)` on the table holding the keys 0 and 4. -/
theorem rehash_preserves_nodes_witness :
    table04._list._size = table04._list.nodes.length ∧
    ((table04.rehash 2)._list.nodes.Perm table04._list.nodes ∧
    (table04.rehash 2).size = table04.size ∧
    (table04.rehash 2)._list._size = table04._list._size ∧
    ((table04._list.nodes.map Node.addr).Nodup →
      ((table04.rehash 2)._list.nodes.map Node.addr).Nodup)) :=
  ⟨by decide, rehash_preserves_nodes table04 2 (by decide)⟩

/-- C9: on every table reached from a fresh table by inserts (successful or rejected), erases
of live nodes and `rehash` calls with any argument, `size()` equals the number of nodes in the
list and equals the list's own `_size`. -/
theorem size_tracks_list {K V : Type} (hash : K → Nat) (equal : K → K → Bool)
    (t : UnorderedMap K V) (ht : ReachableAny hash equal t) :
    t.size = t._list.nodes.length ∧ t.size = t._list._size := by
  have h := reachableAny_SizeInv ht
  exact ⟨h.tsize, by rw [h.list.lsize]; exact h.tsize⟩

/-- Witness of C9 on the table reached by inserting 0, 4, 8, erasing two nodes and inserting
0 again. -/
theorem size_tracks_list_witness :
    ReachableAny idHash natEq table048e0 ∧
    (table048e0.size = table048e0._list.nodes.length ∧
      table048e0.size = table048e0._list._size) :=
  ⟨reachable_any table048e0_reachable,
   size_tracks_list idHash natEq table048e0 (reachable_any table048e0_reachable)⟩

/-- C10 (defect of the load check): on a fresh table with `max_load_factor(0.25)` one insert
completes with `size() = 1` and `bucket_count() = 2`, so `size ≤ max_load_factor × bucket_count`
(`1 ≤ 0.25 × 2`, cross-multiplied `1 × 4 ≤ 1 × 2`) does not hold after the insert. -/
theorem load_bound_fails_for_quarter :
    tableQuarter.size = 1 ∧ tableQuarter.bucket_count = 2 ∧
    tableQuarter._max_load_factor = ⟨1, 4⟩ ∧
    ¬ (tableQuarter.size * tableQuarter._max_load_factor.den ≤
        tableQuarter._max_load_factor.num * tableQuarter.bucket_count) :=
  ⟨by decide, by decide, by decide, by decide⟩

section AtAndIndex
variable {K V : Type}

theorem elemWalk_eq_findWalk (equal : K → K → Bool) (bc idx : Nat) (key : K)
    (L : List (Node K V)) : elemWalk equal bc idx key L = findWalk equal bc idx key L := by
  induction L with
  | nil => rfl
  | cons x xs ih => simp only [elemWalk, findWalk, ih]

theorem constScan_of_findWalk (equal : K → K → Bool) (bc idx : Nat) (key : K)
    (L : List (Node K V)) (c : Nat) (h : findWalk equal bc idx key L = some c) :
    constScan equal key L = some c := by
  induction L with
  | nil => simp [findWalk] at h
  | cons x xs ih =>
    simp only [findWalk] at h
    simp only [constScan]
    by_cases hx : equal x.key key = true
    · simpa [hx] using h
    · simp only [hx] at h ⊢
      by_cases hm : x.hash % bc ≠ idx
      · simp [hm] at h
      · simp only [hm] at h
        exact ih h

theorem elem_by_index_of_found (hash : K → Nat) (equal : K → K → Bool) (dflt : V)
    (t : UnorderedMap K V) (a : Nat) (key : K) (c : Nat)
    (h : _find hash equal t key = some c) :
    _elem_by_index hash equal dflt t a key = (t, some c) := by
  unfold _find at h
  unfold _elem_by_index
  simp only [] at h ⊢
  cases he : t._array.getD (hash key % t._array.length) none with
  | none => rw [he] at h; cases h
  | some p =>
    rw [he] at h
    simp only [] at h ⊢
    rw [elemWalk_eq_findWalk, h]

theorem at_const_of_found (hash : K → Nat) (equal : K → K → Bool)
    (t : UnorderedMap K V) (key : K) (c : Nat)
    (h : _find hash equal t key = some c) :
    at_const hash equal t key = some (some c) := by
  unfold at_const
  rw [if_neg (by rw [h]; simp)]
  unfold _find at h
  simp only [] at h ⊢
  cases he : t._array.getD (hash key % t._array.length) none with
  | none => rw [he] at h; cases h
  | some p =>
    rw [he] at h
    simp only [] at h ⊢
    rw [constScan_of_findWalk equal _ _ key _ c h]

end AtAndIndex

section IndexAbsent
variable {K V : Type}

theorem emplaceCore_inserts_one (hash : K → Nat) (equal : K → K → Bool) (t : UnorderedMap K V)
    (h : WF t) (a : Nat) (key : K) (value : V) (hf : Fresh t a)
    (hk : ∀ n ∈ t._list.nodes, equal n.key key = false) :
    (emplaceCore hash equal t a key value).1._size = t._size + 1 ∧
    (emplaceCore hash equal t a key value).1._list.nodes.Perm
      (⟨a, key, value, hash key⟩ :: t._list.nodes) ∧
    (emplaceCore hash equal t a key value).1._array.length = t._array.length := by
  rcases emplaceCore_placed hash equal t h a key value hf hk with
    ⟨_, e⟩ | ⟨pre, x, run, rest, _, hn, _, _, _, e⟩
  · rw [e]
    exact ⟨rfl, List.Perm.refl _, by simp⟩
  · rw [e]
    refine ⟨rfl, ?_, rfl⟩
    simp only []
    rw [hn]
    exact List.perm_middle

theorem emplace_inserts_one (hash : K → Nat) (equal : K → K → Bool) (t : UnorderedMap K V)
    (h : WF t) (a : Nat) (key : K) (value : V) (hf : Fresh t a)
    (hk : ∀ n ∈ t._list.nodes, equal n.key key = false) :
    (emplace hash equal t a key value).1._size = t._size + 1 ∧
    (emplace hash equal t a key value).1._list.nodes.Perm
      (⟨a, key, value, hash key⟩ :: t._list.nodes) := by
  unfold emplace
  split
  · obtain ⟨hp, _, _⟩ := rehash_list t (2 * t._array.length) h.list.lsize
    obtain ⟨h1, h2, _⟩ := emplaceCore_inserts_one hash equal (t.rehash (2 * t._array.length))
      (rehash_WF t _ h (by have := h.bpos; omega)) a key value
      (rehash_fresh t _ a h.list.lsize hf) (fun n hn => hk n (hp.subset hn))
    refine ⟨by rw [h1, (rehash_frame t _).1], h2.trans (List.Perm.cons _ hp)⟩
  · obtain ⟨h1, h2, _⟩ := emplaceCore_inserts_one hash equal t h a key value hf hk
    exact ⟨h1, h2⟩

theorem elem_by_index_of_absent (hash : K → Nat) (equal : K → K → Bool) (dflt : V)
    (t : UnorderedMap K V) (a : Nat) (key : K)
    (hk : ∀ n ∈ t._list.nodes, equal n.key key = false) :
    _elem_by_index hash equal dflt t a key =
      ((emplace hash equal t a key dflt).1, (emplace hash equal t a key dflt).2.1) := by
  unfold _elem_by_index
  simp only []
  split
  · rfl
  · rename_i p hp
    rw [elemWalk_eq_findWalk,
      findWalk_none equal _ _ key _ (fun m hm => hk m (mem_chainFrom hm))]

end IndexAbsent

section ClampLemmas
variable {K V : Type}

theorem rehashStep_length (s : RehashState K V) (cur : Node K V) :
    (rehashStep s cur).new_array.length = s.new_array.length := by
  obtain ⟨pos, _, e⟩ := rehashStep_eq s cur
  rw [e]
  simp

theorem rehash_fold_length (R : List (Node K V)) :
    ∀ s : RehashState K V, (R.foldl rehashStep s).new_array.length = s.new_array.length := by
  induction R with
  | nil => intro s; rfl
  | cons cur R ih =>
    intro s
    simp only [List.foldl_cons]
    rw [ih, rehashStep_length]

theorem rehash_bucket_count (t : UnorderedMap K V) (n : Nat) :
    (t.rehash n)._array.length = rehashCount t n := by
  simp [rehash, rehash_fold_length]

theorem ceil_div_nat (A b : Nat) (hb : 0 < b) :
    ⌈(A : ℚ) / (b : ℚ)⌉₊ = (A + b - 1) / b := by
  have hbq : (0 : ℚ) < (b : ℚ) := by exact_mod_cast hb
  have hmul : (A + b - 1) / b * b ≤ A + b - 1 := Nat.div_mul_le_self _ _
  have hlt : A + b - 1 < ((A + b - 1) / b + 1) * b := by
    have := Nat.lt_div_mul_add hb (a := A + b - 1)
    rw [Nat.add_mul]
    omega
  apply le_antisymm
  · rw [Nat.ceil_le, div_le_iff₀ hbq]
    have h2 : A ≤ (A + b - 1) / b * b := by
      rw [Nat.add_mul] at hlt
      omega
    exact_mod_cast h2
  · rcases Nat.eq_zero_or_pos ((A + b - 1) / b) with h0 | hpos
    · rw [h0]; exact Nat.zero_le _
    · have h3 : (A + b - 1) / b - 1 < ⌈(A : ℚ) / (b : ℚ)⌉₊ := by
        rw [Nat.lt_ceil, lt_div_iff₀ hbq]
        have h4 : ((A + b - 1) / b - 1) * b < A := by
          have h5 : ((A + b - 1) / b - 1) * b + b = (A + b - 1) / b * b := by
            have h6 : (A + b - 1) / b = ((A + b - 1) / b - 1) + 1 := by omega
            nth_rewrite 2 [h6]
            rw [Nat.add_mul]
            omega
          omega
        exact_mod_cast h4
      omega

theorem rehashCount_eq_max (t : UnorderedMap K V) (n : Nat)
    (hnum : 0 < t._max_load_factor.num) (hden : 0 < t._max_load_factor.den) :
    rehashCount t n = max n ⌈(t._size : ℚ) / t._max_load_factor.toRat⌉₊ := by
  have hq : (t._size : ℚ) / t._max_load_factor.toRat =
      ((t._size * t._max_load_factor.den : Nat) : ℚ) / (t._max_load_factor.num : ℚ) := by
    have h1 : (t._max_load_factor.num : ℚ) ≠ 0 := by exact_mod_cast (Nat.pos_iff_ne_zero.mp hnum)
    have h2 : (t._max_load_factor.den : ℚ) ≠ 0 := by exact_mod_cast (Nat.pos_iff_ne_zero.mp hden)
    unfold LoadFactor.toRat
    push_cast
    field_simp
  rw [hq, ceil_div_nat _ _ hnum]
  unfold rehashCount
  split
  · rename_i h
    rw [max_eq_right]
    rw [Nat.le_div_iff_mul_le hnum]
    omega
  · rename_i h
    rw [max_eq_left]
    have h1 : t._size * t._max_load_factor.den ≤ n * t._max_load_factor.num := by omega
    rw [Nat.div_le_iff_le_mul_add_pred hnum]
    have h2 : t._max_load_factor.num * n = n * t._max_load_factor.num := Nat.mul_comm _ _
    omega

end ClampLemmas

section EraseBookkeeping
variable {K V : Type}

theorem lt_of_getD_some {arr : List (Option Nat)} {i p : Nat}
    (h : arr.getD i none = some p) : i < arr.length := by
  by_contra hc
  have : arr[i]? = none := by simp; omega
  simp [List.getD_eq_getElem?_getD, this] at h

theorem getD_set_ne {arr : List (Option Nat)} {i j : Nat} (v : Option Nat) (h : j ≠ i) :
    (arr.set i v).getD j none = arr.getD j none := by
  simp [List.getD_eq_getElem?_getD, List.getElem?_set_ne (Ne.symm h)]

/-- The bucket array after `erase` of the live node `x`. -/
theorem erase_array (t : UnorderedMap K V) (pre post : List (Node K V)) (x : Node K V)
    (hn : t._list.nodes = pre ++ x :: post) (h : ∀ n ∈ pre, n.addr ≠ x.addr) :
    (erase t x.addr).1._array =
      if t._array.getD (x.hash % t._array.length) none = some x.addr then
        (match post.head? with
          | none => t._array.set (x.hash % t._array.length) none
          | some y =>
            if y.hash % t._array.length = x.hash % t._array.length then
              t._array.set (x.hash % t._array.length) (some y.addr)
            else t._array.set (x.hash % t._array.length) none)
      else t._array := by
  obtain ⟨⟨nodes, lsz⟩, arr0, sz, mlf⟩ := t
  simp only [] at hn
  subst hn
  simp only [erase, find_at pre post x h, LinkedList.erase, nextOf_at pre post x h,
    eraseP_at pre post x h]
  by_cases he : arr0.getD (x.hash % arr0.length) none = some x.addr
  · have he2 := he
    simp only [List.getD_eq_getElem?_getD] at he2
    cases post with
    | nil => simp [he2]
    | cons y ys =>
      by_cases hy : y.hash % arr0.length = x.hash % arr0.length
      · simp [he2, hy]
      · simp [he2, hy]
  · have he2 := he
    simp only [List.getD_eq_getElem?_getD] at he2
    simp [he2]

end EraseBookkeeping

section LoadBound
variable {K V : Type}

theorem emplaceCore_frame (hash : K → Nat) (equal : K → K → Bool) (t : UnorderedMap K V)
    (a : Nat) (key : K) (value : V) (hf : Fresh t a) :
    (emplaceCore hash equal t a key value).1._max_load_factor = t._max_load_factor ∧
    (emplaceCore hash equal t a key value).1._array.length = t._array.length ∧
    (emplaceCore hash equal t a key value).1._size ≤ t._size + 1 := by
  rcases emplaceCore_eq hash equal t a key value hf with ⟨it, e⟩ | ⟨pos, arr, harr, e⟩
  · rw [e]; exact ⟨rfl, rfl, Nat.le_succ _⟩
  · rw [e]
    refine ⟨rfl, ?_, Nat.le_refl _⟩
    rcases harr with e | e <;> simp [e]

theorem erase_frame (t : UnorderedMap K V) (pos : Nat) (h : SizeInv t) (hl : Live t pos) :
    (erase t pos).1._max_load_factor = t._max_load_factor ∧
    (erase t pos).1._array.length = t._array.length ∧
    (erase t pos).1._size + 1 = t._size := by
  obtain ⟨x, hx, rfl⟩ := hl
  obtain ⟨pre, post, hn, hpre, _⟩ := split_of_mem h.list.nodup hx
  obtain ⟨arr, e, harr⟩ := erase_eq t pre post x hn hpre
  rw [e]
  refine ⟨rfl, ?_, ?_⟩
  · rcases harr with ⟨_, e⟩ | ⟨_, _, _, _, _, e⟩ | ⟨_, e⟩ <;> simp [e]
  · have := h.tsize
    rw [hn] at this
    simp only []
    rw [this]
    simp only [List.length_append, List.length_cons]
    omega

theorem rehashCount_default (t : UnorderedMap K V) (n : Nat)
    (hm : t._max_load_factor = ⟨1, 1⟩) : rehashCount t n = max n t._size := by
  unfold rehashCount
  rw [hm]
  simp only [Nat.mul_one, Nat.add_sub_cancel, Nat.div_one]
  split
  · rw [max_eq_right]; omega
  · rw [max_eq_left]; omega

theorem needsRehash_default (t : UnorderedMap K V) (hm : t._max_load_factor = ⟨1, 1⟩) :
    needsRehash t = decide (t._array.length < t._size + 1) := by
  unfold needsRehash
  rw [hm]
  simp

/-- Default-configuration load bound as an invariant of all reachable tables. -/
theorem reachable_load_bound {hash : K → Nat} {equal : K → K → Bool} {t : UnorderedMap K V}
    (h : Reachable hash equal t) :
    t._max_load_factor = ⟨1, 1⟩ ∧ t._size ≤ t._array.length := by
  induction h with
  | fresh => exact ⟨rfl, by simp [UnorderedMap.new]⟩
  | insert t a key value ht hf ih =>
    have hwf := reachable_WF ht
    obtain ⟨hm, hs⟩ := ih
    unfold emplace
    rw [needsRehash_default t hm]
    by_cases hc : t._array.length < t._size + 1
    · simp only [hc, decide_True, if_true]
      obtain ⟨h1, h2, h3⟩ := emplaceCore_frame hash equal (t.rehash (2 * t._array.length)) a
        key value (rehash_fresh t _ a hwf.list.lsize hf)
      rw [h1, h2, rehash_bucket_count, rehashCount_default t _ hm, (rehash_frame t _).2]
      rw [(rehash_frame t _).1] at h3
      have := hwf.bpos
      refine ⟨hm, ?_⟩
      have : 2 * t._array.length ≤ max (2 * t._array.length) t._size := le_max_left _ _
      omega
    · simp only [hc, decide_False, Bool.false_eq_true, if_false]
      obtain ⟨h1, h2, h3⟩ := emplaceCore_frame hash equal t a key value hf
      rw [h1, h2]
      exact ⟨hm, by omega⟩
  | erase t pos ht hl ih =>
    obtain ⟨hm, hs⟩ := ih
    obtain ⟨h1, h2, h3⟩ := erase_frame t pos (reachable_WF ht).sizeInv hl
    rw [h1, h2]
    exact ⟨hm, by omega⟩
  | rehash t n ht hn ih =>
    obtain ⟨hm, hs⟩ := ih
    rw [(rehash_frame t n).2, (rehash_frame t n).1, rehash_bucket_count,
      rehashCount_default t n hm]
    exact ⟨hm, le_max_right _ _⟩

theorem reachable_of_insertErase {hash : K → Nat} {equal : K → K → Bool}
    {t : UnorderedMap K V} (h : ReachableByInsertErase hash equal t) :
    Reachable hash equal t := by
  induction h with
  | fresh => exact Reachable.fresh
  | insert t a key value _ hf ih => exact Reachable.insert t a key value ih hf
  | erase t pos _ hl ih => exact Reachable.erase t pos ih hl

end LoadBound

section EraseAll
variable {K V : Type}

theorem eraseAll_spec (order : List Nat) :
    ∀ t : UnorderedMap K V, WF t → order.Perm (t._list.nodes.map Node.addr) →
      WF (eraseAll t order) ∧ (eraseAll t order)._list.nodes = [] ∧
      (eraseAll t order)._array.length = t._array.length := by
  induction order with
  | nil =>
    intro t h hp
    have : t._list.nodes.map Node.addr = [] := List.Perm.eq_nil (hp.symm)
    exact ⟨h, by simpa using this, rfl⟩
  | cons p ps ih =>
    intro t h hp
    have hmem : p ∈ t._list.nodes.map Node.addr := hp.subset (by simp)
    obtain ⟨x, hx, hxa⟩ := List.mem_map.mp hmem
    obtain ⟨pre, post, hn, hpre, _⟩ := split_of_mem h.list.nodup hx
    obtain ⟨arr, e, _⟩ := erase_eq t pre post x hn hpre
    have hlive : Live t p := ⟨x, hx, hxa⟩
    have hwf := erase_WF t p h hlive
    have hlen := (erase_frame t p h.sizeInv hlive).2.1
    have hnodes : (erase t p).1._list.nodes = pre ++ post := by rw [← hxa, e]
    have hps : ps.Perm ((erase t p).1._list.nodes.map Node.addr) := by
      rw [hnodes]
      rw [hn] at hp
      simp only [List.map_append, List.map_cons, hxa] at hp ⊢
      exact (hp.trans List.perm_middle).cons_inv
    obtain ⟨h1, h2, h3⟩ := ih (erase t p).1 hwf hps
    refine ⟨h1, h2, ?_⟩
    rw [← hlen]
    exact h3

end EraseAll

/-! ## Claims C11 to C20 -/

theorem table04_reachable_ie : ReachableByInsertErase idHash natEq table04 :=
  ReachableByInsertErase.insert _ 1 4 14
    (ReachableByInsertErase.insert _ 0 0 10 ReachableByInsertErase.fresh (by decide)) (by decide)

theorem tableSplit_reachable : Reachable idHash natEq tableSplit :=
  Reachable.insert _ 3 12 22
    (Reachable.erase _ 2
      (Reachable.rehash _ 4
        (Reachable.insert _ 2 8 18
          (Reachable.insert _ 1 1 11
            (Reachable.insert _ 0 4 14 Reachable.fresh (by decide)) (by decide)) (by decide))
        (by decide))
      (by decide))
    (by decide)

/-- C11: on every table reached from a fresh table by insert/emplace and erase calls (max
load factor left at 1.0), `size() ≤ bucket_count()`, that is `load_factor() ≤
max_load_factor()` (cross-multiplied). -/
theorem load_bound_default {K V : Type} (hash : K → Nat) (equal : K → K → Bool)
    (t : UnorderedMap K V) (ht : ReachableByInsertErase hash equal t) :
    t.size ≤ t.bucket_count ∧ t._max_load_factor = ⟨1, 1⟩ ∧
    t.size * t._max_load_factor.den ≤ t._max_load_factor.num * t.bucket_count := by
  obtain ⟨hm, hs⟩ := reachable_load_bound (reachable_of_insertErase ht)
  refine ⟨hs, hm, ?_⟩
  rw [hm]
  simpa [UnorderedMap.size, UnorderedMap.bucket_count] using hs

/-- Witness of C11 on the table reached by the inserts of the keys 0 and 4. -/
theorem load_bound_default_witness :
    ReachableByInsertErase idHash natEq table04 ∧
    (table04.size ≤ table04.bucket_count ∧ table04._max_load_factor = ⟨1, 1⟩ ∧
      table04.size * table04._max_load_factor.den ≤
        table04._max_load_factor.num * table04.bucket_count) :=
  ⟨table04_reachable_ie, load_bound_default idHash natEq table04 table04_reachable_ie⟩

/-- C12 (missing guard in `rehash`): on a freshly constructed, empty table `rehash(0)` and
`reserve(0)` both leave `bucket_count() = 0` (the clamp `ceil(0 / 1.0)` is 0), although the
table is reachable; `hash % bucket_count` is then undefined for the next insert. -/
theorem bucket_count_zero_after_rehash_zero :
    ReachableAny idHash natEq (rehash (UnorderedMap.new : UnorderedMap Nat Nat) 0) ∧
    (rehash (UnorderedMap.new : UnorderedMap Nat Nat) 0).bucket_count = 0 ∧
    (reserve (UnorderedMap.new : UnorderedMap Nat Nat) 0).bucket_count = 0 :=
  ⟨ReachableAny.rehash _ 0 ReachableAny.fresh, by decide, by decide⟩

/-- C13: in every table state, both overloads of `at(key)` throw exactly when `find(key)` is
`end()`; otherwise both return the value of the node `find(key)` returns, and the mutable
overload (through `operator[]`) returns the table unchanged. -/
theorem at_spec {K V : Type} (hash : K → Nat) (equal : K → K → Bool) (dflt : V)
    (t : UnorderedMap K V) (a : Nat) (key : K) :
    (at_key hash equal dflt t a key = none ↔ _find hash equal t key = none) ∧
    (at_const hash equal t key = none ↔ _find hash equal t key = none) ∧
    (∀ c, _find hash equal t key = some c →
      at_key hash equal dflt t a key = some (t, some c) ∧
      at_const hash equal t key = some (some c)) := by
  refine ⟨?_, ?_, ?_⟩
  · unfold at_key
    by_cases h : _find hash equal t key = none
    · simp [h]
    · simp [h]
  · cases h : _find hash equal t key with
    | none => simp [at_const, h]
    | some c => simp [at_const_of_found hash equal t key c h]
  · intro c h
    refine ⟨?_, at_const_of_found hash equal t key c h⟩
    unfold at_key index
    rw [if_neg (by rw [h]; simp), elem_by_index_of_found hash equal dflt t a key c h]

/-- Witness of C13 on the table holding the keys 0 and 4, queried at key 4. -/
theorem at_spec_witness :
    _find idHash natEq table04 4 = some 1 ∧
    (at_key idHash natEq 0 table04 2 4 = some (table04, some 1) ∧
      at_const idHash natEq table04 4 = some (some 1)) :=
  ⟨by decide, (at_spec idHash natEq 0 table04 2 4).2.2 1 (by decide)⟩

/-- C14: `operator[]` with default value `dflt`. If `find(key)` is not `end()` it returns the
value of the node `find(key)` returns and the table unchanged. If no node holds `key` (table
in a state of the representation invariant, candidate node at a fresh address `a`) it
inserts exactly the node `(key, dflt)`, `size()` grows by one, the returned reference is to
the new node and `find(key)` then returns that node. It is a total function: there is no
missing-key error. -/
theorem index_get_or_default {K V : Type} (hash : K → Nat) (equal : K → K → Bool)
    (hrefl : ∀ k, equal k k = true) (dflt : V) (t : UnorderedMap K V) (a : Nat) (key : K) :
    (∀ c, _find hash equal t key = some c →
      index hash equal dflt t a key = (t, some c)) ∧
    (WF t → Fresh t a → (∀ n ∈ t._list.nodes, equal n.key key = false) →
      (index hash equal dflt t a key).1.size = t.size + 1 ∧
      (index hash equal dflt t a key).1._list.nodes.Perm
        (⟨a, key, dflt, hash key⟩ :: t._list.nodes) ∧
      (index hash equal dflt t a key).2 = some a ∧
      _find hash equal (index hash equal dflt t a key).1 key = some a) := by
  refine ⟨fun c h => elem_by_index_of_found hash equal dflt t a key c h, ?_⟩
  intro hwf hf hk
  unfold index
  rw [elem_by_index_of_absent hash equal dflt t a key hk]
  obtain ⟨_, h2, _, h4⟩ := emplace_find hash equal hrefl t hwf a key dflt hf hk
  obtain ⟨h5, h6⟩ := emplace_inserts_one hash equal t hwf a key dflt hf hk
  exact ⟨h5, h6, h2, h4⟩

/-- Witness of C14 on the table holding the keys 0 and 4: key 4 is found, key 8 is inserted
at address 2 with the default value 0. -/
theorem index_get_or_default_witness :
    (_find idHash natEq table04 4 = some 1 ∧ Fresh table04 2 ∧
      ∀ n ∈ table04._list.nodes, natEq n.key 8 = false) ∧
    index idHash natEq 0 table04 2 4 = (table04, some 1) ∧
    ((index idHash natEq 0 table04 2 8).1.size = table04.size + 1 ∧
      (index idHash natEq 0 table04 2 8).1._list.nodes.Perm
        (⟨2, 8, 0, idHash 8⟩ :: table04._list.nodes) ∧
      (index idHash natEq 0 table04 2 8).2 = some 2 ∧
      _find idHash natEq (index idHash natEq 0 table04 2 8).1 8 = some 2) :=
  ⟨⟨by decide, by decide, by decide⟩,
   (index_get_or_default idHash natEq natEq_equivalence.refl 0 table04 2 4).1 1 (by decide),
   (index_get_or_default idHash natEq natEq_equivalence.refl 0 table04 2 8).2
     (reachable_WF table04_reachable) (by decide) (by decide)⟩

/-- C15: bookkeeping of `erase(cursor)` on a live node `x` (list `pre ++ x :: post`, list
and size in step) with `idx = x.hash % bucket_count`: `size()` drops by one, the list becomes
`pre ++ post`, the returned cursor is the successor of `x` (`end()` if none), the bucket
count and every entry other than `idx` are unchanged; entry `idx` becomes null if `x` was its
head and the successor is the sentinel or of another bucket, becomes the successor if `x` was
its head and the successor has the same reduced hash, and is unchanged otherwise. -/
theorem erase_bookkeeping {K V : Type} (t : UnorderedMap K V) (h : SizeInv t)
    (pre post : List (Node K V)) (x : Node K V) (hn : t._list.nodes = pre ++ x :: post) :
    (erase t x.addr).1.size + 1 = t.size ∧
    (erase t x.addr).1._list.nodes = pre ++ post ∧
    (erase t x.addr).2 = post.head?.map Node.addr ∧
    (erase t x.addr).1.bucket_count = t.bucket_count ∧
    (∀ i, i ≠ x.hash % t.bucket_count →
      (erase t x.addr).1._array.getD i none = t._array.getD i none) ∧
    (t._array.getD (x.hash % t.bucket_count) none = some x.addr →
      (post.head? = none ∨
        ∃ y, post.head? = some y ∧ y.hash % t.bucket_count ≠ x.hash % t.bucket_count) →
      (erase t x.addr).1._array.getD (x.hash % t.bucket_count) none = none) ∧
    (t._array.getD (x.hash % t.bucket_count) none = some x.addr →
      ∀ y, post.head? = some y → y.hash % t.bucket_count = x.hash % t.bucket_count →
      (erase t x.addr).1._array.getD (x.hash % t.bucket_count) none = some y.addr) ∧
    (t._array.getD (x.hash % t.bucket_count) none ≠ some x.addr →
      (erase t x.addr).1._array.getD (x.hash % t.bucket_count) none =
        t._array.getD (x.hash % t.bucket_count) none) := by
  have hx : x ∈ t._list.nodes := by rw [hn]; simp
  have hnd := h.list.nodup
  rw [hn] at hnd
  have hpre : ∀ n ∈ pre, n.addr ≠ x.addr := by
    intro n hm hc
    rw [List.map_append, List.nodup_append] at hnd
    exact hnd.2.2 (List.mem_map_of_mem _ hm) (by simp [hc])
  obtain ⟨arr, e, _⟩ := erase_eq t pre post x hn hpre
  have harr := erase_array t pre post x hn hpre
  obtain ⟨_, h2, h3⟩ := erase_frame t x.addr h ⟨x, hx, rfl⟩
  simp only [UnorderedMap.size, UnorderedMap.bucket_count]
  refine ⟨h3, by rw [e], by rw [e], h2, ?_, ?_, ?_, ?_⟩
  · intro i hi
    rw [harr]
    split
    · split
      · exact getD_set_ne _ hi
      · split
        · exact getD_set_ne _ hi
        · exact getD_set_ne _ hi
    · rfl
  · intro he hsucc
    rw [harr, if_pos he]
    have hlt := lt_of_getD_some he
    rcases hsucc with h0 | ⟨y, hy, hne⟩
    · rw [h0]; exact getD_set_self _ hlt
    · rw [hy]
      simp only [if_neg hne]
      exact getD_set_self _ hlt
  · intro he y hy hsame
    rw [harr, if_pos he, hy]
    simp only [if_pos hsame]
    exact getD_set_self _ (lt_of_getD_some he)
  · intro he
    rw [harr, if_neg he]

/-- Witness of C15: `erase` of the node of key 4 (address 1) in the table holding 0, 4, 8. -/
theorem erase_bookkeeping_witness :
    (SizeInv table048 ∧
      table048._list.nodes = [⟨0, 0, 10, 0⟩] ++ ⟨1, 4, 14, 4⟩ :: [⟨2, 8, 18, 8⟩]) ∧
    (erase table048 1).1.size + 1 = table048.size ∧
    (erase table048 1).1._list.nodes = [⟨0, 0, 10, 0⟩] ++ [⟨2, 8, 18, 8⟩] ∧
    (erase table048 1).2 = some 2 :=
  have h := erase_bookkeeping table048 (reachable_WF table048_reachable).sizeInv
    [⟨0, 0, 10, 0⟩] [⟨2, 8, 18, 8⟩] ⟨1, 4, 14, 4⟩ (by decide)
  ⟨⟨(reachable_WF table048_reachable).sizeInv, by decide⟩, h.1, h.2.1, h.2.2.1⟩

/-- C16: for every table with size `s`, positive max load factor `m` and every `n`, after
`rehash(n)` the bucket count is `max(n, ceil(s / m))`; so it is at least `ceil(s / m)` and
equals `n` whenever `n ≥ s / m`. -/
theorem rehash_clamp {K V : Type} (t : UnorderedMap K V) (n : Nat)
    (hnum : 0 < t._max_load_factor.num) (hden : 0 < t._max_load_factor.den) :
    (t.rehash n).bucket_count = max n ⌈(t.size : ℚ) / t._max_load_factor.toRat⌉₊ ∧
    ⌈(t.size : ℚ) / t._max_load_factor.toRat⌉₊ ≤ (t.rehash n).bucket_count ∧
    ((t.size : ℚ) / t._max_load_factor.toRat ≤ (n : ℚ) → (t.rehash n).bucket_count = n) := by
  have h : (t.rehash n).bucket_count = max n ⌈(t.size : ℚ) / t._max_load_factor.toRat⌉₊ := by
    unfold UnorderedMap.bucket_count UnorderedMap.size
    rw [rehash_bucket_count, rehashCount_eq_max t n hnum hden]
  refine ⟨h, by rw [h]; exact le_max_right _ _, ?_⟩
  intro hle
  rw [h]
  exact max_eq_left (Nat.ceil_le.mpr hle)

/-- Witness of C16: `rehash(1)` on the table holding three keys with max load factor 1. -/
theorem rehash_clamp_witness :
    (0 < table048._max_load_factor.num ∧ 0 < table048._max_load_factor.den) ∧
    ((table048.rehash 1).bucket_count =
        max 1 ⌈(table048.size : ℚ) / table048._max_load_factor.toRat⌉₊ ∧
      ⌈(table048.size : ℚ) / table048._max_load_factor.toRat⌉₊ ≤
        (table048.rehash 1).bucket_count ∧
      ((table048.size : ℚ) / table048._max_load_factor.toRat ≤ ((1 : Nat) : ℚ) →
        (table048.rehash 1).bucket_count = 1)) :=
  ⟨⟨by decide, by decide⟩, rehash_clamp table048 1 (by decide) (by decide)⟩

/-- C17: the keys 0..9 inserted in order into a fresh table under the identity hash: every
insert reports success, the bucket count ends at 16, the size at 10, `find(k)` returns a
node with key `k` for each `k` in 0..9, and the list holds exactly 10 nodes, each key of
0..9 once. -/
theorem scenario_zero_to_nine :
    scenario09.2 = List.replicate 10 true ∧
    scenario09.1.bucket_count = 16 ∧
    scenario09.1.size = 10 ∧
    (∀ k, k < 10 → ∃ n ∈ scenario09.1._list.nodes,
      _find idHash natEq scenario09.1 k = some n.addr ∧ n.key = k) ∧
    scenario09.1._list.nodes.length = 10 ∧
    (∀ k, k < 10 → (scenario09.1._list.nodes.map Node.key).count k = 1) :=
  ⟨by decide, by decide, by decide, by decide, by decide, by decide⟩

/-- C18 (defect of `rehash`): under a constant hash the pairwise distinct keys 1, 2, 3
inserted into a fresh table all report success and the list holds 1, 2, 3, but afterwards
`find(1)` returns `end()` and inserting key 1 again reports success instead of failure. -/
theorem constant_hash_lookup_fails :
    scenarioConst.2 = [true, true, true] ∧
    scenarioConst.1._list.nodes.map Node.key = [1, 2, 3] ∧
    scenarioConst.1._array = [some 1, none, none, none] ∧
    _find constHash natEq scenarioConst.1 1 = none ∧
    (emplace constHash natEq scenarioConst.1 3 1 11).2.2 = true :=
  ⟨by decide, by decide, by decide, by decide, by decide⟩

/-- C19: on every table reached from a fresh table by insert, erase and `rehash(n ≥ 1)`,
erasing all nodes one by one in any order (`order` is a permutation of the node addresses)
leaves `size() = 0`, `begin() = end()`, the bucket count unchanged and every bucket entry
null. -/
theorem erase_all_empties_index {K V : Type} (hash : K → Nat) (equal : K → K → Bool)
    (t : UnorderedMap K V) (ht : Reachable hash equal t) (order : List Nat)
    (hp : order.Perm (t._list.nodes.map Node.addr)) :
    (eraseAll t order).size = 0 ∧
    (eraseAll t order).begin = none ∧
    (eraseAll t order).bucket_count = t.bucket_count ∧
    (∀ i, (eraseAll t order)._array.getD i none = none) := by
  obtain ⟨hwf, hnil, hlen⟩ := eraseAll_spec order t (reachable_WF ht) hp
  refine ⟨?_, ?_, hlen, ?_⟩
  · have := hwf.tsize
    rw [hnil] at this
    exact this
  · simp [UnorderedMap.begin, LinkedList.begin, hnil]
  · intro i
    cases hi : (eraseAll t order)._array.getD i none with
    | none => rfl
    | some p =>
      obtain ⟨n, hn, _⟩ := hwf.entries i p hi
      rw [hnil] at hn
      cases hn

/-- Witness of C19: the nodes of the table holding 0, 4, 8 erased in the order 4, 0, 8. -/
theorem erase_all_empties_index_witness :
    [1, 0, 2].Perm (table048._list.nodes.map Node.addr) ∧
    ((eraseAll table048 [1, 0, 2]).size = 0 ∧
      (eraseAll table048 [1, 0, 2]).begin = none ∧
      (eraseAll table048 [1, 0, 2]).bucket_count = table048.bucket_count ∧
      (∀ i, (eraseAll table048 [1, 0, 2])._array.getD i none = none)) :=
  ⟨by decide,
   erase_all_empties_index idHash natEq table048 table048_reachable [1, 0, 2] (by decide)⟩

/-- C20 (consequence of the defect of `rehash`): the reachable table `tableSplit` has the
list 12, 1, 4 with the nodes of bucket 0 not adjacent. Its copy (nodes at the addresses 10,
11, 12) has the same size, bucket count, max load factor and payloads in the same order, and
its entries reference its own nodes, but entry 0 references the node of key 4 (address 12),
not the first node of the copy with reduced hash 0 (key 12, address 10); `find(12)` succeeds
on the original and returns `end()` on the copy. -/
theorem copy_entry_not_first :
    Reachable idHash natEq tableSplit ∧
    (copy tableSplit [10, 11, 12]).size = tableSplit.size ∧
    (copy tableSplit [10, 11, 12]).bucket_count = tableSplit.bucket_count ∧
    (copy tableSplit [10, 11, 12])._max_load_factor = tableSplit._max_load_factor ∧
    (copy tableSplit [10, 11, 12])._list.nodes.map (fun n => (n.key, n.value, n.hash)) =
      tableSplit._list.nodes.map (fun n => (n.key, n.value, n.hash)) ∧
    (copy tableSplit [10, 11, 12])._list.nodes.map (fun n => (n.addr, n.key)) =
      [(10, 12), (11, 1), (12, 4)] ∧
    (copy tableSplit [10, 11, 12])._array = [some 12, some 11, none, none] ∧
    ((copy tableSplit [10, 11, 12])._list.nodes.find?
      (fun n => n.hash % (copy tableSplit [10, 11, 12]).bucket_count == 0)).map Node.addr =
      some 10 ∧
    _find idHash natEq tableSplit 12 = some 3 ∧
    _find idHash natEq (copy tableSplit [10, 11, 12]) 12 = none :=
  ⟨tableSplit_reachable, by decide, by decide, by decide, by decide, by decide, by decide,
   by decide, by decide, by decide⟩

section RawBasics
variable {K V : Type}

@[simp] theorem Mem.setNext_next (m : Mem K V) (p q r : Ptr) :
    (m.setNext p q).next r = if r = p then q else m.next r := rfl
@[simp] theorem Mem.setNext_prev (m : Mem K V) (p q : Ptr) : (m.setNext p q).prev = m.prev := rfl
@[simp] theorem Mem.setNext_alloc (m : Mem K V) (p q : Ptr) : (m.setNext p q).alloc = m.alloc := rfl
@[simp] theorem Mem.setNext_payload (m : Mem K V) (p q : Ptr) :
    (m.setNext p q).payload = m.payload := rfl
@[simp] theorem Mem.setNext_hash (m : Mem K V) (p q : Ptr) : (m.setNext p q).hash = m.hash := rfl

@[simp] theorem Mem.setPrev_prev (m : Mem K V) (p q r : Ptr) :
    (m.setPrev p q).prev r = if r = p then q else m.prev r := rfl
@[simp] theorem Mem.setPrev_next (m : Mem K V) (p q : Ptr) : (m.setPrev p q).next = m.next := rfl
@[simp] theorem Mem.setPrev_alloc (m : Mem K V) (p q : Ptr) : (m.setPrev p q).alloc = m.alloc := rfl
@[simp] theorem Mem.setPrev_payload (m : Mem K V) (p q : Ptr) :
    (m.setPrev p q).payload = m.payload := rfl
@[simp] theorem Mem.setPrev_hash (m : Mem K V) (p q : Ptr) : (m.setPrev p q).hash = m.hash := rfl

@[simp] theorem Mem.allocate_next (m : Mem K V) (a : Nat) : (m.allocate a).next = m.next := rfl
@[simp] theorem Mem.allocate_prev (m : Mem K V) (a : Nat) : (m.allocate a).prev = m.prev := rfl
@[simp] theorem Mem.allocate_alloc (m : Mem K V) (a b : Nat) :
    (m.allocate a).alloc b = if b = a then true else m.alloc b := rfl
@[simp] theorem Mem.allocate_payload (m : Mem K V) (a : Nat) :
    (m.allocate a).payload = m.payload := rfl
@[simp] theorem Mem.allocate_hash (m : Mem K V) (a : Nat) : (m.allocate a).hash = m.hash := rfl

@[simp] theorem Mem.deallocate_next (m : Mem K V) (a : Nat) : (m.deallocate a).next = m.next := rfl
@[simp] theorem Mem.deallocate_prev (m : Mem K V) (a : Nat) : (m.deallocate a).prev = m.prev := rfl
@[simp] theorem Mem.deallocate_alloc (m : Mem K V) (a b : Nat) :
    (m.deallocate a).alloc b = if b = a then false else m.alloc b := rfl
@[simp] theorem Mem.deallocate_payload (m : Mem K V) (a : Nat) :
    (m.deallocate a).payload = m.payload := rfl
@[simp] theorem Mem.deallocate_hash (m : Mem K V) (a : Nat) :
    (m.deallocate a).hash = m.hash := rfl

@[simp] theorem Mem.construct_next (m : Mem K V) (a h : Nat) (kv : K × V) (r : Ptr) :
    (m.construct a h kv).next r = if r = Ptr.node a then Ptr.node a else m.next r := rfl
@[simp] theorem Mem.construct_prev (m : Mem K V) (a h : Nat) (kv : K × V) (r : Ptr) :
    (m.construct a h kv).prev r = if r = Ptr.node a then Ptr.node a else m.prev r := rfl
@[simp] theorem Mem.construct_alloc (m : Mem K V) (a h : Nat) (kv : K × V) :
    (m.construct a h kv).alloc = m.alloc := rfl
@[simp] theorem Mem.construct_payload (m : Mem K V) (a h : Nat) (kv : K × V) (b : Nat) :
    (m.construct a h kv).payload b = if b = a then some kv else m.payload b := rfl
@[simp] theorem Mem.construct_hash (m : Mem K V) (a h : Nat) (kv : K × V) (b : Nat) :
    (m.construct a h kv).hash b = if b = a then h else m.hash b := rfl

@[simp] theorem Mem.constructCopy_next (m : Mem K V) (a src : Nat) (r : Ptr) :
    (m.constructCopy a src).next r = if r = Ptr.node a then Ptr.node a else m.next r := rfl
@[simp] theorem Mem.constructCopy_prev (m : Mem K V) (a src : Nat) (r : Ptr) :
    (m.constructCopy a src).prev r = if r = Ptr.node a then Ptr.node a else m.prev r := rfl
@[simp] theorem Mem.constructCopy_alloc (m : Mem K V) (a src : Nat) :
    (m.constructCopy a src).alloc = m.alloc := rfl
@[simp] theorem Mem.constructCopy_payload (m : Mem K V) (a src b : Nat) :
    (m.constructCopy a src).payload b = if b = a then m.payload src else m.payload b := rfl
@[simp] theorem Mem.constructCopy_hash (m : Mem K V) (a src b : Nat) :
    (m.constructCopy a src).hash b = if b = a then m.hash src else m.hash b := rfl

@[simp] theorem Mem.release_next (m : Mem K V) (p : Ptr) : (m.release p).next = m.next := by
  cases p <;> rfl
@[simp] theorem Mem.release_prev (m : Mem K V) (p : Ptr) : (m.release p).prev = m.prev := by
  cases p <;> rfl
@[simp] theorem Mem.release_hash (m : Mem K V) (p : Ptr) : (m.release p).hash = m.hash := by
  cases p <;> rfl
@[simp] theorem Mem.release_node_alloc (m : Mem K V) (a b : Nat) :
    (m.release (Ptr.node a)).alloc b = if b = a then false else m.alloc b := rfl
@[simp] theorem Mem.release_node_payload (m : Mem K V) (a b : Nat) :
    (m.release (Ptr.node a)).payload b = if b = a then none else m.payload b := rfl

/-- A chain stays linked when `next` is kept on all but its last cell and `prev` on all but
its first cell. -/
theorem chain_frame (m m2 : Mem K V) :
    ∀ ps : List Ptr, List.Chain' (Link m) ps →
      (∀ p ∈ ps.dropLast, m2.next p = m.next p) →
      (∀ q ∈ ps.tail, m2.prev q = m.prev q) → List.Chain' (Link m2) ps
  | [], _, _, _ => List.chain'_nil
  | [_], _, _, _ => List.chain'_singleton _
  | p :: q :: rest, h, hn, hp => by
    rw [List.chain'_cons] at h ⊢
    refine ⟨⟨?_, ?_⟩, chain_frame m m2 (q :: rest) h.2 ?_ ?_⟩
    · rw [hn p (by simp [List.dropLast])]; exact h.1.1
    · rw [hp q (by simp)]; exact h.1.2
    · intro r hr
      exact hn r (by simp only [List.dropLast_cons₂]; exact List.mem_cons_of_mem _ hr)
    · intro r hr
      exact hp r (by simp only [List.tail_cons] at hr ⊢; exact List.mem_cons_of_mem _ hr)

theorem getLast_not_mem_dropLast {α : Type} :
    ∀ (ps : List α) (h : ps ≠ []), ps.Nodup → ps.getLast h ∉ ps.dropLast
  | [], h, _ => absurd rfl h
  | [_], _, _ => by simp
  | p :: q :: rest, _, hnd => by
    have ih := getLast_not_mem_dropLast (q :: rest) (by simp) (List.nodup_cons.mp hnd).2
    simp only [List.getLast_cons_cons, List.dropLast_cons₂, List.mem_cons, not_or]
    refine ⟨?_, ih⟩
    intro hc
    have hmem : (q :: rest).getLast (by simp) ∈ q :: rest := List.getLast_mem _
    rw [hc] at hmem
    exact (List.nodup_cons.mp hnd).1 hmem

theorem mem_of_mem_dropLast {α : Type} {ps : List α} {x : α} (h : x ∈ ps.dropLast) : x ∈ ps :=
  (List.dropLast_sublist ps).subset h

end RawBasics
section RingLemmas
variable {K V : Type}

theorem ring_append (i : Nat) (P S : List Nat) :
    ring i (P ++ S) = ringLeft i P ++ ringRight i S := by
  simp [ring, ringLeft, ringRight]

theorem ringLeft_ne_nil (i : Nat) (P : List Nat) : ringLeft i P ≠ [] := by simp [ringLeft]

theorem ringRight_ne_nil (i : Nat) (S : List Nat) : ringRight i S ≠ [] := by simp [ringRight]

theorem getLast?_ringLeft (i : Nat) (P : List Nat) :
    (ringLeft i P).getLast? = some (lastOf i P) := by
  induction P using List.reverseRecOn with
  | nil => simp [ringLeft, lastOf]
  | append_singleton P p _ =>
    simp [ringLeft, lastOf, List.getLast?_cons, List.getLast?_append]

theorem head?_ringRight (i : Nat) (S : List Nat) :
    (ringRight i S).head? = some (posOf i S) := by
  cases S <;> simp [ringRight, posOf]

theorem mem_ringLeft {i : Nat} {P : List Nat} {p : Ptr} :
    p ∈ ringLeft i P ↔ p = Ptr.fake i ∨ ∃ a ∈ P, p = Ptr.node a := by
  simp only [ringLeft, List.mem_cons, List.mem_map]
  constructor
  · rintro (h | ⟨a, ha, rfl⟩)
    · exact Or.inl h
    · exact Or.inr ⟨a, ha, rfl⟩
  · rintro (h | ⟨a, ha, rfl⟩)
    · exact Or.inl h
    · exact Or.inr ⟨a, ha, rfl⟩

theorem mem_ringRight {i : Nat} {S : List Nat} {p : Ptr} :
    p ∈ ringRight i S ↔ p = Ptr.fake i ∨ ∃ a ∈ S, p = Ptr.node a := by
  simp only [ringRight, List.mem_append, List.mem_map, List.mem_singleton]
  constructor
  · rintro (⟨a, ha, rfl⟩ | h)
    · exact Or.inr ⟨a, ha, rfl⟩
    · exact Or.inl h
  · rintro (h | ⟨a, ha, rfl⟩)
    · exact Or.inr h
    · exact Or.inl ⟨a, ha, rfl⟩

theorem ringLeft_nodup {i : Nat} {P : List Nat} (h : P.Nodup) : (ringLeft i P).Nodup := by
  unfold ringLeft
  rw [List.nodup_cons]
  refine ⟨?_, h.map (fun a b hab => by cases hab; rfl)⟩
  intro hc
  obtain ⟨a, _, ha⟩ := List.mem_map.mp hc
  cases ha

theorem ringRight_nodup {i : Nat} {S : List Nat} (h : S.Nodup) : (ringRight i S).Nodup := by
  simp only [ringRight]
  rw [List.nodup_append]
  refine ⟨h.map (fun a b hab => by cases hab; rfl), by simp, ?_⟩
  intro p hp hq
  simp only [List.mem_map] at hp
  simp only [List.mem_singleton] at hq
  obtain ⟨a, _, rfl⟩ := hp
  cases hq

theorem lastOf_mem (i : Nat) (P : List Nat) : lastOf i P ∈ ringLeft i P := by
  have := getLast?_ringLeft i P
  exact List.mem_of_getLast?_eq_some this

theorem posOf_mem (i : Nat) (S : List Nat) : posOf i S ∈ ringRight i S := by
  have := head?_ringRight i S
  exact List.mem_of_mem_head? this

theorem not_mem_dropLast_ringLeft {i : Nat} {P : List Nat} (h : P.Nodup) :
    lastOf i P ∉ (ringLeft i P).dropLast := by
  have h1 := getLast_not_mem_dropLast (ringLeft i P) (ringLeft_ne_nil i P) (ringLeft_nodup h)
  have h2 := getLast?_ringLeft i P
  rw [List.getLast?_eq_getLast _ (ringLeft_ne_nil i P)] at h2
  simp only [Option.some.injEq] at h2
  rwa [h2] at h1

theorem not_mem_tail_ringRight {i : Nat} {S : List Nat} (h : S.Nodup) :
    posOf i S ∉ (ringRight i S).tail := by
  cases S with
  | nil => simp [ringRight]
  | cons s S2 =>
    have hnd := ringRight_nodup (i := i) h
    simp only [ringRight, List.map_cons, List.cons_append, List.nodup_cons] at hnd
    simpa [ringRight, posOf] using hnd.1

/-- A well-formed chain over `P ++ S`, cut at the position between `P` and `S`. -/
theorem chain_split_at {m : Mem K V} {i : Nat} {P S : List Nat}
    (h : List.Chain' (Link m) (ring i (P ++ S))) :
    List.Chain' (Link m) (ringLeft i P) ∧ List.Chain' (Link m) (ringRight i S) ∧
      Link m (lastOf i P) (posOf i S) := by
  rw [ring_append, List.chain'_append] at h
  exact ⟨h.1, h.2.1, h.2.2 _ (getLast?_ringLeft i P) _ (head?_ringRight i S)⟩

theorem chain_join_at {m : Mem K V} {i : Nat} {P S : List Nat}
    (hL : List.Chain' (Link m) (ringLeft i P)) (hR : List.Chain' (Link m) (ringRight i S))
    (hl : Link m (lastOf i P) (posOf i S)) : List.Chain' (Link m) (ring i (P ++ S)) := by
  rw [ring_append, List.chain'_append]
  refine ⟨hL, hR, ?_⟩
  intro x hx y hy
  rw [getLast?_ringLeft] at hx
  rw [head?_ringRight] at hy
  simp only [Option.mem_def, Option.some.injEq] at hx hy
  rw [← hx, ← hy]
  exact hl

theorem ringRight_cons (i s : Nat) (S : List Nat) :
    ringRight i (s :: S) = Ptr.node s :: ringRight i S := by
  simp [ringRight]

theorem lastOf_append_singleton (i p : Nat) (P : List Nat) :
    lastOf i (P ++ [p]) = Ptr.node p := by
  simp [lastOf]

theorem ringLeft_append_singleton (i p : Nat) (P : List Nat) :
    ringLeft i (P ++ [p]) = ringLeft i P ++ [Ptr.node p] := by
  simp [ringLeft]

end RingLemmas
section RawEmplace
variable {K V : Type}

theorem lastOf_cases (i : Nat) (P : List Nat) :
    lastOf i P = Ptr.fake i ∨ ∃ p ∈ P, lastOf i P = Ptr.node p :=
  mem_ringLeft.mp (lastOf_mem i P)

theorem posOf_cases (i : Nat) (S : List Nat) :
    posOf i S = Ptr.fake i ∨ ∃ s ∈ S, posOf i S = Ptr.node s :=
  mem_ringRight.mp (posOf_mem i S)

theorem lastOf_ne_node {i a : Nat} {P : List Nat} (h : a ∉ P) : lastOf i P ≠ Ptr.node a := by
  rcases lastOf_cases i P with h1 | ⟨p, hp, h1⟩
  · rw [h1]; simp
  · rw [h1]; intro hc; cases hc; exact h hp

theorem posOf_ne_node {i a : Nat} {S : List Nat} (h : a ∉ S) : posOf i S ≠ Ptr.node a := by
  rcases posOf_cases i S with h1 | ⟨p, hp, h1⟩
  · rw [h1]; simp
  · rw [h1]; intro hc; cases hc; exact h hp

theorem dropLast_ringRight (i : Nat) (S : List Nat) :
    (ringRight i S).dropLast = S.map Ptr.node := by
  simp [ringRight, List.dropLast_append_of_ne_nil]

theorem tail_ringLeft (i : Nat) (P : List Nat) : (ringLeft i P).tail = P.map Ptr.node := rfl

/-- Linking a new cell `a` between the prefix `P` and the suffix `S` of a chain. -/
theorem link_insert {m m2 : Mem K V} {i : Nat} {P S : List Nat} {a : Nat}
    (hch : List.Chain' (Link m) (ring i (P ++ S))) (hnd : (P ++ S).Nodup) (ha : a ∉ P ++ S)
    (hnext : ∀ r, (r ∈ ringLeft i P ∨ r ∈ ringRight i S ∨ r = Ptr.node a) → m2.next r =
      if r = lastOf i P then Ptr.node a else if r = Ptr.node a then posOf i S else m.next r)
    (hprev : ∀ r, (r ∈ ringLeft i P ∨ r ∈ ringRight i S ∨ r = Ptr.node a) → m2.prev r =
      if r = posOf i S then Ptr.node a else if r = Ptr.node a then lastOf i P else m.prev r) :
    List.Chain' (Link m2) (ring i (P ++ a :: S)) := by
  obtain ⟨hL, hR, hl⟩ := chain_split_at hch
  have haP : a ∉ P := fun h => ha (List.mem_append_left _ h)
  have haS : a ∉ S := fun h => ha (List.mem_append_right _ h)
  have hPn : P.Nodup := (List.nodup_append.mp hnd).1
  have hSn : S.Nodup := (List.nodup_append.mp hnd).2.1
  have hdisj : ∀ b, b ∈ P → b ∈ S → False := fun b h1 h2 => (List.nodup_append.mp hnd).2.2 h1 h2
  have hla : lastOf i P ≠ Ptr.node a := lastOf_ne_node haP
  have hpa : posOf i S ≠ Ptr.node a := posOf_ne_node haS
  have hnodeP : ∀ b ∈ P, Ptr.node b ≠ posOf i S := by
    intro b hb hc
    rcases posOf_cases i S with h1 | ⟨s, hs, h1⟩
    · rw [h1] at hc; cases hc
    · rw [h1] at hc; cases hc; exact hdisj b hb hs
  have hnodeS : ∀ b ∈ S, Ptr.node b ≠ lastOf i P := by
    intro b hb hc
    rcases lastOf_cases i P with h1 | ⟨s, hs, h1⟩
    · rw [h1] at hc; cases hc
    · rw [h1] at hc; cases hc; exact hdisj b hs hb
  apply chain_join_at
  · apply chain_frame m m2 _ hL
    · intro p hp
      have hne : p ≠ lastOf i P := fun hc => not_mem_dropLast_ringLeft hPn (hc ▸ hp)
      have hna : p ≠ Ptr.node a := by
        rcases mem_ringLeft.mp (mem_of_mem_dropLast hp) with h1 | ⟨b, hb, h1⟩
        · rw [h1]; simp
        · rw [h1]; intro hc; cases hc; exact haP hb
      rw [hnext p (Or.inl (mem_of_mem_dropLast hp)), if_neg hne, if_neg hna]
    · intro q hq
      have hqm : q ∈ ringLeft i P := List.mem_of_mem_tail hq
      rw [tail_ringLeft] at hq
      obtain ⟨b, hb, rfl⟩ := List.mem_map.mp hq
      have hna : Ptr.node b ≠ Ptr.node a := by intro hc; cases hc; exact haP hb
      rw [hprev _ (Or.inl hqm), if_neg (hnodeP b hb), if_neg hna]
  · rw [ringRight_cons, List.chain'_cons']
    constructor
    · intro y hy
      rw [head?_ringRight] at hy
      simp only [Option.mem_def, Option.some.injEq] at hy
      subst hy
      constructor
      · rw [hnext _ (Or.inr (Or.inr rfl)), if_neg hla.symm, if_pos rfl]
      · rw [hprev _ (Or.inr (Or.inl (posOf_mem i S))), if_pos rfl]
    · apply chain_frame m m2 _ hR
      · intro p hp
        have hpm : p ∈ ringRight i S := mem_of_mem_dropLast hp
        rw [dropLast_ringRight] at hp
        obtain ⟨b, hb, rfl⟩ := List.mem_map.mp hp
        have hna : Ptr.node b ≠ Ptr.node a := by intro hc; cases hc; exact haS hb
        rw [hnext _ (Or.inr (Or.inl hpm)), if_neg (hnodeS b hb), if_neg hna]
      · intro q hq
        have hne : q ≠ posOf i S := fun hc => not_mem_tail_ringRight hSn (hc ▸ hq)
        have hna : q ≠ Ptr.node a := by
          rcases mem_ringRight.mp (List.mem_of_mem_tail hq) with h1 | ⟨b, hb, h1⟩
          · rw [h1]; simp
          · rw [h1]; intro hc; cases hc; exact haS hb
        rw [hprev q (Or.inr (Or.inl (List.mem_of_mem_tail hq))), if_neg hne, if_neg hna]
  · show Link m2 (lastOf i P) (Ptr.node a)
    constructor
    · rw [hnext _ (Or.inl (lastOf_mem i P)), if_pos rfl]
    · rw [hprev _ (Or.inr (Or.inr rfl)), if_neg hpa.symm, if_pos rfl]

theorem posOf_append (i : Nat) (P S : List Nat) :
    posOf i (P ++ S) = match P with
      | [] => posOf i S
      | p :: _ => Ptr.node p := by
  cases P <;> rfl

end RawEmplace
section RawEmplace2
variable {K V : Type}

theorem not_mem_of_unallocated {m : Mem K V} {l : ListObj} {xs : List Nat} {a : Nat}
    (h : l.WF m xs) (ha : m.alloc a = false) : a ∉ xs := by
  intro hc
  have := h.live a hc
  rw [ha] at this
  cases this

theorem emplace_links (m : Mem K V) (l : ListObj) (P S : List Nat) (a hash : Nat) (kv : K × V)
    (h : l.WF m (P ++ S)) (ha : a ∉ P ++ S) :
    (∀ r, (l.emplace m (posOf l.id S) a hash kv).1.next r =
      if r = lastOf l.id P then Ptr.node a
      else if r = Ptr.node a then posOf l.id S else m.next r) ∧
    (∀ r, (l.emplace m (posOf l.id S) a hash kv).1.prev r =
      if r = posOf l.id S then Ptr.node a
      else if r = Ptr.node a then lastOf l.id P else m.prev r) := by
  obtain ⟨_, _, hl⟩ := chain_split_at h.links
  have hla : lastOf l.id P ≠ Ptr.node a :=
    lastOf_ne_node (fun hc => ha (List.mem_append_left _ hc))
  have hpa : posOf l.id S ≠ Ptr.node a :=
    posOf_ne_node (fun hc => ha (List.mem_append_right _ hc))
  have hprev : m.prev (posOf l.id S) = lastOf l.id P := hl.2
  constructor
  · intro r
    simp only [ListObj.emplace, Mem.setPrev_next, Mem.setNext_next, Mem.setPrev_prev,
      Mem.setNext_prev, Mem.construct_prev, Mem.construct_next, Mem.allocate_prev,
      Mem.allocate_next, if_neg hpa, hprev]
    by_cases h1 : r = lastOf l.id P
    · simp [h1]
    · by_cases h2 : r = Ptr.node a
      · simp [h1, h2]
      · simp [h1, h2]
  · intro r
    simp only [ListObj.emplace, Mem.setPrev_next, Mem.setNext_next, Mem.setPrev_prev,
      Mem.setNext_prev, Mem.construct_prev, Mem.construct_next, Mem.allocate_prev,
      Mem.allocate_next, if_neg hpa, hprev]
    by_cases h1 : r = posOf l.id S
    · simp [h1]
    · by_cases h2 : r = Ptr.node a
      · simp [h1, h2]
      · simp [h1, h2]

theorem emplace_wf (m : Mem K V) (l : ListObj) (P S : List Nat) (a hash : Nat) (kv : K × V)
    (h : l.WF m (P ++ S)) (ha : m.alloc a = false) :
    (l.emplace m (posOf l.id S) a hash kv).2.1.WF (l.emplace m (posOf l.id S) a hash kv).1
      (P ++ a :: S) := by
  have hfresh : a ∉ P ++ S := not_mem_of_unallocated h ha
  obtain ⟨hn, hp⟩ := emplace_links m l P S a hash kv h hfresh
  have hid : (l.emplace m (posOf l.id S) a hash kv).2.1.id = l.id := rfl
  refine ⟨?_, ?_, ?_, ?_, ?_⟩
  · rw [hid]
    exact link_insert h.links h.nodup hfresh (fun r _ => hn r) (fun r _ => hp r)
  · have hnd := h.nodup
    rw [List.nodup_append] at hnd ⊢
    refine ⟨hnd.1, ?_, ?_⟩
    · rw [List.nodup_cons]
      exact ⟨fun hc => hfresh (List.mem_append_right _ hc), hnd.2.1⟩
    · intro b hb hc
      rcases List.mem_cons.mp hc with h1 | h1
      · subst h1; exact hfresh (List.mem_append_left _ hb)
      · exact hnd.2.2 hb h1
  · show (if l._size = 0 ∨ posOf l.id S = l._ptr then Ptr.node a else l._ptr) =
      posOf l.id (P ++ a :: S)
    cases P with
    | nil =>
      have : posOf l.id S = l._ptr := by rw [h.ptr]; rfl
      rw [if_pos (Or.inr this)]
      rfl
    | cons p P2 =>
      have h1 : l._size ≠ 0 := by rw [h.size]; simp
      have h2 : posOf l.id S ≠ l._ptr := by
        rw [h.ptr]
        show posOf l.id S ≠ Ptr.node p
        apply posOf_ne_node
        intro hc
        exact (List.nodup_append.mp h.nodup).2.2 (List.mem_cons_self p P2) hc
      rw [if_neg (by simp [h1, h2])]
      rw [h.ptr]
      rfl
  · show l._size + 1 = (P ++ a :: S).length
    rw [h.size]
    simp
    omega
  · intro b hb
    show (if b = a then true else m.alloc b) = true
    by_cases hba : b = a
    · simp [hba]
    · rw [if_neg hba]
      apply h.live
      simp only [List.mem_append, List.mem_cons] at hb ⊢
      rcases hb with h1 | h1 | h1
      · exact Or.inl h1
      · exact absurd h1 hba
      · exact Or.inr h1

end RawEmplace2
section RawErase
variable {K V : Type}

/-- The links around a node `x` that sits between the prefix `P` and the suffix `S`. -/
theorem chain_around {m : Mem K V} {i : Nat} {P S : List Nat} {x : Nat}
    (h : List.Chain' (Link m) (ring i (P ++ x :: S))) :
    List.Chain' (Link m) (ringLeft i P) ∧ List.Chain' (Link m) (ringRight i S) ∧
      Link m (lastOf i P) (Ptr.node x) ∧ Link m (Ptr.node x) (posOf i S) := by
  obtain ⟨hL, hR, hl⟩ := chain_split_at h
  rw [ringRight_cons, List.chain'_cons'] at hR
  exact ⟨hL, hR.2, hl, hR.1 _ (head?_ringRight i S)⟩

theorem disjoint_facts {P S : List Nat} {x : Nat} (hnd : (P ++ x :: S).Nodup) :
    P.Nodup ∧ S.Nodup ∧ x ∉ P ∧ x ∉ S ∧ (∀ b, b ∈ P → b ∈ S → False) ∧ (P ++ S).Nodup := by
  have h1 := List.nodup_append.mp hnd
  have h2 := List.nodup_cons.mp h1.2.1
  refine ⟨h1.1, h2.2, fun hc => h1.2.2 hc (List.mem_cons_self _ _), h2.1,
    fun b hb hs => h1.2.2 hb (List.mem_cons_of_mem _ hs), ?_⟩
  rw [List.nodup_append]
  exact ⟨h1.1, h2.2, fun b hb hs => h1.2.2 hb (List.mem_cons_of_mem _ hs)⟩

theorem node_ne_posOf {i : Nat} {P S : List Nat} (hd : ∀ b, b ∈ P → b ∈ S → False) :
    ∀ b ∈ P, Ptr.node b ≠ posOf i S := by
  intro b hb hc
  rcases posOf_cases i S with h1 | ⟨s, hs, h1⟩
  · rw [h1] at hc; cases hc
  · rw [h1] at hc; cases hc; exact hd b hb hs

theorem node_ne_lastOf {i : Nat} {P S : List Nat} (hd : ∀ b, b ∈ P → b ∈ S → False) :
    ∀ b ∈ S, Ptr.node b ≠ lastOf i P := by
  intro b hb hc
  rcases lastOf_cases i P with h1 | ⟨s, hs, h1⟩
  · rw [h1] at hc; cases hc
  · rw [h1] at hc; cases hc; exact hd b hs hb

/-- Unlinking the node `x` that sits between the prefix `P` and the suffix `S`. -/
theorem link_remove {m m2 : Mem K V} {i : Nat} {P S : List Nat} {x : Nat}
    (hch : List.Chain' (Link m) (ring i (P ++ x :: S))) (hnd : (P ++ x :: S).Nodup)
    (hnext : ∀ r, (r ∈ ringLeft i P ∨ r ∈ ringRight i S) →
      m2.next r = if r = lastOf i P then posOf i S else m.next r)
    (hprev : ∀ r, (r ∈ ringLeft i P ∨ r ∈ ringRight i S) →
      m2.prev r = if r = posOf i S then lastOf i P else m.prev r) :
    List.Chain' (Link m2) (ring i (P ++ S)) := by
  obtain ⟨hL, hR, _, _⟩ := chain_around hch
  obtain ⟨hPn, hSn, hxP, hxS, hd, _⟩ := disjoint_facts hnd
  apply chain_join_at
  · apply chain_frame m m2 _ hL
    · intro p hp
      have hne : p ≠ lastOf i P := fun hc => not_mem_dropLast_ringLeft hPn (hc ▸ hp)
      rw [hnext p (Or.inl (mem_of_mem_dropLast hp)), if_neg hne]
    · intro q hq
      have hqm : q ∈ ringLeft i P := List.mem_of_mem_tail hq
      rw [tail_ringLeft] at hq
      obtain ⟨b, hb, rfl⟩ := List.mem_map.mp hq
      rw [hprev _ (Or.inl hqm), if_neg (node_ne_posOf hd b hb)]
  · apply chain_frame m m2 _ hR
    · intro p hp
      have hpm : p ∈ ringRight i S := mem_of_mem_dropLast hp
      rw [dropLast_ringRight] at hp
      obtain ⟨b, hb, rfl⟩ := List.mem_map.mp hp
      rw [hnext _ (Or.inr hpm), if_neg (node_ne_lastOf hd b hb)]
    · intro q hq
      have hne : q ≠ posOf i S := fun hc => not_mem_tail_ringRight hSn (hc ▸ hq)
      rw [hprev q (Or.inr (List.mem_of_mem_tail hq)), if_neg hne]
  · constructor
    · rw [hnext _ (Or.inl (lastOf_mem i P)), if_pos rfl]
    · rw [hprev _ (Or.inr (posOf_mem i S)), if_pos rfl]

theorem erase_links (m : Mem K V) (l : ListObj) (P S : List Nat) (x : Nat)
    (h : l.WF m (P ++ x :: S)) :
    (l.erase m (Ptr.node x)).2.2 = posOf l.id S ∧
    (∀ r, (l.erase m (Ptr.node x)).1.next r =
      if r = lastOf l.id P then posOf l.id S else m.next r) ∧
    (∀ r, (l.erase m (Ptr.node x)).1.prev r =
      if r = posOf l.id S then lastOf l.id P else m.prev r) := by
  obtain ⟨_, _, h1, h2⟩ := chain_around h.links
  obtain ⟨_, _, hxP, _, _, _⟩ := disjoint_facts h.nodup
  have hlx : Ptr.node x ≠ lastOf l.id P := (lastOf_ne_node hxP).symm
  refine ⟨h2.1, ?_, ?_⟩
  · intro r
    simp only [ListObj.erase, Mem.release_next, Mem.setPrev_next, Mem.setNext_next, h1.2, h2.1]
  · intro r
    simp only [ListObj.erase, Mem.release_prev, Mem.setPrev_prev, Mem.setNext_prev,
      Mem.setNext_next, h1.2, h2.1, if_neg hlx]

theorem erase_wf (m : Mem K V) (l : ListObj) (P S : List Nat) (x : Nat)
    (h : l.WF m (P ++ x :: S)) :
    (l.erase m (Ptr.node x)).2.1.WF (l.erase m (Ptr.node x)).1 (P ++ S) := by
  obtain ⟨hans, hn, hp⟩ := erase_links m l P S x h
  obtain ⟨_, _, hxP, hxS, _, hnd⟩ := disjoint_facts h.nodup
  obtain ⟨_, _, _, h2⟩ := chain_around h.links
  refine ⟨?_, hnd, ?_, ?_, ?_⟩
  · exact link_remove h.links h.nodup (fun r _ => hn r) (fun r _ => hp r)
  · show (if decide (Ptr.node x = l._ptr) = true then m.next (Ptr.node x) else l._ptr) =
      posOf l.id (P ++ S)
    cases P with
    | nil =>
      have : Ptr.node x = l._ptr := by rw [h.ptr]; rfl
      simp only [this, decide_True, if_true]
      rw [← this, h2.1]
      rfl
    | cons p P2 =>
      have hne : Ptr.node x ≠ l._ptr := by
        rw [h.ptr]
        show Ptr.node x ≠ Ptr.node p
        intro hc; cases hc
        exact hxP (List.mem_cons_self _ _)
      simp only [hne, decide_False, Bool.false_eq_true, if_false]
      rw [h.ptr]
      rfl
  · show l._size - 1 = (P ++ S).length
    rw [h.size]
    simp
  · intro b hb
    have hbx : b ≠ x := by
      intro hc; subst hc
      rcases List.mem_append.mp hb with h1 | h1
      · exact hxP h1
      · exact hxS h1
    show ((m.setNext _ _).setPrev _ _ |>.release (Ptr.node x)).alloc b = true
    rw [Mem.release_node_alloc, if_neg hbx]
    simp only [Mem.setPrev_alloc, Mem.setNext_alloc]
    apply h.live
    simp only [List.mem_append, List.mem_cons] at hb ⊢
    rcases hb with h1 | h1
    · exact Or.inl h1
    · exact Or.inr (Or.inr h1)

end RawErase

section RawSplice
variable {K V : Type}

theorem mem_ringRight_iff_left {i : Nat} {S : List Nat} {p : Ptr} :
    p ∈ ringRight i S ↔ p ∈ ringLeft i S := by
  rw [mem_ringLeft, mem_ringRight]

/-- Cells of two list objects with distinct sentinels and disjoint nodes are distinct. -/
theorem cells_ne {i j : Nat} {X Y : List Nat} (hij : i ≠ j)
    (hd : ∀ x, x ∈ X → x ∈ Y → False) {p q : Ptr}
    (hp : p ∈ ringLeft i X) (hq : q ∈ ringLeft j Y) : p ≠ q := by
  rcases mem_ringLeft.mp hp with rfl | ⟨a, ha, rfl⟩ <;>
    rcases mem_ringLeft.mp hq with rfl | ⟨b, hb, rfl⟩
  · intro hc; cases hc; exact hij rfl
  · intro hc; cases hc
  · intro hc; cases hc
  · intro hc; cases hc; exact hd a ha hb

theorem lastOf_of_ne_nil {B : List Nat} (hB : B ≠ []) :
    ∃ x ∈ B, ∀ i, lastOf i B = Ptr.node x := by
  refine ⟨B.getLast hB, List.getLast_mem hB, ?_⟩
  intro i
  simp [lastOf, List.getLast?_eq_getLast _ hB]

theorem posOf_of_ne_nil {B : List Nat} (hB : B ≠ []) :
    ∃ x ∈ B, ∀ i, posOf i B = Ptr.node x := by
  cases B with
  | nil => exact absurd rfl hB
  | cons b B2 => exact ⟨b, List.mem_cons_self _ _, fun _ => rfl⟩

theorem lastOf_append_of_ne_nil (i j : Nat) (P : List Nat) {B : List Nat} (hB : B ≠ []) :
    lastOf i (P ++ B) = lastOf j B := by
  simp only [lastOf, List.getLast?_append_of_ne_nil _ hB, List.getLast?_eq_getLast _ hB]

theorem posOf_append_of_ne_nil (i j : Nat) (S : List Nat) {B : List Nat} (hB : B ≠ []) :
    posOf i (B ++ S) = posOf j B := by
  cases B with
  | nil => exact absurd rfl hB
  | cons b B2 => rfl

/-- The nodes of a well-formed list are chained one to the next. -/
theorem chain_nodes {m : Mem K V} {j : Nat} {B : List Nat}
    (h : List.Chain' (Link m) (ring j B)) : List.Chain' (Link m) (B.map Ptr.node) := by
  have h1 : List.Chain' (Link m) (ringLeft j B) :=
    (chain_split_at (P := B) (S := []) (by simpa using h)).1
  exact h1.tail

theorem chain_ends {m : Mem K V} {j : Nat} {B : List Nat}
    (h : List.Chain' (Link m) (ring j B)) :
    Link m (Ptr.fake j) (posOf j B) ∧ Link m (lastOf j B) (Ptr.fake j) :=
  ⟨(chain_split_at (P := []) (S := B) h).2.2,
    (chain_split_at (P := B) (S := []) (by simpa using h)).2.2⟩

theorem lastOf_not_mem_dropLast_nodes {j : Nat} {B : List Nat} (hB : B ≠ []) (hn : B.Nodup) :
    lastOf j B ∉ (B.map Ptr.node).dropLast := by
  have hne : B.map Ptr.node ≠ [] := by simpa using hB
  have hnd : (B.map Ptr.node).Nodup := hn.map (fun a b hab => by cases hab; rfl)
  have h1 := getLast_not_mem_dropLast (B.map Ptr.node) hne hnd
  have h2 : (B.map Ptr.node).getLast hne = lastOf j B := by
    simp [lastOf, List.getLast?_eq_getLast _ hB, List.getLast_map]
  rwa [h2] at h1

theorem posOf_not_mem_tail_nodes {j : Nat} {B : List Nat} (hn : B.Nodup) :
    posOf j B ∉ (B.map Ptr.node).tail := by
  cases B with
  | nil => simp
  | cons b B2 =>
    intro hc
    simp only [List.map_cons, List.tail_cons, List.mem_map, posOf] at hc
    obtain ⟨c, hc1, hc2⟩ := hc
    cases hc2
    exact (List.nodup_cons.mp hn).1 hc1

end RawSplice

section RawSplice2
variable {K V : Type}

/-- Linking the whole chain `B` of another list between the prefix `P` and the suffix `S`. -/
theorem link_splice {m m2 : Mem K V} {i j : Nat} {P S B : List Nat}
    (ha : List.Chain' (Link m) (ring i (P ++ S))) (hb : List.Chain' (Link m) (ring j B))
    (hB : B ≠ []) (hnd : (P ++ S).Nodup) (hBn : B.Nodup) (hij : i ≠ j)
    (hd : ∀ x, x ∈ P ++ S → x ∈ B → False)
    (hnext : ∀ r, r ≠ Ptr.fake j → m2.next r =
      if r = lastOf j B then posOf i S else if r = lastOf i P then posOf j B else m.next r)
    (hprev : ∀ r, r ≠ Ptr.fake j → m2.prev r =
      if r = posOf i S then lastOf j B else if r = posOf j B then lastOf i P else m.prev r) :
    List.Chain' (Link m2) (ring i (P ++ B ++ S)) := by
  obtain ⟨hL, hR, _⟩ := chain_split_at ha
  have hPn : P.Nodup := (List.nodup_append.mp hnd).1
  have hSn : S.Nodup := (List.nodup_append.mp hnd).2.1
  have hdisj : ∀ b, b ∈ P → b ∈ S → False := fun b h1 h2 => (List.nodup_append.mp hnd).2.2 h1 h2
  have hdP : ∀ x, x ∈ P → x ∈ B → False := fun x h1 h2 => hd x (List.mem_append_left _ h1) h2
  have hdS : ∀ x, x ∈ S → x ∈ B → False := fun x h1 h2 => hd x (List.mem_append_right _ h1) h2
  have hlB : lastOf j B ∈ ringLeft j B := lastOf_mem j B
  have hpB : posOf j B ∈ ringLeft j B := mem_ringRight_iff_left.mp (posOf_mem j B)
  have hfB : Ptr.fake j ∈ ringLeft j B := mem_ringLeft.mpr (Or.inl rfl)
  have hlP : lastOf i P ∈ ringLeft i P := lastOf_mem i P
  have hpS : posOf i S ∈ ringLeft i S := mem_ringRight_iff_left.mp (posOf_mem i S)
  obtain ⟨bl, hbl, hbl2⟩ := lastOf_of_ne_nil hB
  obtain ⟨bf, hbf, hbf2⟩ := posOf_of_ne_nil hB
  have hlBf : lastOf j B ≠ Ptr.fake j := by rw [hbl2]; intro hc; cases hc
  have hpBf : posOf j B ≠ Ptr.fake j := by rw [hbf2]; intro hc; cases hc
  have hBnodes : ∀ q ∈ B.map Ptr.node, q ∈ ringLeft j B := fun q hq =>
    List.mem_cons_of_mem _ hq
  apply chain_join_at
  · have hsplit : ringLeft i (P ++ B) = ringLeft i P ++ B.map Ptr.node := by simp [ringLeft]
    rw [hsplit, List.chain'_append]
    refine ⟨?_, ?_, ?_⟩
    · apply chain_frame m m2 _ hL
      · intro p hp
        have hpm := mem_of_mem_dropLast hp
        have h1 : p ≠ lastOf i P := fun hc => not_mem_dropLast_ringLeft hPn (hc ▸ hp)
        rw [hnext p (cells_ne hij hdP hpm hfB), if_neg (cells_ne hij hdP hpm hlB), if_neg h1]
      · intro q hq
        have hqm : q ∈ ringLeft i P := List.mem_of_mem_tail hq
        rw [tail_ringLeft] at hq
        obtain ⟨b, hb2, rfl⟩ := List.mem_map.mp hq
        rw [hprev _ (cells_ne hij hdP hqm hfB), if_neg (node_ne_posOf hdisj b hb2),
          if_neg (cells_ne hij hdP hqm hpB)]
    · apply chain_frame m m2 _ (chain_nodes hb)
      · intro p hp
        have hpm := hBnodes p (mem_of_mem_dropLast hp)
        have h0 : p ≠ Ptr.fake j := by
          obtain ⟨c, _, rfl⟩ := List.mem_map.mp (mem_of_mem_dropLast hp)
          intro hc; cases hc
        have h1 : p ≠ lastOf j B := fun hc => lastOf_not_mem_dropLast_nodes hB hBn (hc ▸ hp)
        rw [hnext p h0, if_neg h1, if_neg (cells_ne hij hdP hlP hpm).symm]
      · intro q hq
        have hqm := hBnodes q (List.mem_of_mem_tail hq)
        have h0 : q ≠ Ptr.fake j := by
          obtain ⟨c, _, rfl⟩ := List.mem_map.mp (List.mem_of_mem_tail hq)
          intro hc; cases hc
        have h1 : q ≠ posOf j B := fun hc => posOf_not_mem_tail_nodes hBn (hc ▸ hq)
        rw [hprev q h0, if_neg (cells_ne hij hdS hpS hqm).symm, if_neg h1]
    · intro x hx y hy
      rw [getLast?_ringLeft] at hx
      have hy2 : y = posOf j B := by
        cases B with
        | nil => exact absurd rfl hB
        | cons b B2 =>
          simp only [List.map_cons, List.head?_cons, Option.mem_def, Option.some.injEq] at hy
          exact hy.symm
      simp only [Option.mem_def, Option.some.injEq] at hx
      subst hx
      subst hy2
      constructor
      · rw [hnext _ (cells_ne hij hdP hlP hfB), if_neg (cells_ne hij hdP hlP hlB), if_pos rfl]
      · rw [hprev _ hpBf, if_neg (cells_ne hij hdS hpS hpB).symm, if_pos rfl]
  · apply chain_frame m m2 _ hR
    · intro p hp
      have hpm : p ∈ ringLeft i S := mem_ringRight_iff_left.mp (mem_of_mem_dropLast hp)
      rw [dropLast_ringRight] at hp
      obtain ⟨b, hb2, rfl⟩ := List.mem_map.mp hp
      rw [hnext _ (cells_ne hij hdS hpm hfB), if_neg (cells_ne hij hdS hpm hlB),
        if_neg (node_ne_lastOf hdisj b hb2)]
    · intro q hq
      have hqm : q ∈ ringLeft i S := mem_ringRight_iff_left.mp (List.mem_of_mem_tail hq)
      have h1 : q ≠ posOf i S := fun hc => not_mem_tail_ringRight hSn (hc ▸ hq)
      rw [hprev q (cells_ne hij hdS hqm hfB), if_neg h1, if_neg (cells_ne hij hdS hqm hpB)]
  · rw [lastOf_append_of_ne_nil i j P hB]
    constructor
    · rw [hnext _ hlBf, if_pos rfl]
    · rw [hprev _ (cells_ne hij hdS hpS hfB), if_pos rfl]

/-- Two chains that start at the same node and follow the same links end at the same
sentinel. -/
theorem chain_suffix_unique {m : Mem K V} {i j : Nat} :
    ∀ (N1 N2 : List Nat) (x : Nat), List.Chain' (Link m) (Ptr.node x :: ringRight i N1) →
      List.Chain' (Link m) (Ptr.node x :: ringRight j N2) → i = j
  | [], [], x, h1, h2 => by
    simp only [ringRight, List.map_nil, List.nil_append, List.chain'_cons,
      List.chain'_singleton, and_true] at h1 h2
    have := h1.1.symm.trans h2.1
    cases this
    rfl
  | [], n2 :: N2, x, h1, h2 => by
    rw [ringRight_cons, List.chain'_cons] at h2
    simp only [ringRight, List.map_nil, List.nil_append, List.chain'_cons,
      List.chain'_singleton, and_true] at h1
    have := h1.1.symm.trans h2.1.1
    cases this
  | n1 :: N1, [], x, h1, h2 => by
    rw [ringRight_cons, List.chain'_cons] at h1
    simp only [ringRight, List.map_nil, List.nil_append, List.chain'_cons,
      List.chain'_singleton, and_true] at h2
    have := h1.1.1.symm.trans h2.1
    cases this
  | n1 :: N1, n2 :: N2, x, h1, h2 => by
    rw [ringRight_cons, List.chain'_cons] at h1 h2
    have := h1.1.1.symm.trans h2.1.1
    cases this
    exact chain_suffix_unique N1 N2 n1 h1.2 h2.2

/-- Two well-formed list objects with distinct sentinels share no node. -/
theorem wf_disjoint {m : Mem K V} {a b : ListObj} {X Y : List Nat}
    (ha : a.WF m X) (hb : b.WF m Y) (hab : a.id ≠ b.id) : ∀ x, x ∈ X → x ∈ Y → False := by
  intro x hx hy
  obtain ⟨P1, S1, rfl⟩ := List.append_of_mem hx
  obtain ⟨P2, S2, rfl⟩ := List.append_of_mem hy
  obtain ⟨_, hR1, _, hl1⟩ := chain_around ha.links
  obtain ⟨_, hR2, _, hl2⟩ := chain_around hb.links
  apply hab
  apply chain_suffix_unique S1 S2 x
  · rw [List.chain'_cons']
    refine ⟨?_, hR1⟩
    intro y hy2
    rw [head?_ringRight] at hy2
    simp only [Option.mem_def, Option.some.injEq] at hy2
    rw [← hy2]; exact hl1
  · rw [List.chain'_cons']
    refine ⟨?_, hR2⟩
    intro y hy2
    rw [head?_ringRight] at hy2
    simp only [Option.mem_def, Option.some.injEq] at hy2
    rw [← hy2]; exact hl2

theorem splice_links (m : Mem K V) (a b : ListObj) (P S B : List Nat)
    (ha : a.WF m (P ++ S)) (hb : b.WF m B) (hB : B ≠ []) :
    (∀ r, (a.splice m (posOf a.id S) b).1.next r =
      if r = Ptr.fake b.id then Ptr.fake b.id
      else if r = lastOf b.id B then posOf a.id S
      else if r = lastOf a.id P then posOf b.id B else m.next r) ∧
    (∀ r, (a.splice m (posOf a.id S) b).1.prev r =
      if r = Ptr.fake b.id then Ptr.fake b.id
      else if r = posOf a.id S then lastOf b.id B
      else if r = posOf b.id B then lastOf a.id P else m.prev r) := by
  obtain ⟨_, _, hl⟩ := chain_split_at ha.links
  have he := (chain_ends hb.links).2
  have hsz : b._size ≠ 0 := by
    rw [hb.size]
    exact fun hc => hB (List.length_eq_zero.mp hc)
  constructor
  · intro r
    simp only [ListObj.splice, if_neg hsz, ListObj.endPtr, Mem.setNext_next, Mem.setPrev_next,
      hl.2, he.2, hb.ptr]
  · intro r
    simp only [ListObj.splice, if_neg hsz, ListObj.endPtr, Mem.setNext_prev, Mem.setPrev_prev,
      hl.2, he.2, hb.ptr]

end RawSplice2

section RawSplice3
variable {K V : Type}

theorem splice_empty (m : Mem K V) (a b : ListObj) (pos : Ptr) (hb : b.WF m []) :
    a.splice m pos b = (m, a, b) := by
  have hsz : b._size = 0 := hb.size
  simp only [ListObj.splice, if_pos hsz]

theorem splice_frame (m : Mem K V) (a b : ListObj) (pos : Ptr) :
    (a.splice m pos b).1.alloc = m.alloc ∧ (a.splice m pos b).1.payload = m.payload ∧
      (a.splice m pos b).1.hash = m.hash := by
  unfold ListObj.splice
  split
  · exact ⟨rfl, rfl, rfl⟩
  · exact ⟨rfl, rfl, rfl⟩

theorem splice_ids (m : Mem K V) (a b : ListObj) (pos : Ptr) :
    (a.splice m pos b).2.1.id = a.id ∧ (a.splice m pos b).2.2.id = b.id := by
  unfold ListObj.splice
  split
  · exact ⟨rfl, rfl⟩
  · exact ⟨rfl, rfl⟩

theorem posOf_eq_ptr_iff {m : Mem K V} {a : ListObj} {P S : List Nat}
    (ha : a.WF m (P ++ S)) : posOf a.id S = a._ptr ↔ P = [] := by
  rw [ha.ptr]
  cases P with
  | nil => simp
  | cons p P2 =>
    simp only [List.cons_append, posOf, reduceCtorEq, iff_false]
    apply posOf_ne_node
    intro hc
    have := (List.nodup_cons.mp (by simpa using ha.nodup : (p :: (P2 ++ S)).Nodup)).1
    exact this (List.mem_append_right _ hc)

theorem splice_wf (m : Mem K V) (a b : ListObj) (P S B : List Nat)
    (ha : a.WF m (P ++ S)) (hb : b.WF m B) (hab : a.id ≠ b.id) :
    (a.splice m (posOf a.id S) b).2.1.WF (a.splice m (posOf a.id S) b).1 (P ++ B ++ S) ∧
      (a.splice m (posOf a.id S) b).2.2.WF (a.splice m (posOf a.id S) b).1 [] := by
  by_cases hB : B = []
  · subst hB
    rw [splice_empty m a b _ hb]
    exact ⟨by simpa using ha, hb⟩
  · obtain ⟨hn, hp⟩ := splice_links m a b P S B ha hb hB
    have hd := wf_disjoint ha hb hab
    have hsz : b._size ≠ 0 := by
      rw [hb.size]
      exact fun hc => hB (List.length_eq_zero.mp hc)
    have hfr := splice_frame m a b (posOf a.id S)
    constructor
    · refine ⟨?_, ?_, ?_, ?_, ?_⟩
      · rw [(splice_ids m a b _).1]
        apply link_splice ha.links hb.links hB ha.nodup hb.nodup hab hd
        · intro r hr; rw [hn r, if_neg hr]
        · intro r hr; rw [hp r, if_neg hr]
      · have h1 := List.nodup_append.mp ha.nodup
        rw [List.append_assoc, List.nodup_append]
        refine ⟨h1.1, ?_, ?_⟩
        · rw [List.nodup_append]
          exact ⟨hb.nodup, h1.2.1, fun x hx hs => hd x (List.mem_append_right _ hs) hx⟩
        · intro x hx hbs
          rcases List.mem_append.mp hbs with h2 | h2
          · exact hd x (List.mem_append_left _ hx) h2
          · exact h1.2.2 hx h2
      · simp only [ListObj.splice, if_neg hsz]
        show (if posOf a.id S = a._ptr then b._ptr else a._ptr) = posOf a.id (P ++ B ++ S)
        cases P with
        | nil =>
          rw [if_pos ((posOf_eq_ptr_iff ha).mpr rfl), hb.ptr]
          exact (posOf_append_of_ne_nil a.id b.id S hB).symm
        | cons p P2 =>
          rw [if_neg (fun hc => List.cons_ne_nil _ _ ((posOf_eq_ptr_iff ha).mp hc)), ha.ptr]
          rfl
      · simp only [ListObj.splice, if_neg hsz]
        show a._size + b._size = (P ++ B ++ S).length
        rw [ha.size, hb.size]
        simp only [List.length_append]
        omega
      · intro x hx
        rw [hfr.1]
        rcases List.mem_append.mp hx with h1 | h1
        · rcases List.mem_append.mp h1 with h2 | h2
          · exact ha.live x (List.mem_append_left _ h2)
          · exact hb.live x h2
        · exact ha.live x (List.mem_append_right _ h1)
    · refine ⟨?_, List.nodup_nil, ?_, ?_, ?_⟩
      · rw [(splice_ids m a b _).2]
        simp only [ring, List.map_nil, List.nil_append, List.chain'_cons,
          List.chain'_singleton, and_true]
        constructor
        · rw [hn, if_pos rfl]
        · rw [hp, if_pos rfl]
      · simp only [ListObj.splice, if_neg hsz]
        rfl
      · simp only [ListObj.splice, if_neg hsz]
        rfl
      · intro x hx
        cases hx

end RawSplice3

section RawSpliceNode
variable {K V : Type}

theorem spliceNode_ids (m : Mem K V) (a b : ListObj) (pos it : Ptr) :
    (a.spliceNode m pos b it).2.1.id = a.id ∧ (a.spliceNode m pos b it).2.2.id = b.id := by
  unfold ListObj.spliceNode
  split
  · exact ⟨rfl, rfl⟩
  · exact ⟨rfl, rfl⟩

theorem spliceNode_frame (m : Mem K V) (a b : ListObj) (pos it : Ptr) :
    (a.spliceNode m pos b it).1.alloc = m.alloc ∧
      (a.spliceNode m pos b it).1.payload = m.payload ∧
      (a.spliceNode m pos b it).1.hash = m.hash := by
  unfold ListObj.spliceNode
  split
  · exact ⟨rfl, rfl, rfl⟩
  · exact ⟨rfl, rfl, rfl⟩

theorem size_ne_zero_of_mem {m : Mem K V} {b : ListObj} {B1 B2 : List Nat} {x : Nat}
    (hb : b.WF m (B1 ++ x :: B2)) : b._size ≠ 0 := by
  rw [hb.size]
  simp

theorem spliceNode_links (m : Mem K V) (a b : ListObj) (P S B1 B2 : List Nat) (x : Nat)
    (ha : a.WF m (P ++ S)) (hb : b.WF m (B1 ++ x :: B2)) :
    (∀ r, (a.spliceNode m (posOf a.id S) b (Ptr.node x)).1.next r =
      if r = lastOf a.id P then Ptr.node x
      else if r = Ptr.node x then posOf a.id S
      else if r = lastOf b.id B1 then posOf b.id B2 else m.next r) ∧
    (∀ r, (a.spliceNode m (posOf a.id S) b (Ptr.node x)).1.prev r =
      if r = Ptr.node x then lastOf a.id P
      else if r = posOf a.id S then Ptr.node x
      else if r = posOf b.id B2 then lastOf b.id B1 else m.prev r) := by
  obtain ⟨_, _, hl⟩ := chain_split_at ha.links
  obtain ⟨_, _, h1, h2⟩ := chain_around hb.links
  obtain ⟨_, _, hxB1, _, _, _⟩ := disjoint_facts hb.nodup
  have hlx : Ptr.node x ≠ lastOf b.id B1 := (lastOf_ne_node hxB1).symm
  have hsz := size_ne_zero_of_mem hb
  constructor
  · intro r
    simp only [ListObj.spliceNode, if_neg hsz, Mem.setNext_next, Mem.setPrev_next,
      Mem.setNext_prev, Mem.setPrev_prev, hl.2, h1.2, h2.1]
  · intro r
    simp only [ListObj.spliceNode, if_neg hsz, Mem.setNext_next, Mem.setPrev_next,
      Mem.setNext_prev, Mem.setPrev_prev, hl.2, h1.2, h2.1, if_neg hlx]

theorem spliceNode_wf (m : Mem K V) (a b : ListObj) (P S B1 B2 : List Nat) (x : Nat)
    (ha : a.WF m (P ++ S)) (hb : b.WF m (B1 ++ x :: B2)) (hab : a.id ≠ b.id) :
    (a.spliceNode m (posOf a.id S) b (Ptr.node x)).2.1.WF
        (a.spliceNode m (posOf a.id S) b (Ptr.node x)).1 (P ++ x :: S) ∧
      (a.spliceNode m (posOf a.id S) b (Ptr.node x)).2.2.WF
        (a.spliceNode m (posOf a.id S) b (Ptr.node x)).1 (B1 ++ B2) := by
  obtain ⟨hn, hp⟩ := spliceNode_links m a b P S B1 B2 x ha hb
  have hd := wf_disjoint ha hb hab
  have hsz := size_ne_zero_of_mem hb
  have hfr := spliceNode_frame m a b (posOf a.id S) (Ptr.node x)
  obtain ⟨_, _, hxB1, hxB2, _, hndB⟩ := disjoint_facts hb.nodup
  obtain ⟨_, _, h1, h2⟩ := chain_around hb.links
  have hxa : x ∉ P ++ S := fun hc => hd x hc (by simp)
  have hxP : x ∉ P := fun hc => hxa (List.mem_append_left _ hc)
  have hxS : x ∉ S := fun hc => hxa (List.mem_append_right _ hc)
  have hdP1 : ∀ y, y ∈ P → y ∈ B1 → False := fun y h3 h4 =>
    hd y (List.mem_append_left _ h3) (List.mem_append_left _ h4)
  have hdS1 : ∀ y, y ∈ S → y ∈ B1 → False := fun y h3 h4 =>
    hd y (List.mem_append_right _ h3) (List.mem_append_left _ h4)
  have hdP2 : ∀ y, y ∈ P → y ∈ B2 → False := fun y h3 h4 =>
    hd y (List.mem_append_left _ h3) (List.mem_append_right _ (List.mem_cons_of_mem _ h4))
  have hdS2 : ∀ y, y ∈ S → y ∈ B2 → False := fun y h3 h4 =>
    hd y (List.mem_append_right _ h3) (List.mem_append_right _ (List.mem_cons_of_mem _ h4))
  have hlB1 : lastOf b.id B1 ∈ ringLeft b.id B1 := lastOf_mem _ _
  have hpB2 : posOf b.id B2 ∈ ringLeft b.id B2 := mem_ringRight_iff_left.mp (posOf_mem _ _)
  have hlP : lastOf a.id P ∈ ringLeft a.id P := lastOf_mem _ _
  have hpS : posOf a.id S ∈ ringLeft a.id S := mem_ringRight_iff_left.mp (posOf_mem _ _)
  constructor
  · refine ⟨?_, ?_, ?_, ?_, ?_⟩
    · rw [(spliceNode_ids m a b _ _).1]
      apply link_insert ha.links ha.nodup hxa
      · intro r hr
        rw [hn r]
        by_cases h3 : r = lastOf a.id P
        · rw [if_pos h3, if_pos h3]
        · rw [if_neg h3, if_neg h3]
          by_cases h4 : r = Ptr.node x
          · rw [if_pos h4, if_pos h4]
          · rw [if_neg h4, if_neg h4]
            have h5 : r ≠ lastOf b.id B1 := by
              rcases hr with h6 | h6 | h6
              · exact cells_ne hab hdP1 h6 hlB1
              · exact cells_ne hab hdS1 (mem_ringRight_iff_left.mp h6) hlB1
              · exact absurd h6 h4
            rw [if_neg h5]
      · intro r hr
        rw [hp r]
        by_cases h3 : r = Ptr.node x
        · rw [if_pos h3]
          subst h3
          rw [if_neg (posOf_ne_node hxS).symm, if_pos rfl]
        · rw [if_neg h3]
          by_cases h4 : r = posOf a.id S
          · rw [if_pos h4, if_pos h4]
          · rw [if_neg h4, if_neg h4, if_neg h3]
            have h5 : r ≠ posOf b.id B2 := by
              rcases hr with h6 | h6 | h6
              · exact cells_ne hab hdP2 h6 hpB2
              · exact cells_ne hab hdS2 (mem_ringRight_iff_left.mp h6) hpB2
              · exact absurd h6 h3
            rw [if_neg h5]
    · have h3 := List.nodup_append.mp ha.nodup
      rw [List.nodup_append]
      refine ⟨h3.1, List.nodup_cons.mpr ⟨hxS, h3.2.1⟩, ?_⟩
      intro y hy hys
      rcases List.mem_cons.mp hys with h4 | h4
      · subst h4; exact hxP hy
      · exact h3.2.2 hy h4
    · simp only [ListObj.spliceNode, if_neg hsz]
      show (if posOf a.id S = a._ptr then _ else a._ptr) = posOf a.id (P ++ x :: S)
      cases P with
      | nil =>
        have h3 : posOf a.id S = a._ptr := (posOf_eq_ptr_iff ha).mpr rfl
        rw [if_pos h3, ← h3]
        have h4 := hp (posOf a.id S)
        simp only [ListObj.spliceNode, if_neg hsz] at h4
        rw [h4, if_neg (posOf_ne_node hxS)]
        simp only [if_true]
        rfl
      | cons p P2 =>
        rw [if_neg (fun hc => List.cons_ne_nil _ _ ((posOf_eq_ptr_iff ha).mp hc)), ha.ptr]
        rfl
    · simp only [ListObj.spliceNode, if_neg hsz]
      show a._size + 1 = (P ++ x :: S).length
      rw [ha.size]
      simp only [List.length_append, List.length_cons]
      omega
    · intro y hy
      rw [hfr.1]
      rcases List.mem_append.mp hy with h3 | h3
      · exact ha.live y (List.mem_append_left _ h3)
      · rcases List.mem_cons.mp h3 with h4 | h4
        · subst h4; exact hb.live y (by simp)
        · exact ha.live y (List.mem_append_right _ h4)
  · refine ⟨?_, hndB, ?_, ?_, ?_⟩
    · rw [(spliceNode_ids m a b _ _).2]
      apply link_remove hb.links hb.nodup
      · intro r hr
        have h3 : r ≠ lastOf a.id P := by
          rcases hr with h6 | h6
          · exact (cells_ne hab hdP1 hlP h6).symm
          · exact (cells_ne hab hdP2 hlP (mem_ringRight_iff_left.mp h6)).symm
        have h4 : r ≠ Ptr.node x := by
          rcases hr with h6 | h6
          · rcases mem_ringLeft.mp h6 with h7 | ⟨c, hc, h7⟩
            · rw [h7]; intro hc; cases hc
            · rw [h7]; intro hc2; cases hc2; exact hxB1 hc
          · rcases mem_ringRight.mp h6 with h7 | ⟨c, hc, h7⟩
            · rw [h7]; intro hc; cases hc
            · rw [h7]; intro hc2; cases hc2; exact hxB2 hc
        rw [hn r, if_neg h3, if_neg h4]
      · intro r hr
        have h3 : r ≠ posOf a.id S := by
          rcases hr with h6 | h6
          · exact (cells_ne hab hdS1 hpS h6).symm
          · exact (cells_ne hab hdS2 hpS (mem_ringRight_iff_left.mp h6)).symm
        have h4 : r ≠ Ptr.node x := by
          rcases hr with h6 | h6
          · rcases mem_ringLeft.mp h6 with h7 | ⟨c, hc, h7⟩
            · rw [h7]; intro hc; cases hc
            · rw [h7]; intro hc2; cases hc2; exact hxB1 hc
          · rcases mem_ringRight.mp h6 with h7 | ⟨c, hc, h7⟩
            · rw [h7]; intro hc; cases hc
            · rw [h7]; intro hc2; cases hc2; exact hxB2 hc
        rw [hp r, if_neg h4, if_neg h3]
    · simp only [ListObj.spliceNode, if_neg hsz]
      show (if Ptr.node x = b._ptr then _ else b._ptr) = posOf b.id (B1 ++ B2)
      cases B1 with
      | nil =>
        have h3 : Ptr.node x = b._ptr := by rw [hb.ptr]; rfl
        rw [if_pos h3]
        simp only [Mem.setPrev_next, Mem.setNext_next, h1.2, h2.1]
        rw [if_neg (lastOf_ne_node hxB1).symm]
        rfl
      | cons c B3 =>
        have h3 : Ptr.node x ≠ b._ptr := by
          rw [hb.ptr]
          show Ptr.node x ≠ Ptr.node c
          intro hc; cases hc
          exact hxB1 (List.mem_cons_self _ _)
        rw [if_neg h3, hb.ptr]
        rfl
    · simp only [ListObj.spliceNode, if_neg hsz]
      show b._size - 1 = (B1 ++ B2).length
      rw [hb.size]
      simp
    · intro y hy
      rw [hfr.1]
      apply hb.live
      rcases List.mem_append.mp hy with h3 | h3
      · exact List.mem_append_left _ h3
      · exact List.mem_append_right _ (List.mem_cons_of_mem _ h3)

end RawSpliceNode

section RawMove
variable {K V : Type}

theorem takeChain_links (m : Mem K V) (i : Nat) (b : ListObj) (B : List Nat)
    (hb : b.WF m B) (hB : B ≠ []) (hib : i ≠ b.id) :
    (∀ r, (ListObj.takeChain m i b).1.next r =
      if r = Ptr.fake b.id then Ptr.fake b.id
      else if r = lastOf b.id B then Ptr.fake i
      else if r = Ptr.fake i then posOf b.id B else m.next r) ∧
    (∀ r, (ListObj.takeChain m i b).1.prev r =
      if r = Ptr.fake b.id then Ptr.fake b.id
      else if r = posOf b.id B then Ptr.fake i
      else if r = Ptr.fake i then lastOf b.id B else m.prev r) := by
  obtain ⟨h1, h2⟩ := chain_ends hb.links
  obtain ⟨bf, _, hbf⟩ := posOf_of_ne_nil hB
  have hsz : b._size ≠ 0 := by
    rw [hb.size]
    exact fun hc => hB (List.length_eq_zero.mp hc)
  have hpf : posOf b.id B ≠ Ptr.fake i := by rw [hbf]; intro hc; cases hc
  have hbi : Ptr.fake b.id ≠ Ptr.fake i := by intro hc; cases hc; exact hib rfl
  have e1 : m.prev (posOf b.id B) = Ptr.fake b.id := h1.2
  have e2 : m.prev (Ptr.fake b.id) = lastOf b.id B := h2.2
  constructor
  · intro r
    simp only [ListObj.takeChain, if_pos hsz, ListObj.endPtr, Mem.setNext_next,
      Mem.setPrev_next, Mem.setNext_prev, Mem.setPrev_prev, hb.ptr, e1, e2, if_neg hpf,
      if_neg hbi]
  · intro r
    simp only [ListObj.takeChain, if_pos hsz, ListObj.endPtr, Mem.setNext_next,
      Mem.setPrev_next, Mem.setNext_prev, Mem.setPrev_prev, hb.ptr, e1, e2, if_neg hpf,
      if_neg hbi]

theorem takeChain_frame (m : Mem K V) (i : Nat) (b : ListObj) :
    (ListObj.takeChain m i b).1.alloc = m.alloc ∧
      (ListObj.takeChain m i b).1.payload = m.payload ∧
      (ListObj.takeChain m i b).1.hash = m.hash ∧
      (ListObj.takeChain m i b).2.1.id = i ∧ (ListObj.takeChain m i b).2.2.id = b.id ∧
      (ListObj.takeChain m i b).2.1._size = b._size ∧
      (ListObj.takeChain m i b).2.2._size = 0 := by
  unfold ListObj.takeChain
  split
  · exact ⟨rfl, rfl, rfl, rfl, rfl, rfl, rfl⟩
  · exact ⟨rfl, rfl, rfl, rfl, rfl, rfl, rfl⟩

/-- The relinking of the move operations hands the chain of `b` to the sentinel `i` and
leaves `b` empty. -/
theorem takeChain_wf (m : Mem K V) (i : Nat) (b : ListObj) (B : List Nat)
    (hb : b.WF m B) (hib : i ≠ b.id) :
    (ListObj.takeChain m i b).2.1.WF (ListObj.takeChain m i b).1 B ∧
      (ListObj.takeChain m i b).2.2.WF (ListObj.takeChain m i b).1 [] := by
  have hfr := takeChain_frame m i b
  have hbi : Ptr.fake b.id ≠ Ptr.fake i := by intro hc; cases hc; exact hib rfl
  by_cases hB : B = []
  · subst hB
    have hsz : ¬ b._size ≠ 0 := by rw [hb.size]; simp
    have hl : Link m (Ptr.fake b.id) (Ptr.fake b.id) := (chain_ends hb.links).1
    constructor
    · refine ⟨?_, List.nodup_nil, ?_, ?_, ?_⟩
      · simp only [ListObj.takeChain, if_neg hsz, ring, List.map_nil, List.nil_append,
          List.chain'_cons, List.chain'_singleton, and_true, Link, Mem.setNext_next,
          Mem.setPrev_next, Mem.setNext_prev, Mem.setPrev_prev, if_true]
      · simp only [ListObj.takeChain, if_neg hsz]
        rfl
      · rw [hfr.2.2.2.2.2.1, hb.size]
      · intro x hx; cases hx
    · refine ⟨?_, List.nodup_nil, ?_, ?_, ?_⟩
      · simp only [ListObj.takeChain, if_neg hsz, ring, List.map_nil, List.nil_append,
          List.chain'_cons, List.chain'_singleton, and_true, Link, Mem.setNext_next,
          Mem.setPrev_next, Mem.setNext_prev, Mem.setPrev_prev, if_neg hbi]
        exact hl
      · simp only [ListObj.takeChain, if_neg hsz]
        exact hb.ptr
      · rw [hfr.2.2.2.2.2.2]; rfl
      · intro x hx; cases hx
  · obtain ⟨hn, hp⟩ := takeChain_links m i b B hb hB hib
    have hsz : b._size ≠ 0 := by
      rw [hb.size]
      exact fun hc => hB (List.length_eq_zero.mp hc)
    obtain ⟨bl, _, hbl⟩ := lastOf_of_ne_nil hB
    obtain ⟨bf, _, hbf⟩ := posOf_of_ne_nil hB
    have hlf : ∀ k, lastOf b.id B ≠ Ptr.fake k := by intro k; rw [hbl]; intro hc; cases hc
    have hpf : ∀ k, posOf b.id B ≠ Ptr.fake k := by intro k; rw [hbf]; intro hc; cases hc
    constructor
    · refine ⟨?_, hb.nodup, ?_, ?_, ?_⟩
      · rw [hfr.2.2.2.1]
        have hgoal : ring i B = ring i (B ++ []) := by simp
        rw [hgoal]
        apply chain_join_at
        · show List.Chain' _ (Ptr.fake i :: B.map Ptr.node)
          rw [List.chain'_cons']
          constructor
          · intro y hy
            have hy2 : y = posOf b.id B := by
              cases B with
              | nil => exact absurd rfl hB
              | cons c B2 =>
                simp only [List.map_cons, List.head?_cons, Option.mem_def,
                  Option.some.injEq] at hy
                exact hy.symm
            subst hy2
            constructor
            · rw [hn, if_neg hbi.symm, if_neg (hlf i).symm, if_pos rfl]
            · rw [hp, if_neg (hpf b.id), if_pos rfl]
          · apply chain_frame m _ _ (chain_nodes hb.links)
            · intro p hp2
              have h1 : p ≠ lastOf b.id B := fun hc =>
                lastOf_not_mem_dropLast_nodes hB hb.nodup (hc ▸ hp2)
              obtain ⟨c, _, rfl⟩ := List.mem_map.mp (mem_of_mem_dropLast hp2)
              rw [hn, if_neg (by intro hc; cases hc), if_neg h1, if_neg (by intro hc; cases hc)]
            · intro q hq
              have h1 : q ≠ posOf b.id B := fun hc =>
                posOf_not_mem_tail_nodes hb.nodup (hc ▸ hq)
              obtain ⟨c, _, rfl⟩ := List.mem_map.mp (List.mem_of_mem_tail hq)
              rw [hp, if_neg (by intro hc; cases hc), if_neg h1, if_neg (by intro hc; cases hc)]
        · exact List.chain'_singleton _
        · show Link _ (lastOf i B) (Ptr.fake i)
          have : lastOf i B = lastOf b.id B := by rw [hbl, hbl]
          rw [this]
          constructor
          · rw [hn, if_neg (hlf b.id), if_pos rfl]
          · rw [hp, if_neg hbi.symm, if_neg (hpf i).symm, if_pos rfl]
      · simp only [ListObj.takeChain, if_pos hsz]
        rw [hb.ptr, hbf, hbf]
      · rw [hfr.2.2.2.2.2.1, hb.size]
      · intro x hx
        rw [hfr.1]
        exact hb.live x hx
    · refine ⟨?_, List.nodup_nil, ?_, ?_, ?_⟩
      · rw [hfr.2.2.2.2.1]
        simp only [ring, List.map_nil, List.nil_append, List.chain'_cons,
          List.chain'_singleton, and_true]
        constructor
        · rw [hn, if_pos rfl]
        · rw [hp, if_pos rfl]
      · simp only [ListObj.takeChain, if_pos hsz]
        rfl
      · rw [hfr.2.2.2.2.2.2]; rfl
      · intro x hx; cases hx

theorem link_release (m : Mem K V) (p : Ptr) : Link (m.release p) = Link m := by
  funext a b
  simp only [Link, Mem.release_next, Mem.release_prev]

theorem releaseAll_cons (m : Mem K V) (x : Nat) (X : List Nat) :
    releaseAll m (x :: X) = releaseAll (m.release (Ptr.node x)) X := rfl

theorem releaseAll_links (m : Mem K V) (X : List Nat) :
    (releaseAll m X).next = m.next ∧ (releaseAll m X).prev = m.prev ∧
      (releaseAll m X).hash = m.hash := by
  induction X generalizing m with
  | nil => exact ⟨rfl, rfl, rfl⟩
  | cons x X ih =>
    rw [releaseAll_cons]
    obtain ⟨h1, h2, h3⟩ := ih (m.release (Ptr.node x))
    exact ⟨by rw [h1, Mem.release_next], by rw [h2, Mem.release_prev],
      by rw [h3, Mem.release_hash]⟩

theorem releaseAll_contents (m : Mem K V) (X : List Nat) (b : Nat) :
    (releaseAll m X).alloc b = (if b ∈ X then false else m.alloc b) ∧
      (releaseAll m X).payload b = (if b ∈ X then none else m.payload b) := by
  induction X generalizing m with
  | nil => simp [releaseAll]
  | cons x X ih =>
    rw [releaseAll_cons]
    obtain ⟨h1, h2⟩ := ih (m.release (Ptr.node x))
    rw [h1, h2, Mem.release_node_alloc, Mem.release_node_payload]
    by_cases hbX : b ∈ X
    · simp [hbX]
    · by_cases hbx : b = x
      · simp [hbx]
      · simp [hbX, hbx]

/-- The destroying loop of the assignments frees exactly the nodes of the chain when the
fuel covers its length. -/
theorem destroyLoop_spec {i : Nat} :
    ∀ (X : List Nat) (fuel : Nat) (m : Mem K V), List.Chain' (Link m) (ringRight i X) →
      X.length ≤ fuel →
      ListObj.destroyLoop (Ptr.fake i) fuel m (posOf i X) = some (releaseAll m X)
  | [], fuel, m, _, _ => by
    cases fuel <;> simp [ListObj.destroyLoop, posOf, releaseAll]
  | x :: X, 0, m, _, hf => by simp at hf
  | x :: X, fuel + 1, m, hc, hf => by
    rw [ringRight_cons, List.chain'_cons'] at hc
    have hnx : m.next (Ptr.node x) = posOf i X := (hc.1 _ (head?_ringRight i X)).1
    have hne : posOf i (x :: X) ≠ Ptr.fake i := by intro h; cases h
    rw [ListObj.destroyLoop, if_neg hne]
    show ListObj.destroyLoop (Ptr.fake i) fuel (m.release (Ptr.node x)) (m.next (Ptr.node x)) = _
    rw [hnx, releaseAll_cons]
    apply destroyLoop_spec X fuel
    · rw [link_release]; exact hc.2
    · simpa using hf

theorem moveAssign_eq (fuel : Nat) (m : Mem K V) (a b : ListObj) (X : List Nat)
    (ha : a.WF m X) (hf : X.length ≤ fuel) :
    ListObj.moveAssign fuel m a b = some (ListObj.takeChain (releaseAll m X) a.id b) := by
  have h1 := (chain_ends ha.links).1
  have h2 := (chain_split_at (P := []) (S := X) ha.links).2.1
  have hfin : m.prev a._ptr = Ptr.fake a.id := by rw [ha.ptr]; exact h1.2
  unfold ListObj.moveAssign
  simp only [hfin]
  rw [ha.ptr, destroyLoop_spec X fuel m h2 hf]

theorem wf_releaseAll {m : Mem K V} {a b : ListObj} {X B : List Nat}
    (ha : a.WF m X) (hb : b.WF m B) (hab : a.id ≠ b.id) : b.WF (releaseAll m X) B := by
  obtain ⟨h1, h2, _⟩ := releaseAll_links m X
  refine ⟨?_, hb.nodup, hb.ptr, hb.size, ?_⟩
  · exact chain_frame m _ _ hb.links (fun p _ => by rw [h1]) (fun q _ => by rw [h2])
  · intro x hx
    rw [(releaseAll_contents m X x).1, if_neg (fun hc => wf_disjoint ha hb hab x hc hx)]
    exact hb.live x hx

end RawMove

section TableClaims
variable {K V : Type}
open UnorderedMap

theorem emplaceWalk_not_found (equal : K → K → Bool) (bc idx : Nat) (key : K)
    (L : List (Node K V)) (hw : ∀ it, emplaceWalk equal bc idx key L ≠ Walk.found it) :
    ∃ run rest, L = run ++ rest ∧ (∀ m ∈ run, m.hash % bc = idx) ∧
      (∀ y ∈ rest.head?, y.hash % bc ≠ idx) ∧
      emplaceWalk equal bc idx key L =
        (match rest.head? with
          | none => Walk.atEnd
          | some y => Walk.before y.addr) := by
  induction L with
  | nil => exact ⟨[], [], rfl, by simp, by simp, rfl⟩
  | cons x xs ih =>
    have hx : equal x.key key = false := by
      cases h : equal x.key key with
      | false => rfl
      | true => exact absurd (by simp [emplaceWalk, h]) (hw x.addr)
    by_cases hm : x.hash % bc = idx
    · have hw2 : ∀ it, emplaceWalk equal bc idx key xs ≠ Walk.found it := by
        intro it hc
        apply hw it
        simp only [emplaceWalk, hx, hm]
        simpa using hc
      obtain ⟨run, rest, e, h1, h2, h3⟩ := ih hw2
      refine ⟨x :: run, rest, by simp [e], ?_, h2, ?_⟩
      · intro m hmem
        rcases List.mem_cons.mp hmem with h | h
        · rw [h]; exact hm
        · exact h1 m h
      · simp only [emplaceWalk, hx, hm]
        simpa using h3
    · refine ⟨[], x :: xs, rfl, by simp, by simpa using hm, ?_⟩
      simp [emplaceWalk, hx, hm]

/-- Where `emplace` (past its load check) links a node whose key the run walk does not meet. -/
theorem emplaceCore_placed_walk (hash : K → Nat) (equal : K → K → Bool) (t : UnorderedMap K V)
    (h : WF t) (a : Nat) (key : K) (value : V) (hf : Fresh t a)
    (hw : ∀ p, t._array.getD (hash key % t._array.length) none = some p →
      ∀ it, emplaceWalk equal t._array.length (hash key % t._array.length) key
        (chainFrom (some p) t._list.nodes) ≠ Walk.found it) :
    (t._array.getD (hash key % t._array.length) none = none ∧
      emplaceCore hash equal t a key value =
        (⟨⟨⟨a, key, value, hash key⟩ :: t._list.nodes, t._list._size + 1⟩,
          t._array.set (hash key % t._array.length) (some a), t._size + 1,
          t._max_load_factor⟩, some a, true)) ∨
    (∃ pre x run rest, t._array.getD (hash key % t._array.length) none = some x.addr ∧
      t._list.nodes = pre ++ x :: run ++ rest ∧ (∀ m ∈ pre, m.addr ≠ x.addr) ∧
      (∀ m ∈ x :: run, m.hash % t._array.length = hash key % t._array.length) ∧
      (∀ y ∈ rest.head?, y.hash % t._array.length ≠ hash key % t._array.length) ∧
      emplaceCore hash equal t a key value =
        (⟨⟨pre ++ x :: run ++ ⟨a, key, value, hash key⟩ :: rest, t._list._size + 1⟩,
          t._array, t._size + 1, t._max_load_factor⟩, some a, true)) := by
  cases he : t._array.getD (hash key % t._array.length) none with
  | none =>
    left
    refine ⟨rfl, ?_⟩
    unfold emplaceCore
    simp only [temp_list_eq, splice_single, he, chainBefore_begin, chainFrom_begin]
    simp [LinkedList.begin]
  | some p =>
    right
    obtain ⟨x, hx, hxa, hxh⟩ := h.entries _ p he
    obtain ⟨pre, post, hn, hpre, hpost⟩ := split_of_mem h.list.nodup hx
    have hchain : chainFrom (some p) t._list.nodes = x :: post := by
      rw [hn, ← hxa]; exact chainFrom_at pre post x hpre
    have hw2 := hw p he
    rw [hchain] at hw2
    obtain ⟨run0, rest, e, h1, h2, h3⟩ :=
      emplaceWalk_not_found equal t._array.length (hash key % t._array.length) key
        (x :: post) hw2
    obtain ⟨run, hrun⟩ : ∃ run, run0 = x :: run := by
      cases run0 with
      | nil =>
        simp only [List.nil_append] at e
        rw [← e] at h2
        exact absurd hxh (h2 x (by simp))
      | cons y ys =>
        simp only [List.cons_append, List.cons.injEq] at e
        exact ⟨ys, by rw [e.1]⟩
    subst hrun
    have hpost2 : post = run ++ rest := by simpa using e
    have hnodes : t._list.nodes = pre ++ x :: run ++ rest := by rw [hn, hpost2]; simp
    have hnd := h.list.nodup
    rw [hnodes] at hnd
    refine ⟨pre, x, run, rest, by rw [hxa], hnodes, hpre, h1, h2, ?_⟩
    unfold emplaceCore
    simp only [temp_list_eq, splice_single, he, hchain, h3]
    cases rest with
    | nil =>
      simp only [List.head?_nil]
      rw [prevOf_insert _ _ _ (by simp)]
      simp [chainBefore, chainFrom, hnodes]
    | cons y ys =>
      simp only [List.head?_cons]
      have hya : ∀ m ∈ pre ++ x :: run, m.addr ≠ y.addr := by
        intro m hm hc
        have : (pre ++ x :: run ++ y :: ys) = (pre ++ x :: run) ++ y :: ys := by simp
        rw [this, List.map_append, List.nodup_append] at hnd
        exact hnd.2.2 (List.mem_map_of_mem _ hm) (by simp [hc])
      have hay : (⟨a, key, value, hash key⟩ : Node K V).addr ≠ y.addr := by
        intro hc
        exact hf y (by rw [hnodes]; simp) hc.symm
      rw [prevOf_insert _ _ _ (fun q hq => by cases hq; exact hay)]
      have hsplit : t._list.nodes = (pre ++ x :: run) ++ y :: ys := by
        rw [hnodes, List.append_assoc, List.cons_append]
      rw [hsplit, chainBefore_at _ _ _ hya, chainFrom_at _ _ _ hya]

theorem findWalk_eq_find (equal : K → K → Bool) (bc idx : Nat) (key : K)
    (L : List (Node K V)) :
    findWalk equal bc idx key L =
      (match L.find? (fun n => equal n.key key || decide (n.hash % bc ≠ idx)) with
        | none => none
        | some n => if equal n.key key then some n.addr else none) := by
  induction L with
  | nil => rfl
  | cons x xs ih =>
    cases hx : equal x.key key with
    | true => simp [findWalk, hx]
    | false =>
      by_cases hm : x.hash % bc = idx
      · simp only [findWalk, hx, hm, List.find?_cons]
        simpa using ih
      · simp [findWalk, hx, hm]

end TableClaims

section RawIterate
variable {K V : Type}

theorem follow_succ (m : Mem K V) (p : Ptr) (n : Nat) :
    follow m p (n + 1) = follow m (m.next p) n :=
  Function.iterate_succ_apply _ _ _

theorem follow_succ_last (m : Mem K V) (p : Ptr) (n : Nat) :
    follow m p (n + 1) = m.next (follow m p n) :=
  Function.iterate_succ_apply' _ _ _

/-- Following `next` along a chain visits its nodes in order and then the sentinel. -/
theorem follow_chain {m : Mem K V} {i : Nat} :
    ∀ (X : List Nat) (k : Nat), List.Chain' (Link m) (ringRight i X) → k ≤ X.length →
      follow m (posOf i X) k = posOf i (X.drop k)
  | _, 0, _, _ => rfl
  | [], k + 1, _, hk => by simp at hk
  | x :: X, k + 1, hc, hk => by
    rw [ringRight_cons, List.chain'_cons'] at hc
    have hnx : m.next (Ptr.node x) = posOf i X := (hc.1 _ (head?_ringRight i X)).1
    show follow m (Ptr.node x) (k + 1) = posOf i (X.drop k)
    rw [follow_succ, hnx]
    exact follow_chain X k hc.2 (by simpa using hk)

/-- Iterating from `begin()` over a well-formed list meets its nodes in order and reaches
`end()` after exactly `size()` steps. -/
theorem wf_iterate {m : Mem K V} {l : ListObj} {xs : List Nat} (h : l.WF m xs) :
    (∀ k, k ≤ xs.length → follow m l.beginPtr k = posOf l.id (xs.drop k)) ∧
      follow m l.beginPtr l._size = l.endPtr := by
  have hR := (chain_split_at (P := []) (S := xs) h.links).2.1
  have h1 : ∀ k, k ≤ xs.length → follow m l.beginPtr k = posOf l.id (xs.drop k) := by
    intro k hk
    show follow m l._ptr k = _
    rw [h.ptr]
    exact follow_chain xs k hR hk
  refine ⟨h1, ?_⟩
  rw [h.size, h1 _ (Nat.le_refl _)]
  simp [posOf, ListObj.endPtr]

theorem isEmptyList_of_wf {m : Mem K V} {l : ListObj} (h : l.WF m []) : IsEmptyList m l := by
  obtain ⟨h1, _⟩ := chain_ends h.links
  exact ⟨h.size, h.ptr, h1.1, h1.2⟩

theorem posOf_insert_iff {i x : Nat} {P S : List Nat} (hnd : (P ++ x :: S).Nodup) :
    posOf i (P ++ x :: S) = Ptr.node x ↔ P = [] := by
  cases P with
  | nil => simp [posOf]
  | cons p P2 =>
    simp only [List.cons_append, posOf, Ptr.node.injEq, reduceCtorEq, iff_false]
    intro hc
    subst hc
    have := (List.nodup_cons.mp (show (p :: (P2 ++ p :: S)).Nodup from hnd)).1
    exact this (by simp)

theorem posOf_append_iff {i : Nat} {B1 B2 : List Nat} (hnd : (B1 ++ B2).Nodup) :
    posOf i (B1 ++ B2) = posOf i B2 ↔ B1 = [] := by
  cases B1 with
  | nil => simp
  | cons c B3 =>
    simp only [List.cons_append, reduceCtorEq, iff_false]
    show Ptr.node c ≠ posOf i B2
    have hc : c ∉ B2 := fun hm =>
      (List.nodup_cons.mp (show (c :: (B3 ++ B2)).Nodup from hnd)).1
        (List.mem_append_right _ hm)
    exact (posOf_ne_node hc).symm

theorem allocate_deallocate (m : Mem K V) (a : Nat) (ha : m.alloc a = false) :
    (m.allocate a).deallocate a = m := by
  cases m with
  | mk next prev alloc payload hash =>
    simp only [Mem.allocate, Mem.deallocate, Mem.mk.injEq, true_and, and_true]
    funext b
    by_cases hb : b = a
    · subst hb; simp only [if_true]; exact ha.symm
    · simp only [if_neg hb]

theorem emplace_contents (m : Mem K V) (l : ListObj) (it : Ptr) (a hash : Nat) (kv : K × V) :
    (l.emplace m it a hash kv).1.payload a = some kv ∧
      (l.emplace m it a hash kv).1.hash a = hash ∧
      (∀ b, b ≠ a → (l.emplace m it a hash kv).1.payload b = m.payload b ∧
        (l.emplace m it a hash kv).1.hash b = m.hash b) ∧
      (l.emplace m it a hash kv).2.2 = Ptr.node a ∧
      (l.emplace m it a hash kv).2.1._size = l._size + 1 := by
  refine ⟨?_, ?_, ?_, rfl, rfl⟩
  · simp [ListObj.emplace]
  · simp [ListObj.emplace]
  · intro b hb
    simp [ListObj.emplace, hb]

theorem erase_contents (m : Mem K V) (l : ListObj) (x : Nat) :
    (l.erase m (Ptr.node x)).1.alloc x = false ∧
      (l.erase m (Ptr.node x)).1.payload x = none ∧
      (∀ b, b ≠ x → (l.erase m (Ptr.node x)).1.payload b = m.payload b ∧
        (l.erase m (Ptr.node x)).1.hash b = m.hash b ∧
        (l.erase m (Ptr.node x)).1.alloc b = m.alloc b) ∧
      (l.erase m (Ptr.node x)).2.1._size = l._size - 1 := by
  refine ⟨?_, ?_, ?_, rfl⟩
  · simp [ListObj.erase]
  · simp [ListObj.erase]
  · intro b hb
    simp [ListObj.erase, hb]

end RawIterate

/-! ## Claims C21 to C30 -/

/-- C21 (defect of copy assignment): `List::operator=(const List&)` tests `_size != 0` before
`_size` takes the size of the source. Assigning the list with the nodes 20, 21 to an empty
list leaves the sentinel of the target linked to itself and the last copy's `next` on the
copy itself: `size()` is 2 but following `next` from `begin()` never reaches `end()`.
Assigning an empty list to the list with the nodes 10, 11 frees both nodes and leaves
`size() == 0` with `begin()` still on the freed node 10, not on `end()`. -/
theorem copy_assign_breaks_chain :
    (∃ r, copyIntoEmpty = some r ∧ r.2._size = 2 ∧ r.2.beginPtr = Ptr.node 30 ∧
      r.1.next (Ptr.node 31) = Ptr.node 31 ∧
      (∀ n, follow r.1 r.2.beginPtr n ≠ r.2.endPtr) ∧ ¬ r.2.WF r.1 [30, 31]) ∧
    (∃ r, copyFromEmpty = some r ∧ r.2._size = 0 ∧ r.2.beginPtr = Ptr.node 10 ∧
      r.2.beginPtr ≠ r.2.endPtr ∧ r.1.alloc 10 = false) := by
  constructor
  · have h1 : copyIntoEmpty.isSome = true := by decide
    obtain ⟨r, hr⟩ := Option.isSome_iff_exists.mp h1
    have h2 : copyIntoEmpty.map (fun r => r.2) = some ⟨2, Ptr.node 30, 2⟩ := by decide
    have h3 : copyIntoEmpty.map (fun r => (r.1.next (Ptr.node 30), r.1.next (Ptr.node 31))) =
        some (Ptr.node 31, Ptr.node 31) := by decide
    rw [hr] at h2 h3
    simp only [Option.map_some', Option.some.injEq, Prod.mk.injEq] at h2 h3
    have hfol : ∀ n, follow r.1 (Ptr.node 30) n = Ptr.node 30 ∨
        follow r.1 (Ptr.node 30) n = Ptr.node 31 := by
      intro n
      induction n with
      | zero => exact Or.inl rfl
      | succ k ih =>
        rw [follow_succ_last]
        rcases ih with e | e
        · rw [e, h3.1]; exact Or.inr rfl
        · rw [e, h3.2]; exact Or.inr rfl
    have hnever : ∀ n, follow r.1 r.2.beginPtr n ≠ r.2.endPtr := by
      intro n
      show follow r.1 r.2._ptr n ≠ Ptr.fake r.2.id
      rw [h2]
      rcases hfol n with e | e <;> rw [e] <;> intro hc <;> cases hc
    refine ⟨r, hr, by rw [h2], by rw [h2]; rfl, h3.2, hnever, ?_⟩
    intro hwf
    have := (wf_iterate hwf).2
    exact hnever _ this
  · have h1 : copyFromEmpty.isSome = true := by decide
    obtain ⟨r, hr⟩ := Option.isSome_iff_exists.mp h1
    have h2 : copyFromEmpty.map (fun r => (r.2, r.1.alloc 10)) =
        some (⟨0, Ptr.node 10, 0⟩, false) := by decide
    rw [hr] at h2
    simp only [Option.map_some', Option.some.injEq, Prod.mk.injEq] at h2
    refine ⟨r, hr, by rw [h2.1], by rw [h2.1]; rfl, ?_, h2.2⟩
    rw [h2.1]
    intro hc
    cases hc

/-- C22: on a well-formed list with the element sequence `P ++ S`, `emplace` at the cursor of
the first element of `S` (`end()` when `S` is empty), with the node allocated at the unused
address `a`, succeeds and leaves a well-formed list with the sequence `P ++ [a] ++ S`; `a` is
a new node holding the payload built from the arguments and the given hash; `size()` grows
by 1; `begin()` references the new node iff `P` is empty; the returned cursor references it;
payloads and hashes of the old nodes are unchanged. -/
theorem list_emplace_spec {K V : Type} (m : Mem K V) (l : ListObj) (P S : List Nat)
    (a hash : Nat) (kv : K × V) (h : l.WF m (P ++ S)) (ha : m.alloc a = false) :
    l.emplaceE m (posOf l.id S) a hash (some kv) =
      Except.ok (l.emplace m (posOf l.id S) a hash kv) ∧
    (l.emplace m (posOf l.id S) a hash kv).2.1.WF (l.emplace m (posOf l.id S) a hash kv).1
      (P ++ a :: S) ∧
    a ∉ P ++ S ∧
    (l.emplace m (posOf l.id S) a hash kv).2.1._size = l._size + 1 ∧
    ((l.emplace m (posOf l.id S) a hash kv).2.1.beginPtr = Ptr.node a ↔ P = []) ∧
    (l.emplace m (posOf l.id S) a hash kv).2.2 = Ptr.node a ∧
    (l.emplace m (posOf l.id S) a hash kv).1.payload a = some kv ∧
    (l.emplace m (posOf l.id S) a hash kv).1.hash a = hash ∧
    SameContents m (l.emplace m (posOf l.id S) a hash kv).1 (P ++ S) := by
  have hwf := emplace_wf m l P S a hash kv h ha
  have hfresh : a ∉ P ++ S := not_mem_of_unallocated h ha
  obtain ⟨c1, c2, c3, c4, c5⟩ := emplace_contents m l (posOf l.id S) a hash kv
  refine ⟨rfl, hwf, hfresh, c5, ?_, c4, c1, c2, ?_⟩
  · show (l.emplace m (posOf l.id S) a hash kv).2.1._ptr = Ptr.node a ↔ P = []
    rw [hwf.ptr]
    exact posOf_insert_iff hwf.nodup
  · intro b hb
    exact c3 b (fun hc => hfresh (hc ▸ hb))

/-- Witness of C22: `emplace` before the node 11 of the list with the nodes 10, 11. -/
theorem list_emplace_spec_witness :
    (rawA.WF rawMem ([10] ++ [11]) ∧ rawMem.alloc 12 = false) ∧
    (rawA.emplace rawMem (posOf rawA.id [11]) 12 1 (7, 70)).2.1.WF
      (rawA.emplace rawMem (posOf rawA.id [11]) 12 1 (7, 70)).1 ([10] ++ 12 :: [11]) ∧
    (rawA.emplace rawMem (posOf rawA.id [11]) 12 1 (7, 70)).2.1._size = rawA._size + 1 :=
  have hall := list_emplace_spec rawMem rawA [10] [11] 12 1 (7, 70) (by decide) (by decide)
  ⟨⟨by decide, by decide⟩, hall.2.1, hall.2.2.2.1⟩

/-- C23: when the payload constructor throws during `emplace` (node allocated at the unused
address `a`), the call ends with the exception and leaves the memory and the list object
exactly as they were: same links, same contents and allocation state, same `_ptr` and
`_size`; in particular a well-formed list keeps its node sequence. -/
theorem list_emplace_failure {K V : Type} (m : Mem K V) (l : ListObj) (it : Ptr)
    (a hash : Nat) (ha : m.alloc a = false) :
    l.emplaceE m it a hash (none : Option (K × V)) = Except.error (m, l) := by
  simp only [ListObj.emplaceE, allocate_deallocate m a ha]

/-- Witness of C23: a throwing `emplace` before the node 11 of the list with nodes 10, 11. -/
theorem list_emplace_failure_witness :
    rawMem.alloc 12 = false ∧
    rawA.emplaceE rawMem (Ptr.node 11) 12 1 (none : Option (Nat × Nat)) =
      Except.error (rawMem, rawA) :=
  ⟨by decide, list_emplace_failure rawMem rawA (Ptr.node 11) 12 1 (by decide)⟩

/-- C24, counterexample: on the table holding the keys 0 and 4 (size 2, two buckets, max load
factor 1) an insert whose payload construction fails leaves the error state with four
buckets: the load check has already rehashed, so `bucket_count()` is not unchanged. -/
theorem insert_failure_rehashes :
    ∃ t2, UnorderedMap.emplaceE idHash natEq table04 2 none = Except.error t2 ∧
      table04.bucket_count = 2 ∧ t2.bucket_count = 4 ∧ t2._array ≠ table04._array :=
  ⟨table04.rehash (2 * table04._array.length), by
    simp only [UnorderedMap.emplaceE]
    rw [if_pos (by decide)], by decide, by decide, by decide⟩

/-- C24 (amended): an insert whose payload construction fails propagates the failure and
leaves the table as its load check left it: exactly as before the call when
`size + 1 <= max_load_factor * bucket_count`, and otherwise as `rehash(2 * bucket_count)`
leaves it, with `size()` unchanged and the same nodes in the list. -/
theorem insert_failure_state {K V : Type} (hash : K → Nat) (equal : K → K → Bool)
    (t : UnorderedMap K V) (a : Nat) (hl : t._list._size = t._list.nodes.length) :
    ∃ t2, UnorderedMap.emplaceE hash equal t a none = Except.error t2 ∧
      ((t.size + 1) * t._max_load_factor.den ≤ t._max_load_factor.num * t.bucket_count →
        t2 = t) ∧
      (t._max_load_factor.num * t.bucket_count < (t.size + 1) * t._max_load_factor.den →
        t2 = t.rehash (2 * t.bucket_count)) ∧
      t2.size = t.size ∧ t2._list.nodes.Perm t._list.nodes ∧
      t2._list._size = t._list._size ∧ t2._max_load_factor = t._max_load_factor := by
  by_cases hr : t._max_load_factor.num * t._array.length <
      (t._size + 1) * t._max_load_factor.den
  · have hnr : UnorderedMap.needsRehash t = true := by
      simp only [UnorderedMap.needsRehash, decide_eq_true_eq]; exact hr
    obtain ⟨hp, hs, _⟩ := rehash_list t (2 * t._array.length) hl
    refine ⟨t.rehash (2 * t._array.length), ?_, ?_, fun _ => rfl,
      (rehash_frame t _).1, hp, ?_, (rehash_frame t _).2⟩
    · simp only [UnorderedMap.emplaceE, hnr, if_true]
    · intro hc
      exact absurd hr (Nat.not_lt.mpr hc)
    · rw [hs, hl, hp.length_eq]
  · have hnr : UnorderedMap.needsRehash t = false := by
      simp only [UnorderedMap.needsRehash, decide_eq_false_iff_not]; exact hr
    refine ⟨t, ?_, fun _ => rfl, ?_, rfl, List.Perm.refl _, rfl, rfl⟩
    · simp only [UnorderedMap.emplaceE, hnr, Bool.false_eq_true, if_false]
    · intro hc
      exact absurd hc hr

/-- Witness of C24 on the table holding the keys 0 and 4. -/
theorem insert_failure_state_witness :
    table04._list._size = table04._list.nodes.length ∧
    ∃ t2, UnorderedMap.emplaceE idHash natEq table04 2 none = Except.error t2 ∧
      ((table04.size + 1) * table04._max_load_factor.den ≤
          table04._max_load_factor.num * table04.bucket_count → t2 = table04) ∧
      (table04._max_load_factor.num * table04.bucket_count <
          (table04.size + 1) * table04._max_load_factor.den →
        t2 = table04.rehash (2 * table04.bucket_count)) ∧
      t2.size = table04.size ∧ t2._list.nodes.Perm table04._list.nodes ∧
      t2._list._size = table04._list._size ∧
      t2._max_load_factor = table04._max_load_factor :=
  ⟨by decide, insert_failure_state idHash natEq table04 2 (by decide)⟩

/-- C25: on a well-formed list with the element sequence `P ++ [x] ++ S`, `erase` at the
cursor of `x` leaves a well-formed list with the sequence `P ++ S`, decrements `size()` by
1, returns the cursor of the first element of `S` (`end()` when `S` is empty), sets
`begin()` to that successor when `P` is empty and keeps `begin()` otherwise; the node `x` is
destroyed and freed, the payloads and hashes of the other nodes are unchanged. -/
theorem list_erase_spec {K V : Type} (m : Mem K V) (l : ListObj) (P S : List Nat) (x : Nat)
    (h : l.WF m (P ++ x :: S)) :
    (l.erase m (Ptr.node x)).2.1.WF (l.erase m (Ptr.node x)).1 (P ++ S) ∧
    (l.erase m (Ptr.node x)).2.1._size + 1 = l._size ∧
    (l.erase m (Ptr.node x)).2.2 = posOf l.id S ∧
    (P = [] → (l.erase m (Ptr.node x)).2.1.beginPtr = posOf l.id S) ∧
    (P ≠ [] → (l.erase m (Ptr.node x)).2.1.beginPtr = l.beginPtr) ∧
    (l.erase m (Ptr.node x)).1.alloc x = false ∧
    (l.erase m (Ptr.node x)).1.payload x = none ∧
    SameContents m (l.erase m (Ptr.node x)).1 (P ++ S) := by
  have hwf := erase_wf m l P S x h
  obtain ⟨hans, _, _⟩ := erase_links m l P S x h
  obtain ⟨c1, c2, c3, c4⟩ := erase_contents m l x
  obtain ⟨_, _, hxP, hxS, _, _⟩ := disjoint_facts h.nodup
  refine ⟨hwf, ?_, hans, ?_, ?_, c1, c2, ?_⟩
  · rw [c4, h.size]
    simp only [List.length_append, List.length_cons]
    omega
  · intro hP
    subst hP
    show (l.erase m (Ptr.node x)).2.1._ptr = _
    rw [hwf.ptr]
    rfl
  · intro hP
    show (l.erase m (Ptr.node x)).2.1._ptr = l._ptr
    rw [hwf.ptr, h.ptr]
    cases P with
    | nil => exact absurd rfl hP
    | cons p P2 => rfl
  · intro b hb
    have hbx : b ≠ x := by
      intro hc
      subst hc
      rcases List.mem_append.mp hb with h1 | h1
      · exact hxP h1
      · exact hxS h1
    exact ⟨(c3 b hbx).1, (c3 b hbx).2.1⟩

/-- Witness of C25: `erase` of the first node of the list with the nodes 10, 11. -/
theorem list_erase_spec_witness :
    rawA.WF rawMem ([] ++ 10 :: [11]) ∧
    (rawA.erase rawMem (Ptr.node 10)).2.1.WF (rawA.erase rawMem (Ptr.node 10)).1 ([] ++ [11]) ∧
    (rawA.erase rawMem (Ptr.node 10)).2.1._size + 1 = rawA._size ∧
    (rawA.erase rawMem (Ptr.node 10)).2.2 = posOf rawA.id [11] :=
  have hall := list_erase_spec rawMem rawA [] [11] 10 (by decide)
  ⟨by decide, hall.1, hall.2.1, hall.2.2.1⟩

/-- C26: for two well-formed lists with distinct sentinels, `a` with the sequence `P ++ S`
and `b` with the sequence `B`, `a.splice(pos, b)` at the cursor of the first element of `S`
(`end()` when `S` is empty) leaves `a` well formed with the sequence `P ++ B ++ S` over the
same nodes, `a.size()` the sum of both sizes, `b` empty with its sentinel linked to itself,
and `a.begin()` on the first node of `B` when `P` is empty and `B` is not; nothing is
allocated or freed and no payload or hash changes; when `B` is empty nothing changes. -/
theorem list_splice_spec {K V : Type} (m : Mem K V) (a b : ListObj) (P S B : List Nat)
    (ha : a.WF m (P ++ S)) (hb : b.WF m B) (hab : a.id ≠ b.id) :
    (a.splice m (posOf a.id S) b).2.1.WF (a.splice m (posOf a.id S) b).1 (P ++ B ++ S) ∧
    (a.splice m (posOf a.id S) b).2.2.WF (a.splice m (posOf a.id S) b).1 [] ∧
    (a.splice m (posOf a.id S) b).2.1._size = a._size + b._size ∧
    IsEmptyList (a.splice m (posOf a.id S) b).1 (a.splice m (posOf a.id S) b).2.2 ∧
    (P = [] → B ≠ [] → (a.splice m (posOf a.id S) b).2.1.beginPtr = posOf b.id B) ∧
    (a.splice m (posOf a.id S) b).1.alloc = m.alloc ∧
    (a.splice m (posOf a.id S) b).1.payload = m.payload ∧
    (a.splice m (posOf a.id S) b).1.hash = m.hash ∧
    (B = [] → a.splice m (posOf a.id S) b = (m, a, b)) := by
  obtain ⟨hwa, hwb⟩ := splice_wf m a b P S B ha hb hab
  obtain ⟨f1, f2, f3⟩ := splice_frame m a b (posOf a.id S)
  refine ⟨hwa, hwb, ?_, isEmptyList_of_wf hwb, ?_, f1, f2, f3, ?_⟩
  · rw [hwa.size, ha.size, hb.size]
    simp only [List.length_append]
    omega
  · intro hP hB
    subst hP
    show (a.splice m (posOf a.id S) b).2.1._ptr = _
    rw [hwa.ptr]
    simp only [List.nil_append]
    exact posOf_append_of_ne_nil _ b.id S hB
  · intro hB
    subst hB
    exact splice_empty m a b _ hb

/-- Witness of C26: the list with the nodes 20, 21 spliced before the node 11 of the list
with the nodes 10, 11. -/
theorem list_splice_spec_witness :
    (rawA.WF rawMem ([10] ++ [11]) ∧ rawB.WF rawMem [20, 21] ∧ rawA.id ≠ rawB.id) ∧
    (rawA.splice rawMem (posOf rawA.id [11]) rawB).2.1.WF
      (rawA.splice rawMem (posOf rawA.id [11]) rawB).1 ([10] ++ [20, 21] ++ [11]) ∧
    (rawA.splice rawMem (posOf rawA.id [11]) rawB).2.2.WF
      (rawA.splice rawMem (posOf rawA.id [11]) rawB).1 [] :=
  have hall := list_splice_spec rawMem rawA rawB [10] [11] [20, 21] (by decide) (by decide)
    (by decide)
  ⟨⟨by decide, by decide, by decide⟩, hall.1, hall.2.1⟩

/-- C27: for two well-formed lists with distinct sentinels, `a` with the sequence `P ++ S`
and `b` with the sequence `B1 ++ [x] ++ B2`, `a.splice(pos, b, it)` with `pos` at the first
element of `S` (`end()` when `S` is empty) and `it` on `x` leaves `a` well formed with the
sequence `P ++ [x] ++ S` and `b` well formed with `B1 ++ B2`; `x` is the same node, nothing
is allocated, freed or constructed and no payload or hash changes; `a.size()` grows by 1 and
`b.size()` shrinks by 1; `a.begin()` references `x` iff `P` is empty; `b.begin()` references
the first node of `B2` (`b.end()` when `B2` is empty) iff `B1` is empty, and is unchanged
otherwise. -/
theorem list_splice_node_spec {K V : Type} (m : Mem K V) (a b : ListObj)
    (P S B1 B2 : List Nat) (x : Nat)
    (ha : a.WF m (P ++ S)) (hb : b.WF m (B1 ++ x :: B2)) (hab : a.id ≠ b.id) :
    (a.spliceNode m (posOf a.id S) b (Ptr.node x)).2.1.WF
      (a.spliceNode m (posOf a.id S) b (Ptr.node x)).1 (P ++ x :: S) ∧
    (a.spliceNode m (posOf a.id S) b (Ptr.node x)).2.2.WF
      (a.spliceNode m (posOf a.id S) b (Ptr.node x)).1 (B1 ++ B2) ∧
    (a.spliceNode m (posOf a.id S) b (Ptr.node x)).2.1._size = a._size + 1 ∧
    (a.spliceNode m (posOf a.id S) b (Ptr.node x)).2.2._size + 1 = b._size ∧
    ((a.spliceNode m (posOf a.id S) b (Ptr.node x)).2.1.beginPtr = Ptr.node x ↔ P = []) ∧
    ((a.spliceNode m (posOf a.id S) b (Ptr.node x)).2.2.beginPtr = posOf b.id B2 ↔ B1 = []) ∧
    (B1 ≠ [] → (a.spliceNode m (posOf a.id S) b (Ptr.node x)).2.2.beginPtr = b.beginPtr) ∧
    (a.spliceNode m (posOf a.id S) b (Ptr.node x)).1.alloc = m.alloc ∧
    (a.spliceNode m (posOf a.id S) b (Ptr.node x)).1.payload = m.payload ∧
    (a.spliceNode m (posOf a.id S) b (Ptr.node x)).1.hash = m.hash := by
  obtain ⟨hwa, hwb⟩ := spliceNode_wf m a b P S B1 B2 x ha hb hab
  obtain ⟨f1, f2, f3⟩ := spliceNode_frame m a b (posOf a.id S) (Ptr.node x)
  obtain ⟨i1, i2⟩ := spliceNode_ids m a b (posOf a.id S) (Ptr.node x)
  refine ⟨hwa, hwb, ?_, ?_, ?_, ?_, ?_, f1, f2, f3⟩
  · rw [hwa.size, ha.size]
    simp only [List.length_append, List.length_cons]
    omega
  · rw [hwb.size, hb.size]
    simp only [List.length_append, List.length_cons]
    omega
  · show (a.spliceNode m (posOf a.id S) b (Ptr.node x)).2.1._ptr = Ptr.node x ↔ P = []
    rw [hwa.ptr]
    exact posOf_insert_iff hwa.nodup
  · show (a.spliceNode m (posOf a.id S) b (Ptr.node x)).2.2._ptr = posOf b.id B2 ↔ B1 = []
    rw [hwb.ptr, i2]
    exact posOf_append_iff hwb.nodup
  · intro hB1
    show (a.spliceNode m (posOf a.id S) b (Ptr.node x)).2.2._ptr = b._ptr
    rw [hwb.ptr, i2, hb.ptr]
    cases B1 with
    | nil => exact absurd rfl hB1
    | cons c B3 => rfl

/-- Witness of C27: the node 20 of the list 20, 21 spliced before the node 11 of the list
10, 11. -/
theorem list_splice_node_spec_witness :
    (rawA.WF rawMem ([10] ++ [11]) ∧ rawB.WF rawMem ([] ++ 20 :: [21]) ∧ rawA.id ≠ rawB.id) ∧
    (rawA.spliceNode rawMem (posOf rawA.id [11]) rawB (Ptr.node 20)).2.1.WF
      (rawA.spliceNode rawMem (posOf rawA.id [11]) rawB (Ptr.node 20)).1 ([10] ++ 20 :: [11]) ∧
    (rawA.spliceNode rawMem (posOf rawA.id [11]) rawB (Ptr.node 20)).2.2.WF
      (rawA.spliceNode rawMem (posOf rawA.id [11]) rawB (Ptr.node 20)).1 ([] ++ [21]) :=
  have hall := list_splice_node_spec rawMem rawA rawB [10] [11] [] [21] 20 (by decide)
    (by decide) (by decide)
  ⟨⟨by decide, by decide, by decide⟩, hall.1, hall.2.1⟩

/-- C28: for a well-formed list `b` with the sequence `B`, move-constructing a list with a new
sentinel `i` from `b`, and move-assigning `b` to a well-formed list `a` with another sentinel
(the loop that frees the old nodes of `a` given fuel for their number), both give the target
exactly the node sequence `B` in a well-formed circular chain through its own sentinel, with
the size `b` had and the payloads and hashes of the nodes untouched, and leave `b` empty
with its sentinel linked to itself. Move assignment frees the former nodes of `a`. -/
theorem list_move_spec {K V : Type} (m : Mem K V) (b : ListObj) (B : List Nat)
    (hb : b.WF m B) :
    (∀ i, i ≠ b.id →
      (ListObj.moveConstruct m i b).2.1.WF (ListObj.moveConstruct m i b).1 B ∧
      (ListObj.moveConstruct m i b).2.1.id = i ∧
      (ListObj.moveConstruct m i b).2.1._size = b._size ∧
      (ListObj.moveConstruct m i b).2.2.WF (ListObj.moveConstruct m i b).1 [] ∧
      (ListObj.moveConstruct m i b).2.2.id = b.id ∧
      IsEmptyList (ListObj.moveConstruct m i b).1 (ListObj.moveConstruct m i b).2.2 ∧
      (ListObj.moveConstruct m i b).1.alloc = m.alloc ∧
      (ListObj.moveConstruct m i b).1.payload = m.payload ∧
      (ListObj.moveConstruct m i b).1.hash = m.hash) ∧
    (∀ (a : ListObj) (X : List Nat) (fuel : Nat), a.WF m X → a.id ≠ b.id → X.length ≤ fuel →
      ∃ r, ListObj.moveAssign fuel m a b = some r ∧
        r.2.1.WF r.1 B ∧ r.2.1.id = a.id ∧ r.2.1._size = b._size ∧
        r.2.2.WF r.1 [] ∧ r.2.2.id = b.id ∧ IsEmptyList r.1 r.2.2 ∧
        SameContents m r.1 B ∧ (∀ x ∈ X, r.1.alloc x = false)) := by
  constructor
  · intro i hi
    obtain ⟨hwa, hwb⟩ := takeChain_wf m i b B hb hi
    obtain ⟨f1, f2, f3, f4, f5, f6, _⟩ := takeChain_frame m i b
    exact ⟨hwa, f4, f6, hwb, f5, isEmptyList_of_wf hwb, f1, f2, f3⟩
  · intro a X fuel ha hab hf
    have hb2 : b.WF (releaseAll m X) B := wf_releaseAll ha hb hab
    obtain ⟨hwa, hwb⟩ := takeChain_wf (releaseAll m X) a.id b B hb2 hab
    obtain ⟨f1, f2, f3, f4, f5, f6, _⟩ := takeChain_frame (releaseAll m X) a.id b
    refine ⟨_, moveAssign_eq fuel m a b X ha hf, hwa, f4, f6, hwb, f5, isEmptyList_of_wf hwb,
      ?_, ?_⟩
    · intro x hx
      have hxX : x ∉ X := fun hc => wf_disjoint ha hb hab x hc hx
      rw [f2, f3, (releaseAll_contents m X x).2, if_neg hxX, (releaseAll_links m X).2.2]
      exact ⟨rfl, rfl⟩
    · intro x hx
      rw [f1, (releaseAll_contents m X x).1, if_pos hx]

/-- Witness of C28: the list with the nodes 20, 21 moved into a new list with sentinel 2, and
move-assigned to the list with the nodes 10, 11. -/
theorem list_move_spec_witness :
    rawB.WF rawMem [20, 21] ∧
    (ListObj.moveConstruct rawMem 2 rawB).2.1.WF (ListObj.moveConstruct rawMem 2 rawB).1
      [20, 21] ∧
    (∃ r, ListObj.moveAssign 2 rawMem rawA rawB = some r ∧ r.2.1.WF r.1 [20, 21] ∧
      r.2.2.WF r.1 []) :=
  have hall := list_move_spec rawMem rawB [20, 21] (by decide)
  ⟨by decide, (hall.1 2 (by decide)).1,
    (hall.2 rawA [10, 11] 2 (by decide) (by decide) (by decide)).imp
      (fun _ h => ⟨h.1, h.2.1, h.2.2.2.2.1⟩)⟩

/-- C29: for every table with at least one bucket and every key, `find(key)` equals the
reference walk `findReference`: `end()` when the bucket entry is empty; otherwise the first
node, scanning forward from the entry's node, that has an equal key or a different reduced
hash decides (found when the key is equal, `end()` otherwise), and `end()` when the sentinel
is reached. `_find` takes the table as a value and returns a cursor only. -/
theorem find_is_reference_walk {K V : Type} (hash : K → Nat) (equal : K → K → Bool)
    (t : UnorderedMap K V) (_hpos : 1 ≤ t.bucket_count) (key : K) :
    UnorderedMap._find hash equal t key = UnorderedMap.findReference hash equal t key := by
  simp only [UnorderedMap._find, UnorderedMap.findReference, UnorderedMap.bucket_count]
  cases he : t._array.getD (hash key % t._array.length) none with
  | none => rfl
  | some p => exact findWalk_eq_find equal _ _ key _

/-- Witness of C29 on the table holding the keys 0, 4 and 8, looked up at key 4. -/
theorem find_is_reference_walk_witness :
    1 ≤ table048.bucket_count ∧
    UnorderedMap._find idHash natEq table048 4 =
      UnorderedMap.findReference idHash natEq table048 4 :=
  ⟨by decide, find_is_reference_walk idHash natEq table048 (by decide) 4⟩

/-- C30: on a well-formed table with `size + 1 <= max_load_factor * bucket_count`, an insert
(candidate node at the fresh address `a`) whose key the run walk does not meet reports
success with a cursor to the new node and either (bucket entry empty) puts the new node at
the front of the list, with the cursor equal to `begin()` and the entry set to it, or
(entry on the node `x`) links it after the nodes from `x` on whose reduced hash is the bucket
index, immediately before the first node with a different reduced hash or at the end of the
list, and leaves the bucket array unchanged. Size grows by 1, the old nodes keep their
order, the bucket count is kept and no other entry changes. -/
theorem insert_placement {K V : Type} (hash : K → Nat) (equal : K → K → Bool)
    (t : UnorderedMap K V) (h : WF t) (a : Nat) (key : K) (value : V) (hf : Fresh t a)
    (hload : (t.size + 1) * t._max_load_factor.den ≤ t._max_load_factor.num * t.bucket_count)
    (hw : ∀ p, t._array.getD (hash key % t.bucket_count) none = some p →
      ∀ it, UnorderedMap.emplaceWalk equal t.bucket_count (hash key % t.bucket_count) key
        (chainFrom (some p) t._list.nodes) ≠ Walk.found it) :
    ((t._array.getD (hash key % t.bucket_count) none = none ∧
        (UnorderedMap.emplace hash equal t a key value).1._list.nodes =
          ⟨a, key, value, hash key⟩ :: t._list.nodes ∧
        (UnorderedMap.emplace hash equal t a key value).2.1 =
          (UnorderedMap.emplace hash equal t a key value).1.begin ∧
        (UnorderedMap.emplace hash equal t a key value).1._array =
          t._array.set (hash key % t.bucket_count) (some a)) ∨
      (∃ pre x run rest, t._array.getD (hash key % t.bucket_count) none = some x.addr ∧
        t._list.nodes = pre ++ x :: run ++ rest ∧ (∀ m ∈ pre, m.addr ≠ x.addr) ∧
        (∀ m ∈ x :: run, m.hash % t.bucket_count = hash key % t.bucket_count) ∧
        (∀ y ∈ rest.head?, y.hash % t.bucket_count ≠ hash key % t.bucket_count) ∧
        (UnorderedMap.emplace hash equal t a key value).1._list.nodes =
          pre ++ x :: run ++ ⟨a, key, value, hash key⟩ :: rest ∧
        (UnorderedMap.emplace hash equal t a key value).1._array = t._array)) ∧
    (UnorderedMap.emplace hash equal t a key value).2.1 = some a ∧
    (UnorderedMap.emplace hash equal t a key value).2.2 = true ∧
    (UnorderedMap.emplace hash equal t a key value).1.size = t.size + 1 ∧
    (UnorderedMap.emplace hash equal t a key value).1._list._size = t._list._size + 1 ∧
    t._list.nodes.Sublist (UnorderedMap.emplace hash equal t a key value).1._list.nodes ∧
    (UnorderedMap.emplace hash equal t a key value).1.bucket_count = t.bucket_count ∧
    (∀ i, i ≠ hash key % t.bucket_count →
      (UnorderedMap.emplace hash equal t a key value).1._array.getD i none =
        t._array.getD i none) := by
  have hnr : UnorderedMap.needsRehash t = false := by
    simp only [UnorderedMap.needsRehash, decide_eq_false_iff_not, Nat.not_lt]
    exact hload
  have hem : UnorderedMap.emplace hash equal t a key value =
      UnorderedMap.emplaceCore hash equal t a key value := by
    simp only [UnorderedMap.emplace, hnr, Bool.false_eq_true, if_false]
  rw [hem]
  unfold UnorderedMap.bucket_count UnorderedMap.size at *
  rcases emplaceCore_placed_walk hash equal t h a key value hf hw with
    ⟨he, e⟩ | ⟨pre, x, run, rest, he, hn, hpre, hrun, hrest, e⟩
  · rw [e]
    refine ⟨Or.inl ⟨he, rfl, rfl, rfl⟩, rfl, rfl, rfl, rfl, ?_, ?_, ?_⟩
    · exact List.sublist_cons_self _ _
    · simp
    · intro i hi
      exact getD_set_ne _ hi
  · rw [e]
    refine ⟨Or.inr ⟨pre, x, run, rest, he, hn, hpre, hrun, hrest, rfl, rfl⟩, rfl, rfl, rfl, rfl,
      ?_, rfl, fun _ _ => rfl⟩
    simp only []
    rw [hn]
    exact List.Sublist.append (List.Sublist.refl _) (List.sublist_cons_self _ _)

/-- Witness of C30: key 16 inserted into the table with the list 12, 1, 4 and four buckets
(the walk from the entry of bucket 0 stops before the node of key 1). -/
theorem insert_placement_witness :
    (WF tableSplit ∧ Fresh tableSplit 4 ∧
      (tableSplit.size + 1) * tableSplit._max_load_factor.den ≤
        tableSplit._max_load_factor.num * tableSplit.bucket_count ∧
      (∀ p, tableSplit._array.getD (idHash 16 % tableSplit.bucket_count) none = some p →
        ∀ it, UnorderedMap.emplaceWalk natEq tableSplit.bucket_count
          (idHash 16 % tableSplit.bucket_count) 16
          (chainFrom (some p) tableSplit._list.nodes) ≠ Walk.found it)) ∧
    (UnorderedMap.emplace idHash natEq tableSplit 4 16 26).2.1 = some 4 ∧
    (UnorderedMap.emplace idHash natEq tableSplit 4 16 26).2.2 = true ∧
    (UnorderedMap.emplace idHash natEq tableSplit 4 16 26).1.size = tableSplit.size + 1 :=
  have hwalk : ∀ p, tableSplit._array.getD (idHash 16 % tableSplit.bucket_count) none = some p →
      ∀ it, UnorderedMap.emplaceWalk natEq tableSplit.bucket_count
        (idHash 16 % tableSplit.bucket_count) 16
        (chainFrom (some p) tableSplit._list.nodes) ≠ Walk.found it := by
    intro p hp it
    have hentry : tableSplit._array.getD (idHash 16 % tableSplit.bucket_count) none =
        some 3 := by decide
    rw [hentry] at hp
    have hp2 : p = 3 := (Option.some.inj hp).symm
    subst hp2
    have hval : UnorderedMap.emplaceWalk natEq tableSplit.bucket_count
        (idHash 16 % tableSplit.bucket_count) 16
        (chainFrom (some 3) tableSplit._list.nodes) = Walk.before 1 := by decide
    rw [hval]
    intro hc
    cases hc
  have hall := insert_placement idHash natEq tableSplit (reachable_WF tableSplit_reachable)
    4 16 26 (by decide) (by decide) hwalk
  ⟨⟨reachable_WF tableSplit_reachable, by decide, by decide, hwalk⟩,
    hall.2.1, hall.2.2.1, hall.2.2.2.1⟩

section LastClaimsA
variable {K V : Type}
open UnorderedMap

theorem emplaceCore_length (hash : K → Nat) (equal : K → K → Bool) (t : UnorderedMap K V)
    (a : Nat) (key : K) (value : V) :
    (emplaceCore hash equal t a key value).1._array.length = t._array.length := by
  unfold emplaceCore
  simp only []
  split
  · simp
  · split <;> rfl

theorem findWalk_some_mem (equal : K → K → Bool) (bc idx : Nat) (key : K)
    (L : List (Node K V)) (c : Nat) (h : findWalk equal bc idx key L = some c) :
    ∃ n ∈ L, n.addr = c ∧ equal n.key key = true := by
  induction L with
  | nil => simp [findWalk] at h
  | cons x xs ih =>
    simp only [findWalk] at h
    by_cases hx : equal x.key key = true
    · simp only [hx, if_true, Option.some.injEq] at h
      exact ⟨x, by simp, h, hx⟩
    · simp only [hx] at h
      by_cases hm : x.hash % bc ≠ idx
      · simp [hm] at h
      · simp only [hm] at h
        obtain ⟨n, hn, e⟩ := ih h
        exact ⟨n, List.mem_cons_of_mem _ hn, e⟩

end LastClaimsA

/-! ## Claims C31 to C40 -/

/-- C31: on a table with `b >= 1` buckets, size `s <= b` and max load factor 1.0, an
insert/emplace call leaves `bucket_count() == b` when `s + 1 <= b` and makes it `2 * b` when
`s + 1 > b`, whatever the key and whatever flag the call reports (the load check comes
before the lookup). -/
theorem insert_rehash_trigger {K V : Type} (hash : K → Nat) (equal : K → K → Bool)
    (t : UnorderedMap K V) (a : Nat) (key : K) (value : V)
    (hb : 1 ≤ t.bucket_count) (hs : t.size ≤ t.bucket_count)
    (hm : t._max_load_factor = ⟨1, 1⟩) :
    (t.size + 1 ≤ t.bucket_count →
      (UnorderedMap.emplace hash equal t a key value).1.bucket_count = t.bucket_count) ∧
    (t.bucket_count < t.size + 1 →
      (UnorderedMap.emplace hash equal t a key value).1.bucket_count = 2 * t.bucket_count) := by
  unfold UnorderedMap.bucket_count UnorderedMap.size at *
  unfold UnorderedMap.emplace
  rw [needsRehash_default t hm]
  constructor
  · intro h
    have hc : ¬ t._array.length < t._size + 1 := by omega
    simp only [hc, decide_False, Bool.false_eq_true, if_false]
    exact emplaceCore_length hash equal t a key value
  · intro h
    simp only [h, decide_True, if_true]
    rw [emplaceCore_length, rehash_bucket_count, rehashCount_default t _ hm]
    exact max_eq_left (by omega)

/-- Witness of C31: the third insert into the table holding the keys 0 and 4 (two buckets),
with a new key and with the key 0 again. -/
theorem insert_rehash_trigger_witness :
    (1 ≤ table04.bucket_count ∧ table04.size ≤ table04.bucket_count ∧
      table04._max_load_factor = ⟨1, 1⟩) ∧
    (UnorderedMap.emplace idHash natEq table04 2 8 18).1.bucket_count =
      2 * table04.bucket_count :=
  ⟨⟨by decide, by decide, by decide⟩,
    (insert_rehash_trigger idHash natEq table04 2 8 18 (by decide) (by decide)
      (by decide)).2 (by decide)⟩

/-- C35: whenever `find(key)` is not `end()` — the check at the head of the const `at` —
the scan of the const `at` from the bucket entry stops at a node whose key equals `key`, and
this is the node `find(key)` returns; the statement after the loop, which returns the value
of the bucket entry, is not reached. -/
theorem const_at_fallback_unreachable {K V : Type} (hash : K → Nat) (equal : K → K → Bool)
    (t : UnorderedMap K V) (key : K) (c : Nat)
    (h : UnorderedMap._find hash equal t key = some c) :
    UnorderedMap.constScan equal key
        (chainFrom (t._array.getD (hash key % t.bucket_count) none) t._list.nodes) = some c ∧
    (∃ n ∈ t._list.nodes, n.addr = c ∧ equal n.key key = true) ∧
    UnorderedMap.at_const hash equal t key = some (some c) := by
  refine ⟨?_, ?_, at_const_of_found hash equal t key c h⟩
  · unfold UnorderedMap._find at h
    unfold UnorderedMap.bucket_count
    simp only [] at h
    cases he : t._array.getD (hash key % t._array.length) none with
    | none => rw [he] at h; cases h
    | some p =>
      rw [he] at h
      exact constScan_of_findWalk equal _ _ key _ c h
  · unfold UnorderedMap._find at h
    simp only [] at h
    cases he : t._array.getD (hash key % t._array.length) none with
    | none => rw [he] at h; cases h
    | some p =>
      rw [he] at h
      obtain ⟨n, hn, e⟩ := findWalk_some_mem equal _ _ key _ c h
      exact ⟨n, mem_chainFrom hn, e⟩

/-- Witness of C35: the const `at(4)` on the table holding the keys 0, 4 and 8. -/
theorem const_at_fallback_unreachable_witness :
    UnorderedMap._find idHash natEq table048 4 = some 1 ∧
    UnorderedMap.constScan natEq 4
        (chainFrom (table048._array.getD (idHash 4 % table048.bucket_count) none)
          table048._list.nodes) = some 1 ∧
    UnorderedMap.at_const idHash natEq table048 4 = some (some 1) :=
  have hall := const_at_fallback_unreachable idHash natEq table048 4 1 (by decide)
  ⟨by decide, hall.1, hall.2.2⟩

/-- C38: on every table reached from a fresh table by insert/emplace, `erase(cursor)` of a
live node and `rehash(n)` with `n >= 1`, every bucket entry is null or references a node
that is in the list of the table and whose cached hash modulo `bucket_count()` is the index
of the entry (so never an erased node, the sentinel or a node of another bucket). -/
theorem entries_never_dangle {K V : Type} (hash : K → Nat) (equal : K → K → Bool)
    (t : UnorderedMap K V) (ht : Reachable hash equal t) (i : Nat) :
    t._array.getD i none = none ∨
    ∃ n ∈ t._list.nodes, t._array.getD i none = some n.addr ∧ n.hash % t.bucket_count = i ∧
      i < t.bucket_count := by
  cases he : t._array.getD i none with
  | none => exact Or.inl rfl
  | some p =>
    right
    obtain ⟨n, hn, ha, hh⟩ := (reachable_WF ht).entries i p he
    exact ⟨n, hn, by rw [ha], hh, lt_of_getD_some he⟩

/-- Witness of C38: entry 0 of the table holding the keys 0, 4 and 8. -/
theorem entries_never_dangle_witness :
    Reachable idHash natEq table048 ∧
    (table048._array.getD 0 none = none ∨
    ∃ n ∈ table048._list.nodes, table048._array.getD 0 none = some n.addr ∧
      n.hash % table048.bucket_count = 0 ∧ 0 < table048.bucket_count) :=
  ⟨table048_reachable, entries_never_dangle idHash natEq table048 table048_reachable 0⟩

/-- C40 (defect of the defaulted move constructor): move-constructing a table from the table
holding the keys 0 and 4 hands over list, bucket array, size and max load factor, but the
source keeps `size() == 2` (its `_size` is only copied) and has `bucket_count() == 0` (its
vector was moved from), with `begin() == end()`. Move assignment, which resets the source by
hand, leaves every source with `size() == 0`, `begin() == end()` and one bucket. -/
theorem moved_from_table_not_reset :
    (UnorderedMap.moveConstruct table04).1._list.nodes = table04._list.nodes ∧
    (UnorderedMap.moveConstruct table04).1._array = table04._array ∧
    (UnorderedMap.moveConstruct table04).1.size = table04.size ∧
    (UnorderedMap.moveConstruct table04).2.size = 2 ∧
    (UnorderedMap.moveConstruct table04).2.bucket_count = 0 ∧
    (UnorderedMap.moveConstruct table04).2.begin = none ∧
    (∀ t other : UnorderedMap Nat Nat,
      (UnorderedMap.moveAssign t other).2.size = 0 ∧
      (UnorderedMap.moveAssign t other).2.bucket_count = 1 ∧
      (UnorderedMap.moveAssign t other).2.begin = none ∧
      (UnorderedMap.moveAssign t other).1._list.nodes = other._list.nodes ∧
      (UnorderedMap.moveAssign t other).1._array = other._array ∧
      (UnorderedMap.moveAssign t other).1.size = other.size ∧
      (UnorderedMap.moveAssign t other).1._max_load_factor = other._max_load_factor) :=
  ⟨rfl, rfl, rfl, by decide, by decide, by decide,
    fun _ _ => ⟨rfl, rfl, rfl, rfl, rfl, rfl, rfl⟩⟩
section GrowthLemmas
variable {K V : Type}
open UnorderedMap

theorem emplace_bucket_count_default (hash : K → Nat) (equal : K → K → Bool)
    (t : UnorderedMap K V) (a : Nat) (key : K) (value : V)
    (hs : t._size ≤ t._array.length) (hm : t._max_load_factor = ⟨1, 1⟩) :
    (emplace hash equal t a key value).1._array.length =
      if t._array.length < t._size + 1 then 2 * t._array.length else t._array.length := by
  unfold UnorderedMap.emplace
  rw [needsRehash_default t hm]
  by_cases h : t._array.length < t._size + 1
  · simp only [h, decide_True, if_true]
    rw [emplaceCore_length, rehash_bucket_count, rehashCount_default t _ hm]
    exact max_eq_left (by omega)
  · simp only [h, decide_False, Bool.false_eq_true, if_false]
    exact emplaceCore_length hash equal t a key value

theorem emplace_flag (hash : K → Nat) (equal : K → K → Bool) (t : UnorderedMap K V)
    (h : WF t) (a : Nat) (key : K) (value : V) (hf : Fresh t a)
    (hk : ∀ n ∈ t._list.nodes, equal n.key key = false) :
    (emplace hash equal t a key value).2.2 = true := by
  unfold UnorderedMap.emplace
  split
  · have hwf := rehash_WF t (2 * t._array.length) h (by have := h.bpos; omega)
    have hf2 := rehash_fresh t (2 * t._array.length) a h.list.lsize hf
    have hk2 : ∀ n ∈ (t.rehash (2 * t._array.length))._list.nodes, equal n.key key = false :=
      fun n hn => hk n ((rehash_list t _ h.list.lsize).1.subset hn)
    rcases emplaceCore_placed hash equal _ hwf a key value hf2 hk2 with
      ⟨_, e⟩ | ⟨_, _, _, _, _, _, _, _, _, e⟩ <;> rw [e]
  · rcases emplaceCore_placed hash equal t h a key value hf hk with
      ⟨_, e⟩ | ⟨_, _, _, _, _, _, _, _, _, e⟩ <;> rw [e]

theorem emplace_mlf (hash : K → Nat) (equal : K → K → Bool) (t : UnorderedMap K V)
    (a : Nat) (key : K) (value : V) (hl : t._list._size = t._list.nodes.length)
    (hf : Fresh t a) :
    (emplace hash equal t a key value).1._max_load_factor = t._max_load_factor := by
  unfold UnorderedMap.emplace
  split
  · rw [(emplaceCore_frame hash equal _ a key value (rehash_fresh t _ a hl hf)).1,
      (rehash_frame t _).2]
  · exact (emplaceCore_frame hash equal t a key value hf).1

/-- Growth invariant of a table that only saw successful inserts: the bucket count is a power
of two that covers the size, and half of it does not. -/
theorem growth_step {s b j : Nat} (hb : b = 2 ^ j) (hs : s ≤ b) (hj : j = 0 ∨ 2 ^ (j - 1) < s) :
    ∃ j2, (if b < s + 1 then 2 * b else b) = 2 ^ j2 ∧ s + 1 ≤ 2 ^ j2 ∧
      (j2 = 0 ∨ 2 ^ (j2 - 1) < s + 1) := by
  by_cases h : b < s + 1
  · have hsb : s = b := by omega
    refine ⟨j + 1, ?_, ?_, Or.inr ?_⟩
    · rw [if_pos h, hb, pow_succ]; ring
    · have : 1 ≤ 2 ^ j := Nat.one_le_two_pow
      rw [pow_succ]; omega
    · simp only [Nat.add_sub_cancel]
      omega
  · refine ⟨j, ?_, ?_, ?_⟩
    · rw [if_neg h, hb]
    · omega
    · rcases hj with h0 | h1
      · exact Or.inl h0
      · exact Or.inr (by omega)

theorem insertMany_growth (hash : K → Nat) (equal : K → K → Bool) :
    ∀ (kvs : List (K × V)) (t : UnorderedMap K V) (a : Nat), WF t →
      t._max_load_factor = ⟨1, 1⟩ → (∀ n ∈ t._list.nodes, n.addr < a) →
      (∀ n ∈ t._list.nodes, ∀ p ∈ kvs, equal n.key p.1 = false) →
      kvs.Pairwise (fun p q => equal p.1 q.1 = false) →
      (∃ j, t._array.length = 2 ^ j ∧ t._size ≤ 2 ^ j ∧ (j = 0 ∨ 2 ^ (j - 1) < t._size)) →
      (∀ f ∈ (insertMany hash equal t a kvs).2, f = true) ∧
      (insertMany hash equal t a kvs).2.length = kvs.length ∧
      (insertMany hash equal t a kvs).1._size = t._size + kvs.length ∧
      ∃ j, (insertMany hash equal t a kvs).1._array.length = 2 ^ j ∧
        t._size + kvs.length ≤ 2 ^ j ∧ (j = 0 ∨ 2 ^ (j - 1) < t._size + kvs.length)
  | [], t, a, _, _, _, _, _, hg => by
    simpa [insertMany] using hg
  | kv :: rest, t, a, hwf, hm, haddr, hkeys, hpw, hg => by
    have hf : Fresh t a := fun n hn hc => by have := haddr n hn; omega
    have hk : ∀ n ∈ t._list.nodes, equal n.key kv.1 = false :=
      fun n hn => hkeys n hn kv (List.mem_cons_self _ _)
    obtain ⟨hsz, hperm⟩ := emplace_inserts_one hash equal t hwf a kv.1 kv.2 hf hk
    have hwf2 := emplace_WF hash equal t a kv.1 kv.2 hwf hf
    have hm2 := (emplace_mlf hash equal t a kv.1 kv.2 hwf.list.lsize hf).trans hm
    obtain ⟨j, hb, hs, hj⟩ := hg
    have hbc := emplace_bucket_count_default hash equal t a kv.1 kv.2 (by rw [hb]; exact hs) hm
    obtain ⟨j2, e1, e2, e3⟩ := growth_step hb (by rw [hb]; exact hs) hj
    have hpw2 := List.pairwise_cons.mp hpw
    have ih := insertMany_growth hash equal rest (emplace hash equal t a kv.1 kv.2).1 (a + 1)
      hwf2 hm2
      (by
        intro n hn
        rcases List.mem_cons.mp (hperm.subset hn) with h1 | h1
        · rw [h1]; exact Nat.lt_succ_self a
        · exact Nat.lt_succ_of_lt (haddr n h1))
      (by
        intro n hn p hp
        rcases List.mem_cons.mp (hperm.subset hn) with h1 | h1
        · rw [h1]; exact hpw2.1 p hp
        · exact hkeys n h1 p (List.mem_cons_of_mem _ hp))
      hpw2.2
      ⟨j2, by rw [hbc, e1], by rw [hsz]; exact e2, by rw [hsz]; exact e3⟩
    obtain ⟨i1, i2, i3, i4⟩ := ih
    rw [hsz] at i3 i4
    simp only [insertMany, List.length_cons]
    refine ⟨?_, by rw [i2], by rw [i3]; omega, ?_⟩
    · intro f hfm
      rcases List.mem_cons.mp hfm with h1 | h1
      · rw [h1]; exact emplace_flag hash equal t hwf a kv.1 kv.2 hf hk
      · exact i1 f h1
    · obtain ⟨j3, g1, g2, g3⟩ := i4
      refine ⟨j3, g1, by omega, ?_⟩
      rcases g3 with h0 | h1
      · exact Or.inl h0
      · exact Or.inr (by omega)

end GrowthLemmas

/-- C32: for every hash function, after `n` inserts of keys that are pairwise unequal into a
freshly constructed table (candidate nodes at the addresses `a`, `a + 1`, ...), every insert
reports success, `size()` is `n`, and `bucket_count()` is the smallest power of two that is
at least `n` (for `n >= 1` as for `n = 0`). -/
theorem growth_law {K V : Type} (hash : K → Nat) (equal : K → K → Bool)
    (kvs : List (K × V)) (a : Nat)
    (hd : kvs.Pairwise (fun p q => equal p.1 q.1 = false)) :
    (∀ f ∈ (UnorderedMap.insertMany hash equal UnorderedMap.new a kvs).2, f = true) ∧
    (UnorderedMap.insertMany hash equal UnorderedMap.new a kvs).1.size = kvs.length ∧
    ∃ j, (UnorderedMap.insertMany hash equal UnorderedMap.new a kvs).1.bucket_count = 2 ^ j ∧
      kvs.length ≤ 2 ^ j ∧ ∀ i, kvs.length ≤ 2 ^ i → 2 ^ j ≤ 2 ^ i := by
  obtain ⟨h1, _, h3, j, g1, g2, g3⟩ := insertMany_growth hash equal kvs
    (UnorderedMap.new : UnorderedMap K V) a new_WF rfl
    (by intro n hn2; simp [UnorderedMap.new, LinkedList.empty] at hn2)
    (by intro n hn2; simp [UnorderedMap.new, LinkedList.empty] at hn2)
    hd ⟨0, rfl, Nat.zero_le _, Or.inl rfl⟩
  have hz : (UnorderedMap.new : UnorderedMap K V)._size = 0 := rfl
  rw [hz, Nat.zero_add] at h3 g2 g3
  refine ⟨h1, h3, j, g1, g2, ?_⟩
  intro i hi
  rcases g3 with h0 | hlt
  · rw [h0]; exact Nat.one_le_two_pow
  · have hlt2 : 2 ^ (j - 1) < 2 ^ i := lt_of_lt_of_le hlt hi
    have : j - 1 < i := (Nat.pow_lt_pow_iff_right (by decide)).mp hlt2
    exact Nat.pow_le_pow_right (by decide) (by omega)

/-- Witness of C32: the keys 0, 1, 2, 3, 4 inserted under the identity hash; the bucket
count is 8. -/
theorem growth_law_witness :
    [(0, 10), (1, 11), (2, 12), (3, 13), (4, 14)].Pairwise
      (fun p q => natEq p.1 q.1 = false) ∧
    (UnorderedMap.insertMany idHash natEq UnorderedMap.new 0
      [(0, 10), (1, 11), (2, 12), (3, 13), (4, 14)]).1.size = 5 ∧
    (UnorderedMap.insertMany idHash natEq UnorderedMap.new 0
      [(0, 10), (1, 11), (2, 12), (3, 13), (4, 14)]).1.bucket_count = 8 :=
  have hall := growth_law idHash natEq [(0, 10), (1, 11), (2, 12), (3, 13), (4, 14)] 0
    (by decide)
  ⟨by decide, hall.2.1, by decide⟩

section RawRangeLemmas
variable {K V : Type}

theorem erase_id (m : Mem K V) (l : ListObj) (it : Ptr) : (l.erase m it).2.1.id = l.id := rfl

theorem emplace_id (m : Mem K V) (l : ListObj) (it : Ptr) (a hash : Nat) (kv : K × V) :
    (l.emplace m it a hash kv).2.1.id = l.id := rfl

/-- The loop of the range erase frees the nodes `R` one after the other once the fuel covers
their number, and stops at `last`. -/
theorem eraseLoop_spec (P S : List Nat) :
    ∀ (R : List Nat) (fuel : Nat) (m : Mem K V) (l : ListObj), l.WF m (P ++ (R ++ S)) →
      R.length ≤ fuel →
      ∃ r, ListObj.eraseLoop (posOf l.id S) fuel (m, l, posOf l.id (R ++ S)) = some r ∧
        r.2.2 = posOf l.id S ∧ r.2.1.WF r.1 (P ++ S) ∧ r.2.1.id = l.id ∧
        r.2.1._size + R.length = l._size ∧
        (∀ b, b ∉ R → r.1.payload b = m.payload b ∧ r.1.hash b = m.hash b ∧
          r.1.alloc b = m.alloc b) ∧
        (∀ x ∈ R, r.1.alloc x = false)
  | [], fuel, m, l, h, _ => by
    refine ⟨(m, l, posOf l.id S), ?_, rfl, h, rfl, rfl, fun _ _ => ⟨rfl, rfl, rfl⟩,
      fun x hx => by cases hx⟩
    cases fuel <;> simp [ListObj.eraseLoop]
  | x :: R, 0, m, l, _, hf => by simp at hf
  | x :: R, fuel + 1, m, l, h, hf => by
    obtain ⟨_, _, hxP, hxRS, _, _⟩ := disjoint_facts (show (P ++ x :: (R ++ S)).Nodup from h.nodup)
    have hxS : x ∉ S := fun hc => hxRS (List.mem_append_right _ hc)
    have hxR : x ∉ R := fun hc => hxRS (List.mem_append_left _ hc)
    have hne : posOf l.id (x :: R ++ S) ≠ posOf l.id S := (posOf_ne_node hxS).symm
    have hwf := erase_wf m l P (R ++ S) x h
    obtain ⟨hans, _, _⟩ := erase_links m l P (R ++ S) x h
    obtain ⟨c1, _, c3, c4⟩ := erase_contents m l x
    have hstep : l.erase m (Ptr.node x) =
        ((l.erase m (Ptr.node x)).1, (l.erase m (Ptr.node x)).2.1,
          posOf (l.erase m (Ptr.node x)).2.1.id (R ++ S)) := by
      rw [erase_id]
      exact Prod.ext rfl (Prod.ext rfl hans)
    obtain ⟨r, hr, h1, h2, h3, h4, h5, h6⟩ :=
      eraseLoop_spec P S R fuel (l.erase m (Ptr.node x)).1 (l.erase m (Ptr.node x)).2.1 hwf
        (by simpa using hf)
    rw [erase_id] at hr h1 h3
    refine ⟨r, ?_, h1, h2, h3, ?_, ?_, ?_⟩
    · rw [ListObj.eraseLoop]
      simp only []
      rw [if_neg hne]
      show ListObj.eraseLoop (posOf l.id S) fuel (l.erase m (Ptr.node x)) = some r
      rw [hstep, erase_id]
      exact hr
    · rw [c4, h.size] at h4
      rw [h.size]
      simp only [List.length_append, List.length_cons] at h4 ⊢
      omega
    · intro b hb
      have hbx : b ≠ x := fun hc => hb (hc ▸ List.mem_cons_self _ _)
      have hbR : b ∉ R := fun hc => hb (List.mem_cons_of_mem _ hc)
      obtain ⟨e1, e2, e3⟩ := h5 b hbR
      obtain ⟨d1, d2, d3⟩ := c3 b hbx
      exact ⟨e1.trans d1, e2.trans d2, e3.trans d3⟩
    · intro y hy
      rcases List.mem_cons.mp hy with e | e
      · subst e
        rw [(h5 y hxR).2.2]
        exact c1
      · exact h6 y e

theorem eraseRange_spec (P R S : List Nat) (fuel : Nat) (m : Mem K V) (l : ListObj)
    (h : l.WF m (P ++ (R ++ S))) (hf : R.length ≤ fuel) :
    ∃ r, ListObj.eraseRange fuel m l (posOf l.id (R ++ S)) (posOf l.id S) = some r ∧
      r.2.2 = posOf l.id S ∧ r.2.1.WF r.1 (P ++ S) ∧ r.2.1.id = l.id ∧
      r.2.1._size + R.length = l._size ∧
      (∀ b, b ∉ R → r.1.payload b = m.payload b ∧ r.1.hash b = m.hash b ∧
        r.1.alloc b = m.alloc b) ∧
      (∀ x ∈ R, r.1.alloc x = false) := by
  cases R with
  | nil =>
    refine ⟨(m, l, posOf l.id S), ?_, rfl, h, rfl, rfl, fun _ _ => ⟨rfl, rfl, rfl⟩,
      fun x hx => by cases hx⟩
    simp [ListObj.eraseRange]
  | cons x R =>
    obtain ⟨_, _, _, hxRS, _, _⟩ := disjoint_facts (show (P ++ x :: (R ++ S)).Nodup from h.nodup)
    have hxS : x ∉ S := fun hc => hxRS (List.mem_append_right _ hc)
    have hne : posOf l.id (x :: R ++ S) ≠ posOf l.id S := (posOf_ne_node hxS).symm
    unfold ListObj.eraseRange
    rw [if_neg hne]
    exact eraseLoop_spec P S (x :: R) fuel m l h hf

end RawRangeLemmas

section WellFormedEquiv
variable {K V : Type}

theorem mem_ring {i : Nat} {xs : List Nat} {p : Ptr} :
    p ∈ ring i xs ↔ p = Ptr.fake i ∨ ∃ a ∈ xs, p = Ptr.node a := by
  have h : ring i xs = ringLeft i xs ++ ringRight i [] := by
    rw [← ring_append, List.append_nil]
  rw [h, List.mem_append, mem_ringLeft, mem_ringRight]
  constructor
  · rintro (h1 | h1 | ⟨a, ha, _⟩)
    · exact h1
    · exact Or.inl h1
    · cases ha
  · intro h1
    exact Or.inl h1

/-- In a linked chain every cell, the sentinel included, is the `prev` of its `next` and the
`next` of its `prev`, and both neighbours are cells of the chain. -/
theorem ring_links {m : Mem K V} {i : Nat} {xs : List Nat}
    (h : List.Chain' (Link m) (ring i xs)) :
    ∀ p ∈ ring i xs, m.prev (m.next p) = p ∧ m.next (m.prev p) = p ∧ m.next p ∈ ring i xs := by
  intro p hp
  rcases mem_ring.mp hp with rfl | ⟨x, hx, rfl⟩
  · obtain ⟨h1, h2⟩ := chain_ends h
    refine ⟨by rw [h1.1, h1.2], by rw [h2.2, h2.1], ?_⟩
    rw [h1.1]
    exact mem_ring.mpr (mem_ringRight.mp (posOf_mem i xs))
  · obtain ⟨P, S, rfl⟩ := List.append_of_mem hx
    obtain ⟨_, _, h1, h2⟩ := chain_around h
    refine ⟨by rw [h2.1, h2.2], by rw [h1.2, h1.1], ?_⟩
    rw [h2.1]
    rcases mem_ringRight.mp (posOf_mem i S) with e | ⟨a, ha, e⟩
    · exact mem_ring.mpr (Or.inl e)
    · exact mem_ring.mpr (Or.inr ⟨a, by simp [ha], e⟩)

theorem follow_mem_ring {m : Mem K V} {i : Nat} {xs : List Nat}
    (h : List.Chain' (Link m) (ring i xs)) : ∀ k, follow m (Ptr.fake i) k ∈ ring i xs
  | 0 => mem_ring.mpr (Or.inl rfl)
  | k + 1 => by
    rw [follow_succ_last]
    exact (ring_links h _ (follow_mem_ring h k)).2.2

theorem wellFormed_of_wf {m : Mem K V} {l : ListObj} {xs : List Nat} (h : l.WF m xs) :
    ListWellFormed m l := by
  obtain ⟨hit, hend⟩ := wf_iterate h
  refine ⟨?_, ?_, hend, ?_⟩
  · rw [h.ptr]
    exact ((chain_ends h.links).1.1).symm
  · intro k _
    have := ring_links h.links _ (follow_mem_ring h.links k)
    exact ⟨this.1, this.2.1⟩
  · intro k hk
    rw [h.size] at hk
    have hk2 := hit k (Nat.le_of_lt hk)
    change follow m l._ptr k = _ at hk2
    rw [hk2]
    have hd : xs.drop k = xs[k] :: xs.drop (k + 1) := List.drop_eq_getElem_cons hk
    rw [hd]
    exact ⟨xs[k], rfl, h.live _ (List.getElem_mem _)⟩

theorem chain_range {m : Mem K V} (c : Nat → Ptr) :
    ∀ (N s : Nat), (∀ k, s ≤ k → k + 1 < s + N → Link m (c k) (c (k + 1))) →
      List.Chain' (Link m) ((List.range' s N).map c)
  | 0, _, _ => by simp
  | 1, _, _ => by simp
  | N + 2, s, hl => by
    have ih := chain_range c (N + 1) (s + 1) (fun k h1 h2 => hl k (by omega) (by omega))
    rw [List.range'_succ, List.map_cons, List.chain'_cons']
    refine ⟨?_, ih⟩
    intro y hy
    rw [List.range'_succ] at hy
    simp only [List.map_cons, List.head?_cons, Option.mem_def, Option.some.injEq] at hy
    rw [← hy]
    exact hl s (Nat.le_refl _) (by omega)

theorem wf_of_wellFormed {m : Mem K V} {l : ListObj} (h : ListWellFormed m l) :
    ∃ xs, l.WF m xs := by
  obtain ⟨hptr, hlinks, hend, hnodes⟩ := h
  have hhead : ∀ k, follow m l._ptr k = follow m (Ptr.fake l.id) (k + 1) := by
    intro k
    rw [follow_succ, hptr]
    rfl
  have hnode : ∀ k, 1 ≤ k → k ≤ l._size →
      follow m (Ptr.fake l.id) k = Ptr.node (follow m (Ptr.fake l.id) k).addr ∧
      m.alloc (follow m (Ptr.fake l.id) k).addr = true := by
    intro k h1 h2
    obtain ⟨a, ha, hal⟩ := hnodes (k - 1) (by omega)
    rw [hhead, show k - 1 + 1 = k by omega] at ha
    rw [ha]
    exact ⟨rfl, hal⟩
  have hprev : ∀ k, k ≤ l._size →
      m.prev (follow m (Ptr.fake l.id) (k + 1)) = follow m (Ptr.fake l.id) k := by
    intro k hk
    rw [follow_succ_last]
    exact (hlinks k hk).1
  have hlast : follow m (Ptr.fake l.id) (l._size + 1) = Ptr.fake l.id := by
    rw [← hhead]; exact hend
  have hinj : ∀ a d, 1 ≤ d → a + d ≤ l._size →
      follow m (Ptr.fake l.id) a ≠ follow m (Ptr.fake l.id) (a + d) := by
    intro a
    induction a with
    | zero =>
      intro d h1 h2 hc
      have := (hnode d h1 (by omega)).1
      rw [Nat.zero_add] at hc
      rw [← hc] at this
      have h0 : follow m (Ptr.fake l.id) 0 = Ptr.fake l.id := rfl
      rw [h0] at this
      cases this
    | succ a ih =>
      intro d h1 h2 hc
      apply ih d h1 (by omega)
      have e1 := hprev a (by omega)
      have e2 := hprev (a + d) (by omega)
      rw [← e1, ← e2, show a + d + 1 = a + 1 + d by omega, hc]
  refine ⟨(List.range' 1 l._size).map (fun k => (follow m (Ptr.fake l.id) k).addr), ?_⟩
  have hmap : ((List.range' 1 l._size).map
      (fun k => (follow m (Ptr.fake l.id) k).addr)).map Ptr.node =
      (List.range' 1 l._size).map (fun k => follow m (Ptr.fake l.id) k) := by
    rw [List.map_map]
    apply List.map_congr_left
    intro k hk
    rw [List.mem_range'_1] at hk
    exact ((hnode k hk.1 (by omega)).1).symm
  refine ⟨?_, ?_, ?_, by simp, ?_⟩
  · have hring : ring l.id ((List.range' 1 l._size).map
        (fun k => (follow m (Ptr.fake l.id) k).addr)) =
        (List.range' 0 (l._size + 2)).map (fun k => follow m (Ptr.fake l.id) k) := by
      unfold ring
      rw [hmap, List.range'_succ, List.map_cons]
      have : List.range' (0 + 1) (l._size + 1) = List.range' 1 l._size ++ [l._size + 1] := by
        rw [List.range'_concat]
        simp [Nat.add_comm]
      rw [this, List.map_append, List.map_singleton, hlast]
      rfl
    rw [hring]
    apply chain_range
    intro k _ hk
    exact ⟨(follow_succ_last m _ k).symm, hprev k (by omega)⟩
  · apply List.Nodup.map_on
    · intro a ha b hb hab
      rw [List.mem_range'_1] at ha hb
      have ea := (hnode a ha.1 (by omega)).1
      have eb := (hnode b hb.1 (by omega)).1
      have hfe : follow m (Ptr.fake l.id) a = follow m (Ptr.fake l.id) b := by
        rw [ea, eb, hab]
      by_contra hne
      rcases Nat.lt_or_gt_of_ne hne with hlt | hgt
      · exact hinj a (b - a) (by omega) (by omega) (by rw [show a + (b - a) = b by omega]; exact hfe)
      · exact hinj b (a - b) (by omega) (by omega)
          (by rw [show b + (a - b) = a by omega]; exact hfe.symm)
    · exact List.nodup_range' 1 l._size
  · by_cases hz : l._size = 0
    · rw [hz]
      simp only [List.range'_zero, List.map_nil, posOf]
      have := hlast
      rw [hz] at this
      rw [hptr]
      exact this
    · have : List.range' 1 l._size = 1 :: List.range' 2 (l._size - 1) := by
        obtain ⟨n, hn⟩ := Nat.exists_eq_succ_of_ne_zero hz
        rw [hn, List.range'_succ]
        rfl
      rw [this, List.map_cons]
      show l._ptr = Ptr.node (follow m (Ptr.fake l.id) 1).addr
      rw [← (hnode 1 (Nat.le_refl _) (by omega)).1, hptr]
      rfl
  · intro a ha
    obtain ⟨k, hk, rfl⟩ := List.mem_map.mp ha
    rw [List.mem_range'_1] at hk
    exact (hnode k hk.1 (by omega)).2

theorem wellFormed_iff (m : Mem K V) (l : ListObj) :
    ListWellFormed m l ↔ ∃ xs, l.WF m xs :=
  ⟨wf_of_wellFormed, fun ⟨_, h⟩ => wellFormed_of_wf h⟩

end WellFormedEquiv

section WellFormedOps
variable {K V : Type}

theorem wf_at {m : Mem K V} {l : ListObj} {xs : List Nat} (h : l.WF m xs) (k : Nat)
    (hk : k ≤ xs.length) :
    l.WF m (xs.take k ++ xs.drop k) ∧ follow m l._ptr k = posOf l.id (xs.drop k) :=
  ⟨by rw [List.take_append_drop]; exact h, (wf_iterate h).1 k hk⟩

theorem wellFormed_emplace {m : Mem K V} {l : ListObj} (h : ListWellFormed m l) (k a hash : Nat)
    (kv : K × V) (hk : k ≤ l._size) (ha : m.alloc a = false) :
    ListWellFormed (l.emplace m (follow m l._ptr k) a hash kv).1
      (l.emplace m (follow m l._ptr k) a hash kv).2.1 := by
  obtain ⟨xs, hwf⟩ := wf_of_wellFormed h
  obtain ⟨h1, h2⟩ := wf_at hwf k (by rw [← hwf.size]; exact hk)
  rw [h2]
  exact wellFormed_of_wf (emplace_wf m l _ _ a hash kv h1 ha)

theorem wellFormed_push_back {m : Mem K V} {l : ListObj} (h : ListWellFormed m l) (a hash : Nat)
    (kv : K × V) (ha : m.alloc a = false) :
    ListWellFormed (l.push_back m a kv hash).1 (l.push_back m a kv hash).2 := by
  obtain ⟨xs, hwf⟩ := wf_of_wellFormed h
  have h1 : l.WF m (xs ++ []) := by rw [List.append_nil]; exact hwf
  exact wellFormed_of_wf (emplace_wf m l xs [] a hash kv h1 ha)

theorem wellFormed_push_front {m : Mem K V} {l : ListObj} (h : ListWellFormed m l)
    (a hash : Nat) (kv : K × V) (ha : m.alloc a = false) :
    ListWellFormed (l.push_front m a kv hash).1 (l.push_front m a kv hash).2 := by
  obtain ⟨xs, hwf⟩ := wf_of_wellFormed h
  have h1 : l.WF m ([] ++ xs) := hwf
  have h2 := emplace_wf m l [] xs a hash kv h1 ha
  unfold ListObj.push_front ListObj.beginPtr
  rw [hwf.ptr]
  exact wellFormed_of_wf h2

theorem wf_node_at {m : Mem K V} {l : ListObj} {xs : List Nat} (h : l.WF m xs) (k : Nat)
    (hk : k < xs.length) :
    l.WF m (xs.take k ++ xs[k] :: xs.drop (k + 1)) ∧ follow m l._ptr k = Ptr.node xs[k] := by
  obtain ⟨h1, h2⟩ := wf_at h k (Nat.le_of_lt hk)
  have hd : xs.drop k = xs[k] :: xs.drop (k + 1) := List.drop_eq_getElem_cons hk
  rw [hd] at h1 h2
  exact ⟨h1, h2⟩

theorem wellFormed_erase {m : Mem K V} {l : ListObj} (h : ListWellFormed m l) (k : Nat)
    (hk : k < l._size) :
    ListWellFormed (l.erase m (follow m l._ptr k)).1 (l.erase m (follow m l._ptr k)).2.1 := by
  obtain ⟨xs, hwf⟩ := wf_of_wellFormed h
  have hk2 : k < xs.length := by rw [← hwf.size]; exact hk
  obtain ⟨h1, h2⟩ := wf_node_at hwf k hk2
  rw [h2]
  exact wellFormed_of_wf (erase_wf m l _ _ _ h1)

theorem wellFormed_pop_front {m : Mem K V} {l : ListObj} (h : ListWellFormed m l)
    (hs : 0 < l._size) :
    ListWellFormed (l.pop_front m).1 (l.pop_front m).2 :=
  wellFormed_erase h 0 hs

theorem wellFormed_pop_back {m : Mem K V} {l : ListObj} (h : ListWellFormed m l)
    (hs : 0 < l._size) :
    ListWellFormed (l.pop_back m).1 (l.pop_back m).2 := by
  obtain ⟨xs, hwf⟩ := wf_of_wellFormed h
  have hne : xs ≠ [] := by
    intro hc
    rw [hwf.size, hc] at hs
    exact Nat.lt_irrefl _ hs
  have hsplit : xs = xs.dropLast ++ xs.getLast hne :: [] := (List.dropLast_append_getLast hne).symm
  have h1 : l.WF m (xs.dropLast ++ xs.getLast hne :: []) := by rw [← hsplit]; exact hwf
  have hprev : m.prev l.endPtr = Ptr.node (xs.getLast hne) := by
    have := (chain_ends hwf.links).2.2
    rw [show l.endPtr = Ptr.fake l.id from rfl, this]
    simp [lastOf, List.getLast?_eq_getLast _ hne]
  unfold ListObj.pop_back
  rw [hprev]
  exact wellFormed_of_wf (erase_wf m l _ _ _ h1)

theorem wellFormed_eraseRange {m : Mem K V} {l : ListObj} (h : ListWellFormed m l)
    (j k fuel : Nat) (hjk : j ≤ k) (hk : k ≤ l._size) (hf : k - j ≤ fuel) :
    ∃ r, l.eraseRange fuel m (follow m l._ptr j) (follow m l._ptr k) = some r ∧
      r.2.2 = follow m l._ptr k ∧ ListWellFormed r.1 r.2.1 ∧ r.2.1._size + (k - j) = l._size := by
  obtain ⟨xs, hwf⟩ := wf_of_wellFormed h
  have hk2 : k ≤ xs.length := by rw [← hwf.size]; exact hk
  have e1 := (wf_iterate hwf).1 j (by omega)
  have e2 := (wf_iterate hwf).1 k hk2
  change follow m l._ptr j = _ at e1
  change follow m l._ptr k = _ at e2
  have hdd : xs.drop j = (xs.drop j).take (k - j) ++ xs.drop k := by
    have := (List.take_append_drop (k - j) (xs.drop j)).symm
    rw [List.drop_drop] at this
    rw [show j + (k - j) = k by omega] at this
    exact this
  have hxs : xs = xs.take j ++ ((xs.drop j).take (k - j) ++ xs.drop k) := by
    rw [← hdd, List.take_append_drop]
  have hlen : ((xs.drop j).take (k - j)).length = k - j := by
    rw [List.length_take, List.length_drop]
    omega
  have hwf2 : l.WF m (xs.take j ++ ((xs.drop j).take (k - j) ++ xs.drop k)) := by
    rw [← hxs]; exact hwf
  obtain ⟨r, hr, r1, r2, _, r4, _, _⟩ :=
    eraseRange_spec (xs.take j) ((xs.drop j).take (k - j)) (xs.drop k) fuel m l hwf2
      (by rw [hlen]; exact hf)
  rw [← hdd, ← e1, ← e2] at hr
  rw [← e2] at r1
  rw [hlen] at r4
  exact ⟨r, hr, r1, wellFormed_of_wf r2, r4⟩

theorem wellFormed_splice {m : Mem K V} {a b : ListObj} (ha : ListWellFormed m a)
    (hb : ListWellFormed m b) (hab : a.id ≠ b.id) (k : Nat) (hk : k ≤ a._size) :
    ListWellFormed (a.splice m (follow m a._ptr k) b).1 (a.splice m (follow m a._ptr k) b).2.1 ∧
    ListWellFormed (a.splice m (follow m a._ptr k) b).1 (a.splice m (follow m a._ptr k) b).2.2 := by
  obtain ⟨xs, hwa⟩ := wf_of_wellFormed ha
  obtain ⟨ys, hwb⟩ := wf_of_wellFormed hb
  obtain ⟨h1, h2⟩ := wf_at hwa k (by rw [← hwa.size]; exact hk)
  rw [h2]
  obtain ⟨r1, r2⟩ := splice_wf m a b _ _ ys h1 hwb hab
  exact ⟨wellFormed_of_wf r1, wellFormed_of_wf r2⟩

theorem wellFormed_spliceNode {m : Mem K V} {a b : ListObj} (ha : ListWellFormed m a)
    (hb : ListWellFormed m b) (hab : a.id ≠ b.id) (k j : Nat) (hk : k ≤ a._size)
    (hj : j < b._size) :
    ListWellFormed (a.spliceNode m (follow m a._ptr k) b (follow m b._ptr j)).1
      (a.spliceNode m (follow m a._ptr k) b (follow m b._ptr j)).2.1 ∧
    ListWellFormed (a.spliceNode m (follow m a._ptr k) b (follow m b._ptr j)).1
      (a.spliceNode m (follow m a._ptr k) b (follow m b._ptr j)).2.2 := by
  obtain ⟨xs, hwa⟩ := wf_of_wellFormed ha
  obtain ⟨ys, hwb⟩ := wf_of_wellFormed hb
  obtain ⟨h1, h2⟩ := wf_at hwa k (by rw [← hwa.size]; exact hk)
  obtain ⟨h3, h4⟩ := wf_node_at hwb j (by rw [← hwb.size]; exact hj)
  rw [h2, h4]
  obtain ⟨r1, r2⟩ := spliceNode_wf m a b _ _ _ _ _ h1 h3 hab
  exact ⟨wellFormed_of_wf r1, wellFormed_of_wf r2⟩

theorem wellFormed_default (m : Mem K V) (i : Nat) (h1 : m.next (Ptr.fake i) = Ptr.fake i)
    (h2 : m.prev (Ptr.fake i) = Ptr.fake i) : ListWellFormed m (ListObj.mk0 i) := by
  refine @wellFormed_of_wf K V m (ListObj.mk0 i) [] ?_
  refine ⟨?_, List.nodup_nil, rfl, rfl, fun x hx => by cases hx⟩
  simp only [ring, List.map_nil, List.nil_append, List.chain'_cons, List.chain'_singleton,
    and_true]
  exact ⟨h1, h2⟩

end WellFormedOps
section TableRangeLemmas
variable {K V : Type}
open UnorderedMap

theorem eraseAll_cons (t : UnorderedMap K V) (p : Nat) (ps : List Nat) :
    eraseAll t (p :: ps) = eraseAll (erase t p).1 ps := rfl

/-- The loop of the table's range erase performs the single erases of the nodes `R` in
order and stops at `last`. -/
theorem table_eraseLoop_spec (P S : List (Node K V)) :
    ∀ (R : List (Node K V)) (fuel : Nat) (t : UnorderedMap K V), SizeInv t →
      t._list.nodes = P ++ (R ++ S) → R.length ≤ fuel →
      UnorderedMap.eraseLoop (S.head?.map Node.addr) fuel (t, (R ++ S).head?.map Node.addr) =
        some (eraseAll t (R.map Node.addr), S.head?.map Node.addr) ∧
      (eraseAll t (R.map Node.addr))._list.nodes = P ++ S ∧
      (eraseAll t (R.map Node.addr))._size + R.length = t._size ∧
      (eraseAll t (R.map Node.addr))._list._size + R.length = t._list._size ∧
      (eraseAll t (R.map Node.addr))._array.length = t._array.length
  | [], fuel, t, _, hn, _ => by
    refine ⟨?_, hn, rfl, rfl, rfl⟩
    cases fuel <;> simp [UnorderedMap.eraseLoop, eraseAll]
  | x :: R, 0, t, _, _, hf => by simp at hf
  | x :: R, fuel + 1, t, hsi, hn, hf => by
    have hnd := hsi.list.nodup
    rw [hn] at hnd
    have hpre : ∀ n ∈ P, n.addr ≠ x.addr := by
      intro n hnP hc
      rw [List.map_append, List.nodup_append] at hnd
      exact hnd.2.2 (List.mem_map_of_mem _ hnP) (by simp [hc])
    have hne : (x :: R ++ S).head?.map Node.addr ≠ S.head?.map Node.addr := by
      cases S with
      | nil => simp
      | cons y S2 =>
        simp only [List.cons_append, List.head?_cons, Option.map_some', ne_eq,
          Option.some.injEq]
        intro hc
        rw [List.map_append, List.nodup_append] at hnd
        have h2 := hnd.2.1
        simp only [List.cons_append, List.map_cons, List.nodup_cons, List.mem_map,
          List.mem_append, List.mem_cons] at h2
        exact h2.1 ⟨y, Or.inr (Or.inl rfl), hc.symm⟩
    have hlive : Live t x.addr := ⟨x, by rw [hn]; simp, rfl⟩
    obtain ⟨arr, e, _⟩ := erase_eq t P (R ++ S) x hn hpre
    have hsi2 := erase_SizeInv t x.addr hsi hlive
    obtain ⟨_, f2, f3⟩ := erase_frame t x.addr hsi hlive
    have hn2 : (erase t x.addr).1._list.nodes = P ++ (R ++ S) := by rw [e]
    have hcur : (erase t x.addr).2 = (R ++ S).head?.map Node.addr := by rw [e]
    have hls : (erase t x.addr).1._list._size + 1 = t._list._size := by
      rw [e]
      simp only []
      have := hsi.list.lsize
      rw [hn] at this
      rw [this]
      simp only [List.length_append, List.length_cons]
      omega
    obtain ⟨i1, i2, i3, i4, i5⟩ := table_eraseLoop_spec P S R fuel (erase t x.addr).1 hsi2 hn2
      (by simpa using hf)
    refine ⟨?_, ?_, ?_, ?_, ?_⟩
    · rw [UnorderedMap.eraseLoop]
      simp only []
      rw [if_neg hne]
      show UnorderedMap.eraseLoop _ fuel (erase t x.addr) = _
      rw [List.map_cons, eraseAll_cons, ← i1, ← hcur]
    · rw [List.map_cons, eraseAll_cons]; exact i2
    · rw [List.map_cons, eraseAll_cons, List.length_cons]; omega
    · rw [List.map_cons, eraseAll_cons, List.length_cons]; omega
    · rw [List.map_cons, eraseAll_cons, i5, f2]

theorem table_eraseRange_spec (P R S : List (Node K V)) (fuel : Nat) (t : UnorderedMap K V)
    (hsi : SizeInv t) (hn : t._list.nodes = P ++ (R ++ S)) (hf : R.length ≤ fuel) :
    UnorderedMap.eraseRange fuel t ((R ++ S).head?.map Node.addr) (S.head?.map Node.addr) =
      some (eraseAll t (R.map Node.addr), S.head?.map Node.addr) ∧
    (eraseAll t (R.map Node.addr))._list.nodes = P ++ S ∧
    (eraseAll t (R.map Node.addr))._size + R.length = t._size ∧
    (eraseAll t (R.map Node.addr))._list._size + R.length = t._list._size ∧
    (eraseAll t (R.map Node.addr))._array.length = t._array.length := by
  obtain ⟨h1, h2⟩ := table_eraseLoop_spec P S R fuel t hsi hn hf
  refine ⟨?_, h2⟩
  unfold UnorderedMap.eraseRange
  by_cases hc : (R ++ S).head?.map Node.addr = S.head?.map Node.addr
  · rw [if_pos hc]
    cases R with
    | nil => simp [eraseAll]
    | cons x R2 =>
      exfalso
      have hnd := hsi.list.nodup
      rw [hn] at hnd
      cases S with
      | nil => simp at hc
      | cons y S2 =>
        simp only [List.cons_append, List.head?_cons, Option.map_some',
          Option.some.injEq] at hc
        rw [List.map_append, List.nodup_append] at hnd
        have h3 := hnd.2.1
        simp only [List.cons_append, List.map_cons, List.nodup_cons, List.mem_map,
          List.mem_append, List.mem_cons] at h3
        exact h3.1 ⟨y, Or.inr (Or.inl rfl), hc.symm⟩
  · rw [if_neg hc]
    exact h1

end TableRangeLemmas
/-- C36: range erase. List level: on a well-formed list with the sequence `P ++ R ++ S`,
`erase(first, last)` with `first` on the first element of `R` (equal to `last` when `R` is
empty) and `last` on the first element of `S` (`end()` when `S` is empty) returns once the
fuel covers `|R|`, leaves a well-formed list with the sequence `P ++ S`, decreases `size()`
by `|R|`, frees the nodes of `R`, keeps the contents of the others and returns `last`. Table
level: on a table with a well-formed list `P ++ R ++ S` the loop of `erase(first, last)`
gives the table of the successive single erases of the nodes of `R` (with their bucket
bookkeeping), with the list `P ++ S`, `size()` decreased by `|R|`, and returns `last`. -/
theorem range_erase_spec {K V : Type} :
    (∀ (m : Mem K V) (l : ListObj) (P R S : List Nat) (fuel : Nat),
      l.WF m (P ++ (R ++ S)) → R.length ≤ fuel →
      ∃ r, l.eraseRange fuel m (posOf l.id (R ++ S)) (posOf l.id S) = some r ∧
        r.2.2 = posOf l.id S ∧ r.2.1.WF r.1 (P ++ S) ∧ r.2.1._size + R.length = l._size ∧
        SameContents m r.1 (P ++ S) ∧ (∀ x ∈ R, r.1.alloc x = false)) ∧
    (∀ (t : UnorderedMap K V) (P R S : List (Node K V)) (fuel : Nat),
      SizeInv t → t._list.nodes = P ++ (R ++ S) → R.length ≤ fuel →
      UnorderedMap.eraseRange fuel t ((R ++ S).head?.map Node.addr) (S.head?.map Node.addr) =
        some (UnorderedMap.eraseAll t (R.map Node.addr), S.head?.map Node.addr) ∧
      (UnorderedMap.eraseAll t (R.map Node.addr))._list.nodes = P ++ S ∧
      (UnorderedMap.eraseAll t (R.map Node.addr)).size + R.length = t.size ∧
      (UnorderedMap.eraseAll t (R.map Node.addr))._list._size + R.length = t._list._size ∧
      (UnorderedMap.eraseAll t (R.map Node.addr)).bucket_count = t.bucket_count) := by
  constructor
  · intro m l P R S fuel h hf
    obtain ⟨r, hr, r1, r2, _, r4, r5, r6⟩ := eraseRange_spec P R S fuel m l h hf
    refine ⟨r, hr, r1, r2, r4, ?_, r6⟩
    intro b hb
    have hbR : b ∉ R := by
      intro hc
      have hnd := h.nodup
      rw [List.nodup_append] at hnd
      rcases List.mem_append.mp hb with h1 | h1
      · exact hnd.2.2 h1 (List.mem_append_left _ hc)
      · exact (List.nodup_append.mp hnd.2.1).2.2 hc h1
    exact ⟨(r5 b hbR).1, (r5 b hbR).2.1⟩
  · intro t P R S fuel hsi hn hf
    exact table_eraseRange_spec P R S fuel t hsi hn hf

/-- Witness of C36: the first node erased as a range from the list with the nodes 10, 11, and
the node of key 4 erased as a range from the table holding the keys 0, 4 and 8. -/
theorem range_erase_spec_witness :
    (rawA.WF rawMem ([] ++ ([10] ++ [11])) ∧
      table048._list.nodes = [⟨0, 0, 10, 0⟩] ++ ([⟨1, 4, 14, 4⟩] ++ [⟨2, 8, 18, 8⟩])) ∧
    (∃ r, rawA.eraseRange 1 rawMem (posOf rawA.id ([10] ++ [11])) (posOf rawA.id [11]) =
        some r ∧ r.2.2 = posOf rawA.id [11] ∧ r.2.1.WF r.1 ([] ++ [11])) ∧
    (UnorderedMap.eraseAll table048 [1])._list.nodes = [⟨0, 0, 10, 0⟩] ++ [⟨2, 8, 18, 8⟩] :=
  have hall := @range_erase_spec Nat Nat
  ⟨⟨by decide, by decide⟩,
    (hall.1 rawMem rawA [] [10] [11] 1 (by decide) (by decide)).imp
      (fun _ h => ⟨h.1, h.2.1, h.2.2.1⟩),
    (hall.2 table048 [⟨0, 0, 10, 0⟩] [⟨1, 4, 14, 4⟩] [⟨2, 8, 18, 8⟩] 1
      (reachable_WF table048_reachable).sizeInv (by decide) (by decide)).2.1⟩

/-- C37: the predicate `ListWellFormed` (head reference equal to the sentinel's `next`; every
cell of the chain, sentinel included, is the `prev` of its `next` and the `next` of its
`prev`; `next` from the head reaches the sentinel after exactly `size()` steps) holds for a
default-constructed list and is preserved by `emplace` and `insert` at any position of the
list (node at an unused address), `push_back`, `push_front`, `erase` of any node, `pop_back`
and `pop_front` on a non-empty list, the range `erase` between two positions (which
returns once the fuel covers the range), and by both `splice` overloads, for both lists. -/
theorem list_wellformed_preserved {K V : Type} (m : Mem K V) :
    (∀ i, m.next (Ptr.fake i) = Ptr.fake i → m.prev (Ptr.fake i) = Ptr.fake i →
      ListWellFormed m (ListObj.mk0 i)) ∧
    (∀ l : ListObj, ListWellFormed m l →
      (∀ (k a hash : Nat) (kv : K × V), k ≤ l._size → m.alloc a = false →
        ListWellFormed (l.emplace m (follow m l.beginPtr k) a hash kv).1
          (l.emplace m (follow m l.beginPtr k) a hash kv).2.1 ∧
        ListWellFormed (l.insert m (follow m l.beginPtr k) a kv hash).1
          (l.insert m (follow m l.beginPtr k) a kv hash).2.1) ∧
      (∀ (a hash : Nat) (kv : K × V), m.alloc a = false →
        ListWellFormed (l.push_back m a kv hash).1 (l.push_back m a kv hash).2 ∧
        ListWellFormed (l.push_front m a kv hash).1 (l.push_front m a kv hash).2) ∧
      (∀ k, k < l._size →
        ListWellFormed (l.erase m (follow m l.beginPtr k)).1
          (l.erase m (follow m l.beginPtr k)).2.1) ∧
      (0 < l._size →
        ListWellFormed (l.pop_back m).1 (l.pop_back m).2 ∧
        ListWellFormed (l.pop_front m).1 (l.pop_front m).2) ∧
      (∀ j k fuel, j ≤ k → k ≤ l._size → k - j ≤ fuel →
        ∃ r, l.eraseRange fuel m (follow m l.beginPtr j) (follow m l.beginPtr k) = some r ∧
          ListWellFormed r.1 r.2.1 ∧ r.2.1._size + (k - j) = l._size) ∧
      (∀ b : ListObj, ListWellFormed m b → l.id ≠ b.id →
        (∀ k, k ≤ l._size →
          ListWellFormed (l.splice m (follow m l.beginPtr k) b).1
            (l.splice m (follow m l.beginPtr k) b).2.1 ∧
          ListWellFormed (l.splice m (follow m l.beginPtr k) b).1
            (l.splice m (follow m l.beginPtr k) b).2.2) ∧
        (∀ k j, k ≤ l._size → j < b._size →
          ListWellFormed
            (l.spliceNode m (follow m l.beginPtr k) b (follow m b.beginPtr j)).1
            (l.spliceNode m (follow m l.beginPtr k) b (follow m b.beginPtr j)).2.1 ∧
          ListWellFormed
            (l.spliceNode m (follow m l.beginPtr k) b (follow m b.beginPtr j)).1
            (l.spliceNode m (follow m l.beginPtr k) b (follow m b.beginPtr j)).2.2))) := by
  refine ⟨fun i h1 h2 => wellFormed_default m i h1 h2, ?_⟩
  intro l h
  refine ⟨?_, ?_, ?_, ?_, ?_, ?_⟩
  · intro k a hash kv hk ha
    exact ⟨wellFormed_emplace h k a hash kv hk ha, wellFormed_emplace h k a hash kv hk ha⟩
  · intro a hash kv ha
    exact ⟨wellFormed_push_back h a hash kv ha, wellFormed_push_front h a hash kv ha⟩
  · intro k hk
    exact wellFormed_erase h k hk
  · intro hs
    exact ⟨wellFormed_pop_back h hs, wellFormed_pop_front h hs⟩
  · intro j k fuel hjk hk hf
    obtain ⟨r, hr, _, r2, r3⟩ := wellFormed_eraseRange h j k fuel hjk hk hf
    exact ⟨r, hr, r2, r3⟩
  · intro b hb hab
    exact ⟨fun k hk => wellFormed_splice h hb hab k hk,
      fun k j hk hj => wellFormed_spliceNode h hb hab k j hk hj⟩

/-- Witness of C37: the list with the nodes 10, 11 is well formed, and so is what `erase` of
its first node and `pop_back` leave. -/
theorem list_wellformed_preserved_witness :
    ListWellFormed rawMem rawA ∧
    ListWellFormed (rawA.erase rawMem (follow rawMem rawA.beginPtr 0)).1
      (rawA.erase rawMem (follow rawMem rawA.beginPtr 0)).2.1 ∧
    ListWellFormed (rawA.pop_back rawMem).1 (rawA.pop_back rawMem).2 :=
  have hA : ListWellFormed rawMem rawA :=
    wellFormed_of_wf (show rawA.WF rawMem [10, 11] by decide)
  have hall := (list_wellformed_preserved rawMem).2 rawA hA
  ⟨hA, hall.2.2.1 0 (by decide), (hall.2.2.2.1 (by decide)).1⟩
section GroupedLemmas
variable {K V : Type}
open UnorderedMap

theorem rehashWalk_append_same (bc idx : Nat) (A C : List (Node K V))
    (h : ∀ x ∈ A, x.hash % bc = idx) :
    rehashWalk bc idx (A ++ C) = rehashWalk bc idx C := by
  induction A with
  | nil => rfl
  | cons x xs ih =>
    simp only [List.cons_append, rehashWalk]
    rw [if_neg (by simp [h x (by simp)])]
    exact ih (fun y hy => h y (List.mem_cons_of_mem _ hy))

theorem rehashWalk_blocks (bc idx : Nat) (B2 : List (List (Node K V)))
    (hB2 : ∀ c ∈ B2, c ≠ [] ∧ ∀ y ∈ c, y.hash % bc ≠ idx) :
    rehashWalk bc idx B2.flatten = B2.flatten.head?.map Node.addr := by
  cases B2 with
  | nil => rfl
  | cons c B3 =>
    obtain ⟨hc, hy⟩ := hB2 c (by simp)
    cases c with
    | nil => exact absurd rfl hc
    | cons y c2 =>
      simp only [List.flatten_cons, List.cons_append, rehashWalk, List.head?_cons,
        Option.map_some']
      rw [if_pos (hy y (by simp))]

theorem chain_cut (X Y : List (Node K V)) (hnd : ((X ++ Y).map Node.addr).Nodup) :
    chainBefore (Y.head?.map Node.addr) (X ++ Y) = X ∧
      chainFrom (Y.head?.map Node.addr) (X ++ Y) = Y := by
  cases Y with
  | nil => simp [chainBefore, chainFrom]
  | cons y Y2 =>
    have h : ∀ n ∈ X, n.addr ≠ y.addr := by
      intro n hn hc
      rw [List.map_append, List.nodup_append] at hnd
      exact hnd.2.2 (List.mem_map_of_mem _ hn) (by simp [hc])
    exact ⟨chainBefore_at X Y2 y h, chainFrom_at X Y2 y h⟩

theorem placePos_block {arr : List (Option Nat)} {B1 B2 : List (List (Node K V))}
    {b1 b2 : List (Node K V)} {e : Node K V} (idx : Nat)
    (hentry : arr.getD idx none = some e.addr)
    (hnd : ((B1.flatten ++ (b1 ++ e :: b2) ++ B2.flatten).map Node.addr).Nodup)
    (hb : ∀ x ∈ e :: b2, x.hash % arr.length = idx)
    (hB2 : ∀ c ∈ B2, c ≠ [] ∧ ∀ y ∈ c, y.hash % arr.length ≠ idx) :
    placePos (B1.flatten ++ (b1 ++ e :: b2) ++ B2.flatten) arr idx =
      B2.flatten.head?.map Node.addr := by
  unfold placePos
  rw [hentry]
  simp only []
  have hL : B1.flatten ++ (b1 ++ e :: b2) ++ B2.flatten =
      (B1.flatten ++ b1) ++ e :: (b2 ++ B2.flatten) := by simp
  have hpre : ∀ n ∈ B1.flatten ++ b1, n.addr ≠ e.addr := by
    intro n hn hc
    rw [hL, List.map_append, List.nodup_append] at hnd
    exact hnd.2.2 (List.mem_map_of_mem _ hn) (by simp [hc])
  rw [hL, chainFrom_at _ _ e hpre]
  have : e :: (b2 ++ B2.flatten) = (e :: b2) ++ B2.flatten := rfl
  rw [this, rehashWalk_append_same _ _ _ _ hb]
  exact rehashWalk_blocks _ _ B2 hB2

/-- One placement step of `rehash` keeps the new list grouped by bucket index: the node
joins the end of the block of its index, or opens a new block at the end of the list. -/
theorem grouped_step {L : List (Node K V)} {arr : List (Option Nat)}
    {bs : List (List (Node K V))} (cur : Node K V) (hg : Grouped arr.length L arr bs)
    (hbc : 1 ≤ arr.length) (hnd : (L.map Node.addr).Nodup) :
    ∃ bs2, chainBefore (placePos L arr (cur.hash % arr.length)) L ++
        cur :: chainFrom (placePos L arr (cur.hash % arr.length)) L = bs2.flatten ∧
      (arr.getD (cur.hash % arr.length) none = none → bs2.flatten = L ++ [cur]) ∧
      ∀ arr2, (arr2 = arr.set (cur.hash % arr.length) (some cur.addr) ∨
          (arr.getD (cur.hash % arr.length) none ≠ none ∧ arr2 = arr)) →
        Grouped arr.length bs2.flatten arr2 bs2 := by
  have hidx : cur.hash % arr.length < arr.length := Nat.mod_lt _ hbc
  cases he : arr.getD (cur.hash % arr.length) none with
  | none =>
    have hno : ∀ x ∈ L, x.hash % arr.length ≠ cur.hash % arr.length := by
      intro x hx hc
      rw [hg.flat] at hx
      obtain ⟨b, hb, hxb⟩ := List.mem_flatten.mp hx
      obtain ⟨e, _, hee⟩ := hg.entry b hb x hxb
      rw [hc, he] at hee
      cases hee
    have hpos : placePos L arr (cur.hash % arr.length) = none := by
      unfold placePos; rw [he]
    have hflat : (bs ++ [[cur]]).flatten = L ++ [cur] := by
      rw [List.flatten_append, ← hg.flat]; simp
    refine ⟨bs ++ [[cur]], ?_, fun _ => hflat, ?_⟩
    · rw [hpos, hflat]; simp [chainBefore, chainFrom]
    · intro arr2 harr2
      have harr2e : arr2 = arr.set (cur.hash % arr.length) (some cur.addr) := by
        rcases harr2 with h | ⟨h, _⟩
        · exact h
        · exact absurd rfl h
      subst harr2e
      refine ⟨rfl, ?_, ?_, ?_, ?_, ?_⟩
      · intro b hb
        rcases List.mem_append.mp hb with h | h
        · exact hg.nonempty b h
        · simp only [List.mem_singleton] at h; rw [h]; simp
      · intro b hb x hx y hy
        rcases List.mem_append.mp hb with h | h
        · exact hg.uniform b h x hx y hy
        · simp only [List.mem_singleton] at h
          rw [h] at hx hy
          simp only [List.mem_singleton] at hx hy
          rw [hx, hy]
      · rw [List.pairwise_append]
        refine ⟨hg.distinct, List.pairwise_singleton _ _, ?_⟩
        intro b hb c hc x hx y hy
        simp only [List.mem_singleton] at hc
        rw [hc] at hy
        simp only [List.mem_singleton] at hy
        rw [hy]
        apply hno
        rw [hg.flat]
        exact List.mem_flatten.mpr ⟨b, hb, hx⟩
      · intro b hb x hx
        rcases List.mem_append.mp hb with h | h
        · obtain ⟨e, hem, hee⟩ := hg.entry b h x hx
          have hxi : x.hash % arr.length ≠ cur.hash % arr.length :=
            hno x (by rw [hg.flat]; exact List.mem_flatten.mpr ⟨b, h, hx⟩)
          exact ⟨e, hem, by rw [getD_set_ne _ hxi]; exact hee⟩
        · simp only [List.mem_singleton] at h
          rw [h] at hx ⊢
          simp only [List.mem_singleton] at hx
          rw [hx]
          exact ⟨cur, by simp, getD_set_self _ hidx⟩
      · intro i hi
        have hne : i ≠ cur.hash % arr.length := by
          intro hc
          exact hi cur (by rw [hflat]; simp) hc.symm
        rw [getD_set_ne _ hne]
        apply hg.empty
        intro x hx
        exact hi x (by rw [hflat]; exact List.mem_append_left _ hx)
  | some p =>
    have hex : ∃ x ∈ L, x.hash % arr.length = cur.hash % arr.length := by
      by_contra hc
      have := hg.empty (cur.hash % arr.length) (fun x hx h2 => hc ⟨x, hx, h2⟩)
      rw [he] at this
      cases this
    obtain ⟨x, hxL, hxi⟩ := hex
    have hxL2 := hxL
    rw [hg.flat] at hxL2
    obtain ⟨b, hb, hxb⟩ := List.mem_flatten.mp hxL2
    obtain ⟨e, heb, hee⟩ := hg.entry b hb x hxb
    rw [hxi, he] at hee
    have hpe : p = e.addr := Option.some.inj hee
    obtain ⟨B1, B2, hbs⟩ := List.append_of_mem hb
    obtain ⟨b1, b2, hbe⟩ := List.append_of_mem heb
    have hbi : ∀ y ∈ b, y.hash % arr.length = cur.hash % arr.length :=
      fun y hy => (hg.uniform b hb y hy x hxb).trans hxi
    have hdist := hg.distinct
    rw [hbs, List.pairwise_append, List.pairwise_cons] at hdist
    obtain ⟨hd1, ⟨hd2, hd3⟩, hd4⟩ := hdist
    have hB1i : ∀ c ∈ B1, ∀ y ∈ c, y.hash % arr.length ≠ cur.hash % arr.length := by
      intro c hc y hy hcon
      exact hd4 c hc b (by simp) y hy x hxb (hcon.trans hxi.symm)
    have hB2i : ∀ c ∈ B2, ∀ y ∈ c, y.hash % arr.length ≠ cur.hash % arr.length := by
      intro c hc y hy hcon
      exact hd2 c hc x hxb y hy (hxi.trans hcon.symm)
    have hLeq : L = B1.flatten ++ (b1 ++ e :: b2) ++ B2.flatten := by
      rw [hg.flat, hbs, List.flatten_append, List.flatten_cons, hbe]; simp
    have hnd2 := hnd
    rw [hLeq] at hnd2
    have hpos : placePos L arr (cur.hash % arr.length) = B2.flatten.head?.map Node.addr := by
      rw [hLeq]
      apply placePos_block _ (by rw [he, hpe]) hnd2
      · intro y hy
        exact hbi y (by rw [hbe]; exact List.mem_append_right _ hy)
      · intro c hc
        exact ⟨hg.nonempty c (by rw [hbs]; simp [hc]), hB2i c hc⟩
    have hcut := chain_cut (B1.flatten ++ (b1 ++ e :: b2)) B2.flatten hnd2
    have hflat : (B1 ++ (b ++ [cur]) :: B2).flatten =
        B1.flatten ++ (b1 ++ e :: b2) ++ cur :: B2.flatten := by
      rw [List.flatten_append, List.flatten_cons, hbe]; simp
    refine ⟨B1 ++ (b ++ [cur]) :: B2, ?_, ?_, ?_⟩
    · rw [hpos, hLeq, hcut.1, hcut.2, hflat]
    · intro h
      cases h
    · intro arr2 harr2
      have hmemL : ∀ y, y ∈ (B1 ++ (b ++ [cur]) :: B2).flatten ↔ y ∈ L ∨ y = cur := by
        intro y
        rw [hflat, hLeq]
        simp only [List.mem_append, List.mem_cons]
        tauto
      have hget : ∀ i, i ≠ cur.hash % arr.length → arr2.getD i none = arr.getD i none := by
        intro i hi
        rcases harr2 with h | ⟨_, h⟩
        · rw [h, getD_set_ne _ hi]
        · rw [h]
      refine ⟨rfl, ?_, ?_, ?_, ?_, ?_⟩
      · intro c hc
        rcases List.mem_append.mp hc with h | h
        · exact hg.nonempty c (by rw [hbs]; simp [h])
        · rcases List.mem_cons.mp h with h2 | h2
          · rw [h2]; simp
          · exact hg.nonempty c (by rw [hbs]; simp [h2])
      · intro c hc y hy z hz
        rcases List.mem_append.mp hc with h | h
        · exact hg.uniform c (by rw [hbs]; simp [h]) y hy z hz
        · rcases List.mem_cons.mp h with h2 | h2
          · rw [h2] at hy hz
            have hall : ∀ w ∈ b ++ [cur], w.hash % arr.length = cur.hash % arr.length := by
              intro w hw
              rcases List.mem_append.mp hw with h3 | h3
              · exact hbi w h3
              · simp only [List.mem_singleton] at h3; rw [h3]
            rw [hall y hy, hall z hz]
          · exact hg.uniform c (by rw [hbs]; simp [h2]) y hy z hz
      · rw [List.pairwise_append, List.pairwise_cons]
        refine ⟨hd1, ⟨?_, hd3⟩, ?_⟩
        · intro c hc y hy z hz
          rcases List.mem_append.mp hy with h3 | h3
          · exact hd2 c hc y h3 z hz
          · simp only [List.mem_singleton] at h3
            rw [h3]
            exact (hB2i c hc z hz).symm
        · intro c hc d hd y hy z hz
          rcases List.mem_cons.mp hd with h2 | h2
          · rw [h2] at hz
            rcases List.mem_append.mp hz with h3 | h3
            · exact hd4 c hc b (by simp) y hy z h3
            · simp only [List.mem_singleton] at h3
              rw [h3]
              exact hB1i c hc y hy
          · exact hd4 c hc d (List.mem_cons_of_mem _ h2) y hy z hz
      · intro c hc y hy
        have hold : ∀ c2 ∈ bs, c2 ≠ b → y ∈ c2 →
            (y.hash % arr.length ≠ cur.hash % arr.length) →
            ∃ e2 ∈ c2, arr2.getD (y.hash % arr.length) none = some e2.addr := by
          intro c2 hc2 _ hy2 hyi
          obtain ⟨e2, h1, h2⟩ := hg.entry c2 hc2 y hy2
          exact ⟨e2, h1, by rw [hget _ hyi]; exact h2⟩
        rcases List.mem_append.mp hc with h | h
        · have hyi := hB1i c h y hy
          obtain ⟨e2, h1, h2⟩ := hg.entry c (by rw [hbs]; simp [h]) y hy
          exact ⟨e2, h1, by rw [hget _ hyi]; exact h2⟩
        · rcases List.mem_cons.mp h with h2 | h2
          · rw [h2] at hy ⊢
            have hyi : y.hash % arr.length = cur.hash % arr.length := by
              rcases List.mem_append.mp hy with h3 | h3
              · exact hbi y h3
              · simp only [List.mem_singleton] at h3; rw [h3]
            rw [hyi]
            rcases harr2 with h4 | ⟨_, h4⟩
            · exact ⟨cur, by simp, by rw [h4]; exact getD_set_self _ hidx⟩
            · exact ⟨e, List.mem_append_left _ heb, by rw [h4, he, hpe]⟩
          · have hyi := hB2i c h2 y hy
            obtain ⟨e2, h1, h3⟩ := hg.entry c (by rw [hbs]; simp [h2]) y hy
            exact ⟨e2, h1, by rw [hget _ hyi]; exact h3⟩
      · intro i hi
        have hne : i ≠ cur.hash % arr.length := by
          intro hc
          exact hi cur ((hmemL cur).mpr (Or.inr rfl)) hc.symm
        rw [hget i hne]
        apply hg.empty
        intro y hy
        exact hi y ((hmemL y).mpr (Or.inl hy))

end GroupedLemmas
section GroupedFold
variable {K V : Type}
open UnorderedMap

theorem rehashStep_pos (s : RehashState K V) (cur : Node K V) (R : List (Node K V))
    (ho : s.old_list.nodes = cur :: R) (hos : s.old_list._size = s.old_list.nodes.length)
    (hfresh : ∀ n ∈ s.new_list.nodes, n.addr ≠ cur.addr) :
    rehashStep s cur =
      ⟨⟨R, R.length⟩,
       ⟨chainBefore (placePos s.new_list.nodes s.new_array (cur.hash % s.new_array.length))
            s.new_list.nodes ++
          cur :: chainFrom (placePos s.new_list.nodes s.new_array
            (cur.hash % s.new_array.length)) s.new_list.nodes,
        s.new_list._size + 1⟩,
       s.new_array.set (cur.hash % s.new_array.length) (some cur.addr)⟩ := by
  have hsp := fun pos => spliceNode_head s.new_list s.old_list pos cur R ho hos
  cases he : s.new_array.getD (cur.hash % s.new_array.length) none with
  | none =>
    simp only [rehashStep, placePos, he, hsp]
    rw [prevOf_insert none s.new_list.nodes cur (by simp)]
  | some p =>
    cases hw : rehashWalk s.new_array.length (cur.hash % s.new_array.length)
        (chainFrom (some p) s.new_list.nodes) with
    | none =>
      simp only [rehashStep, placePos, he, hw, hsp]
      rw [prevOf_insert none s.new_list.nodes cur (by simp)]
    | some it =>
      obtain ⟨n, hn, hna⟩ := rehashWalk_mem hw
      have hne : cur.addr ≠ it := by
        intro hc
        exact hfresh n (mem_chainFrom hn) (hna.trans hc.symm)
      simp only [rehashStep, placePos, he, hw, hsp]
      rw [prevOf_insert (some it) s.new_list.nodes cur
        (fun q hq => by cases hq; exact hne)]

theorem placeAtEnd_eq (L : List (Node K V)) (arr : List (Option Nat)) (cur : Node K V) :
    (placeAtEnd (L, arr) cur).1 =
        chainBefore (placePos L arr (cur.hash % arr.length)) L ++
          cur :: chainFrom (placePos L arr (cur.hash % arr.length)) L ∧
      ((placeAtEnd (L, arr) cur).2 = arr.set (cur.hash % arr.length) (some cur.addr) ∨
        (arr.getD (cur.hash % arr.length) none ≠ none ∧ (placeAtEnd (L, arr) cur).2 = arr)) := by
  cases he : arr.getD (cur.hash % arr.length) none with
  | none =>
    have e : placeAtEnd (L, arr) cur =
        (L ++ [cur], arr.set (cur.hash % arr.length) (some cur.addr)) := by
      simp only [placeAtEnd, he]
    have hp : placePos L arr (cur.hash % arr.length) = none := by
      simp only [placePos, he]
    rw [e, hp]
    exact ⟨by simp [chainBefore, chainFrom], Or.inl rfl⟩
  | some p =>
    have e : placeAtEnd (L, arr) cur =
        (chainBefore (placePos L arr (cur.hash % arr.length)) L ++
          cur :: chainFrom (placePos L arr (cur.hash % arr.length)) L, arr) := by
      simp only [placeAtEnd, he]
    rw [e]
    exact ⟨rfl, Or.inr ⟨by simp, rfl⟩⟩

/-- The loop of `rehash` and the reference placement at the end run in step: same list,
grouped by bucket with the same blocks, bucket arrays of the same length. -/
theorem rehash_fold_grouped {ns : List (Node K V)} {bc : Nat} (hbc : 1 ≤ bc)
    (hnd : (ns.map Node.addr).Nodup) (R : List (Node K V)) :
    ∀ (s : RehashState K V) (r : List (Node K V) × List (Option Nat))
      (bs : List (List (Node K V))), RehashInv ns bc s → s.old_list.nodes = R →
      s.new_list.nodes = r.1 → r.2.length = bc →
      Grouped bc r.1 s.new_array bs → Grouped bc r.1 r.2 bs →
      (R.foldl rehashStep s).new_list.nodes = (R.foldl placeAtEnd r).1 ∧
      (R.foldl placeAtEnd r).2.length = bc ∧
      ∃ bs2, Grouped bc (R.foldl placeAtEnd r).1 (R.foldl rehashStep s).new_array bs2 ∧
        Grouped bc (R.foldl placeAtEnd r).1 (R.foldl placeAtEnd r).2 bs2 := by
  induction R with
  | nil =>
    intro s r bs _ _ hL hlen hg1 hg2
    exact ⟨hL, hlen, bs, hg1, hg2⟩
  | cons cur R ih =>
    intro s r bs hs ho hL hlen hg1 hg2
    obtain ⟨L, arr⟩ := r
    simp only [] at hL hlen hg1 hg2
    have hperm := hs.perm
    rw [ho, hL] at hperm
    have hnd2 : ((L ++ cur :: R).map Node.addr).Nodup :=
      (List.Perm.nodup_iff (hperm.map Node.addr)).mpr hnd
    have hfresh : ∀ n ∈ s.new_list.nodes, n.addr ≠ cur.addr := by
      intro n hn hc
      rw [hL] at hn
      rw [List.map_append, List.nodup_append] at hnd2
      exact hnd2.2.2 (List.mem_map_of_mem _ hn) (by simp [hc])
    have hndL : (L.map Node.addr).Nodup := by
      rw [List.map_append, List.nodup_append] at hnd2
      exact hnd2.1
    have hstep := rehashStep_pos s cur R ho hs.osize hfresh
    rw [hL] at hstep
    obtain ⟨hinv, hold⟩ := rehashStep_inv hs ho
    have hal := hs.alen
    obtain ⟨p1, p2⟩ := placeAtEnd_eq L arr cur
    -- the code's array and the reference array see the same position
    have hg1b : Grouped s.new_array.length L s.new_array bs := by rw [hal]; exact hg1
    have hg2b : Grouped arr.length L arr bs := by rw [hlen]; exact hg2
    obtain ⟨bsA, a1, _, a3⟩ := grouped_step cur hg1b (by rw [hal]; exact hbc) hndL
    obtain ⟨bsB, b1, _, b3⟩ := grouped_step cur hg2b (by rw [hlen]; exact hbc) hndL
    have hsame : placePos L s.new_array (cur.hash % s.new_array.length) =
        placePos L arr (cur.hash % arr.length) := by
      rw [hal, hlen]
      cases he : s.new_array.getD (cur.hash % bc) none with
      | none =>
        have h2 : arr.getD (cur.hash % bc) none = none := by
          apply hg2.empty
          intro x hx hc
          rw [hg1.flat] at hx
          obtain ⟨b, hb, hxb⟩ := List.mem_flatten.mp hx
          obtain ⟨e, _, hee⟩ := hg1.entry b hb x hxb
          rw [hc, he] at hee
          cases hee
        unfold placePos
        rw [hal, hlen, he, h2]
      | some p =>
        have hex : ∃ x ∈ L, x.hash % bc = cur.hash % bc := by
          by_contra hc
          have := hg1.empty (cur.hash % bc) (fun x hx h2 => hc ⟨x, hx, h2⟩)
          rw [he] at this
          cases this
        obtain ⟨x, hxL, hxi⟩ := hex
        have hxL2 := hxL
        rw [hg1.flat] at hxL2
        obtain ⟨b, hb, hxb⟩ := List.mem_flatten.mp hxL2
        obtain ⟨e1, he1, hee1⟩ := hg1.entry b hb x hxb
        obtain ⟨e2, he2, hee2⟩ := hg2.entry b hb x hxb
        rw [hxi] at hee1 hee2
        obtain ⟨B1, B2, hbs⟩ := List.append_of_mem hb
        have hbi : ∀ y ∈ b, y.hash % bc = cur.hash % bc :=
          fun y hy => (hg1.uniform b hb y hy x hxb).trans hxi
        have hdist := hg1.distinct
        rw [hbs, List.pairwise_append, List.pairwise_cons] at hdist
        have hB2 : ∀ c ∈ B2, c ≠ [] ∧ ∀ y ∈ c, y.hash % bc ≠ cur.hash % bc := by
          intro c hc
          refine ⟨hg1.nonempty c (by rw [hbs]; simp [hc]), ?_⟩
          intro y hy hcon
          exact hdist.2.1.1 c hc x hxb y hy (hxi.trans hcon.symm)
        have key : ∀ (a : List (Option Nat)) (e : Node K V), a.length = bc → e ∈ b →
            a.getD (cur.hash % bc) none = some e.addr →
            placePos L a (cur.hash % bc) = B2.flatten.head?.map Node.addr := by
          intro a e hla heb hae
          obtain ⟨c1, c2, hce⟩ := List.append_of_mem heb
          have hLeq : L = B1.flatten ++ (c1 ++ e :: c2) ++ B2.flatten := by
            rw [hg1.flat, hbs, List.flatten_append, List.flatten_cons, hce]; simp
          rw [hLeq]
          apply placePos_block _ hae (by rw [← hLeq]; exact hndL)
          · intro y hy
            rw [hla]
            exact hbi y (by rw [hce]; exact List.mem_append_right _ hy)
          · intro c hc
            rw [hla]
            exact hB2 c hc
        rw [key s.new_array e1 hal he1 hee1, key arr e2 hlen he2 hee2]
    have hlist : (rehashStep s cur).new_list.nodes = (placeAtEnd (L, arr) cur).1 := by
      rw [hstep, p1, hsame]
    have hbsAB : bsA.flatten = bsB.flatten := by rw [← a1, ← b1, hsame]
    have hlen2 : (placeAtEnd (L, arr) cur).2.length = bc := by
      rcases p2 with h | ⟨_, h⟩ <;> rw [h] <;> simp [hlen]
    have hgA : Grouped bc (placeAtEnd (L, arr) cur).1 (rehashStep s cur).new_array bsA := by
      have := a3 (s.new_array.set (cur.hash % s.new_array.length) (some cur.addr)) (Or.inl rfl)
      rw [hal] at this
      rw [p1, ← hsame, a1, hstep]
      rw [hal]
      exact this
    have hgB0 : Grouped bc (placeAtEnd (L, arr) cur).1 (placeAtEnd (L, arr) cur).2 bsB := by
      have := b3 (placeAtEnd (L, arr) cur).2 p2
      rw [hlen] at this
      rw [p1, b1]
      exact this
    -- both groupings describe the same list; take the blocks of the code's run
    have hgB : Grouped bc (placeAtEnd (L, arr) cur).1 (placeAtEnd (L, arr) cur).2 bsA := by
      refine ⟨hgA.flat, hgA.nonempty, hgA.uniform, hgA.distinct, ?_, hgB0.empty⟩
      intro b hb x hx
      have hxL : x ∈ (placeAtEnd (L, arr) cur).1 := by
        rw [hgA.flat]; exact List.mem_flatten.mpr ⟨b, hb, hx⟩
      have hxL2 := hxL
      rw [hgB0.flat] at hxL2
      obtain ⟨c, hc, hxc⟩ := List.mem_flatten.mp hxL2
      obtain ⟨e, hec, hee⟩ := hgB0.entry c hc x hxc
      refine ⟨e, ?_, hee⟩
      -- `e` has the bucket index of `x`, so it lies in the block `b`
      have hei : e.hash % bc = x.hash % bc := hgB0.uniform c hc e hec x hxc
      have heL : e ∈ (placeAtEnd (L, arr) cur).1 := by
        rw [hgB0.flat]; exact List.mem_flatten.mpr ⟨c, hc, hec⟩
      rw [hgA.flat] at heL
      obtain ⟨b2, hb2, heb2⟩ := List.mem_flatten.mp heL
      by_cases hbb : b2 = b
      · rw [← hbb]; exact heb2
      · exfalso
        have hpw := hgA.distinct
        have hsym : ∀ u v, u ∈ bsA → v ∈ bsA → u ≠ v →
            ∀ y ∈ u, ∀ z ∈ v, y.hash % bc ≠ z.hash % bc := by
          intro u v hu hv huv y hy z hz
          obtain ⟨i, hi, rfl⟩ := List.getElem_of_mem hu
          obtain ⟨j, hj, rfl⟩ := List.getElem_of_mem hv
          have hij : i ≠ j := fun h => huv (by subst h; rfl)
          rcases Nat.lt_or_gt_of_ne hij with hlt | hgt
          · exact List.pairwise_iff_getElem.mp hpw i j hi hj hlt y hy z hz
          · exact fun h => List.pairwise_iff_getElem.mp hpw j i hj hi hgt z hz y hy h.symm
        exact hsym b2 b hb2 hb hbb e heb2 x hx hei
    have := ih (rehashStep s cur) (placeAtEnd (L, arr) cur) bsA hinv hold hlist hlen2 hgA hgB
    simpa only [List.foldl_cons] using this

end GroupedFold
section GroupedRehash
variable {K V : Type}
open UnorderedMap

theorem grouped_nil (bc : Nat) : Grouped bc ([] : List (Node K V)) (List.replicate bc none) [] := by
  refine ⟨rfl, ?_, ?_, List.Pairwise.nil, ?_, ?_⟩
  · intro b hb; cases hb
  · intro b hb; cases hb
  · intro b hb; cases hb
  · intro i _
    simp only [List.getD_eq_getElem?_getD, List.getElem?_replicate]
    split <;> rfl

/-- The list that `rehash(n)` builds is the one of the reference placement at the end, and it
is grouped by bucket index for the bucket array of `rehash` and for the reference array. -/
theorem rehash_grouped (t : UnorderedMap K V) (n : Nat) (hl : ListWF t._list) (hn : 1 ≤ n)
    (hm : 0 < t._max_load_factor.num) :
    (t.rehash n)._list.nodes =
      (t._list.nodes.foldl placeAtEnd ([], List.replicate (rehashCount t n) none)).1 ∧
    (t._list.nodes.foldl placeAtEnd ([], List.replicate (rehashCount t n) none)).2.length =
      rehashCount t n ∧
    (t.rehash n)._array.length = rehashCount t n ∧
    ∃ bs, Grouped (rehashCount t n) (t.rehash n)._list.nodes (t.rehash n)._array bs ∧
      Grouped (rehashCount t n) (t.rehash n)._list.nodes
        (t._list.nodes.foldl placeAtEnd ([], List.replicate (rehashCount t n) none)).2 bs := by
  have hbc : 1 ≤ rehashCount t n := le_trans hn (rehashCount_ge t n hm)
  obtain ⟨h1, h2, bs, h3, h4⟩ := rehash_fold_grouped hbc hl.nodup t._list.nodes
    ⟨t._list, LinkedList.empty, List.replicate (rehashCount t n) none⟩
    ([], List.replicate (rehashCount t n) none) []
    (rehash_init_inv t (rehashCount t n) hl.lsize) rfl rfl (by simp)
    (grouped_nil _) (grouped_nil _)
  have e1 : (t.rehash n)._list.nodes =
      (t._list.nodes.foldl rehashStep
        ⟨t._list, LinkedList.empty, List.replicate (rehashCount t n) none⟩).new_list.nodes := rfl
  have e2 : (t.rehash n)._array =
      (t._list.nodes.foldl rehashStep
        ⟨t._list, LinkedList.empty, List.replicate (rehashCount t n) none⟩).new_array := rfl
  refine ⟨by rw [e1, h1], h2, rehash_bucket_count t n, bs, ?_, ?_⟩
  · rw [e1, e2, h1]; exact h3
  · rw [e1, h1]; exact h4

theorem grouped_block {bc : Nat} {L : List (Node K V)} {arr : List (Option Nat)}
    {bs : List (List (Node K V))} (hg : Grouped bc L arr bs) (i : Nat) :
    ∃ A B C, L = A ++ B ++ C ∧ (∀ x ∈ B, x.hash % bc = i) ∧ (∀ x ∈ A, x.hash % bc ≠ i) ∧
      (∀ x ∈ C, x.hash % bc ≠ i) := by
  by_cases hex : ∃ x ∈ L, x.hash % bc = i
  · obtain ⟨x, hxL, hxi⟩ := hex
    rw [hg.flat] at hxL
    obtain ⟨b, hb, hxb⟩ := List.mem_flatten.mp hxL
    obtain ⟨B1, B2, hbs⟩ := List.append_of_mem hb
    have hdist := hg.distinct
    rw [hbs, List.pairwise_append, List.pairwise_cons] at hdist
    refine ⟨B1.flatten, b, B2.flatten, ?_, ?_, ?_, ?_⟩
    · rw [hg.flat, hbs, List.flatten_append, List.flatten_cons, List.append_assoc]
    · intro y hy
      exact (hg.uniform b hb y hy x hxb).trans hxi
    · intro y hy hc
      obtain ⟨c, hc1, hyc⟩ := List.mem_flatten.mp hy
      exact hdist.2.2 c hc1 b (by simp) y hyc x hxb (hc.trans hxi.symm)
    · intro y hy hc
      obtain ⟨c, hc1, hyc⟩ := List.mem_flatten.mp hy
      exact hdist.2.1.1 c hc1 x hxb y hyc (hxi.trans hc.symm)
  · refine ⟨L, [], [], by simp, ?_, ?_, ?_⟩
    · intro x hx; cases hx
    · intro x hx hc; exact hex ⟨x, hx, hc⟩
    · intro x hx; cases hx

theorem grouped_entry_iff {bc : Nat} {L : List (Node K V)} {arr : List (Option Nat)}
    {bs : List (List (Node K V))} (hg : Grouped bc L arr bs) (i : Nat) :
    arr.getD i none ≠ none ↔ ∃ x ∈ L, x.hash % bc = i := by
  constructor
  · intro h
    by_contra hc
    exact h (hg.empty i (fun x hx h2 => hc ⟨x, hx, h2⟩))
  · rintro ⟨x, hxL, hxi⟩
    rw [hg.flat] at hxL
    obtain ⟨b, hb, hxb⟩ := List.mem_flatten.mp hxL
    obtain ⟨e, _, hee⟩ := hg.entry b hb x hxb
    rw [← hxi, hee]
    simp

end GroupedRehash

/-- C33, counterexample: on the table with the list 1, 0 and two buckets, `rehash(2)` keeps
the order 1, 0, while the placement rule of insert (a node of an empty bucket goes to the
global front) applied to the nodes in order gives 0, 1; and `rehash(1)` does not work on one
bucket but on two. -/
theorem rehash_differs_from_insert_rule :
    (table10.rehash 2)._list.nodes.map Node.key = [1, 0] ∧
    (table10._list.nodes.foldl placeLikeInsert ([], List.replicate 2 none)).1.map Node.key =
      [0, 1] ∧
    (table10.rehash 2)._list.nodes ≠
      (table10._list.nodes.foldl placeLikeInsert ([], List.replicate 2 none)).1 ∧
    (table10.rehash 1).bucket_count = 2 := by
  refine ⟨by decide, by decide, by decide, by decide⟩

/-- C33 (amended): for every table with a well-formed list and a positive max load factor and
every `n >= 1`, the list order produced by `rehash(n)` is the one obtained from an empty list
and `rehashCount t n = max(n, ceil(size / max_load_factor))` empty buckets by placing the
nodes of the old list in their old order with `placeAtEnd`: a node of an empty bucket goes to
the global end and becomes the bucket head; a node of a non-empty bucket goes immediately
before the first node of a different reduced hash found walking from the bucket head, or at
the global end. The bucket array of `rehash` has that many entries and is null at exactly the
indices where the reference array is null. -/
theorem rehash_is_placement {K V : Type} (t : UnorderedMap K V) (n : Nat)
    (hl : ListWF t._list) (hn : 1 ≤ n) (hm : 0 < t._max_load_factor.num) :
    (t.rehash n)._list.nodes =
      (t._list.nodes.foldl placeAtEnd
        ([], List.replicate (UnorderedMap.rehashCount t n) none)).1 ∧
    (t.rehash n).bucket_count = UnorderedMap.rehashCount t n ∧
    (t._list.nodes.foldl placeAtEnd
        ([], List.replicate (UnorderedMap.rehashCount t n) none)).2.length =
      UnorderedMap.rehashCount t n ∧
    (t.size * t._max_load_factor.den ≤ n * t._max_load_factor.num →
      UnorderedMap.rehashCount t n = n) ∧
    (∀ i, (t.rehash n)._array.getD i none = none ↔
      (t._list.nodes.foldl placeAtEnd
        ([], List.replicate (UnorderedMap.rehashCount t n) none)).2.getD i none = none) := by
  obtain ⟨h1, h2, h3, bs, g1, g2⟩ := rehash_grouped t n hl hn hm
  refine ⟨h1, h3, h2, ?_, ?_⟩
  · intro hc
    unfold UnorderedMap.rehashCount UnorderedMap.size at *
    rw [if_neg (by omega)]
  · intro i
    have e1 := grouped_entry_iff g1 i
    have e2 := grouped_entry_iff g2 i
    constructor
    · intro h
      by_contra hc
      exact (e1.mpr (e2.mp hc)) h
    · intro h
      by_contra hc
      exact (e2.mpr (e1.mp hc)) h

/-- Witness of C33: `rehash(4)` on the table holding the keys 0 and 4. -/
theorem rehash_is_placement_witness :
    (ListWF table04._list ∧ 1 ≤ 4 ∧ 0 < table04._max_load_factor.num) ∧
    (table04.rehash 4)._list.nodes =
      (table04._list.nodes.foldl placeAtEnd
        ([], List.replicate (UnorderedMap.rehashCount table04 4) none)).1 ∧
    (table04.rehash 4).bucket_count = UnorderedMap.rehashCount table04 4 :=
  have hall := rehash_is_placement table04 4 (reachable_WF table04_reachable).list (by decide)
    (by decide)
  ⟨⟨(reachable_WF table04_reachable).list, by decide, by decide⟩, hall.1, hall.2.1⟩

/-- C39: for every table with a well-formed list and a positive max load factor and every
`n >= 1`, after `rehash(n)` the nodes of each bucket index `i` are adjacent in list order (the
list is `A ++ B ++ C` with `B` the nodes of reduced hash `i` and none in `A` or `C`), and
the entry of a bucket index below `bucket_count()` is non-null exactly when some node has
that reduced hash. -/
theorem rehash_groups_by_bucket {K V : Type} (t : UnorderedMap K V) (n : Nat)
    (hl : ListWF t._list) (hn : 1 ≤ n) (hm : 0 < t._max_load_factor.num) :
    (∀ i, ∃ A B C, (t.rehash n)._list.nodes = A ++ B ++ C ∧
      (∀ x ∈ B, x.hash % (t.rehash n).bucket_count = i) ∧
      (∀ x ∈ A, x.hash % (t.rehash n).bucket_count ≠ i) ∧
      (∀ x ∈ C, x.hash % (t.rehash n).bucket_count ≠ i)) ∧
    (∀ i, i < (t.rehash n).bucket_count →
      ((t.rehash n)._array.getD i none ≠ none ↔
        ∃ x ∈ (t.rehash n)._list.nodes, x.hash % (t.rehash n).bucket_count = i)) := by
  obtain ⟨_, _, h3, bs, g1, _⟩ := rehash_grouped t n hl hn hm
  have hb : (t.rehash n).bucket_count = UnorderedMap.rehashCount t n := h3
  rw [hb]
  exact ⟨fun i => grouped_block g1 i, fun i _ => grouped_entry_iff g1 i⟩

/-- Witness of C39: `rehash(4)` on the table with the list 12, 1, 4, where the nodes of
bucket 0 were apart. -/
theorem rehash_groups_by_bucket_witness :
    (ListWF tableSplit._list ∧ 1 ≤ 4 ∧ 0 < tableSplit._max_load_factor.num) ∧
    (∃ A B C, (tableSplit.rehash 4)._list.nodes = A ++ B ++ C ∧
      (∀ x ∈ B, x.hash % (tableSplit.rehash 4).bucket_count = 0) ∧
      (∀ x ∈ A, x.hash % (tableSplit.rehash 4).bucket_count ≠ 0) ∧
      (∀ x ∈ C, x.hash % (tableSplit.rehash 4).bucket_count ≠ 0)) :=
  have hall := rehash_groups_by_bucket tableSplit 4 (reachable_WF tableSplit_reachable).list
    (by decide) (by decide)
  ⟨⟨(reachable_WF tableSplit_reachable).list, by decide, by decide⟩, hall.1 0⟩
theorem tableRoomy_reachable : Reachable idHash natEq tableRoomy :=
  Reachable.insert _ 1 4 14
    (Reachable.insert _ 0 0 10 (Reachable.rehash _ 4 Reachable.fresh (by decide)) (by decide))
    (by decide)

section BlockLemmas
variable {α : Type}

theorem dropWhile_remove_subset (p : α → Bool) (x : α) (B : List α) :
    ∀ (A : List α), ∀ n ∈ (A ++ B).dropWhile p, n ∈ (A ++ x :: B).dropWhile p
  | [], n, hn => by
    simp only [List.nil_append, List.dropWhile_cons] at hn ⊢
    split
    · exact hn
    · exact List.mem_cons_of_mem _ ((List.dropWhile_sublist p).subset hn)
  | a :: A, n, hn => by
    simp only [List.cons_append, List.dropWhile_cons] at hn ⊢
    split
    · rename_i h
      rw [if_pos h] at hn
      exact dropWhile_remove_subset p x B A n hn
    · rename_i h
      rw [if_neg h] at hn
      rcases List.mem_cons.mp hn with e | e
      · exact List.mem_cons.mpr (Or.inl e)
      · refine List.mem_cons_of_mem _ ?_
        rcases List.mem_append.mp e with e2 | e2
        · exact List.mem_append_left _ e2
        · exact List.mem_append_right _ (List.mem_cons_of_mem _ e2)

theorem block_remove_subset (p : α → Bool) (x : α) (B : List α) :
    ∀ (A : List α), ∀ n ∈ ((A ++ B).dropWhile (fun m => !p m)).dropWhile p,
      n ∈ ((A ++ x :: B).dropWhile (fun m => !p m)).dropWhile p
  | [], n, hn => by
    simp only [List.nil_append] at hn ⊢
    rw [List.dropWhile_cons]
    by_cases hx : p x = true
    · simp only [hx, Bool.not_true, Bool.false_eq_true, if_false, List.dropWhile_cons, if_true]
      -- after the block of `x`: what is left of `B` past its own block
      have hsub : ∀ (C : List α), ∀ m ∈ (C.dropWhile (fun m => !p m)).dropWhile p,
          m ∈ C.dropWhile p := by
        intro C
        cases C with
        | nil => intro m hm; exact hm
        | cons c C2 =>
          intro m hm
          by_cases hc : p c = true
          · simpa only [List.dropWhile_cons, hc, Bool.not_true, Bool.false_eq_true, if_false,
              if_true] using hm
          · have hc2 : p c = false := by simpa using hc
            simp only [List.dropWhile_cons, hc2, Bool.not_false, if_true, Bool.false_eq_true,
              if_false] at hm ⊢
            exact List.mem_cons_of_mem _
              ((List.dropWhile_sublist _).subset ((List.dropWhile_sublist _).subset hm))
      exact hsub B n hn
    · have hx2 : p x = false := by simpa using hx
      simp only [hx2, Bool.not_false, if_true]
      exact hn
  | a :: A, n, hn => by
    simp only [List.cons_append] at hn ⊢
    rw [List.dropWhile_cons] at hn ⊢
    by_cases ha : p a = true
    · simp only [ha, Bool.not_true, Bool.false_eq_true, if_false] at hn ⊢
      exact dropWhile_remove_subset p x B (a :: A) n hn
    · have ha2 : p a = false := by simpa using ha
      simp only [ha2, Bool.not_false, if_true] at hn ⊢
      exact block_remove_subset p x B A n hn

theorem dropWhile_insert_subset (p : α → Bool) (y z : α) (B : List α) (hy : p y = false) :
    ∀ (A : List α), ∀ n ∈ (A ++ y :: z :: B).dropWhile p,
      n ∈ (A ++ y :: B).dropWhile p ∨ n = z
  | [], n, hn => by
    simp only [List.nil_append, List.dropWhile_cons, hy, Bool.false_eq_true, if_false] at hn ⊢
    rcases List.mem_cons.mp hn with e | e
    · exact Or.inl (List.mem_cons.mpr (Or.inl e))
    · rcases List.mem_cons.mp e with e2 | e2
      · exact Or.inr e2
      · exact Or.inl (List.mem_cons_of_mem _ e2)
  | a :: A, n, hn => by
    simp only [List.cons_append] at hn ⊢
    rw [List.dropWhile_cons] at hn ⊢
    by_cases ha : p a = true
    · simp only [ha, if_true] at hn ⊢
      exact dropWhile_insert_subset p y z B hy A n hn
    · simp only [ha, if_false] at hn ⊢
      rcases List.mem_cons.mp hn with e | e
      · exact Or.inl (List.mem_cons.mpr (Or.inl e))
      · rcases List.mem_append.mp e with e2 | e2
        · exact Or.inl (List.mem_cons_of_mem _ (List.mem_append_left _ e2))
        · rcases List.mem_cons.mp e2 with e3 | e3
          · exact Or.inl (List.mem_cons_of_mem _ (List.mem_append_right _ (by simp [e3])))
          · rcases List.mem_cons.mp e3 with e4 | e4
            · exact Or.inr e4
            · exact Or.inl (List.mem_cons_of_mem _
                (List.mem_append_right _ (List.mem_cons_of_mem _ e4)))

theorem block_insert_subset (p : α → Bool) (y z : α) (B : List α) (hy : p y = false)
    (hz : p z = false) :
    ∀ (A : List α), ∀ n ∈ ((A ++ y :: z :: B).dropWhile (fun m => !p m)).dropWhile p,
      n ∈ ((A ++ y :: B).dropWhile (fun m => !p m)).dropWhile p ∨ n = z
  | [], n, hn => by
    simp only [List.nil_append, List.dropWhile_cons, hy, hz, Bool.not_false, if_true] at hn ⊢
    exact Or.inl hn
  | a :: A, n, hn => by
    simp only [List.cons_append] at hn ⊢
    rw [List.dropWhile_cons] at hn ⊢
    by_cases ha : p a = true
    · simp only [ha, Bool.not_true, Bool.false_eq_true, if_false] at hn ⊢
      exact dropWhile_insert_subset p y z B hy (a :: A) n hn
    · have ha2 : p a = false := by simpa using ha
      simp only [ha2, Bool.not_false, if_true] at hn ⊢
      exact block_insert_subset p y z B hy hz A n hn

theorem find?_insert_not (p : α → Bool) (z : α) (A B : List α) (hz : p z = false) :
    (A ++ z :: B).find? p = (A ++ B).find? p := by
  simp [List.find?_append, List.find?_cons, hz]

theorem find?_append_of_mem (p : α → Bool) (A B : List α) (h : ∃ x ∈ A, p x = true) :
    (A ++ B).find? p = A.find? p := by
  rw [List.find?_append]
  obtain ⟨x, hx, hp⟩ := h
  cases hf : A.find? p with
  | none =>
    rw [List.find?_eq_none] at hf
    exact absurd hp (hf x hx)
  | some f => rfl

theorem find?_mem_prefix (p : α → Bool) (A B : List α) (h : ∃ x ∈ A, p x = true) :
    ∃ f ∈ A, (A ++ B).find? p = some f := by
  rw [find?_append_of_mem p A B h]
  obtain ⟨x, hx, hp⟩ := h
  cases hf : A.find? p with
  | none =>
    rw [List.find?_eq_none] at hf
    exact absurd hp (hf x hx)
  | some f => exact ⟨f, List.mem_of_find?_eq_some hf, rfl⟩

theorem pairwise_insert {R : α → α → Prop} {A B : List α} {g : α}
    (h : (A ++ B).Pairwise R) (h1 : ∀ a ∈ A, R a g) (h2 : ∀ b ∈ B, R g b) :
    (A ++ g :: B).Pairwise R := by
  rw [List.pairwise_append] at h ⊢
  refine ⟨h.1, List.pairwise_cons.mpr ⟨h2, h.2.1⟩, ?_⟩
  intro a ha b hb
  rcases List.mem_cons.mp hb with e | e
  · rw [e]; exact h1 a ha
  · exact h.2.2 a ha b e

end BlockLemmas
section BucketInvLemmas
variable {K V : Type}
open UnorderedMap

theorem no_bucket_node_of_none {L : List (Node K V)} {len i : Nat}
    (h : (L.find? (fun n => n.hash % len == i)).map Node.addr = none) :
    ∀ n ∈ L, n.hash % len ≠ i := by
  intro n hn hc
  have hf : L.find? (fun n => n.hash % len == i) = none := by
    cases hf : L.find? (fun n => n.hash % len == i) with
    | none => rfl
    | some f => rw [hf] at h; cases h
  rw [List.find?_eq_none] at hf
  exact hf n hn (by simpa using hc)

/-- Insert into an empty bucket: the new node at the front of the list, entry set. -/
theorem bucketInv_insert_front (nodes : List (Node K V)) (arr : List (Option Nat))
    (s1 s2 s3 s4 : Nat) (mlf : LoadFactor) (g : Node K V)
    (hb : BucketInv ⟨⟨nodes, s1⟩, arr, s2, mlf⟩)
    (hidx : g.hash % arr.length < arr.length)
    (he : arr.getD (g.hash % arr.length) none = none) :
    BucketInv ⟨⟨g :: nodes, s3⟩, arr.set (g.hash % arr.length) (some g.addr), s4, mlf⟩ := by
  intro i hi
  simp only [List.length_set] at hi ⊢
  obtain ⟨hH, hC⟩ := hb i hi
  simp only [] at hH hC
  by_cases hii : i = g.hash % arr.length
  · subst hii
    rw [he] at hH
    have hno := no_bucket_node_of_none hH.symm
    refine ⟨?_, ?_⟩
    · rw [getD_set_self _ hidx]
      simp [List.find?_cons]
    · intro n hn
      have hn2 : n ∈ nodes := by
        simp only [List.dropWhile_cons, bne_self_eq_false, Bool.false_eq_true, if_false,
          beq_self_eq_true, if_true] at hn
        exact (List.dropWhile_sublist _).subset hn
      exact hno n hn2
  · have hg : (g.hash % arr.length == i) = false := by
      simpa using fun h => hii h.symm
    refine ⟨?_, ?_⟩
    · rw [getD_set_ne _ hii, hH]
      simp [List.find?_cons, hg]
    · intro n hn
      have hg2 : (g.hash % arr.length != i) = true := by simp [bne, hg]
      simp only [List.dropWhile_cons, hg2, if_true] at hn
      exact hC n hn

/-- Insert into a non-empty bucket: the new node right after the run that starts at the
bucket head. -/
theorem bucketInv_insert_mid (pre run rest : List (Node K V)) (x g : Node K V)
    (arr : List (Option Nat)) (s1 s2 s3 s4 : Nat) (mlf : LoadFactor)
    (hb : BucketInv ⟨⟨pre ++ x :: run ++ rest, s1⟩, arr, s2, mlf⟩)
    (he : arr.getD (g.hash % arr.length) none = some x.addr)
    (hpre : ∀ m ∈ pre, m.addr ≠ x.addr)
    (hrun : ∀ m ∈ x :: run, m.hash % arr.length = g.hash % arr.length) :
    BucketInv ⟨⟨pre ++ x :: run ++ g :: rest, s3⟩, arr, s4, mlf⟩ := by
  intro i hi
  obtain ⟨hH, hC⟩ := hb i hi
  simp only [] at hH hC hi ⊢
  have hL : pre ++ x :: run ++ rest = (pre ++ x :: run) ++ rest := by simp
  have hL2 : pre ++ x :: run ++ g :: rest = (pre ++ x :: run) ++ g :: rest := by simp
  by_cases hii : i = g.hash % arr.length
  · subst hii
    have hxp : (x.hash % arr.length == g.hash % arr.length) = true := by
      simpa using hrun x (by simp)
    have hex : ∃ m ∈ pre ++ x :: run,
        (fun n : Node K V => n.hash % arr.length == g.hash % arr.length) m = true :=
      ⟨x, by simp, hxp⟩
    -- no node of the bucket before the head
    have hpreno : ∀ m ∈ pre, m.hash % arr.length ≠ g.hash % arr.length := by
      intro m hm hc
      have hex2 : ∃ m ∈ pre,
          (fun n : Node K V => n.hash % arr.length == g.hash % arr.length) m = true :=
        ⟨m, hm, by simpa using hc⟩
      obtain ⟨f, hf, hfe⟩ := find?_mem_prefix _ pre (x :: run ++ rest) hex2
      have : pre ++ x :: run ++ rest = pre ++ (x :: run ++ rest) := by simp
      rw [this, hfe, he] at hH
      simp only [Option.map_some', Option.some.injEq] at hH
      exact hpre f hf hH.symm
    have hdrop : ∀ (tail : List (Node K V)),
        ((pre ++ x :: run ++ tail).dropWhile
          (fun n => n.hash % arr.length != g.hash % arr.length)).dropWhile
          (fun n => n.hash % arr.length == g.hash % arr.length) =
        tail.dropWhile (fun n => n.hash % arr.length == g.hash % arr.length) := by
      intro tail
      have h1 : pre ++ x :: run ++ tail = pre ++ ((x :: run) ++ tail) := by simp
      rw [h1, List.dropWhile_append_of_pos (fun a ha => by simpa using hpreno a ha)]
      have h2 : ((x :: run) ++ tail).dropWhile
          (fun n => n.hash % arr.length != g.hash % arr.length) = (x :: run) ++ tail := by
        simp only [List.cons_append, List.dropWhile_cons]
        rw [if_neg (by simp [hrun x (by simp)])]
      rw [h2, List.dropWhile_append_of_pos (fun a ha => by simpa using hrun a ha)]
    refine ⟨?_, ?_⟩
    · rw [hH, hL, hL2, find?_append_of_mem _ _ _ hex, find?_append_of_mem _ _ _ hex]
    · intro n hn
      rw [hdrop (g :: rest)] at hn
      simp only [List.dropWhile_cons, beq_self_eq_true, if_true] at hn
      have := hC n (by rw [hdrop rest]; exact hn)
      exact this
  · have hg : (g.hash % arr.length == i) = false := by
      simpa using fun h => hii h.symm
    refine ⟨?_, ?_⟩
    · rw [hH, hL, hL2, find?_insert_not _ g _ _ hg]
    · intro n hn
      -- the new node sits right after the last node of the run, which is not in bucket `i`
      have hne : x :: run ≠ [] := by simp
      have hlast : (x :: run).getLast hne ∈ x :: run := List.getLast_mem _
      have hsplit : pre ++ x :: run = (pre ++ (x :: run).dropLast) ++ [(x :: run).getLast hne] := by
        rw [List.append_assoc, List.dropLast_append_getLast]
      have hy : (fun n : Node K V => n.hash % arr.length == i) ((x :: run).getLast hne) =
          false := by
        have := hrun _ hlast
        simp only [this]
        simpa using fun h => hii h.symm
      have e1 : pre ++ x :: run ++ g :: rest =
          (pre ++ (x :: run).dropLast) ++ (x :: run).getLast hne :: g :: rest := by
        rw [hL2, hsplit]; simp
      have e2 : pre ++ x :: run ++ rest =
          (pre ++ (x :: run).dropLast) ++ (x :: run).getLast hne :: rest := by
        rw [hL, hsplit]; simp
      rw [e1] at hn
      have hn2 := block_insert_subset (fun n : Node K V => n.hash % arr.length == i)
        ((x :: run).getLast hne) g rest hy hg (pre ++ (x :: run).dropLast) n hn
      rcases hn2 with h1 | h1
      · rw [← e2] at h1
        exact hC n h1
      · rw [h1]
        exact fun h => hii h.symm

end BucketInvLemmas
section BucketInvErase
variable {K V : Type}
open UnorderedMap

/-- No node of bucket `i` lies before the node that entry `i` references. -/
theorem head_prefix_clean (pre tail : List (Node K V)) (len i a : Nat) (e : Option Nat)
    (hH : e = ((pre ++ tail).find? (fun n => n.hash % len == i)).map Node.addr)
    (he : e = some a) (hpre : ∀ m ∈ pre, m.addr ≠ a) :
    ∀ m ∈ pre, m.hash % len ≠ i := by
  intro m hm hc
  have hex : ∃ m ∈ pre, (fun n : Node K V => n.hash % len == i) m = true :=
    ⟨m, hm, by simpa using hc⟩
  obtain ⟨f, hf, hfe⟩ := find?_mem_prefix _ pre tail hex
  rw [hfe, he] at hH
  simp only [Option.map_some', Option.some.injEq] at hH
  exact hpre f hf hH.symm

/-- Erase of the node that the bucket entry references. -/
theorem bucketInv_remove_head (pre post : List (Node K V)) (x : Node K V)
    (arr : List (Option Nat)) (s1 s2 s3 s4 : Nat) (mlf : LoadFactor) (v : Option Nat)
    (hb : BucketInv ⟨⟨pre ++ x :: post, s1⟩, arr, s2, mlf⟩)
    (hidx : x.hash % arr.length < arr.length)
    (hpreno : ∀ m ∈ pre, m.hash % arr.length ≠ x.hash % arr.length)
    (hv : v = (post.find? (fun n => n.hash % arr.length == x.hash % arr.length)).map
      Node.addr) :
    BucketInv ⟨⟨pre ++ post, s3⟩, arr.set (x.hash % arr.length) v, s4, mlf⟩ := by
  intro i hi
  simp only [List.length_set] at hi ⊢
  obtain ⟨hH, hC⟩ := hb i hi
  simp only [] at hH hC
  refine ⟨?_, fun n hn => hC n
    (block_remove_subset (fun n : Node K V => n.hash % arr.length == i) x post pre n hn)⟩
  by_cases hii : i = x.hash % arr.length
  · subst hii
    rw [getD_set_self _ hidx, hv]
    have hnone : pre.find? (fun n => n.hash % arr.length == x.hash % arr.length) = none :=
      List.find?_eq_none.mpr (fun m hm => by simpa using hpreno m hm)
    rw [List.find?_append, hnone]
    simp
  · have hx : (fun n : Node K V => n.hash % arr.length == i) x = false := by
      simpa using fun h => hii h.symm
    rw [getD_set_ne _ hii, hH, find?_insert_not _ x pre post hx]

/-- Erase of a node that the bucket entry does not reference. -/
theorem bucketInv_remove_inner (pre post : List (Node K V)) (x : Node K V)
    (arr : List (Option Nat)) (s1 s2 s3 s4 : Nat) (mlf : LoadFactor)
    (hb : BucketInv ⟨⟨pre ++ x :: post, s1⟩, arr, s2, mlf⟩)
    (hne : arr.getD (x.hash % arr.length) none ≠ some x.addr) :
    BucketInv ⟨⟨pre ++ post, s3⟩, arr, s4, mlf⟩ := by
  intro i hi
  obtain ⟨hH, hC⟩ := hb i hi
  simp only [] at hH hC hi ⊢
  refine ⟨?_, fun n hn => hC n
    (block_remove_subset (fun n : Node K V => n.hash % arr.length == i) x post pre n hn)⟩
  by_cases hii : i = x.hash % arr.length
  · subst hii
    by_cases hex : ∃ m ∈ pre,
        (fun n : Node K V => n.hash % arr.length == x.hash % arr.length) m = true
    · rw [hH, find?_append_of_mem _ _ _ hex, find?_append_of_mem _ _ _ hex]
    · exfalso
      apply hne
      have hnone : pre.find? (fun n => n.hash % arr.length == x.hash % arr.length) = none := by
        apply List.find?_eq_none.mpr
        intro m hm hc
        exact hex ⟨m, hm, hc⟩
      rw [hH, List.find?_append, hnone]
      simp [List.find?_cons]
  · have hx : (fun n : Node K V => n.hash % arr.length == i) x = false := by
      simpa using fun h => hii h.symm
    rw [hH, find?_insert_not _ x pre post hx]

/-- The bucket-head and contiguity invariant survives `erase` of a live node. -/
theorem erase_bucketInv (t : UnorderedMap K V) (pre post : List (Node K V)) (x : Node K V)
    (hn : t._list.nodes = pre ++ x :: post) (hpre : ∀ n ∈ pre, n.addr ≠ x.addr)
    (hpos : 1 ≤ t._array.length) (hb : BucketInv t) : BucketInv (erase t x.addr).1 := by
  obtain ⟨arr2, e, _⟩ := erase_eq t pre post x hn hpre
  have ha := erase_array t pre post x hn hpre
  rw [e] at ha ⊢
  obtain ⟨⟨nodes, lsz⟩, arr, sz, mlf⟩ := t
  simp only [] at hn hpos ha ⊢
  subst hn
  have hidx : x.hash % arr.length < arr.length := Nat.mod_lt _ hpos
  obtain ⟨hH, hC⟩ := hb _ hidx
  simp only [] at hH hC
  by_cases he : arr.getD (x.hash % arr.length) none = some x.addr
  · rw [if_pos he] at ha
    have hpreno := head_prefix_clean pre (x :: post) arr.length _ x.addr _ hH he hpre
    -- the nodes after `x` that follow its run are outside the bucket
    have hdrop : ((pre ++ x :: post).dropWhile
          (fun n => n.hash % arr.length != x.hash % arr.length)).dropWhile
          (fun n => n.hash % arr.length == x.hash % arr.length) =
        post.dropWhile (fun n => n.hash % arr.length == x.hash % arr.length) := by
      rw [List.dropWhile_append_of_pos (fun a ha => by simpa using hpreno a ha)]
      simp [List.dropWhile_cons]
    rw [hdrop] at hC
    cases post with
    | nil =>
      simp only [List.head?_nil] at ha
      rw [ha]
      exact bucketInv_remove_head pre [] x arr _ _ _ _ mlf none hb hidx hpreno (by simp)
    | cons y ys =>
      simp only [List.head?_cons] at ha
      by_cases hy : y.hash % arr.length = x.hash % arr.length
      · rw [if_pos hy] at ha
        rw [ha]
        exact bucketInv_remove_head pre (y :: ys) x arr _ _ _ _ mlf _ hb hidx hpreno
          (by simp [List.find?_cons, hy])
      · rw [if_neg hy] at ha
        rw [ha]
        refine bucketInv_remove_head pre (y :: ys) x arr _ _ _ _ mlf _ hb hidx hpreno ?_
        have hall : ∀ n ∈ y :: ys, n.hash % arr.length ≠ x.hash % arr.length := by
          intro n hn
          apply hC n
          rw [List.dropWhile_cons, if_neg (by simpa using hy)]
          exact hn
        have hnone : (y :: ys).find?
            (fun n => n.hash % arr.length == x.hash % arr.length) = none :=
          List.find?_eq_none.mpr (fun m hm => by simpa using hall m hm)
        rw [hnone]
        rfl
  · rw [if_neg he] at ha
    rw [ha]
    exact bucketInv_remove_inner pre post x arr _ _ _ _ mlf hb he

/-- Key uniqueness survives `erase` of a live node. -/
theorem erase_keysUnique (equal : K → K → Bool) (t : UnorderedMap K V)
    (pre post : List (Node K V)) (x : Node K V)
    (hn : t._list.nodes = pre ++ x :: post) (hpre : ∀ n ∈ pre, n.addr ≠ x.addr)
    (hu : KeysUnique equal t) : KeysUnique equal (erase t x.addr).1 := by
  obtain ⟨arr2, e, _⟩ := erase_eq t pre post x hn hpre
  rw [e]
  unfold KeysUnique at hu ⊢
  rw [hn] at hu
  simp only []
  exact hu.sublist (List.Sublist.append (List.Sublist.refl pre) (List.sublist_cons_self x post))

end BucketInvErase
section InvariantPreservation
variable {K V : Type}
open UnorderedMap

theorem emplaceWalk_of_findWalk (equal : K → K → Bool) (bc idx : Nat) (key : K)
    (L : List (Node K V)) (c : Nat) (h : findWalk equal bc idx key L = some c) :
    emplaceWalk equal bc idx key L = Walk.found c := by
  induction L with
  | nil => simp [findWalk] at h
  | cons x xs ih =>
    cases hx : equal x.key key with
    | true =>
      simp only [findWalk, hx, if_true, Option.some.injEq] at h
      simp [emplaceWalk, hx, h]
    | false =>
      by_cases hm : x.hash % bc = idx
      · simp only [findWalk, hx, hm] at h
        simp only [emplaceWalk, hx, hm]
        simpa using ih (by simpa using h)
      · simp [findWalk, hx, hm] at h

/-- An insert whose key is already in the table leaves the table as it was. -/
theorem emplaceCore_present (hash : K → Nat) (equal : K → K → Bool) (t : UnorderedMap K V)
    (a : Nat) (key : K) (value : V) (c : Nat) (h : _find hash equal t key = some c) :
    (emplaceCore hash equal t a key value).1 = t := by
  unfold _find at h
  simp only [] at h
  unfold emplaceCore
  simp only []
  cases he : t._array.getD (hash key % t._array.length) none with
  | none => rw [he] at h; cases h
  | some p =>
    rw [he] at h
    simp only [] at h ⊢
    rw [emplaceWalk_of_findWalk equal _ _ key _ c h]

/-- The bucket-head and contiguity invariant and key uniqueness survive an insert that
does not rehash. -/
theorem emplaceCore_invariants (hash : K → Nat) (equal : K → K → Bool)
    (heq : IsEquivalence equal) (hh : HashRespects hash equal) (t : UnorderedMap K V)
    (h : WF t) (hc : HashCached hash t) (hb : BucketInv t) (hu : KeysUnique equal t)
    (a : Nat) (key : K) (value : V) (hf : Fresh t a) :
    BucketInv (emplaceCore hash equal t a key value).1 ∧
      KeysUnique equal (emplaceCore hash equal t a key value).1 := by
  by_cases hex : ∃ n ∈ t._list.nodes, equal n.key key = true
  · obtain ⟨n, hn, hnk⟩ := hex
    have hfind := find_of_present hash equal heq hh t h.list.nodup hc h.bpos hb hu key n hn hnk
    rw [emplaceCore_present hash equal t a key value n.addr hfind]
    exact ⟨hb, hu⟩
  · have hk : ∀ n ∈ t._list.nodes, equal n.key key = false := by
      intro n hn
      cases hv : equal n.key key with
      | false => rfl
      | true => exact absurd ⟨n, hn, hv⟩ hex
    have hk2 : ∀ n ∈ t._list.nodes, equal key n.key = false := by
      intro n hn
      cases hv : equal key n.key with
      | false => rfl
      | true => have := heq.symm _ _ hv; rw [hk n hn] at this; cases this
    have hidx : hash key % t._array.length < t._array.length := Nat.mod_lt _ h.bpos
    rcases emplaceCore_placed hash equal t h a key value hf hk with
      ⟨he, e⟩ | ⟨pre, x, run, rest, he, hn, hpre, hrun, hrest, e⟩
    · rw [e]
      obtain ⟨⟨nodes, lsz⟩, arr, sz, mlf⟩ := t
      simp only [] at he hidx hk hk2 hu hb ⊢
      refine ⟨bucketInv_insert_front nodes arr lsz sz _ _ mlf ⟨a, key, value, hash key⟩ hb
        hidx he, ?_⟩
      unfold KeysUnique at hu ⊢
      simp only [] at hu ⊢
      exact List.pairwise_cons.mpr ⟨fun n hn => hk2 n hn, hu⟩
    · rw [e]
      obtain ⟨⟨nodes, lsz⟩, arr, sz, mlf⟩ := t
      simp only [] at he hidx hk hk2 hu hb hn hrun hrest ⊢
      subst hn
      refine ⟨bucketInv_insert_mid pre run rest x ⟨a, key, value, hash key⟩ arr lsz sz _ _ mlf
        hb he hpre hrun, ?_⟩
      unfold KeysUnique at hu ⊢
      simp only [] at hu ⊢
      have e1 : pre ++ x :: run ++ ⟨a, key, value, hash key⟩ :: rest =
          (pre ++ x :: run) ++ ⟨a, key, value, hash key⟩ :: rest := by simp
      have e2 : pre ++ x :: run ++ rest = (pre ++ x :: run) ++ rest := by simp
      rw [e1]
      rw [e2] at hu hk hk2
      apply pairwise_insert hu
      · intro n hn
        exact hk n (List.mem_append_left _ hn)
      · intro n hn
        exact hk2 n (List.mem_append_right _ hn)

end InvariantPreservation

/-- C34: on a well-formed table whose nodes cache the hash of their own key and that
satisfies the bucket-head and contiguity invariant and key uniqueness (the key equality an
equivalence that the hash respects), (a) an insert/emplace with
`size + 1 <= max_load_factor * bucket_count`, whether it links the node or rejects it, and
(b) `erase(pos)` of a live node each give a table that satisfies the bucket-head and
contiguity invariant and key uniqueness again. -/
theorem nonrehash_preserves_invariants (hash : K → Nat) (equal : K → K → Bool)
    (heq : IsEquivalence equal) (hh : HashRespects hash equal) (t : UnorderedMap K V)
    (h : WF t) (hc : HashCached hash t) (hb : BucketInv t) (hu : KeysUnique equal t) :
    (∀ a key value, Fresh t a →
      (t.size + 1) * t._max_load_factor.den ≤ t._max_load_factor.num * t.bucket_count →
      BucketInv (UnorderedMap.emplace hash equal t a key value).1 ∧
        KeysUnique equal (UnorderedMap.emplace hash equal t a key value).1) ∧
    (∀ pos, Live t pos →
      BucketInv (UnorderedMap.erase t pos).1 ∧
        KeysUnique equal (UnorderedMap.erase t pos).1) := by
  refine ⟨?_, ?_⟩
  · intro a key value hf hload
    have hnr : UnorderedMap.needsRehash t = false := by
      unfold UnorderedMap.needsRehash
      simp only [UnorderedMap.size, UnorderedMap.bucket_count] at hload
      simpa using hload
    unfold UnorderedMap.emplace
    rw [hnr]
    exact emplaceCore_invariants hash equal heq hh t h hc hb hu a key value hf
  · intro pos hl
    obtain ⟨x, hx, rfl⟩ := hl
    obtain ⟨pre, post, hn, hpre, _⟩ := split_of_mem h.list.nodup hx
    exact ⟨erase_bucketInv t pre post x hn hpre h.bpos hb,
      erase_keysUnique equal t pre post x hn hpre hu⟩

theorem nonrehash_preserves_invariants_witness :
    (WF tableRoomy ∧ HashCached idHash tableRoomy ∧ BucketInv tableRoomy ∧
      KeysUnique natEq tableRoomy) ∧
    (Fresh tableRoomy 2 ∧
      (tableRoomy.size + 1) * tableRoomy._max_load_factor.den ≤
        tableRoomy._max_load_factor.num * tableRoomy.bucket_count) ∧
    (BucketInv (UnorderedMap.emplace idHash natEq tableRoomy 2 8 18).1 ∧
      KeysUnique natEq (UnorderedMap.emplace idHash natEq tableRoomy 2 8 18).1) ∧
    (BucketInv (UnorderedMap.emplace idHash natEq tableRoomy 2 4 99).1 ∧
      KeysUnique natEq (UnorderedMap.emplace idHash natEq tableRoomy 2 4 99).1) ∧
    Live tableRoomy 0 ∧
    (BucketInv (UnorderedMap.erase tableRoomy 0).1 ∧
      KeysUnique natEq (UnorderedMap.erase tableRoomy 0).1) :=
  have hwf : WF tableRoomy := reachable_WF tableRoomy_reachable
  have hcached : HashCached idHash tableRoomy := by unfold HashCached; decide
  have hall := nonrehash_preserves_invariants idHash natEq natEq_equivalence idHash_respects
    tableRoomy hwf hcached (by decide) (by decide)
  ⟨⟨hwf, hcached, by decide, by decide⟩, ⟨by decide, by decide⟩,
    hall.1 2 8 18 (by decide) (by decide), hall.1 2 4 99 (by decide) (by decide),
    by decide, hall.2 0 (by decide)⟩
end UMap
